import Mathlib

/-!
# Simple LICM and derived induction variable elimination

A shallow embedding of `SimpleLICM.cpp` and `DerivedInductionVar.cpp`.

The instruction graph of one function is a list of basic blocks, each an
ordered list of instructions.  An instruction is identified by its `id`
(the embedding of the C++ object address); operands refer to instructions
by id, so a use edge is a pair (user id, operand slot).

The scalar-evolution analysis and the expression expander belong to the
host compiler.  They are taken as parameters.
-/

namespace IR

/-- An operand: a compile-time constant, an instruction result, or any other
value that is neither (a function argument, a block label, ...). -/
inductive Value where
  | const (c : Int)
  | inst (id : Nat)
  | other (n : Nat)
  deriving DecidableEq, Repr

/-- The part of a type the passes look at: integer types (with their width)
against everything else. -/
inductive Ty where
  | integer (bits : Nat)
  | nonInteger (tag : Nat)
  deriving DecidableEq, Repr

/-- Embeds `Type::isIntegerTy()`. -/
def Ty.isIntegerTy : Ty → Bool
  | .integer _ => true
  | .nonInteger _ => false

/-- An instruction with the three boolean facets the passes query
(`isTerminator()`, `isa<PHINode>`, `mayReadOrWriteMemory()`), its type and
its ordered operand list. -/
structure Instruction where
  id : Nat
  ty : Ty
  operands : List Value
  isTerminator : Bool
  isPHI : Bool
  mayReadOrWriteMemory : Bool
  deriving DecidableEq, Repr

/-- A basic block: an identity and its instruction list in program order. -/
structure BasicBlock where
  id : Nat
  insts : List Instruction
  deriving DecidableEq, Repr

/-- A function body: its basic blocks in layout order. -/
abbrev Func := List BasicBlock

/-- A natural loop as the host's loop analysis hands it over.  `subLoops` are
the loops immediately nested in this one. -/
inductive Loop where
  | mk (id : Nat) (header : Option Nat) (preheader : Option Nat)
      (blocks : List Nat) (subLoops : List Loop)

/-- Identity of the loop object (`&L`). -/
def Loop.id : Loop → Nat
  | .mk i _ _ _ _ => i

/-- Embeds `Loop::getHeader()`. -/
def Loop.header : Loop → Option Nat
  | .mk _ h _ _ _ => h

/-- Embeds `Loop::getLoopPreheader()`. -/
def Loop.preheader : Loop → Option Nat
  | .mk _ _ p _ _ => p

/-- Embeds `Loop::blocks()`: the member blocks in the loop's block order. -/
def Loop.blocks : Loop → List Nat
  | .mk _ _ _ b _ => b

/-- Embeds `Loop::getSubLoops()`. -/
def Loop.subLoops : Loop → List Loop
  | .mk _ _ _ _ s => s

/-- All instructions of the function, block after block. -/
def allInsts (f : Func) : List Instruction :=
  f.flatMap (fun b => b.insts)

/-- The block with the given identity. -/
def findBlock (f : Func) (bid : Nat) : Option BasicBlock :=
  f.find? (fun b => b.id == bid)

/-- The instruction with the given identity. -/
def findInst (f : Func) (iid : Nat) : Option Instruction :=
  (allInsts f).find? (fun i => i.id == iid)

/-- Embeds `BasicBlock::phis()`: the merge points that open the block, in
declaration order. -/
def phis (b : BasicBlock) : List Instruction :=
  b.insts.takeWhile (fun i => i.isPHI)

/-- Merge points of the loop header, empty when the loop has no header. -/
def headerPhis (f : Func) (L : Loop) : List Instruction :=
  match L.header with
  | none => []
  | some h =>
    match findBlock f h with
    | none => []
    | some b => phis b

/-- The block whose instruction list holds the instruction
(`Instruction::getParent()`). -/
def parentOf (f : Func) (iid : Nat) : Option BasicBlock :=
  f.find? (fun b => b.insts.any (fun i => i.id == iid))

/-- Embeds `Loop::contains(const Instruction *)`: the instruction's parent
block is a member block of the loop. -/
def Loop.contains (f : Func) (L : Loop) (iid : Nat) : Bool :=
  match parentOf f iid with
  | none => false
  | some b => L.blocks.contains b.id

/-- The instruction that follows `iid` in the list that currently holds it. -/
def nextInst (f : Func) (iid : Nat) : Option Instruction :=
  match parentOf f iid with
  | none => none
  | some b => ((b.insts.dropWhile (fun i => i.id != iid)).drop 1).head?

/-- Use edges of the value produced by instruction `d`: every (user, slot)
whose operand is `d`, in program order. -/
def usesOf (f : Func) (d : Nat) : List (Nat × Nat) :=
  (allInsts f).flatMap (fun i =>
    (i.operands.enum.filter (fun p => p.2 == Value.inst d)).map (fun p => (i.id, p.1)))

/-- Embeds `Value::use_empty()`. -/
def useEmpty (f : Func) (d : Nat) : Bool :=
  (usesOf f d).isEmpty

/-- The operand in slot `slot` of instruction `user`. -/
def operandAt (f : Func) (user slot : Nat) : Option Value :=
  match findInst f user with
  | none => none
  | some i => i.operands[slot]?

/-- Embeds `Use::set`: slot `slot` of instruction `user` now refers to `v`. -/
def setOperand (f : Func) (user slot : Nat) (v : Value) : Func :=
  f.map (fun b => { b with insts := b.insts.map (fun i =>
    if i.id == user then { i with operands := i.operands.set slot v } else i) })

/-- Places the instructions `news`, in order, immediately before instruction
`pt` in the block that holds `pt`. -/
def insertBefore (f : Func) (pt : Nat) (news : List Instruction) : Func :=
  f.map (fun b => { b with insts := b.insts.flatMap (fun i =>
    if i.id == pt then news ++ [i] else [i]) })

/-- Unlinks instruction `iid` from its block. -/
def removeInst (f : Func) (iid : Nat) : Func :=
  f.map (fun b => { b with insts := b.insts.filter (fun i => i.id != iid) })

/-- Embeds `Instruction::moveBefore`: `iid` is unlinked from its block and
relinked immediately before `pt`; it keeps its identity and operands. -/
def moveBefore (f : Func) (iid pt : Nat) : Func :=
  match findInst f iid with
  | none => f
  | some I => insertBefore (removeInst f iid) pt [I]

/-- Embeds `BasicBlock::getTerminator()`: the last instruction when it is a
terminator, `none` (for `nullptr`) otherwise. -/
def getTerminator (b : BasicBlock) : Option Instruction :=
  match b.insts.getLast? with
  | none => none
  | some t => if t.isTerminator then some t else none

/-- Identities of all instructions of the function, in program order. -/
def instIds (f : Func) : List Nat :=
  (allInsts f).map (fun i => i.id)

end IR

namespace SCEVModel

/-- A fixed-width two's complement integer (`APInt`): `val` is read modulo
`2 ^ bitWidth`.  Integer types have at least one bit. -/
structure APInt where
  bitWidth : Nat
  val : Nat
  pos : 0 < bitWidth
  deriving DecidableEq

/-- The unsigned value, reduced to the width. -/
def APInt.zext (a : APInt) : Nat := a.val % 2 ^ a.bitWidth

/-- Embeds `APInt::isNegative()`: the top bit is set. -/
def APInt.isNegative (a : APInt) : Bool :=
  decide (2 ^ (a.bitWidth - 1) ≤ a.zext)

/-- Embeds `APInt::abs()`: the two's complement negation when the sign bit is
set (which wraps at the minimum value), the value itself otherwise. -/
def APInt.abs (a : APInt) : APInt :=
  if a.isNegative then
    { bitWidth := a.bitWidth, val := (2 ^ a.bitWidth - a.zext) % 2 ^ a.bitWidth, pos := a.pos }
  else
    { bitWidth := a.bitWidth, val := a.zext, pos := a.pos }

/-- Embeds `Abs.eq(APInt(Abs.getBitWidth(), 1))`. -/
def APInt.eqOne (a : APInt) : Bool :=
  a.zext == 1 % 2 ^ a.bitWidth

/-- The signed reading of the bit pattern. -/
def APInt.toInt (a : APInt) : Int :=
  if a.isNegative then (a.zext : Int) - 2 ^ a.bitWidth else (a.zext : Int)

/-- What the passes observe of a scalar-evolution expression: a constant
(`SCEVConstant`), an add-recurrence (`SCEVAddRecExpr`) with its loop
(`getLoop()`), start, step (`getStepRecurrence`) and `isAffine()`, or any
other expression. -/
inductive SCEV where
  | constant (c : APInt)
  | addRec (loop : Nat) (start : SCEV) (step : SCEV) (affine : Bool)
  | unknown (tag : Nat)
  deriving DecidableEq

end SCEVModel

namespace DerivedInductionVar

open IR SCEVModel

/-- The scalar-evolution query `SE.getSCEV(&PN)`, keyed by the merge point.
The analysis result is obtained before the pass runs and the pass never
invalidates it, so the answer for a merge point is the same throughout a
run. -/
abbrev ScalarEvolution := Nat → SCEV

/-- The body of the `for (PHINode &PN : H->phis())` loop of `findPrimaryIV`,
over the merge points still to be visited. -/
def findPrimaryIVIn (SE : ScalarEvolution) (L : Loop) : List Instruction → Option Nat
  | [] => none
  | PN :: rest =>
    if !PN.ty.isIntegerTy then findPrimaryIVIn SE L rest
    else
      match SE PN.id with
      | .addRec loop _ step affine =>
        if loop != L.id || !affine then findPrimaryIVIn SE L rest
        else
          match step with
          | .constant c =>
            if c.abs.eqOne then some PN.id else findPrimaryIVIn SE L rest
          | _ => findPrimaryIVIn SE L rest
      | _ => findPrimaryIVIn SE L rest

/-- Embeds `findPrimaryIV`: the identity of the merge point returned, `none`
for `nullptr`. -/
def findPrimaryIV (SE : ScalarEvolution) (f : Func) (L : Loop) : Option Nat :=
  match L.header with
  | none => none
  | some _ => findPrimaryIVIn SE L (headerPhis f L)

/-- Embeds `isDerivedIV`. -/
def isDerivedIV (SE : ScalarEvolution) (L : Loop) (PN : Instruction) : Bool :=
  if !PN.ty.isIntegerTy then false
  else
    match SE PN.id with
    | .addRec loop _ _ affine => loop == L.id && affine
    | _ => false

/-- The classification the specification words: an integer-typed merge point
whose recurrence is an affine recurrence over `L` with a constant step of
absolute value one. -/
def UnitStrideOver (SE : ScalarEvolution) (L : Loop) (PN : Instruction) : Prop :=
  PN.ty.isIntegerTy = true ∧
    ∃ start c, SE PN.id = .addRec L.id start (.constant c) true ∧ c.toInt.natAbs = 1

/-- The test `findPrimaryIV` applies to one merge point, as a boolean. -/
def unitStrideTest (SE : ScalarEvolution) (L : Loop) (PN : Instruction) : Bool :=
  PN.ty.isIntegerTy &&
    match SE PN.id with
    | .addRec loop _ (.constant c) affine => loop == L.id && affine && c.abs.eqOne
    | _ => false

end DerivedInductionVar

namespace DerivedInductionVar

open IR SCEVModel

/-- Modelled from the spec: the Expression Synthesizer (the host's
`SCEVExpander`, not part of this repository).  Given the current graph, a
recurrence descriptor, a target type and the use site, it materialises an
instruction sequence immediately before that use site and yields the
resulting value, or no value when it refuses. -/
structure Expansion where
  insts : List Instruction
  value : Option Value

/-- The synthesis service `Exp.expandCodeFor(S, Ty, UserI)`, as a function of
the graph at the moment of the call. -/
abbrev Expander := Func → SCEV → Ty → Nat → Expansion

/-- Modelled from the spec: the synthesizer creates only non-merge
instructions, so whatever it materialises is linked in as an ordinary
instruction. -/
def asOrdinary (i : Instruction) : Instruction :=
  { i with isPHI := false }

/-- What a run did, in order: a synthesizer call for a use edge of merge
point `pn`, the redirection of a use edge, the deletion of a merge point.
The trace is bookkeeping of the embedding; the pass itself keeps none. -/
inductive Event where
  | synthesize (pn user slot : Nat)
  | redirect (pn user slot : Nat) (newV : Value)
  | erase (pn : Nat)
  deriving DecidableEq

/-- The mutable state of a run of the eliminator: the instruction graph, the
`Changed` flag and the trace. -/
structure ElimState where
  fn : Func
  changed : Bool
  trace : List Event

/-- The use list of a merge point as `PN.uses()` enumerates it.  LLVM fixes
the edges on the list, not their order, which depends on how the graph was
built; the order is therefore a parameter, and every order is allowed. -/
structure UseOrder where
  uses : Func → Nat → List (Nat × Nat)
  perm : ∀ f d, (uses f d).Perm (usesOf f d)

/-- The body of the loop `for (Use *U : Uses)` for the use edge
`(user, slot)` of `PN`.  The user of an instruction's result is always an
instruction, so the `dyn_cast<Instruction>` test never skips an edge. -/
def rewriteUse (SE : ScalarEvolution) (X : Expander) (PN : Instruction) (user slot : Nat)
    (st : ElimState) : ElimState :=
  let S := SE PN.id
  let e := X st.fn S PN.ty user
  let fn1 := insertBefore st.fn user (e.insts.map asOrdinary)
  let tr1 := st.trace ++ [Event.synthesize PN.id user slot]
  match e.value with
  | none => { fn := fn1, changed := st.changed, trace := tr1 }
  | some NewV =>
    if NewV != Value.inst PN.id then
      { fn := setOperand fn1 user slot NewV, changed := true,
        trace := tr1 ++ [Event.redirect PN.id user slot NewV] }
    else { fn := fn1, changed := st.changed, trace := tr1 }

/-- The loop `for (Use *U : Uses)` over the snapshot of use edges of `PN`. -/
def rewriteUses (SE : ScalarEvolution) (X : Expander) (PN : Instruction) :
    List (Nat × Nat) → ElimState → ElimState
  | [], st => st
  | (user, slot) :: rest, st => rewriteUses SE X PN rest (rewriteUse SE X PN user slot st)

/-- The loop `for (PHINode &PN : H->phis())` of the eliminator.  The iterator
is a pointer to the current merge point; stepping it goes to the instruction
that follows the merge point in the graph as it is then, and the loop ends
when that instruction is not a merge point.  `Dead` collects the merge points
to delete.  `fuel` bounds the number of merge points visited: the loop never
creates a merge point, so it visits at most the merge points the header had
when the loop started, and `elimLoop` passes that number
(`elimPhis_fuel_enough` shows that more fuel changes nothing). -/
def elimPhis (SE : ScalarEvolution) (X : Expander) (U : UseOrder) (L : Loop) (Primary : Nat) :
    Nat → Option Instruction → ElimState × List Nat → ElimState × List Nat
  | 0, _, acc => acc
  | _ + 1, none, acc => acc
  | fuel + 1, some PN, (st, Dead) =>
    if !PN.isPHI then (st, Dead)
    else if PN.id == Primary then
      elimPhis SE X U L Primary fuel (nextInst st.fn PN.id) (st, Dead)
    else if !isDerivedIV SE L PN then
      elimPhis SE X U L Primary fuel (nextInst st.fn PN.id) (st, Dead)
    else
      let Uses := U.uses st.fn PN.id
      let st1 := rewriteUses SE X PN Uses st
      let Dead1 := if useEmpty st1.fn PN.id then Dead ++ [PN.id] else Dead
      elimPhis SE X U L Primary fuel (nextInst st1.fn PN.id) (st1, Dead1)

/-- The loop `for (PHINode *D : Dead)`: each collected merge point is unlinked
and destroyed.  Operands of other instructions that still refer to it are left
as they are. -/
def eraseDead : List Nat → ElimState → ElimState
  | [], st => st
  | D :: rest, st =>
    eraseDead rest
      { fn := removeInst st.fn D, changed := true, trace := st.trace ++ [Event.erase D] }

/-- The body of `for (Loop *L : LI)` in `DerivedInductionVarElim::run`. -/
def elimLoop (SE : ScalarEvolution) (X : Expander) (U : UseOrder)
    (L : Loop) (st : ElimState) : ElimState :=
  if !L.subLoops.isEmpty then st
  else
    match L.header with
    | none => st
    | some h =>
      match findPrimaryIV SE st.fn L with
      | none => st
      | some Primary =>
        match findBlock st.fn h with
        | none => st
        | some H =>
          let r := elimPhis SE X U L Primary (phis H).length H.insts.head? (st, [])
          eraseDead r.2 r.1

/-- The state in which a run of the eliminator starts: `Changed = false` and
nothing done yet. -/
def startState (F : Func) : ElimState :=
  { fn := F, changed := false, trace := [] }

/-- Embeds `DerivedInductionVarElim::run`.  `LI` is what iterating the loop
analysis result yields: the top-level loops of the function, in order (nested
loops are reached only through `getSubLoops()`). -/
def DerivedInductionVarElim.run (SE : ScalarEvolution) (X : Expander) (U : UseOrder)
    (LI : List Loop) (F : Func) :
    ElimState :=
  LI.foldl (fun st L => elimLoop SE X U L st) (startState F)

/-- One line of the report of `DerivedInductionVarAnalysis::run`; merge points
are named by their identity. -/
inductive ReportLine where
  | innerLoop
  | primaryIV (name : Nat)
  | derivedIV (name : Nat)
  deriving DecidableEq

/-- The body of `for (Loop *L : LI)` in `DerivedInductionVarAnalysis::run`. -/
def reportLoop (SE : ScalarEvolution) (F : Func) (L : Loop) : List ReportLine :=
  if !L.subLoops.isEmpty then []
  else
    let Primary := findPrimaryIV SE F L
    [ReportLine.innerLoop]
      ++ (match Primary with
          | some p => [ReportLine.primaryIV p]
          | none => [])
      ++ (match L.header with
          | none => []
          | some _ =>
            ((headerPhis F L).filter (fun PN =>
              !(some PN.id == Primary) && isDerivedIV SE L PN)).map
              (fun PN => ReportLine.derivedIV PN.id))

/-- Embeds `DerivedInductionVarAnalysis::run`: the report it prints. -/
def DerivedInductionVarAnalysis.run (SE : ScalarEvolution) (LI : List Loop) (F : Func) :
    List ReportLine :=
  LI.flatMap (reportLoop SE F)

end DerivedInductionVar

namespace SimpleLICM

open IR

/-- How a run of the C++ ends: it returns a result, it executes an operation
whose behaviour C++ leaves undefined, or the step budget of the embedding is
used up. -/
inductive Outcome (α : Type) where
  | ok (a : α)
  | undefinedBehaviour
  | outOfFuel
  deriving DecidableEq

/-- A position in an instruction list: an instruction node, or the `end()`
sentinel of a block's list. -/
inductive Node where
  | inst (id : Nat)
  | sentinel (block : Nat)
  deriving DecidableEq

/-- Embeds `BasicBlock::begin()`. -/
def blockBegin (b : BasicBlock) : Node :=
  match b.insts with
  | [] => Node.sentinel b.id
  | i :: _ => Node.inst i.id

/-- Embeds `++` on an instruction-list iterator.  A block's instructions form
an intrusive doubly linked list closed by a sentinel node (`end()`); the
iterator holds a pointer to a node and `++` replaces it by that node's
successor link.  It therefore steps within whichever list holds the node at
that moment: once `moveBefore` has relinked an instruction in front of the
insertion point, the successor of that instruction is the insertion point, in
the destination block.  After the last instruction of a list comes the
sentinel of that list.  `none` when the node is in no list. -/
def successor (f : Func) (iid : Nat) : Option Node :=
  match parentOf f iid with
  | none => none
  | some b =>
    match (b.insts.dropWhile (fun i => i.id != iid)).drop 1 with
    | [] => some (Node.sentinel b.id)
    | n :: _ => some (Node.inst n.id)

/-- Embeds `isPureRegOp`. -/
def isPureRegOp (I : Instruction) : Bool :=
  if I.isTerminator then false
  else if I.isPHI then false
  else if I.mayReadOrWriteMemory then false
  else true

/-- Embeds `operandIsLoopInvariant`. -/
def operandIsLoopInvariant (f : Func) (V : Value) (L : Loop) : Bool :=
  match V with
  | .const _ => true
  | .inst i => !L.contains f i
  | .other _ => true

/-- The local variables of `SimpleLICMLoop::run` together with the graph. -/
structure LicmState where
  fn : Func
  Hoisted : List Nat
  Changed : Bool
  Progress : Bool
  deriving DecidableEq

/-- The loop `for (Instruction &I : *BB)`, which is
`for (it = BB->begin(); it != BB->end(); ++it) { Instruction &I = *it; ... }`.
The `Node` argument is the iterator `it`, and `BB` the block whose `end()`
sentinel it is compared with.  The loop ends when the iterator is the sentinel
of `BB`.  At the sentinel of another block's list the loop does not end: the
body dereferences the sentinel, which is undefined behaviour.  At an
instruction the body runs on it; `continue` and the end of the body both lead
to `++it`, taken in the graph as the body left it.  `moveBefore` on a null
insertion point is undefined behaviour too.  `fuel` bounds the number of
iterations. -/
def scanFrom (L : Loop) (InsertPt : Option Nat) (BB : Nat) :
    Nat → Node → LicmState → Outcome LicmState
  | 0, _, _ => Outcome.outOfFuel
  | _ + 1, .sentinel b, st =>
    if b = BB then Outcome.ok st else Outcome.undefinedBehaviour
  | fuel + 1, .inst iid, st =>
    match findInst st.fn iid with
    | none => Outcome.undefinedBehaviour
    | some I =>
      if !isPureRegOp I || st.Hoisted.contains iid then
        match successor st.fn iid with
        | none => Outcome.undefinedBehaviour
        | some nxt => scanFrom L InsertPt BB fuel nxt st
      else if !(I.operands.all (fun Op => operandIsLoopInvariant st.fn Op L)) then
        match successor st.fn iid with
        | none => Outcome.undefinedBehaviour
        | some nxt => scanFrom L InsertPt BB fuel nxt st
      else
        match InsertPt with
        | none => Outcome.undefinedBehaviour
        | some pt =>
          let fn1 := moveBefore st.fn iid pt
          match successor fn1 iid with
          | none => Outcome.undefinedBehaviour
          | some nxt =>
            scanFrom L InsertPt BB fuel nxt
              { fn := fn1, Hoisted := st.Hoisted ++ [iid], Changed := true, Progress := true }

/-- The loop `for (BasicBlock *BB : L.blocks())`: one full scan. -/
def scanBlocks (L : Loop) (InsertPt : Option Nat) : List Nat → LicmState → Outcome LicmState
  | [], st => Outcome.ok st
  | BB :: rest, st =>
    match findBlock st.fn BB with
    | none => scanBlocks L InsertPt rest st
    | some b =>
      match scanFrom L InsertPt BB ((allInsts st.fn).length + 2) (blockBegin b) st with
      | .ok st1 => scanBlocks L InsertPt rest st1
      | .undefinedBehaviour => Outcome.undefinedBehaviour
      | .outOfFuel => Outcome.outOfFuel

/-- The loop `while (Progress)`. -/
def fixpoint (L : Loop) (InsertPt : Option Nat) : Nat → LicmState → Outcome LicmState
  | 0, _ => Outcome.outOfFuel
  | fuel + 1, st =>
    if st.Progress then
      match scanBlocks L InsertPt L.blocks { st with Progress := false } with
      | .ok st1 => fixpoint L InsertPt fuel st1
      | .undefinedBehaviour => Outcome.undefinedBehaviour
      | .outOfFuel => Outcome.outOfFuel
    else Outcome.ok st

/-- Embeds `SimpleLICMLoop::run`: the graph after the run and whether the
pass reports a change (`PreservedAnalyses::none()`). -/
def SimpleLICMLoop.run (F : Func) (L : Loop) : Outcome (Func × Bool) :=
  match L.preheader with
  | none => Outcome.ok (F, false)
  | some ph =>
    let InsertPt := (findBlock F ph).bind (fun b => (getTerminator b).map (fun t => t.id))
    match fixpoint L InsertPt ((allInsts F).length + 2)
        { fn := F, Hoisted := [], Changed := false, Progress := true } with
    | .ok st => Outcome.ok (st.fn, st.Changed)
    | .undefinedBehaviour => Outcome.undefinedBehaviour
    | .outOfFuel => Outcome.outOfFuel

end SimpleLICM

namespace DerivedInductionVar

open IR SCEVModel

/-- Whether an event is a change of the graph: a redirected use edge or a
deleted merge point. -/
def Event.isMutation : Event → Bool
  | .synthesize _ _ _ => false
  | .redirect _ _ _ _ => true
  | .erase _ => true

/-- The invariant tying the `Changed` flag to the trace. -/
def ChangedIffMutated (st : ElimState) : Prop :=
  st.changed = true ↔ ∃ e ∈ st.trace, e.isMutation = true

end DerivedInductionVar

namespace IR

/-- Slot `s` of an instruction with identity `u` holds `v`. -/
def HasOperand (f : Func) (u s : Nat) (v : Value) : Prop :=
  ∃ q ∈ allInsts f, q.id = u ∧ q.operands[s]? = some v

end IR

namespace DerivedInductionVar

open IR SCEVModel

/-- What is asked of the synthesizer's instructions: they are new objects,
pairwise distinct and distinct from every instruction already in the graph. -/
def FreshExpander (X : Expander) : Prop :=
  ∀ f S ty u, ((X f S ty u).insts.map (fun i => i.id)).Nodup ∧
    ∀ n ∈ (X f S ty u).insts, n.id ∉ instIds f

end DerivedInductionVar

namespace DerivedInductionVar

open IR SCEVModel

/-- The slot `(u, s)` exists in the graph. -/
def SlotExists (f : Func) (u s : Nat) : Prop :=
  ∃ q ∈ allInsts f, q.id = u ∧ s < q.operands.length

end DerivedInductionVar

namespace DerivedInductionVar

open IR SCEVModel

/-- The state after the use edges of merge point `j` of graph `F` have been
handled, starting from a fresh run. -/
def afterUses (SE : ScalarEvolution) (X : Expander) (U : UseOrder)
    (F : Func) (j : Instruction) : ElimState :=
  rewriteUses SE X j (U.uses F j.id) (startState F)

end DerivedInductionVar

namespace IR

/-- The same loop with its preheader replaced. -/
def Loop.withPreheader (p : Option Nat) (L : Loop) : Loop :=
  Loop.mk L.id L.header p L.blocks L.subLoops

end IR

namespace DerivedInductionVar

open IR SCEVModel

/-- The classification `isDerivedIV` computes, in words: an integer-typed merge
point whose recurrence is an affine add-recurrence over `L` itself, whatever
its step. -/
def AffineOver (SE : ScalarEvolution) (L : Loop) (PN : Instruction) : Prop :=
  PN.ty.isIntegerTy = true ∧ ∃ start step, SE PN.id = .addRec L.id start step true

end DerivedInductionVar

namespace IR

/-- The number of merge points that open a list of instructions. -/
def leadingPhis (l : List Instruction) : Nat :=
  (l.takeWhile (fun i => i.isPHI)).length

end IR

namespace SimpleLICM

open IR SCEVModel

/-- The test the scan makes on an instruction before moving it: eligible, not
moved yet, and every operand invariant. -/
def Hoistable (L : Loop) (st : LicmState) (I : Instruction) : Prop :=
  isPureRegOp I = true ∧ I.id ∉ st.Hoisted ∧
    ∀ Op ∈ I.operands, operandIsLoopInvariant st.fn Op L = true

/-- The state the scan body leaves when it moves instruction `iid` in front of
`pt`. -/
def hoist (st : LicmState) (iid pt : Nat) : LicmState :=
  { fn := moveBefore st.fn iid pt, Hoisted := st.Hoisted ++ [iid], Changed := true,
    Progress := true }

end SimpleLICM

namespace IR

/-- Graph `g` holds every block of `f`, in the same order and with the same
identity; each block of `g` holds the instructions of its counterpart in `f`,
unchanged and in the same order, and whatever else it holds is no merge
point. -/
def Extends (f g : Func) : Prop :=
  List.Forall₂ (fun b c => c.id = b.id ∧ b.insts.Sublist c.insts ∧
    ∀ q ∈ c.insts, q.isPHI = true → q ∈ b.insts) f g

end IR

namespace IR

/-- Identity and type of the merge points that open a list of instructions. -/
def phiKeys (l : List Instruction) : List (Nat × Ty) :=
  (l.takeWhile (fun i => i.isPHI)).map (fun q => (q.id, q.ty))

end IR

namespace DerivedInductionVar

open IR SCEVModel

/-- A merge point with the given identity and type: the header walk looks at
nothing else of the merge point it visits. -/
def phiOf (k : Nat × Ty) : Instruction :=
  { id := k.1, ty := k.2, operands := [], isTerminator := false, isPHI := true,
    mayReadOrWriteMemory := false }

/-- The body of the header walk of the eliminator for the merge point with
identity and type `k`: skipped when it is the primary IV or not a derived IV,
otherwise its use edges are handled and it is put on the deletion list when no
use is left. -/
def phiStep (SE : ScalarEvolution) (X : Expander) (U : UseOrder) (L : Loop) (Primary : Nat)
    (acc : ElimState × List Nat) (k : Nat × Ty) : ElimState × List Nat :=
  if k.1 == Primary then acc
  else if !isDerivedIV SE L (phiOf k) then acc
  else
    (rewriteUses SE X (phiOf k) (U.uses acc.1.fn k.1) acc.1,
      if useEmpty (rewriteUses SE X (phiOf k) (U.uses acc.1.fn k.1) acc.1).fn k.1
      then acc.2 ++ [k.1] else acc.2)

/-- What is asked of the synthesizer at a use site that is a merge point: it
links no instruction in front of it (merge points open their block). -/
def PhiSafe (X : Expander) : Prop :=
  ∀ f S ty u, (∃ q ∈ allInsts f, q.id = u ∧ q.isPHI = true) → (X f S ty u).insts = []

end DerivedInductionVar

namespace DerivedInductionVar

open IR SCEVModel

/-- Instruction identity `u` names a merge point in `f` exactly when it names
one in `F`. -/
def SameKind (F : Func) (u : Nat) (f : Func) : Prop :=
  (∃ q ∈ allInsts f, q.id = u ∧ q.isPHI = true) ↔ (∃ q ∈ allInsts F, q.id = u ∧ q.isPHI = true)

end DerivedInductionVar

namespace IR

/-- Block `h` of the graph holds an instruction with identity `x`. -/
def InBlock (f : Func) (h x : Nat) : Prop :=
  ∃ B ∈ f, B.id = h ∧ x ∈ B.insts.map (fun i => i.id)

end IR

namespace DerivedInductionVar

open IR SCEVModel

/-- The merge point an event is about. -/
def Event.subject : Event → Nat
  | .synthesize pn _ _ => pn
  | .redirect pn _ _ _ => pn
  | .erase pn => pn

/-- The derived IVs of loop `L` in graph `f`, by identity: the merge points of
the header, other than the primary IV, that `isDerivedIV` accepts.  There is
none when the loop has sub-loops or no primary IV: the pass skips such a
loop. -/
def derivedIVs (SE : ScalarEvolution) (f : Func) (L : Loop) : List Nat :=
  if !L.subLoops.isEmpty then []
  else
    match findPrimaryIV SE f L with
    | none => []
    | some p =>
      ((headerPhis f L).filter (fun PN => PN.id != p && isDerivedIV SE L PN)).map
        (fun PN => PN.id)

/-- Identity `d` names a merge point of `F` that `isDerivedIV` accepts for a
loop of `LI`. -/
def Classified (SE : ScalarEvolution) (LI : List Loop) (F : Func) (d : Nat) : Prop :=
  ∃ L ∈ LI, ∃ q ∈ allInsts F, q.id = d ∧ q.isPHI = true ∧ isDerivedIV SE L q = true

end DerivedInductionVar

namespace DerivedInductionVar

open IR SCEVModel

/-- State `r`, reached from the graph of `st0` with a fresh `Changed` flag and
an empty trace, seen as a continuation of `st0`: the flag and the trace of
`st0` are carried along. -/
def ElimState.after (st0 r : ElimState) : ElimState :=
  { fn := r.fn, changed := st0.changed || r.changed, trace := st0.trace ++ r.trace }

end DerivedInductionVar

namespace IR

/-- Identity and type of the merge points that open block `h` of the graph;
empty when there is no such block. -/
def blockKeys (f : Func) (h : Nat) : List (Nat × Ty) :=
  match findBlock f h with
  | none => []
  | some B => phiKeys B.insts

end IR

namespace DerivedInductionVar

open IR SCEVModel

/-- What is asked of the synthesizer's value for a derived IV `d` of a loop of
`LI` in `F`: when it is not `d` itself, it is no merge point of the graph the
synthesizer was called on. -/
def YieldsNoOtherPhi (SE : ScalarEvolution) (X : Expander) (LI : List Loop) (F : Func) : Prop :=
  ∀ L ∈ LI, ∀ d ∈ derivedIVs SE F L, ∀ f ty u v, (X f (SE d) ty u).value = some v →
    v ≠ Value.inst d → ∀ q ∈ allInsts f, q.isPHI = true → v ≠ Value.inst q.id

/-- What is asked of the synthesizer's instructions for a derived IV `d` of a
loop of `LI` in `F`: it links none when it yields no value or `d` itself. -/
def LinksOnlyOnRedirect (SE : ScalarEvolution) (X : Expander) (LI : List Loop) (F : Func) :
    Prop :=
  ∀ L ∈ LI, ∀ d ∈ derivedIVs SE F L, ∀ f ty u,
    (∀ v, (X f (SE d) ty u).value = some v → v = Value.inst d) → (X f (SE d) ty u).insts = []

end DerivedInductionVar

namespace IR

/-- Graph `g` differs from `F` in an instruction of `F`: a merge point of `F`
is no longer a merge point of `g`, or a slot of an instruction of `F` that held
a merge point of `F` holds a value that is no merge point of `g`. -/
def Altered (F g : Func) : Prop :=
  (∃ q0 ∈ allInsts F, q0.isPHI = true ∧ ∀ q ∈ allInsts g, q.id = q0.id → q.isPHI = false) ∨
  (∃ u sl d w, HasOperand F u sl (Value.inst d) ∧
    (∃ q0 ∈ allInsts F, q0.id = d ∧ q0.isPHI = true) ∧
    HasOperand g u sl w ∧ ∀ q ∈ allInsts g, q.isPHI = true → w ≠ Value.inst q.id)

end IR

namespace DerivedInductionVar

open IR SCEVModel

/-- What is asked of the synthesizer's value for a derived IV `d` of a loop of
`LI` in `F`: at every use site it yields a value, and one other than `d`. -/
def AlwaysYields (SE : ScalarEvolution) (X : Expander) (LI : List Loop) (F : Func) : Prop :=
  ∀ L ∈ LI, ∀ d ∈ derivedIVs SE F L, ∀ f ty u,
    ∃ v, (X f (SE d) ty u).value = some v ∧ v ≠ Value.inst d

/-- What is asked of the synthesizer's instructions for a derived IV `d` of a
loop of `LI` in `F`: none of them has `d` as operand. -/
def NoSelfUse (SE : ScalarEvolution) (X : Expander) (LI : List Loop) (F : Func) : Prop :=
  ∀ L ∈ LI, ∀ d ∈ derivedIVs SE F L, ∀ f ty u,
    ∀ n ∈ (X f (SE d) ty u).insts, Value.inst d ∉ n.operands

end DerivedInductionVar

/-! ## Concrete graphs -/

namespace Examples

open IR SCEVModel DerivedInductionVar SimpleLICM

/-- An ordinary (non-merge, non-terminator, memory-free) integer instruction. -/
def op (id : Nat) (operands : List Value) : Instruction :=
  { id := id, ty := Ty.integer 32, operands := operands, isTerminator := false,
    isPHI := false, mayReadOrWriteMemory := false }

/-- An integer merge point. -/
def phi (id : Nat) (operands : List Value) : Instruction :=
  { id := id, ty := Ty.integer 32, operands := operands, isTerminator := false,
    isPHI := true, mayReadOrWriteMemory := false }

/-- A load: it reads memory. -/
def load (id : Nat) (operands : List Value) : Instruction :=
  { id := id, ty := Ty.integer 32, operands := operands, isTerminator := false,
    isPHI := false, mayReadOrWriteMemory := true }

/-- A branch: a terminator. -/
def br (id : Nat) (operands : List Value) : Instruction :=
  { id := id, ty := Ty.nonInteger 0, operands := operands, isTerminator := true,
    isPHI := false, mayReadOrWriteMemory := false }

/-- The use order that lists the edges in program order. -/
def programOrder : UseOrder :=
  { uses := usesOf, perm := fun _ _ => List.Perm.refl _ }

/-- A 32-bit constant step. -/
def step32 (v : Nat) : SCEV :=
  SCEV.constant { bitWidth := 32, val := v, pos := by decide }

/-- The affine recurrence `{0,+,v}` over loop `loop`. -/
def affine32 (loop v : Nat) : SCEV :=
  SCEV.addRec loop (step32 0) (step32 v) true

/-- Merge points of the three-counter loop: `m0` counts up by one, `m1` by two,
`m2` down by one. -/
def m0 : Instruction := phi 10 [Value.const 0, Value.inst 20]

/-- See `m0`. -/
def m1 : Instruction := phi 11 [Value.const 0, Value.inst 21]

/-- See `m0`. -/
def m2 : Instruction := phi 12 [Value.const 0, Value.inst 22]

/-- A loop with header merge points `[m0, m1, m2]`: block 0 is the preheader,
block 1 the single loop block. -/
def threeCounters : Func :=
  [ { id := 0, insts := [br 100 [Value.other 1]] },
    { id := 1, insts :=
        [ m0, m1, m2,
          op 20 [Value.inst 10, Value.const 1],
          op 21 [Value.inst 11, Value.const 2],
          op 22 [Value.inst 12, Value.const (-1)],
          br 101 [Value.inst 20, Value.other 1, Value.other 2] ] },
    { id := 2, insts := [br 102 []] } ]

/-- The loop of `threeCounters`. -/
def countersLoop : Loop := Loop.mk 0 (some 1) (some 0) [1] []

/-- Scalar evolution of `threeCounters`: steps 1, 2 and -1 over the loop. -/
def countersSE : ScalarEvolution := fun v =>
  if v = 10 then affine32 0 1
  else if v = 11 then affine32 0 2
  else if v = 12 then affine32 0 (2 ^ 32 - 1)
  else SCEV.unknown v

/-- The largest instruction identity in the graph. -/
def maxId (f : Func) : Nat :=
  (instIds f).foldr max 0

/-- A synthesizer that materialises `2 * primary` as one new multiplication
immediately before the use site and yields it. -/
def doubling (primary : Nat) : Expander := fun f _ ty _ =>
  { insts := [{ id := maxId f + 1000, ty := ty,
                operands := [Value.inst primary, Value.const 2], isTerminator := false,
                isPHI := false, mayReadOrWriteMemory := false }],
    value := some (Value.inst (maxId f + 1000)) }

/-- The primary induction variable `i = {0,+,1}` of `twoCounters`. -/
def ivI : Instruction := phi 10 [Value.const 0, Value.inst 20]

/-- The derived induction variable `j = {0,+,2}` of `twoCounters`. -/
def ivJ : Instruction := phi 11 [Value.const 0, Value.inst 21]

/-- The header of `twoCounters`: `i`, `j`, their increments, a further use of
`j`, and the back edge. -/
def twoCountersHeader : BasicBlock :=
  { id := 1, insts :=
      [ ivI, ivJ,
        op 20 [Value.inst 10, Value.const 1],
        op 21 [Value.inst 11, Value.const 2],
        op 30 [Value.other 5, Value.inst 11],
        br 101 [Value.inst 20, Value.other 1, Value.other 2] ] }

/-- A loop with primary IV `i` (start 0, step 1) and derived IV `j` (start 0,
step 2): block 0 is the preheader, block 1 the loop, block 2 the exit. -/
def twoCounters : Func :=
  [ { id := 0, insts := [br 100 [Value.other 1]] },
    twoCountersHeader,
    { id := 2, insts := [br 102 []] } ]

/-- Scalar evolution of `twoCounters`. -/
def twoCountersSE : ScalarEvolution := fun v =>
  if v = 10 then affine32 0 1
  else if v = 11 then affine32 0 2
  else SCEV.unknown v

/-- The loop of `twoCounters` as the loop analysis reports it when the header
has no dedicated preheader. -/
def countersLoopNoPreheader : Loop := Loop.mk 0 (some 1) none [1] []

/-- A loop whose only recurrence is `j = {0,+,2}`: there is no unit-stride
counter. -/
def stepTwoCounter : Func :=
  [ { id := 0, insts := [br 100 [Value.other 1]] },
    { id := 1, insts :=
        [ ivJ,
          op 21 [Value.inst 11, Value.const 2],
          op 30 [Value.other 5, Value.inst 11],
          br 101 [Value.inst 21, Value.other 1, Value.other 2] ] },
    { id := 2, insts := [br 102 []] } ]

/-- Scalar evolution of `stepTwoCounter`. -/
def stepTwoOnlySE : ScalarEvolution := fun v =>
  if v = 11 then affine32 0 2 else SCEV.unknown v

/-- The counters loop nested in an outer loop: block 3 is the outer header,
block 1 the inner loop, block 4 the outer latch. -/
def nestedCounters : Func :=
  [ { id := 0, insts := [br 100 [Value.other 3]] },
    { id := 3, insts := [phi 40 [Value.const 0, Value.inst 41], br 103 [Value.other 1]] },
    twoCountersHeader,
    { id := 4, insts := [op 41 [Value.inst 40, Value.const 1],
                         br 104 [Value.inst 41, Value.other 3, Value.other 2]] },
    { id := 2, insts := [br 102 []] } ]

/-- Scalar evolution of `nestedCounters`: `i` and `j` are recurrences over the
inner loop (loop 0), the outer counter over the outer loop (loop 1). -/
def nestedSE : ScalarEvolution := fun v =>
  if v = 10 then affine32 0 1
  else if v = 11 then affine32 0 2
  else if v = 40 then affine32 1 1
  else SCEV.unknown v

/-- The inner loop of `nestedCounters`: no sub-loops, header block 1,
preheader block 3. -/
def innerLoop : Loop := Loop.mk 0 (some 1) (some 3) [1] []

/-- The outer loop of `nestedCounters`, holding `innerLoop`. -/
def outerLoop : Loop := Loop.mk 1 (some 3) (some 0) [3, 1, 4] [innerLoop]

/-- The loop of `twoCounters` with `j` advancing by a value `n` that is not a
constant (a function argument): `j.next = j + n`. -/
def symbolicCounters : Func :=
  [ { id := 0, insts := [br 100 [Value.other 1]] },
    { id := 1, insts :=
        [ ivI, ivJ,
          op 20 [Value.inst 10, Value.const 1],
          op 21 [Value.inst 11, Value.other 7],
          op 30 [Value.other 5, Value.inst 11],
          br 101 [Value.inst 20, Value.other 1, Value.other 2] ] },
    { id := 2, insts := [br 102 []] } ]

/-- Scalar evolution of `symbolicCounters`: `i = {0,+,1}` and `j = {0,+,n}`, an
affine recurrence over the loop whose step is loop-invariant but not a
constant. -/
def symbolicStepSE : ScalarEvolution := fun v =>
  if v = 10 then affine32 0 1
  else if v = 11 then SCEV.addRec 0 (step32 0) (SCEV.unknown 7) true
  else SCEV.unknown v

/-- A synthesizer that refuses every request: no instruction, no value. -/
def refusing : Expander := fun _ _ _ _ =>
  { insts := [], value := none }

/-- A loop whose header holds the primary IV `i` (10), a derived IV `d2` (12)
used only by the merge point `d1` (13), and `d1`, which has no use: `d1` is the
value `d2` had one iteration earlier. -/
def chainedCounters : Func :=
  [ { id := 0, insts := [br 100 [Value.other 1]] },
    { id := 1, insts :=
        [ phi 10 [Value.const 0, Value.inst 20],
          phi 12 [Value.const 0, Value.inst 22],
          phi 13 [Value.const (-3), Value.inst 12],
          op 20 [Value.inst 10, Value.const 1],
          op 22 [Value.inst 20, Value.const 3],
          br 101 [Value.inst 20, Value.other 1, Value.other 2] ] },
    { id := 2, insts := [br 102 []] } ]

/-- Scalar evolution of `chainedCounters`: `i = {0,+,1}`, `d2 = {0,+,3}` and
`d1 = {-3,+,3}`. -/
def chainedSE : ScalarEvolution := fun v =>
  if v = 10 then affine32 0 1
  else if v = 12 then affine32 0 3
  else if v = 13 then SCEV.addRec 0 (step32 (2 ^ 32 - 3)) (step32 3) true
  else SCEV.unknown v

/-- The loop body `a = 5 + 7; b = a * 3; c = load(ptr)` (blocks: 0 preheader,
1 the loop). -/
def invariantChain : Func :=
  [ { id := 0, insts := [br 100 [Value.other 1]] },
    { id := 1, insts :=
        [ op 1 [Value.const 5, Value.const 7],
          op 2 [Value.inst 1, Value.const 3],
          load 3 [Value.other 9],
          br 101 [Value.other 1, Value.other 2] ] },
    { id := 2, insts := [br 102 []] } ]

/-- The loop of `invariantChain`, with preheader block 0. -/
def chainLoop : Loop := Loop.mk 0 (some 1) (some 0) [1] []

/-- A loop whose body holds the single computation `a = 5 + 7`. -/
def singleInvariant : Func :=
  [ { id := 0, insts := [br 100 [Value.other 1]] },
    { id := 1, insts :=
        [ op 1 [Value.const 5, Value.const 7],
          br 101 [Value.other 1, Value.other 2] ] },
    { id := 2, insts := [br 102 []] } ]

/-- The loop of `invariantChain` when the loop analysis finds no preheader. -/
def chainLoopNoPreheader : Loop := Loop.mk 0 (some 1) none [1] []

/-- The state after the eliminator ran on `twoCounters` with the synthesizer
that materialises `2 * i`. -/
def twoCountersAfter : ElimState :=
  DerivedInductionVarElim.run twoCountersSE (doubling 10) programOrder [countersLoop]
    twoCounters

/-- The run of the eliminator on `stepTwoCounter`. -/
def stepTwoOnlyAfter : ElimState :=
  DerivedInductionVarElim.run stepTwoOnlySE (doubling 10) programOrder [countersLoop]
    stepTwoCounter

/-- The run of the eliminator on `twoCounters` when its loop has no
preheader. -/
def noPreheaderAfter : ElimState :=
  DerivedInductionVarElim.run twoCountersSE (doubling 10) programOrder
    [countersLoopNoPreheader] twoCounters

/-- The run of the eliminator on `nestedCounters` with the loop analysis
result as it is: one top-level loop, `outerLoop`. -/
def nestedAfter : ElimState :=
  DerivedInductionVarElim.run nestedSE (doubling 10) programOrder [outerLoop] nestedCounters

/-- The run of the eliminator on `nestedCounters` had `innerLoop` been a
top-level loop. -/
def innerAloneAfter : ElimState :=
  DerivedInductionVarElim.run nestedSE (doubling 10) programOrder [innerLoop] nestedCounters

/-- The run of the eliminator on `symbolicCounters`. -/
def symbolicStepAfter : ElimState :=
  DerivedInductionVarElim.run symbolicStepSE (doubling 10) programOrder [countersLoop]
    symbolicCounters

/-- The first run of the eliminator on `threeCounters`. -/
def threeCountersAfter : ElimState :=
  DerivedInductionVarElim.run countersSE (doubling 10) programOrder [countersLoop]
    threeCounters

/-- The first run of the eliminator on `chainedCounters`, with a synthesizer
that refuses. -/
def chainedAfter : ElimState :=
  DerivedInductionVarElim.run chainedSE refusing programOrder [countersLoop] chainedCounters

/-- The second run of the eliminator on `chainedCounters`, on the graph the
first run produced. -/
def chainedAgain : ElimState :=
  DerivedInductionVarElim.run chainedSE refusing programOrder [countersLoop] chainedAfter.fn

/-- The run of the eliminator on `twoCounters` with a synthesizer that
refuses. -/
def refusedAfter : ElimState :=
  DerivedInductionVarElim.run twoCountersSE refusing programOrder [countersLoop] twoCounters

/-- A loop whose body holds two independent computations `x = 5 + 7` and
`y = 2 + 3`, both with constant operands (blocks: 0 preheader, 1 the loop). -/
def twoInvariants : Func :=
  [ { id := 0, insts := [br 100 [Value.other 1]] },
    { id := 1, insts :=
        [ op 1 [Value.const 5, Value.const 7],
          op 2 [Value.const 2, Value.const 3],
          br 101 [Value.other 1, Value.other 2] ] },
    { id := 2, insts := [br 102 []] } ]

/-- A loop whose body holds `c = load(ptr)` followed by `a = 5 + 7`. -/
def loadThenInvariant : Func :=
  [ { id := 0, insts := [br 100 [Value.other 1]] },
    { id := 1, insts :=
        [ load 3 [Value.other 9],
          op 1 [Value.const 5, Value.const 7],
          br 101 [Value.other 1, Value.other 2] ] },
    { id := 2, insts := [br 102 []] } ]

/-- A loop of two blocks: block 1 holds `y = 5 + 7`, block 3 holds `x = y * 3`
(blocks: 0 preheader, 1 and 3 the loop, 2 the exit). -/
def twoBlockChain : Func :=
  [ { id := 0, insts := [br 100 [Value.other 1]] },
    { id := 1, insts :=
        [ op 1 [Value.const 5, Value.const 7],
          br 101 [Value.other 3] ] },
    { id := 3, insts :=
        [ op 2 [Value.inst 1, Value.const 3],
          br 103 [Value.other 1, Value.other 2] ] },
    { id := 2, insts := [br 102 []] } ]

/-- The loop of `twoBlockChain`, with preheader block 0. -/
def twoBlockLoop : Loop := Loop.mk 0 (some 1) (some 0) [1, 3] []

/-- The local variables of `SimpleLICMLoop::run` when it enters its `while`
loop on graph `F`. -/
def licmStart (F : Func) : LicmState :=
  { fn := F, Hoisted := [], Changed := false, Progress := true }

/-- A loop with the primary IV `i` (10) and two derived IVs `j1 = {0,+,2}` (11)
and `j2 = {0,+,4}` (12), each with its increment and one further use. -/
def reusedCounters : Func :=
  [ { id := 0, insts := [br 100 [Value.other 1]] },
    { id := 1, insts :=
        [ phi 10 [Value.const 0, Value.inst 20],
          phi 11 [Value.const 0, Value.inst 21],
          phi 12 [Value.const 0, Value.inst 22],
          op 20 [Value.inst 10, Value.const 1],
          op 21 [Value.inst 11, Value.const 2],
          op 22 [Value.inst 12, Value.const 4],
          op 30 [Value.other 5, Value.inst 11],
          op 31 [Value.other 6, Value.inst 12],
          br 101 [Value.inst 20, Value.other 1, Value.other 2] ] },
    { id := 2, insts := [br 102 []] } ]

/-- Scalar evolution of `reusedCounters`. -/
def reusedSE : ScalarEvolution := fun v =>
  if v = 10 then affine32 0 1
  else if v = 11 then affine32 0 2
  else if v = 12 then affine32 0 4
  else SCEV.unknown v

/-- A synthesizer that builds on values the graph already holds: the
recurrence `{0,+,4}` is materialised as `2 * j1`, where `j1` (11) is the merge
point with recurrence `{0,+,2}`, and every other recurrence as `2 * i`. -/
def reusing : Expander := fun f S ty _ =>
  { insts := [{ id := maxId f + 1000, ty := ty,
                operands := [Value.inst (if S = affine32 0 4 then 11 else 10), Value.const 2],
                isTerminator := false, isPHI := false, mayReadOrWriteMemory := false }],
    value := some (Value.inst (maxId f + 1000)) }

/-- The run of the eliminator on `reusedCounters` with the synthesizer
`reusing`. -/
def reusedAfter : ElimState :=
  DerivedInductionVarElim.run reusedSE reusing programOrder [countersLoop] reusedCounters

/-- The loop of `twoCounters` with the derived IV `j` used by the terminator of
the loop block (a multi-way branch on `j`) besides its increment. -/
def switchCounters : Func :=
  [ { id := 0, insts := [br 100 [Value.other 1]] },
    { id := 1, insts :=
        [ ivI, ivJ,
          op 20 [Value.inst 10, Value.const 1],
          op 21 [Value.inst 11, Value.const 2],
          br 101 [Value.inst 11, Value.other 1, Value.other 2] ] },
    { id := 2, insts := [br 102 []] } ]

/-- The synthesizer `X` made to respect merge points: at a use site that is a
merge point it links nothing and yields no value, elsewhere it is `X`. -/
def guarded (X : Expander) : Expander := fun f S ty u =>
  if (allInsts f).any (fun q => q.id == u && q.isPHI) then { insts := [], value := none }
  else X f S ty u

/-- The synthesizer `X` made to refuse at the use site `site`. -/
def refusingAt (site : Nat) (X : Expander) : Expander := fun f S ty u =>
  if u = site then { insts := [], value := none } else X f S ty u

/-- The run of the eliminator on `switchCounters`. -/
def switchAfter : ElimState :=
  DerivedInductionVarElim.run twoCountersSE (doubling 10) programOrder [countersLoop]
    switchCounters

/-- The run of the eliminator on `switchCounters` with the synthesizer that
respects merge points. -/
def switchGuardedAfter : ElimState :=
  DerivedInductionVarElim.run twoCountersSE (guarded (doubling 10)) programOrder [countersLoop]
    switchCounters

/-- The loop of `chainedCounters` with the increment of `d2` written on `d2`
itself and a use of `d1`: the header holds `i` (10), `d2` (12), used by `d1` and
by its increment 22, and `d1` (13), used by 30. -/
def cutCounters : Func :=
  [ { id := 0, insts := [br 100 [Value.other 1]] },
    { id := 1, insts :=
        [ phi 10 [Value.const 0, Value.inst 20],
          phi 12 [Value.const 0, Value.inst 22],
          phi 13 [Value.const (-3), Value.inst 12],
          op 20 [Value.inst 10, Value.const 1],
          op 22 [Value.inst 12, Value.const 3],
          op 30 [Value.other 5, Value.inst 13],
          br 101 [Value.inst 20, Value.other 1, Value.other 2] ] },
    { id := 2, insts := [br 102 []] } ]

/-- The run of the eliminator on `cutCounters` with a synthesizer that refuses
at use site 22 and materialises `2 * i` in front of any other use site. -/
def cutAfter : ElimState :=
  DerivedInductionVarElim.run chainedSE (refusingAt 22 (doubling 10)) programOrder
    [countersLoop] cutCounters

/-- A synthesizer that materialises twice the primary IV of the loop the
recurrence runs over, `primaryOf` naming the primary IV of each loop; it
refuses what is not a recurrence. -/
def doublingPer (primaryOf : Nat → Nat) : Expander := fun f S ty u =>
  match S with
  | .addRec loop _ _ _ => doubling (primaryOf loop) f S ty u
  | _ => { insts := [], value := none }

/-- The header of the second loop of `twoLoops`. -/
def secondHeader : BasicBlock :=
  { id := 3, insts :=
      [ phi 40 [Value.const 0, Value.inst 50],
        phi 41 [Value.const 0, Value.inst 51],
        phi 42 [Value.const 0, Value.inst 52],
        op 50 [Value.inst 40, Value.const 1],
        op 51 [Value.inst 41, Value.const 2],
        op 52 [Value.inst 42, Value.const 3],
        op 60 [Value.other 6, Value.inst 41],
        br 103 [Value.inst 50, Value.other 3, Value.other 4] ] }

/-- Two loops one after the other.  Loop 0 (block 1, preheader block 0) has the
primary IV 10 and the derived IV 11, used by its increment 21 and by 30.  Loop 1
(block 3, preheader block 2) has the primary IV 40 and the derived IVs 41, used
by its increment 51 and by 60, and 42, used by its increment 52. -/
def twoLoops : Func :=
  [ { id := 0, insts := [br 100 [Value.other 1]] },
    { id := 1, insts :=
        [ phi 10 [Value.const 0, Value.inst 20],
          phi 11 [Value.const 0, Value.inst 21],
          op 20 [Value.inst 10, Value.const 1],
          op 21 [Value.inst 11, Value.const 2],
          op 30 [Value.other 5, Value.inst 11],
          br 101 [Value.inst 20, Value.other 1, Value.other 2] ] },
    { id := 2, insts := [br 102 [Value.other 3]] },
    secondHeader,
    { id := 4, insts := [br 104 []] } ]

/-- Scalar evolution of `twoLoops`. -/
def twoLoopsSE : ScalarEvolution := fun v =>
  if v = 10 then affine32 0 1
  else if v = 11 then affine32 0 2
  else if v = 40 then affine32 1 1
  else if v = 41 then affine32 1 2
  else if v = 42 then affine32 1 3
  else SCEV.unknown v

/-- The first loop of `twoLoops`. -/
def firstLoop : Loop := Loop.mk 0 (some 1) (some 0) [1] []

/-- The second loop of `twoLoops`. -/
def secondLoop : Loop := Loop.mk 1 (some 3) (some 2) [3] []

/-- The synthesizer used on `twoLoops`: twice the primary IV of the loop, no
value at the use sites 30 (first loop) and 60 (second loop), nothing in front
of a merge point. -/
def twoLoopsExpander : Expander :=
  refusingAt 30 (refusingAt 60 (guarded (doublingPer (fun loop => if loop = 0 then 10 else 40))))

/-- The state of the run on `twoLoops` when the first loop has been
processed. -/
def twoLoopsMid : ElimState :=
  DerivedInductionVarElim.run twoLoopsSE twoLoopsExpander programOrder [firstLoop] twoLoops

/-- The run of the eliminator on `twoLoops`. -/
def twoLoopsAfter : ElimState :=
  DerivedInductionVarElim.run twoLoopsSE twoLoopsExpander programOrder
    [firstLoop, secondLoop] twoLoops

/-- A loop whose header holds a merge point `k` (9), a load `c` (3), the
computation `a = p * 3` (1) on a value `p` (5) of the preheader, the increment
of `k` (4) and the back edge (blocks: 0 preheader, 1 the loop, 2 the exit). -/
def mixedBody : Func :=
  [ { id := 0, insts := [op 5 [Value.const 1, Value.const 2], br 100 [Value.other 1]] },
    { id := 1, insts :=
        [ phi 9 [Value.const 0, Value.inst 4],
          load 3 [Value.other 9],
          op 1 [Value.inst 5, Value.const 3],
          op 4 [Value.inst 9, Value.const 1],
          br 101 [Value.other 1, Value.other 2] ] },
    { id := 2, insts := [br 102 []] } ]

/-- The synthesizer `X` made to respect merge points without refusing: at a
use site that is a merge point it links nothing and yields `w`, elsewhere it is
`X`. -/
def yieldingAtPhis (w : Value) (X : Expander) : Expander := fun f S ty u =>
  if (allInsts f).any (fun q => q.id == u && q.isPHI) then { insts := [], value := some w }
  else X f S ty u

/-- The synthesizer that materialises `2 * i` in front of every use site that
is no merge point. -/
def doublingSafe : Expander := yieldingAtPhis (Value.other 0) (doubling 10)

/-- The first run of the eliminator on `threeCounters` with `doublingSafe`. -/
def threeCountersOnce : ElimState :=
  DerivedInductionVarElim.run countersSE doublingSafe programOrder [countersLoop] threeCounters

/-- The second run of the eliminator on `threeCounters` with `doublingSafe`, on
the graph the first run produced. -/
def threeCountersTwice : ElimState :=
  DerivedInductionVarElim.run countersSE doublingSafe programOrder [countersLoop]
    threeCountersOnce.fn

/-- The second run of the eliminator on `twoCounters` with a synthesizer that
refuses, on the graph the first run produced. -/
def refusedAgain : ElimState :=
  DerivedInductionVarElim.run twoCountersSE refusing programOrder [countersLoop] refusedAfter.fn

end Examples

/-! ## Properties -/

namespace IR

theorem allInsts_cons (b : BasicBlock) (f : Func) :
    allInsts (b :: f) = b.insts ++ allInsts f := by
  simp [allInsts]

theorem mem_allInsts {f : Func} {q : Instruction} :
    q ∈ allInsts f ↔ ∃ b ∈ f, q ∈ b.insts := by
  simp [allInsts]

theorem allInsts_setOperand (f : Func) (user slot : Nat) (v : Value) :
    allInsts (setOperand f user slot v) =
      (allInsts f).map (fun i =>
        if i.id == user then { i with operands := i.operands.set slot v } else i) := by
  induction f with
  | nil => rfl
  | cons b f ih =>
    have ih2 : allInsts (List.map (fun b : BasicBlock => { b with insts := b.insts.map (fun i =>
        if i.id == user then { i with operands := i.operands.set slot v } else i) }) f) =
        (allInsts f).map (fun i =>
        if i.id == user then { i with operands := i.operands.set slot v } else i) := ih
    simp only [setOperand, List.map_cons, allInsts_cons, List.map_append, ih2]

theorem allInsts_insertBefore (f : Func) (pt : Nat) (news : List Instruction) :
    allInsts (insertBefore f pt news) =
      (allInsts f).flatMap (fun i => if i.id == pt then news ++ [i] else [i]) := by
  induction f with
  | nil => rfl
  | cons b f ih =>
    have ih2 : allInsts (List.map (fun b : BasicBlock => { b with insts := b.insts.flatMap (fun i =>
        if i.id == pt then news ++ [i] else [i]) }) f) =
        (allInsts f).flatMap (fun i => if i.id == pt then news ++ [i] else [i]) := ih
    simp only [insertBefore, List.map_cons, allInsts_cons, List.flatMap_append, ih2]

theorem allInsts_removeInst (f : Func) (d : Nat) :
    allInsts (removeInst f d) = (allInsts f).filter (fun i => i.id != d) := by
  induction f with
  | nil => rfl
  | cons b f ih =>
    have ih2 : allInsts (List.map (fun b : BasicBlock =>
        { b with insts := b.insts.filter (fun i => i.id != d) }) f) =
        (allInsts f).filter (fun i => i.id != d) := ih
    simp only [removeInst, List.map_cons, allInsts_cons, List.filter_append, ih2]

theorem instIds_setOperand (f : Func) (user slot : Nat) (v : Value) :
    instIds (setOperand f user slot v) = instIds f := by
  simp only [instIds, allInsts_setOperand, List.map_map]
  apply List.map_congr_left
  intro i _
  by_cases h : i.id = user <;> simp [h]

theorem mem_allInsts_insertBefore {f : Func} {pt : Nat} {news : List Instruction}
    {q : Instruction} :
    q ∈ allInsts (insertBefore f pt news) ↔ q ∈ allInsts f ∨ (q ∈ news ∧ pt ∈ instIds f) := by
  rw [allInsts_insertBefore]
  simp only [List.mem_flatMap, instIds, List.mem_map]
  constructor
  · rintro ⟨i, hi, hq⟩
    by_cases h : i.id = pt
    · simp only [h, beq_self_eq_true, if_true, List.mem_append, List.mem_singleton] at hq
      rcases hq with hq | hq
      · exact Or.inr ⟨hq, i, hi, h⟩
      · exact Or.inl (hq ▸ hi)
    · have hb : (i.id == pt) = false := by simpa using h
      simp only [hb, Bool.false_eq_true, if_false, List.mem_singleton] at hq
      exact Or.inl (hq ▸ hi)
  · rintro (hq | ⟨hq, i, hi, h⟩)
    · refine ⟨q, hq, ?_⟩
      by_cases h : q.id = pt <;> simp [h]
    · exact ⟨i, hi, by simp [h, hq]⟩

theorem mem_allInsts_removeInst {f : Func} {d : Nat} {q : Instruction} :
    q ∈ allInsts (removeInst f d) ↔ q ∈ allInsts f ∧ q.id ≠ d := by
  simp [allInsts_removeInst]

theorem mem_allInsts_setOperand {f : Func} {user slot : Nat} {v : Value} {q : Instruction} :
    q ∈ allInsts (setOperand f user slot v) ↔
      ∃ q0 ∈ allInsts f,
        q = if q0.id == user then { q0 with operands := q0.operands.set slot v } else q0 := by
  rw [allInsts_setOperand]
  simp only [List.mem_map]
  constructor
  · rintro ⟨a, ha, rfl⟩
    exact ⟨a, ha, rfl⟩
  · rintro ⟨a, ha, rfl⟩
    exact ⟨a, ha, rfl⟩

theorem mem_usesOf {f : Func} {d u s : Nat} :
    (u, s) ∈ usesOf f d ↔
      ∃ q ∈ allInsts f, q.id = u ∧ q.operands[s]? = some (Value.inst d) := by
  simp only [usesOf, List.mem_flatMap, List.mem_map, List.mem_filter, Prod.mk.injEq,
    beq_iff_eq, Prod.exists, List.mk_mem_enum_iff_getElem?]
  constructor
  · rintro ⟨q, hq, k, x, ⟨hk, hx⟩, hid, hs⟩
    subst hx hs
    exact ⟨q, hq, hid, hk⟩
  · rintro ⟨q, hq, hid, hk⟩
    exact ⟨q, hq, s, Value.inst d, ⟨hk, rfl⟩, hid, rfl⟩

theorem find?_of_nodup_map {α : Type} (g : α → Nat) :
    ∀ (l : List α) (a : α), (l.map g).Nodup → a ∈ l → l.find? (fun x => g x == g a) = some a
  | [], _, _, h => by cases h
  | x :: l, a, hnd, h => by
    rw [List.map_cons, List.nodup_cons] at hnd
    rcases List.mem_cons.1 h with rfl | hmem
    · simp
    · have hne : g x ≠ g a := by
        intro heq
        exact hnd.1 (heq ▸ List.mem_map_of_mem g hmem)
      rw [List.find?_cons_of_neg _ (by simpa using hne)]
      exact find?_of_nodup_map g l a hnd.2 hmem

theorem findInst_of_mem {f : Func} {q : Instruction} (hnd : (instIds f).Nodup)
    (hq : q ∈ allInsts f) : findInst f q.id = some q :=
  find?_of_nodup_map (fun i : Instruction => i.id) (allInsts f) q hnd hq

theorem dropWhile_of_nodup_map {α : Type} (g : α → Nat) :
    ∀ (a : List α) (x : α) (b : List α), ((a ++ x :: b).map g).Nodup →
      (a ++ x :: b).dropWhile (fun y => g y != g x) = x :: b
  | [], x, b, _ => by simp [List.dropWhile]
  | y :: a, x, b, hnd => by
    rw [List.cons_append, List.map_cons, List.nodup_cons] at hnd
    have hne : g y ≠ g x := by
      intro heq
      exact hnd.1 (heq ▸ List.mem_map_of_mem g (by simp))
    have hb : (g y != g x) = true := by simpa using hne
    rw [List.cons_append, List.dropWhile_cons, hb, if_pos rfl]
    exact dropWhile_of_nodup_map g a x b hnd.2

theorem instIds_cons (b : BasicBlock) (f : Func) :
    instIds (b :: f) = b.insts.map (fun i => i.id) ++ instIds f := by
  simp [instIds, allInsts_cons]

theorem parentOf_of_mem :
    ∀ {f : Func} {B : BasicBlock} {q : Instruction}, (instIds f).Nodup → B ∈ f →
      q ∈ B.insts → parentOf f q.id = some B
  | [], _, _, _, hB, _ => by cases hB
  | b :: f, B, q, hnd, hB, hq => by
    rw [instIds_cons] at hnd
    have hdisj := List.disjoint_of_nodup_append hnd
    unfold parentOf
    by_cases hany : b.insts.any (fun i => i.id == q.id) = true
    · have hBb : B = b := by
        rcases List.mem_cons.1 hB with h | h
        · exact h
        · exfalso
          obtain ⟨q', hq', hid⟩ := List.any_eq_true.1 hany
          have h1 : q'.id ∈ b.insts.map (fun i => i.id) := List.mem_map_of_mem _ hq'
          have h2 : q.id ∈ instIds f :=
            List.mem_map_of_mem _ (mem_allInsts.2 ⟨B, h, hq⟩)
          have hid2 : q'.id = q.id := by simpa using hid
          exact hdisj h1 (hid2 ▸ h2)
      rw [List.find?_cons, hany, hBb]
    · have hBf : B ∈ f := by
        rcases List.mem_cons.1 hB with h | h
        · exfalso
          apply hany
          exact List.any_eq_true.2 ⟨q, h ▸ hq, by simp⟩
        · exact h
      have hany2 : b.insts.any (fun i => i.id == q.id) = false := by simpa using hany
      rw [List.find?_cons, hany2]
      exact parentOf_of_mem (List.nodup_append.1 hnd).2.1 hBf hq

theorem nodup_block_of_nodup {f : Func} {B : BasicBlock} (hnd : (instIds f).Nodup)
    (hB : B ∈ f) : (B.insts.map (fun i => i.id)).Nodup := by
  induction f with
  | nil => cases hB
  | cons b f ih =>
    rw [instIds_cons] at hnd
    rcases List.mem_cons.1 hB with h | h
    · exact h ▸ (List.nodup_append.1 hnd).1
    · exact ih (List.nodup_append.1 hnd).2.1 h

theorem nextInst_of_split {f : Func} {B : BasicBlock} {a b : List Instruction}
    {q : Instruction} (hnd : (instIds f).Nodup) (hB : B ∈ f) (hs : B.insts = a ++ q :: b) :
    nextInst f q.id = b.head? := by
  have hq : q ∈ B.insts := by rw [hs]; simp
  have hB2 := nodup_block_of_nodup hnd hB
  rw [hs] at hB2
  unfold nextInst
  rw [parentOf_of_mem hnd hB hq]
  simp only [hs]
  rw [dropWhile_of_nodup_map (fun i : Instruction => i.id) a q b hB2]
  simp

theorem nextInst_mem {f : Func} {iid : Nat} {q : Instruction}
    (h : nextInst f iid = some q) : q ∈ allInsts f := by
  unfold nextInst at h
  cases hp : parentOf f iid with
  | none => simp [hp] at h
  | some b =>
    simp only [hp] at h
    have hb : b ∈ f := List.mem_of_find?_eq_some hp
    have hq : q ∈ (b.insts.dropWhile (fun i => i.id != iid)).drop 1 := List.mem_of_mem_head? h
    have hq2 : q ∈ b.insts :=
      (List.dropWhile_sublist _).subset ((List.drop_sublist _ _).subset hq)
    exact mem_allInsts.2 ⟨b, hb, hq2⟩

theorem flatMap_ins_of_not_mem (pt : Nat) (ns : List Nat) :
    ∀ (l : List Nat), pt ∉ l → l.flatMap (fun x => if x == pt then ns ++ [x] else [x]) = l
  | [], _ => rfl
  | x :: l, h => by
    have hx : x ≠ pt := fun e => h (e ▸ List.mem_cons_self _ _)
    have hl : pt ∉ l := fun e => h (List.mem_cons_of_mem _ e)
    have hb : (x == pt) = false := by simpa using hx
    rw [List.flatMap_cons, flatMap_ins_of_not_mem pt ns l hl]
    simp [hx]

theorem mem_flatMap_ins {pt : Nat} {ns l : List Nat} {y : Nat}
    (h : y ∈ l.flatMap (fun x => if x == pt then ns ++ [x] else [x])) : y ∈ l ∨ y ∈ ns := by
  rw [List.mem_flatMap] at h
  obtain ⟨x, hx, hy⟩ := h
  by_cases hp : x = pt
  · simp only [hp, beq_self_eq_true, if_true, List.mem_append, List.mem_singleton] at hy
    rcases hy with hy | hy
    · exact Or.inr hy
    · exact Or.inl (hy ▸ hp ▸ hx)
  · have hb : (x == pt) = false := by simpa using hp
    simp only [hb, Bool.false_eq_true, if_false, List.mem_singleton] at hy
    exact Or.inl (hy ▸ hx)

theorem nodup_flatMap_ins (pt : Nat) (ns : List Nat) (hns : ns.Nodup) :
    ∀ (l : List Nat), l.Nodup → (∀ n ∈ ns, n ∉ l) →
      (l.flatMap (fun x => if x == pt then ns ++ [x] else [x])).Nodup
  | [], _, _ => by simp
  | x :: l, hl, hd => by
    rw [List.nodup_cons] at hl
    have hd2 : ∀ n ∈ ns, n ∉ l := fun n hn hm => hd n hn (List.mem_cons_of_mem _ hm)
    have ih := nodup_flatMap_ins pt ns hns l hl.2 hd2
    have hxns : x ∉ ns := fun hm => hd x hm (List.mem_cons_self _ _)
    rw [List.flatMap_cons]
    by_cases hp : x = pt
    · subst hp
      rw [flatMap_ins_of_not_mem x ns l hl.1]
      simp only [beq_self_eq_true, if_true, List.append_assoc, List.singleton_append]
      rw [List.nodup_append]
      refine ⟨hns, List.nodup_cons.2 hl, ?_⟩
      intro a ha hb
      exact hd a ha hb
    · have hb : (x == pt) = false := by simpa using hp
      simp only [hb, Bool.false_eq_true, if_false, List.singleton_append]
      rw [List.nodup_cons]
      refine ⟨?_, ih⟩
      intro hm
      rcases mem_flatMap_ins hm with h | h
      · exact hl.1 h
      · exact hxns h

theorem instIds_insertBefore (f : Func) (pt : Nat) (news : List Instruction) :
    instIds (insertBefore f pt news) =
      (instIds f).flatMap (fun x =>
        if x == pt then news.map (fun i => i.id) ++ [x] else [x]) := by
  simp only [instIds, allInsts_insertBefore, List.map_flatMap, List.flatMap_map]
  apply List.flatMap_congr
  intro i _
  by_cases h : i.id = pt <;> simp [h]

theorem nodup_instIds_insertBefore {f : Func} {pt : Nat} {news : List Instruction}
    (hf : (instIds f).Nodup) (hn : (news.map (fun i => i.id)).Nodup)
    (hd : ∀ n ∈ news, n.id ∉ instIds f) : (instIds (insertBefore f pt news)).Nodup := by
  rw [instIds_insertBefore]
  apply nodup_flatMap_ins pt _ hn _ hf
  intro n hn2
  obtain ⟨i, hi, rfl⟩ := List.mem_map.1 hn2
  exact hd i hi

end IR

namespace SCEVModel

theorem APInt.two_pow_split (a : APInt) : 2 ^ a.bitWidth = 2 * 2 ^ (a.bitWidth - 1) := by
  have h := a.pos
  obtain ⟨k, hk⟩ : ∃ k, a.bitWidth = k + 1 := ⟨a.bitWidth - 1, by omega⟩
  rw [hk, Nat.add_sub_cancel, pow_succ, Nat.mul_comm]

theorem APInt.abs_eqOne_iff (a : APInt) : a.abs.eqOne = true ↔ a.toInt.natAbs = 1 := by
  have hsplit := a.two_pow_split
  have hP : 0 < 2 ^ (a.bitWidth - 1) := Nat.pow_pos (by decide)
  have hz : a.val % 2 ^ a.bitWidth < 2 ^ a.bitWidth := Nat.mod_lt _ (Nat.pow_pos (by decide))
  have hone : 1 % 2 ^ a.bitWidth = 1 := Nat.mod_eq_of_lt (by omega)
  by_cases hneg : 2 ^ (a.bitWidth - 1) ≤ a.val % 2 ^ a.bitWidth
  · have hlt : 2 ^ a.bitWidth - a.val % 2 ^ a.bitWidth < 2 ^ a.bitWidth := by omega
    simp only [APInt.abs, APInt.isNegative, APInt.zext, APInt.eqOne, APInt.toInt, hneg,
      decide_True, if_true, hone, Nat.mod_eq_of_lt hlt, beq_iff_eq]
    have hcast : ((2 : Int) ^ a.bitWidth) = ((2 ^ a.bitWidth : Nat) : Int) := by push_cast; rfl
    rw [hcast]
    omega
  · have hlt : a.val % 2 ^ a.bitWidth % 2 ^ a.bitWidth = a.val % 2 ^ a.bitWidth := Nat.mod_mod _ _
    simp only [APInt.abs, APInt.isNegative, APInt.zext, APInt.eqOne, APInt.toInt, hneg,
      decide_False, if_false, hone, hlt, beq_iff_eq, Bool.false_eq_true]
    omega

end SCEVModel

namespace DerivedInductionVar

open IR SCEVModel

theorem findPrimaryIVIn_cons (SE : ScalarEvolution) (L : Loop) (PN : Instruction)
    (rest : List Instruction) :
    findPrimaryIVIn SE L (PN :: rest) =
      if unitStrideTest SE L PN then some PN.id else findPrimaryIVIn SE L rest := by
  unfold unitStrideTest
  rw [findPrimaryIVIn]
  cases hty : PN.ty.isIntegerTy
  · simp
  · cases hs : SE PN.id with
    | constant c => simp
    | unknown t => simp
    | addRec loop start step affine =>
      cases step with
      | constant c =>
        by_cases hl : loop = L.id <;> cases affine <;> cases hc : c.abs.eqOne <;> simp [hl, hc]
      | unknown t => by_cases hl : loop = L.id <;> cases affine <;> simp [hl]
      | addRec l2 s2 t2 a2 => by_cases hl : loop = L.id <;> cases affine <;> simp [hl]

theorem unitStrideTest_iff (SE : ScalarEvolution) (L : Loop) (PN : Instruction) :
    unitStrideTest SE L PN = true ↔ UnitStrideOver SE L PN := by
  unfold unitStrideTest UnitStrideOver
  cases hs : SE PN.id with
  | constant c => simp
  | unknown t => simp
  | addRec loop start step affine =>
    cases step with
    | unknown t => simp
    | addRec l2 s2 t2 a2 => simp
    | constant c =>
      simp only [Bool.and_eq_true, beq_iff_eq, APInt.abs_eqOne_iff, SCEV.addRec.injEq,
        SCEV.constant.injEq]
      constructor
      · rintro ⟨hty, ⟨hl, ha⟩, hc⟩
        exact ⟨hty, start, c, ⟨hl, rfl, rfl, ha⟩, hc⟩
      · rintro ⟨hty, s, c', ⟨hl, -, hcc, ha⟩, hc⟩
        subst hcc
        exact ⟨hty, ⟨hl, ha⟩, hc⟩

theorem findPrimaryIVIn_eq_find (SE : ScalarEvolution) (L : Loop) (l : List Instruction) :
    findPrimaryIVIn SE L l = (l.find? (unitStrideTest SE L)).map (fun PN => PN.id) := by
  induction l with
  | nil => rfl
  | cons PN rest ih =>
    rw [findPrimaryIVIn_cons, List.find?_cons]
    cases h : unitStrideTest SE L PN <;> simp [ih]

theorem findPrimaryIV_eq_find (SE : ScalarEvolution) (f : Func) (L : Loop) :
    findPrimaryIV SE f L
      = ((headerPhis f L).find? (unitStrideTest SE L)).map (fun PN => PN.id) := by
  unfold findPrimaryIV
  cases h : L.header with
  | none => simp [headerPhis, h]
  | some hd => simp [findPrimaryIVIn_eq_find]

theorem findPrimaryIV_eq_none_iff (SE : ScalarEvolution) (f : Func) (L : Loop) :
    findPrimaryIV SE f L = none ↔ ∀ q ∈ headerPhis f L, ¬ UnitStrideOver SE L q := by
  rw [findPrimaryIV_eq_find]
  simp [← unitStrideTest_iff]

theorem findPrimaryIV_eq_some_iff (SE : ScalarEvolution) (f : Func) (L : Loop) (p : Nat) :
    findPrimaryIV SE f L = some p ↔
      ∃ pre P post, headerPhis f L = pre ++ P :: post ∧ P.id = p ∧ UnitStrideOver SE L P ∧
        ∀ q ∈ pre, ¬ UnitStrideOver SE L q := by
  rw [findPrimaryIV_eq_find]
  simp only [Option.map_eq_some', List.find?_eq_some, ← unitStrideTest_iff]
  constructor
  · rintro ⟨P, ⟨hP, pre, post, hl, hpre⟩, hid⟩
    exact ⟨pre, P, post, hl, hid, hP, fun q hq => by simpa using hpre q hq⟩
  · rintro ⟨pre, P, post, hl, hid, hP, hpre⟩
    exact ⟨P, ⟨hP, pre, post, hl, fun q hq => by simpa using hpre q hq⟩, hid⟩

theorem isDerivedIV_of_unitStride (SE : ScalarEvolution) (L : Loop) (PN : Instruction)
    (h : UnitStrideOver SE L PN) : isDerivedIV SE L PN = true := by
  obtain ⟨hty, s, c, hs, -⟩ := h
  simp [isDerivedIV, hty, hs]

/-- C1: `findPrimaryIV` returns the first header merge point, in declaration
order, that is integer-typed and an affine recurrence over `L` with a constant
step of absolute value one, and returns nothing exactly when the header has no
such merge point.  With header merge points `[m0, m1, m2]` where `m0` and `m2`
are such recurrences, the primary is `m0`, `isDerivedIV` holds for `m2`, `m2`
is not the primary, and for a loop without sub-loops the report names `m0` as
primary and `m2` as derived. -/
theorem findPrimaryIV_first_unit_stride (SE : ScalarEvolution) (f : Func) (L : Loop) :
    (∀ p, findPrimaryIV SE f L = some p ↔
        ∃ pre P post, headerPhis f L = pre ++ P :: post ∧ P.id = p ∧
          UnitStrideOver SE L P ∧ ∀ q ∈ pre, ¬ UnitStrideOver SE L q) ∧
    (findPrimaryIV SE f L = none ↔ ∀ q ∈ headerPhis f L, ¬ UnitStrideOver SE L q) ∧
    (∀ m0 m1 m2, headerPhis f L = [m0, m1, m2] → UnitStrideOver SE L m0 →
        UnitStrideOver SE L m2 → m2.id ≠ m0.id →
        findPrimaryIV SE f L = some m0.id ∧ isDerivedIV SE L m2 = true ∧
          findPrimaryIV SE f L ≠ some m2.id ∧
          (L.subLoops = [] →
            ReportLine.primaryIV m0.id ∈ reportLoop SE f L ∧
            ReportLine.derivedIV m2.id ∈ reportLoop SE f L)) := by
  refine ⟨findPrimaryIV_eq_some_iff SE f L, findPrimaryIV_eq_none_iff SE f L, ?_⟩
  intro m0 m1 m2 hphis h0 h2 hne
  have hprim : findPrimaryIV SE f L = some m0.id :=
    (findPrimaryIV_eq_some_iff SE f L m0.id).2
      ⟨[], m0, [m1, m2], by simpa using hphis, rfl, h0, by simp⟩
  have hder := isDerivedIV_of_unitStride SE L m2 h2
  refine ⟨hprim, hder, ?_, ?_⟩
  · rw [hprim]
    intro h
    exact hne (Option.some.inj h).symm
  · intro hsub
    have hhead : ∃ h, L.header = some h := by
      cases hh : L.header with
      | none => simp [headerPhis, hh] at hphis
      | some h => exact ⟨h, rfl⟩
    obtain ⟨h, hh⟩ := hhead
    have hne2 : ¬ (m2.id = m0.id) := hne
    simp [reportLoop, hsub, hprim, hh, hphis, hder, hne2]
    exact ⟨m2, ⟨Or.inr rfl, hne2, hder⟩, rfl⟩

/-- C1 at the three-counter loop: the primary is `m0`, and `m2` (step -1) is a
derived induction variable and is reported as one. -/
theorem findPrimaryIV_first_unit_stride_witness :
    findPrimaryIV Examples.countersSE Examples.threeCounters Examples.countersLoop
        = some Examples.m0.id ∧
      isDerivedIV Examples.countersSE Examples.countersLoop Examples.m2 = true ∧
      findPrimaryIV Examples.countersSE Examples.threeCounters Examples.countersLoop
        ≠ some Examples.m2.id ∧
      ReportLine.primaryIV Examples.m0.id ∈
        reportLoop Examples.countersSE Examples.threeCounters Examples.countersLoop ∧
      ReportLine.derivedIV Examples.m2.id ∈
        reportLoop Examples.countersSE Examples.threeCounters Examples.countersLoop :=
  (fun h => ⟨h.1, h.2.1, h.2.2.1, h.2.2.2 rfl⟩)
    ((findPrimaryIV_first_unit_stride Examples.countersSE Examples.threeCounters
      Examples.countersLoop).2.2 Examples.m0 Examples.m1 Examples.m2 (by decide)
      ⟨rfl, Examples.step32 0, { bitWidth := 32, val := 1, pos := by decide }, rfl, by decide⟩
      ⟨rfl, Examples.step32 0, { bitWidth := 32, val := 2 ^ 32 - 1, pos := by decide }, rfl,
        by decide⟩
      (by decide))

end DerivedInductionVar

namespace DerivedInductionVar

open IR SCEVModel

theorem mem_of_head? {α : Type} {l : List α} {a : α} (h : l.head? = some a) : a ∈ l :=
  List.mem_of_mem_head? h

theorem elimLoop_of_subLoops (SE : ScalarEvolution) (X : Expander) (U : UseOrder)
    (L : Loop) (st : ElimState)
    (h : L.subLoops.isEmpty = false) : elimLoop SE X U L st = st := by
  simp [elimLoop, h]

theorem elimLoop_of_no_primary (SE : ScalarEvolution) (X : Expander) (U : UseOrder) (L : Loop)
    (st : ElimState) (h : findPrimaryIV SE st.fn L = none) : elimLoop SE X U L st = st := by
  unfold elimLoop
  cases hsub : L.subLoops.isEmpty <;> cases hh : L.header <;> simp [h]

theorem foldl_elimLoop_fixed (SE : ScalarEvolution) (X : Expander) (U : UseOrder) (st : ElimState) :
    ∀ (LI : List Loop), (∀ L ∈ LI, elimLoop SE X U L st = st) →
      LI.foldl (fun s L => elimLoop SE X U L s) st = st
  | [], _ => rfl
  | L :: LI, h => by
    rw [List.foldl_cons, h L (List.mem_cons_self _ _)]
    exact foldl_elimLoop_fixed SE X U st LI (fun L' hL' => h L' (List.mem_cons_of_mem _ hL'))

theorem rewriteUse_changedIff (SE : ScalarEvolution) (X : Expander) (PN : Instruction)
    (user slot : Nat) (st : ElimState) (h : ChangedIffMutated st) :
    ChangedIffMutated (rewriteUse SE X PN user slot st) := by
  have hkeep : ChangedIffMutated
      { fn := insertBefore st.fn user ((X st.fn (SE PN.id) PN.ty user).insts.map asOrdinary),
        changed := st.changed,
        trace := st.trace ++ [Event.synthesize PN.id user slot] } := by
    unfold ChangedIffMutated at h ⊢
    simp only [h, List.mem_append, List.mem_singleton]
    constructor
    · rintro ⟨e, he, hm⟩
      exact ⟨e, Or.inl he, hm⟩
    · rintro ⟨e, he | he, hm⟩
      · exact ⟨e, he, hm⟩
      · subst he
        simp [Event.isMutation] at hm
  cases hv : (X st.fn (SE PN.id) PN.ty user).value with
  | none =>
    simp only [rewriteUse, hv]
    exact hkeep
  | some NewV =>
    by_cases hne : NewV = Value.inst PN.id
    · simp only [rewriteUse, hv, hne, bne_self_eq_false, Bool.false_eq_true, if_false]
      exact hkeep
    · have hb : (NewV != Value.inst PN.id) = true := by simpa using hne
      simp only [rewriteUse, hv, hb, if_true]
      unfold ChangedIffMutated
      simp only [true_iff]
      exact ⟨Event.redirect PN.id user slot NewV, by simp, rfl⟩

theorem rewriteUses_changedIff (SE : ScalarEvolution) (X : Expander) (PN : Instruction) :
    ∀ (us : List (Nat × Nat)) (st : ElimState), ChangedIffMutated st →
      ChangedIffMutated (rewriteUses SE X PN us st)
  | [], _, h => h
  | (user, slot) :: rest, st, h => by
    rw [rewriteUses]
    exact rewriteUses_changedIff SE X PN rest _ (rewriteUse_changedIff SE X PN user slot st h)

theorem eraseDead_changedIff :
    ∀ (Dead : List Nat) (st : ElimState), ChangedIffMutated st →
      ChangedIffMutated (eraseDead Dead st)
  | [], st, h => h
  | D :: rest, st, _ => by
    rw [eraseDead]
    apply eraseDead_changedIff rest
    unfold ChangedIffMutated
    simp only [true_iff]
    exact ⟨Event.erase D, by simp, rfl⟩

theorem elimPhis_changedIff (SE : ScalarEvolution) (X : Expander) (U : UseOrder)
    (L : Loop) (Primary : Nat) :
    ∀ (fuel : Nat) (cur : Option Instruction) (st : ElimState) (Dead : List Nat),
      ChangedIffMutated st →
      ChangedIffMutated (elimPhis SE X U L Primary fuel cur (st, Dead)).1 := by
  intro fuel
  induction fuel with
  | zero => intro cur st Dead h; exact h
  | succ n ih =>
    intro cur st Dead h
    cases cur with
    | none => exact h
    | some PN =>
      rw [elimPhis]
      split
      · exact h
      · split
        · exact ih _ _ _ h
        · split
          · exact ih _ _ _ h
          · exact ih _ _ _ (rewriteUses_changedIff SE X PN _ st h)

theorem elimLoop_changedIff (SE : ScalarEvolution) (X : Expander) (U : UseOrder)
    (L : Loop) (st : ElimState)
    (h : ChangedIffMutated st) : ChangedIffMutated (elimLoop SE X U L st) := by
  unfold elimLoop
  split
  · exact h
  · split
    · exact h
    · split
      · exact h
      · split
        · exact h
        · exact eraseDead_changedIff _ _ (elimPhis_changedIff SE X U L _ _ _ st [] h)

theorem foldl_elimLoop_changedIff (SE : ScalarEvolution) (X : Expander) (U : UseOrder) :
    ∀ (LI : List Loop) (st : ElimState), ChangedIffMutated st →
      ChangedIffMutated (LI.foldl (fun s L => elimLoop SE X U L s) st)
  | [], _, h => h
  | L :: LI, st, h => by
    rw [List.foldl_cons]
    exact foldl_elimLoop_changedIff SE X U LI _ (elimLoop_changedIff SE X U L st h)

theorem eliminateDerivedIVs_changedIff (SE : ScalarEvolution) (X : Expander) (U : UseOrder)
    (LI : List Loop)
    (F : Func) : ChangedIffMutated (DerivedInductionVarElim.run SE X U LI F) := by
  apply foldl_elimLoop_changedIff
  simp [ChangedIffMutated, startState]

end DerivedInductionVar

namespace IR

theorem operandAt_of_hasOperand {f : Func} {u s : Nat} {v : Value} (hnd : (instIds f).Nodup)
    (h : HasOperand f u s v) : operandAt f u s = some v := by
  obtain ⟨q, hq, hid, hop⟩ := h
  unfold operandAt
  rw [← hid, findInst_of_mem hnd hq]
  exact hop

theorem hasOperand_insertBefore {f : Func} {u s : Nat} {v : Value} (pt : Nat)
    (news : List Instruction) (h : HasOperand f u s v) :
    HasOperand (insertBefore f pt news) u s v := by
  obtain ⟨q, hq, hid, hop⟩ := h
  exact ⟨q, mem_allInsts_insertBefore.2 (Or.inl hq), hid, hop⟩

theorem hasOperand_setOperand_other {f : Func} {u s : Nat} {v : Value} (u' s' : Nat)
    (v' : Value) (hne : (u', s') ≠ (u, s)) (h : HasOperand f u s v) :
    HasOperand (setOperand f u' s' v') u s v := by
  obtain ⟨q, hq, hid, hop⟩ := h
  refine ⟨_, mem_allInsts_setOperand.2 ⟨q, hq, rfl⟩, ?_, ?_⟩
  · split <;> exact hid
  · by_cases hu : q.id = u'
    · have hs : s' ≠ s := by
        intro hs
        apply hne
        rw [← hu, hid, hs]
      simp [hu, List.getElem?_set_ne hs, hop]
    · simp [hu, hop]

theorem hasOperand_setOperand_self {f : Func} {u s : Nat} (v : Value)
    (h : ∃ q ∈ allInsts f, q.id = u ∧ s < q.operands.length) :
    HasOperand (setOperand f u s v) u s v := by
  obtain ⟨q, hq, hid, hlen⟩ := h
  refine ⟨_, mem_allInsts_setOperand.2 ⟨q, hq, rfl⟩, ?_, ?_⟩
  · simp [hid]
  · simp [hid, List.getElem?_set_self hlen]

theorem hasOperand_removeInst {f : Func} {u s : Nat} {v : Value} (d : Nat) (hne : u ≠ d)
    (h : HasOperand f u s v) : HasOperand (removeInst f d) u s v := by
  obtain ⟨q, hq, hid, hop⟩ := h
  exact ⟨q, mem_allInsts_removeInst.2 ⟨hq, hid ▸ hne⟩, hid, hop⟩

theorem instIds_removeInst (f : Func) (d : Nat) :
    instIds (removeInst f d) = (instIds f).filter (fun x => x != d) := by
  simp only [instIds, allInsts_removeInst, List.filter_map]
  rfl

theorem nodup_instIds_removeInst {f : Func} (d : Nat) (h : (instIds f).Nodup) :
    (instIds (removeInst f d)).Nodup := by
  rw [instIds_removeInst]
  exact h.filter _

theorem not_mem_instIds_removeInst (f : Func) (d : Nat) : d ∉ instIds (removeInst f d) := by
  rw [instIds_removeInst]
  simp

theorem mem_instIds_insertBefore {f : Func} {x : Nat} (pt : Nat) (news : List Instruction)
    (h : x ∈ instIds f) : x ∈ instIds (insertBefore f pt news) := by
  obtain ⟨q, hq, rfl⟩ := List.mem_map.1 h
  exact List.mem_map_of_mem _ (mem_allInsts_insertBefore.2 (Or.inl hq))

end IR

namespace DerivedInductionVar

open IR SCEVModel

theorem map_id_asOrdinary (l : List Instruction) :
    (l.map asOrdinary).map (fun i => i.id) = l.map (fun i => i.id) := by
  simp [asOrdinary, List.map_map, Function.comp_def]

theorem nodup_instIds_expand {X : Expander} (hX : FreshExpander X) (f : Func) (S : SCEV)
    (ty : Ty) (u : Nat) (hf : (instIds f).Nodup) :
    (instIds (insertBefore f u ((X f S ty u).insts.map asOrdinary))).Nodup := by
  apply nodup_instIds_insertBefore hf
  · rw [map_id_asOrdinary]
    exact (hX f S ty u).1
  · intro n hn
    obtain ⟨n0, hn0, rfl⟩ := List.mem_map.1 hn
    exact (hX f S ty u).2 n0 hn0

theorem rewriteUses_cons (SE : ScalarEvolution) (X : Expander) (PN : Instruction)
    (user slot : Nat) (rest : List (Nat × Nat)) (st : ElimState) :
    rewriteUses SE X PN ((user, slot) :: rest) st =
      rewriteUses SE X PN rest (rewriteUse SE X PN user slot st) := by
  rw [rewriteUses]

/-- The graph after one step: the synthesized instructions are linked in, and
the slot is redirected when a value other than `PN` was yielded. -/
theorem rewriteUse_fn (SE : ScalarEvolution) (X : Expander) (PN : Instruction)
    (user slot : Nat) (st : ElimState) :
    (rewriteUse SE X PN user slot st).fn =
        insertBefore st.fn user ((X st.fn (SE PN.id) PN.ty user).insts.map asOrdinary) ∨
      ∃ v, (X st.fn (SE PN.id) PN.ty user).value = some v ∧ v ≠ Value.inst PN.id ∧
        (rewriteUse SE X PN user slot st).fn =
          setOperand
            (insertBefore st.fn user ((X st.fn (SE PN.id) PN.ty user).insts.map asOrdinary))
            user slot v := by
  cases hv : (X st.fn (SE PN.id) PN.ty user).value with
  | none =>
    left
    simp [rewriteUse, hv]
  | some NewV =>
    by_cases hne : NewV = Value.inst PN.id
    · left
      simp [rewriteUse, hv, hne]
    · right
      refine ⟨NewV, rfl, hne, ?_⟩
      simp [rewriteUse, hv, hne]

theorem rewriteUse_nodup {SE : ScalarEvolution} {X : Expander} (hX : FreshExpander X)
    (PN : Instruction) (user slot : Nat) (st : ElimState) (h : (instIds st.fn).Nodup) :
    (instIds (rewriteUse SE X PN user slot st).fn).Nodup := by
  rcases rewriteUse_fn SE X PN user slot st with h1 | ⟨v, -, -, h1⟩
  · rw [h1]
    exact nodup_instIds_expand hX _ _ _ _ h
  · rw [h1, instIds_setOperand]
    exact nodup_instIds_expand hX _ _ _ _ h

theorem rewriteUses_nodup {SE : ScalarEvolution} {X : Expander} (hX : FreshExpander X)
    (PN : Instruction) :
    ∀ (us : List (Nat × Nat)) (st : ElimState), (instIds st.fn).Nodup →
      (instIds (rewriteUses SE X PN us st).fn).Nodup
  | [], _, h => h
  | (user, slot) :: rest, st, h => by
    rw [rewriteUses_cons]
    exact rewriteUses_nodup hX PN rest _ (rewriteUse_nodup hX PN user slot st h)

theorem rewriteUse_mem_ids (SE : ScalarEvolution) (X : Expander) (PN : Instruction)
    (user slot : Nat) (st : ElimState) {x : Nat} (h : x ∈ instIds st.fn) :
    x ∈ instIds (rewriteUse SE X PN user slot st).fn := by
  rcases rewriteUse_fn SE X PN user slot st with h1 | ⟨v, -, -, h1⟩
  · rw [h1]
    exact mem_instIds_insertBefore _ _ h
  · rw [h1, instIds_setOperand]
    exact mem_instIds_insertBefore _ _ h

theorem rewriteUses_mem_ids (SE : ScalarEvolution) (X : Expander) (PN : Instruction) {x : Nat} :
    ∀ (us : List (Nat × Nat)) (st : ElimState), x ∈ instIds st.fn →
      x ∈ instIds (rewriteUses SE X PN us st).fn
  | [], _, h => h
  | (user, slot) :: rest, st, h => by
    rw [rewriteUses_cons]
    exact rewriteUses_mem_ids SE X PN rest _ (rewriteUse_mem_ids SE X PN user slot st h)

/-- Every merge point of the graph after a step was a merge point, of the same
identity and type, before it. -/
theorem rewriteUse_phi (SE : ScalarEvolution) (X : Expander) (PN : Instruction)
    (user slot : Nat) (st : ElimState) {q : Instruction}
    (hq : q ∈ allInsts (rewriteUse SE X PN user slot st).fn) (hphi : q.isPHI = true) :
    ∃ q0 ∈ allInsts st.fn, q0.id = q.id ∧ q0.ty = q.ty ∧ q0.isPHI = true := by
  have key : ∀ q ∈ allInsts
      (insertBefore st.fn user ((X st.fn (SE PN.id) PN.ty user).insts.map asOrdinary)),
      q.isPHI = true → ∃ q0 ∈ allInsts st.fn, q0.id = q.id ∧ q0.ty = q.ty ∧ q0.isPHI = true := by
    intro q hq hphi
    rcases mem_allInsts_insertBefore.1 hq with h | ⟨h, -⟩
    · exact ⟨q, h, rfl, rfl, hphi⟩
    · obtain ⟨n, -, rfl⟩ := List.mem_map.1 h
      simp [asOrdinary] at hphi
  rcases rewriteUse_fn SE X PN user slot st with h1 | ⟨v, -, -, h1⟩
  · rw [h1] at hq
    exact key q hq hphi
  · rw [h1] at hq
    obtain ⟨q1, hq1, rfl⟩ := mem_allInsts_setOperand.1 hq
    by_cases hu : q1.id = user
    · simp only [hu, beq_self_eq_true, if_true] at hphi ⊢
      obtain ⟨q0, h0, hid, hty, hp⟩ := key q1 hq1 hphi
      exact ⟨q0, h0, hid.trans hu, hty, hp⟩
    · have hb : (q1.id == user) = false := by simpa using hu
      simp only [hb, Bool.false_eq_true, if_false] at hphi ⊢
      exact key q1 hq1 hphi

theorem rewriteUses_phi (SE : ScalarEvolution) (X : Expander) (PN : Instruction) :
    ∀ (us : List (Nat × Nat)) (st : ElimState) (q : Instruction),
      q ∈ allInsts (rewriteUses SE X PN us st).fn → q.isPHI = true →
      ∃ q0 ∈ allInsts st.fn, q0.id = q.id ∧ q0.ty = q.ty ∧ q0.isPHI = true
  | [], _, q, hq, hphi => ⟨q, hq, rfl, rfl, hphi⟩
  | (user, slot) :: rest, st, q, hq, hphi => by
    rw [rewriteUses_cons] at hq
    obtain ⟨q1, hq1, hid1, hty1, hp1⟩ := rewriteUses_phi SE X PN rest _ q hq hphi
    obtain ⟨q0, hq0, hid0, hty0, hp0⟩ := rewriteUse_phi SE X PN user slot st hq1 hp1
    exact ⟨q0, hq0, hid0.trans hid1, hty0.trans hty1, hp0⟩

theorem isDerivedIV_congr (SE : ScalarEvolution) (L : Loop) {p q : Instruction}
    (hid : p.id = q.id) (hty : p.ty = q.ty) : isDerivedIV SE L p = isDerivedIV SE L q := by
  simp [isDerivedIV, hid, hty]

end DerivedInductionVar

namespace DerivedInductionVar

open IR SCEVModel

theorem rewriteUse_hasOperand (SE : ScalarEvolution) (X : Expander) (PN : Instruction)
    (user slot : Nat) (st : ElimState) {u s : Nat} {v : Value}
    (hne : (user, slot) ≠ (u, s)) (h : HasOperand st.fn u s v) :
    HasOperand (rewriteUse SE X PN user slot st).fn u s v := by
  rcases rewriteUse_fn SE X PN user slot st with h1 | ⟨w, -, -, h1⟩
  · rw [h1]
    exact hasOperand_insertBefore _ _ h
  · rw [h1]
    exact hasOperand_setOperand_other _ _ _ hne (hasOperand_insertBefore _ _ h)

theorem rewriteUses_hasOperand (SE : ScalarEvolution) (X : Expander) (PN : Instruction)
    {u s : Nat} {v : Value} :
    ∀ (us : List (Nat × Nat)) (st : ElimState), (u, s) ∉ us → HasOperand st.fn u s v →
      HasOperand (rewriteUses SE X PN us st).fn u s v
  | [], _, _, h => h
  | (user, slot) :: rest, st, hn, h => by
    rw [rewriteUses_cons]
    have hne : (user, slot) ≠ (u, s) := fun e => hn (e ▸ List.mem_cons_self _ _)
    have hn2 : (u, s) ∉ rest := fun e => hn (List.mem_cons_of_mem _ e)
    exact rewriteUses_hasOperand SE X PN rest _ hn2 (rewriteUse_hasOperand SE X PN _ _ st hne h)

theorem rewriteUse_trace_mono (SE : ScalarEvolution) (X : Expander) (PN : Instruction)
    (user slot : Nat) (st : ElimState) {e : Event} (h : e ∈ st.trace) :
    e ∈ (rewriteUse SE X PN user slot st).trace := by
  cases hv : (X st.fn (SE PN.id) PN.ty user).value with
  | none => simp [rewriteUse, hv, h]
  | some NewV =>
    by_cases hne : NewV = Value.inst PN.id <;> simp [rewriteUse, hv, hne, h]

theorem rewriteUses_trace_mono (SE : ScalarEvolution) (X : Expander) (PN : Instruction)
    {e : Event} :
    ∀ (us : List (Nat × Nat)) (st : ElimState), e ∈ st.trace →
      e ∈ (rewriteUses SE X PN us st).trace
  | [], _, h => h
  | (user, slot) :: rest, st, h => by
    rw [rewriteUses_cons]
    exact rewriteUses_trace_mono SE X PN rest _ (rewriteUse_trace_mono SE X PN _ _ st h)

theorem eraseDead_trace_mono {e : Event} :
    ∀ (Dead : List Nat) (st : ElimState), e ∈ st.trace → e ∈ (eraseDead Dead st).trace
  | [], _, h => h
  | D :: rest, st, h => by
    rw [eraseDead]
    exact eraseDead_trace_mono rest _ (by simp [h])

theorem slotExists_insertBefore {f : Func} {u s : Nat} (pt : Nat) (news : List Instruction)
    (h : SlotExists f u s) : SlotExists (insertBefore f pt news) u s := by
  obtain ⟨q, hq, hid, hlen⟩ := h
  exact ⟨q, mem_allInsts_insertBefore.2 (Or.inl hq), hid, hlen⟩

theorem slotExists_setOperand {f : Func} {u s : Nat} (u' s' : Nat) (v : Value)
    (h : SlotExists f u s) : SlotExists (setOperand f u' s' v) u s := by
  obtain ⟨q, hq, hid, hlen⟩ := h
  refine ⟨_, mem_allInsts_setOperand.2 ⟨q, hq, rfl⟩, ?_, ?_⟩
  · split <;> exact hid
  · split
    · simpa using hlen
    · exact hlen

theorem rewriteUse_slotExists (SE : ScalarEvolution) (X : Expander) (PN : Instruction)
    (user slot : Nat) (st : ElimState) {u s : Nat} (h : SlotExists st.fn u s) :
    SlotExists (rewriteUse SE X PN user slot st).fn u s := by
  rcases rewriteUse_fn SE X PN user slot st with h1 | ⟨w, -, -, h1⟩
  · rw [h1]
    exact slotExists_insertBefore _ _ h
  · rw [h1]
    exact slotExists_setOperand _ _ _ (slotExists_insertBefore _ _ h)

theorem slotExists_of_mem_usesOf {f : Func} {d u s : Nat} (h : (u, s) ∈ usesOf f d) :
    SlotExists f u s := by
  obtain ⟨q, hq, hid, hop⟩ := mem_usesOf.1 h
  refine ⟨q, hq, hid, ?_⟩
  by_contra hlt
  have : q.operands[s]? = none := List.getElem?_eq_none (by omega)
  rw [this] at hop
  cases hop

/-- When the synthesizer yields a value other than `PN`, the step redirects the
edge to that value and records it. -/
theorem rewriteUse_redirects (SE : ScalarEvolution) (X : Expander) (PN : Instruction)
    (user slot : Nat) (st : ElimState) {v : Value}
    (hv : (X st.fn (SE PN.id) PN.ty user).value = some v) (hne : v ≠ Value.inst PN.id)
    (hslot : SlotExists st.fn user slot) :
    Event.redirect PN.id user slot v ∈ (rewriteUse SE X PN user slot st).trace ∧
      HasOperand (rewriteUse SE X PN user slot st).fn user slot v ∧
      (rewriteUse SE X PN user slot st).changed = true ∧
      (rewriteUse SE X PN user slot st).fn =
        setOperand
          (insertBefore st.fn user ((X st.fn (SE PN.id) PN.ty user).insts.map asOrdinary))
          user slot v := by
  have hb : (v != Value.inst PN.id) = true := by simpa using hne
  have hfn : (rewriteUse SE X PN user slot st).fn =
      setOperand
        (insertBefore st.fn user ((X st.fn (SE PN.id) PN.ty user).insts.map asOrdinary))
        user slot v := by
    simp [rewriteUse, hv, hb]
  refine ⟨?_, ?_, ?_, hfn⟩
  · simp [rewriteUse, hv, hb]
  · rw [hfn]
    exact hasOperand_setOperand_self v (slotExists_insertBefore _ _ hslot)
  · simp [rewriteUse, hv, hb]

theorem rewriteUses_redirected (SE : ScalarEvolution) (X : Expander) (PN : Instruction)
    (hsucc : ∀ f u, ∃ v, (X f (SE PN.id) PN.ty u).value = some v ∧ v ≠ Value.inst PN.id)
    {u s : Nat} :
    ∀ (us : List (Nat × Nat)) (st : ElimState), (u, s) ∈ us → SlotExists st.fn u s →
      ∃ v f', (X f' (SE PN.id) PN.ty u).value = some v ∧ v ≠ Value.inst PN.id ∧
        Event.redirect PN.id u s v ∈ (rewriteUses SE X PN us st).trace ∧
        HasOperand (rewriteUses SE X PN us st).fn u s v
  | [], _, h, _ => by cases h
  | (user, slot) :: rest, st, h, hslot => by
    rw [rewriteUses_cons]
    by_cases hr : (u, s) ∈ rest
    · exact rewriteUses_redirected SE X PN hsucc rest _ hr
        (rewriteUse_slotExists SE X PN _ _ st hslot)
    · have he : (u, s) = (user, slot) := by
        rcases List.mem_cons.1 h with h | h
        · exact h
        · exact absurd h hr
      obtain ⟨hu, hs⟩ := Prod.mk.inj he
      subst hu hs
      obtain ⟨v, hv, hne⟩ := hsucc st.fn u
      obtain ⟨htr, hop, -, -⟩ := rewriteUse_redirects SE X PN u s st hv hne hslot
      exact ⟨v, st.fn, hv, hne, rewriteUses_trace_mono SE X PN rest _ htr,
        rewriteUses_hasOperand SE X PN rest _ hr hop⟩

theorem mem_usesOf_redirected (SE : ScalarEvolution) (X : Expander) (PN : Instruction)
    (user slot : Nat) (f : Func) {v : Value} (hne : v ≠ Value.inst PN.id)
    (hnouse : ∀ n ∈ (X f (SE PN.id) PN.ty user).insts, Value.inst PN.id ∉ n.operands)
    {e : Nat × Nat}
    (he : e ∈ usesOf (setOperand
      (insertBefore f user ((X f (SE PN.id) PN.ty user).insts.map asOrdinary)) user slot v)
      PN.id) :
    e ∈ usesOf f PN.id ∧ e ≠ (user, slot) := by
  obtain ⟨u, s⟩ := e
  obtain ⟨q', hq', hid, hop⟩ := mem_usesOf.1 he
  obtain ⟨q1, hq1, rfl⟩ := mem_allInsts_setOperand.1 hq'
  have hq1ops : q1.operands[s]? = some (Value.inst PN.id) ∧ (q1.id = user → s ≠ slot) := by
    by_cases hu : q1.id = user
    · simp only [hu, beq_self_eq_true, if_true] at hop
      have hs : s ≠ slot := by
        intro hs
        subst hs
        rw [List.getElem?_set_self'] at hop
        cases h : q1.operands[s]? with
        | none => simp [h] at hop
        | some w =>
          simp [h] at hop
          exact hne hop
      rw [List.getElem?_set_ne (Ne.symm hs)] at hop
      exact ⟨hop, fun _ => hs⟩
    · have hb : (q1.id == user) = false := by simpa using hu
      simp only [hb, Bool.false_eq_true, if_false] at hop
      exact ⟨hop, fun h => absurd h hu⟩
  have hid1 : q1.id = u := by
    by_cases hu : q1.id = user
    · simpa [hu] using hid
    · have hb : (q1.id == user) = false := by simpa using hu
      simpa [hb] using hid
  rcases mem_allInsts_insertBefore.1 hq1 with h | ⟨h, -⟩
  · refine ⟨mem_usesOf.2 ⟨q1, h, hid1, hq1ops.1⟩, ?_⟩
    intro heq
    obtain ⟨h1, h2⟩ := Prod.mk.inj heq
    exact hq1ops.2 (hid1.trans h1) h2
  · exfalso
    obtain ⟨n, hn, rfl⟩ := List.mem_map.1 h
    have : Value.inst PN.id ∈ n.operands := List.getElem?_mem hq1ops.1
    exact hnouse n hn this

theorem rewriteUses_uses (SE : ScalarEvolution) (X : Expander) (PN : Instruction)
    (hsucc : ∀ f u, ∃ v, (X f (SE PN.id) PN.ty u).value = some v ∧ v ≠ Value.inst PN.id)
    (hnouse : ∀ f S ty u, ∀ n ∈ (X f S ty u).insts, Value.inst PN.id ∉ n.operands)
    {e : Nat × Nat} :
    ∀ (us : List (Nat × Nat)) (st : ElimState),
      (∀ x ∈ us, SlotExists st.fn x.1 x.2) →
      e ∈ usesOf (rewriteUses SE X PN us st).fn PN.id → e ∈ usesOf st.fn PN.id ∧ e ∉ us
  | [], _, _, h => ⟨h, by simp⟩
  | (user, slot) :: rest, st, hslots, h => by
    rw [rewriteUses_cons] at h
    have hslots2 : ∀ x ∈ rest, SlotExists (rewriteUse SE X PN user slot st).fn x.1 x.2 :=
      fun x hx => rewriteUse_slotExists SE X PN _ _ st (hslots x (List.mem_cons_of_mem _ hx))
    obtain ⟨h1, h2⟩ := rewriteUses_uses SE X PN hsucc hnouse rest _ hslots2 h
    obtain ⟨v, hv, hne⟩ := hsucc st.fn user
    obtain ⟨-, -, -, hfn⟩ := rewriteUse_redirects SE X PN user slot st hv hne
      (hslots (user, slot) (List.mem_cons_self _ _))
    rw [hfn] at h1
    obtain ⟨h3, h4⟩ := mem_usesOf_redirected SE X PN user slot st.fn hne
      (hnouse st.fn (SE PN.id) PN.ty user) h1
    refine ⟨h3, ?_⟩
    intro hm
    rcases List.mem_cons.1 hm with h5 | h5
    · exact h4 h5
    · exact h2 h5

end DerivedInductionVar

namespace IR

theorem id_ne_of_mem_left {a r : List Instruction} {x q : Instruction}
    (hnd : ((a ++ x :: r).map (fun i => i.id)).Nodup) (hq : q ∈ a) : q.id ≠ x.id := by
  rw [List.map_append, List.map_cons] at hnd
  have hd := List.disjoint_of_nodup_append hnd
  intro h
  exact hd (List.mem_map_of_mem _ hq) (h ▸ List.mem_cons_self _ _)

theorem id_ne_of_mem_right {a r : List Instruction} {x q : Instruction}
    (hnd : ((a ++ x :: r).map (fun i => i.id)).Nodup) (hq : q ∈ r) : q.id ≠ x.id := by
  rw [List.map_append, List.map_cons] at hnd
  have h2 := (List.nodup_cons.1 (List.nodup_append.1 hnd).2.1).1
  intro h
  exact h2 (h ▸ List.mem_map_of_mem _ hq)

theorem length_phis_of_split {B : BasicBlock} {pre rest : List Instruction} {x : Instruction}
    (hs : B.insts = pre ++ x :: rest) (hpre : ∀ p ∈ pre, p.isPHI = true)
    (hx : x.isPHI = true) : ∃ k, (phis B).length = pre.length + (k + 1) := by
  unfold phis
  rw [hs]
  clear hs
  induction pre with
  | nil =>
    refine ⟨(rest.takeWhile (fun i => i.isPHI)).length, ?_⟩
    simp [List.takeWhile_cons, hx]
  | cons p pre ih =>
    obtain ⟨k, hk⟩ := ih (fun q hq => hpre q (List.mem_cons_of_mem _ hq))
    refine ⟨k, ?_⟩
    have hp : p.isPHI = true := hpre p (List.mem_cons_self _ _)
    simp only [List.cons_append, List.takeWhile_cons, hp, if_true, List.length_cons, hk]
    omega

end IR

namespace DerivedInductionVar

open IR SCEVModel

theorem elimPhis_skip_step (SE : ScalarEvolution) (X : Expander) (U : UseOrder)
    (L : Loop) (Primary : Nat)
    (fuel : Nat) (PN : Instruction) (acc : ElimState × List Nat) (hphi : PN.isPHI = true)
    (hskip : PN.id = Primary ∨ isDerivedIV SE L PN = false) :
    elimPhis SE X U L Primary (fuel + 1) (some PN) acc =
      elimPhis SE X U L Primary fuel (nextInst acc.1.fn PN.id) acc := by
  obtain ⟨st, Dead⟩ := acc
  rw [elimPhis]
  by_cases hp : PN.id = Primary
  · simp [hphi, hp]
  · have hd : isDerivedIV SE L PN = false := hskip.resolve_left hp
    simp [hphi, hp, hd]

theorem elimPhis_process_step (SE : ScalarEvolution) (X : Expander) (U : UseOrder)
    (L : Loop) (Primary : Nat)
    (fuel : Nat) (PN : Instruction) (st : ElimState) (Dead : List Nat)
    (hphi : PN.isPHI = true) (hp : PN.id ≠ Primary) (hd : isDerivedIV SE L PN = true) :
    elimPhis SE X U L Primary (fuel + 1) (some PN) (st, Dead) =
      elimPhis SE X U L Primary fuel
        (nextInst (rewriteUses SE X PN (U.uses st.fn PN.id) st).fn PN.id)
        (rewriteUses SE X PN (U.uses st.fn PN.id) st,
          if useEmpty (rewriteUses SE X PN (U.uses st.fn PN.id) st).fn PN.id
          then Dead ++ [PN.id] else Dead) := by
  rw [elimPhis]
  simp [hphi, hp, hd]

theorem elimPhis_stop (SE : ScalarEvolution) (X : Expander) (U : UseOrder)
    (L : Loop) (Primary : Nat)
    (fuel : Nat) (PN : Instruction) (acc : ElimState × List Nat) (hphi : PN.isPHI = false) :
    elimPhis SE X U L Primary fuel (some PN) acc = acc := by
  obtain ⟨st, Dead⟩ := acc
  cases fuel with
  | zero => rfl
  | succ n =>
    rw [elimPhis]
    simp [hphi]

theorem elimPhis_none (SE : ScalarEvolution) (X : Expander) (U : UseOrder)
    (L : Loop) (Primary : Nat)
    (fuel : Nat) (acc : ElimState × List Nat) :
    elimPhis SE X U L Primary fuel none acc = acc := by
  cases fuel <;> rfl

/-- Walking over merge points that are all skipped leaves the state as it is
and arrives at the merge point behind them. -/
theorem elimPhis_walk_pre (SE : ScalarEvolution) (X : Expander) (U : UseOrder)
    (L : Loop) (Primary : Nat)
    (st : ElimState) (Dead : List Nat) (B : BasicBlock) (hnd : (instIds st.fn).Nodup)
    (hB : B ∈ st.fn) (x : Instruction) (rest : List Instruction) (k : Nat) :
    ∀ (pre a : List Instruction), B.insts = a ++ (pre ++ x :: rest) →
      (∀ p ∈ pre, p.isPHI = true ∧ (p.id = Primary ∨ isDerivedIV SE L p = false)) →
      elimPhis SE X U L Primary (pre.length + k) (pre ++ x :: rest).head? (st, Dead) =
        elimPhis SE X U L Primary k (some x) (st, Dead)
  | [], _, _, _ => by simp
  | p :: pre, a, hs, hpre => by
    have hp := hpre p (List.mem_cons_self _ _)
    have hfuel : (p :: pre).length + k = (pre.length + k) + 1 := by simp; omega
    rw [hfuel]
    simp only [List.cons_append, List.head?_cons]
    rw [elimPhis_skip_step SE X U L Primary _ p _ hp.1 hp.2]
    have hs2 : B.insts = a ++ p :: (pre ++ x :: rest) := by simpa using hs
    rw [nextInst_of_split hnd hB hs2]
    apply elimPhis_walk_pre SE X U L Primary st Dead B hnd hB x rest k pre (a ++ [p])
    · simpa using hs
    · exact fun q hq => hpre q (List.mem_cons_of_mem _ hq)

/-- Walking over instructions none of which is a merge point to eliminate
leaves the state as it is. -/
theorem elimPhis_walk_post (SE : ScalarEvolution) (X : Expander) (U : UseOrder)
    (L : Loop) (Primary : Nat)
    (st : ElimState) (Dead : List Nat) (B : BasicBlock) (hnd : (instIds st.fn).Nodup)
    (hB : B ∈ st.fn) :
    ∀ (rest a : List Instruction) (fuel : Nat), B.insts = a ++ rest →
      (∀ q ∈ rest, q.isPHI = true → q.id = Primary ∨ isDerivedIV SE L q = false) →
      elimPhis SE X U L Primary fuel rest.head? (st, Dead) = (st, Dead)
  | [], _, fuel, _, _ => by simpa using elimPhis_none SE X U L Primary fuel (st, Dead)
  | q :: rest, a, fuel, hs, hskip => by
    simp only [List.head?_cons]
    by_cases hphi : q.isPHI = true
    · cases fuel with
      | zero => rfl
      | succ n =>
        rw [elimPhis_skip_step SE X U L Primary _ q _ hphi (hskip q (List.mem_cons_self _ _) hphi)]
        rw [nextInst_of_split hnd hB hs]
        apply elimPhis_walk_post SE X U L Primary st Dead B hnd hB rest (a ++ [q]) n
        · simpa using hs
        · exact fun r hr => hskip r (List.mem_cons_of_mem _ hr)
    · exact elimPhis_stop SE X U L Primary fuel q _ (by simpa using hphi)

end DerivedInductionVar

namespace DerivedInductionVar

open IR SCEVModel

theorem elimLoop_single (SE : ScalarEvolution) (X : Expander) (U : UseOrder) (L : Loop) (F : Func)
    (h i : Nat) (H : BasicBlock) (pre rest : List Instruction) (j : Instruction)
    (hsub : L.subLoops.isEmpty = true) (hhdr : L.header = some h)
    (hH : findBlock F h = some H) (hsplit : H.insts = pre ++ j :: rest)
    (hpre : ∀ p ∈ pre, p.isPHI = true) (hj : j.isPHI = true)
    (hprim : findPrimaryIV SE F L = some i) (hji : j.id ≠ i)
    (hder : isDerivedIV SE L j = true)
    (honly : ∀ q ∈ allInsts F, q.isPHI = true → isDerivedIV SE L q = true →
      q.id = i ∨ q.id = j.id)
    (hnd : (instIds F).Nodup) (hX : FreshExpander X) :
    elimLoop SE X U L (startState F) =
      eraseDead (if useEmpty (afterUses SE X U F j).fn j.id then [j.id] else [])
        (afterUses SE X U F j) := by
  have hHmem : H ∈ F := List.mem_of_find?_eq_some hH
  have hHnd := nodup_block_of_nodup hnd hHmem
  rw [hsplit] at hHnd
  have hjmem : j ∈ allInsts F := mem_allInsts.2 ⟨H, hHmem, by rw [hsplit]; simp⟩
  obtain ⟨k, hk⟩ := length_phis_of_split hsplit hpre hj
  -- the merge points in front of `j` are skipped
  have hpreskip : ∀ p ∈ pre, p.isPHI = true ∧ (p.id = i ∨ isDerivedIV SE L p = false) := by
    intro p hp
    refine ⟨hpre p hp, ?_⟩
    cases hd : isDerivedIV SE L p with
    | false => exact Or.inr rfl
    | true =>
      have hpm : p ∈ allInsts F :=
        mem_allInsts.2 ⟨H, hHmem, by rw [hsplit]; exact List.mem_append_left _ hp⟩
      rcases honly p hpm (hpre p hp) hd with h1 | h1
      · exact Or.inl h1
      · exact absurd h1 (id_ne_of_mem_left hHnd hp)
  -- the graph after the use edges of `j` were handled
  have hnd1 : (instIds (afterUses SE X U F j).fn).Nodup :=
    rewriteUses_nodup hX j _ _ hnd
  have hjid : j.id ∈ instIds (afterUses SE X U F j).fn :=
    rewriteUses_mem_ids SE X j _ _ (List.mem_map_of_mem _ hjmem)
  obtain ⟨j1, hj1, hj1id⟩ := List.mem_map.1 hjid
  obtain ⟨B1, hB1, hj1B⟩ := mem_allInsts.1 hj1
  obtain ⟨a1, rest1, hs1⟩ := List.append_of_mem hj1B
  have hB1nd := nodup_block_of_nodup hnd1 hB1
  rw [hs1] at hB1nd
  have hpost : ∀ q ∈ rest1, q.isPHI = true → q.id = i ∨ isDerivedIV SE L q = false := by
    intro q hq hphi
    cases hd : isDerivedIV SE L q with
    | false => exact Or.inr rfl
    | true =>
      left
      have hqm : q ∈ allInsts (afterUses SE X U F j).fn :=
        mem_allInsts.2 ⟨B1, hB1, by rw [hs1]; simp [hq]⟩
      obtain ⟨q0, hq0, hid0, hty0, hp0⟩ := rewriteUses_phi SE X j _ _ q hqm hphi
      have hd0 : isDerivedIV SE L q0 = true := by
        rw [isDerivedIV_congr SE L hid0 hty0]; exact hd
      rcases honly q0 hq0 hp0 hd0 with h1 | h1
      · exact hid0 ▸ h1
      · exfalso
        exact id_ne_of_mem_right hB1nd hq (by rw [← hid0, h1, hj1id])
  have hnext : nextInst (afterUses SE X U F j).fn j.id = rest1.head? := by
    rw [← hj1id]
    exact nextInst_of_split hnd1 hB1 hs1
  -- run the loop body
  have hprim0 : findPrimaryIV SE (startState F).fn L = some i := hprim
  have hH0 : findBlock (startState F).fn h = some H := hH
  unfold elimLoop
  simp only [hsub, Bool.not_true, Bool.false_eq_true, if_false, hhdr, hprim0, hH0, hk]
  have hhead : H.insts.head? = (pre ++ j :: rest).head? := by rw [hsplit]
  have hwalk := elimPhis_walk_pre SE X U L i (startState F) [] H hnd hHmem j rest (k + 1) pre []
    (by simpa using hsplit) hpreskip
  rw [hhead, hwalk, elimPhis_process_step SE X U L i k j (startState F) [] hj hji hder]
  have hpostwalk := elimPhis_walk_post SE X U L i (afterUses SE X U F j)
    (if useEmpty (afterUses SE X U F j).fn j.id then [] ++ [j.id] else []) B1 hnd1 hB1
    rest1 (a1 ++ [j1]) k (by simpa using hs1) hpost
  rw [← hnext] at hpostwalk
  have hfold : rewriteUses SE X j (U.uses (startState F).fn j.id) (startState F)
      = afterUses SE X U F j := rfl
  rw [hfold, hpostwalk]
  simp

end DerivedInductionVar

namespace DerivedInductionVar

open IR SCEVModel

theorem le_foldr_max_of_mem {x : Nat} : ∀ (l : List Nat), x ∈ l → x ≤ l.foldr max 0
  | [], h => by cases h
  | y :: l, h => by
    simp only [List.foldr_cons]
    rcases List.mem_cons.1 h with rfl | h
    · exact Nat.le_max_left _ _
    · exact Nat.le_trans (le_foldr_max_of_mem l h) (Nat.le_max_right _ _)

theorem le_maxId_of_mem {f : Func} {x : Nat} (h : x ∈ instIds f) : x ≤ Examples.maxId f :=
  le_foldr_max_of_mem _ h

theorem freshExpander_doubling (primary : Nat) : FreshExpander (Examples.doubling primary) := by
  intro f S ty u
  refine ⟨by simp [Examples.doubling], ?_⟩
  intro n hn hmem
  simp only [Examples.doubling, List.mem_singleton] at hn
  subst hn
  have := le_maxId_of_mem hmem
  simp at this

/-- C5: elimination correctness.  Take a graph with unique instruction
identities whose one loop `L` (no sub-loops) has primary IV `i` and, in its
header, the derived IV `j`, the only other merge point that is a recurrence
over `L`; take a synthesizer whose instructions are new objects and which
yields a value other than `j` for `j`'s recurrence at every use site.  Let `r`
be the state after `DerivedInductionVarElim::run`.  Then every use edge
`(u, s)` that referred to `j` before the run was redirected to a value `v` the
synthesizer yielded for `j`'s recurrence descriptor, `j`'s type and insertion
point `u`, and slot `s` of `u` holds `v` after the run; `j` is gone from the
graph whenever no use of `j` remains; and no use remains, `j` is deleted and
the run reports a change, when the synthesized instructions do not themselves
use `j`. -/
theorem eliminateDerivedIVs_rewrites_derived (SE : ScalarEvolution) (X : Expander)
    (U : UseOrder) (L : Loop) (F : Func) (h i : Nat) (H : BasicBlock)
    (pre rest : List Instruction) (j : Instruction) (r : ElimState)
    (hr : r = DerivedInductionVarElim.run SE X U [L] F)
    (hsub : L.subLoops.isEmpty = true) (hhdr : L.header = some h)
    (hH : findBlock F h = some H) (hsplit : H.insts = pre ++ j :: rest)
    (hpre : ∀ p ∈ pre, p.isPHI = true) (hj : j.isPHI = true)
    (hprim : findPrimaryIV SE F L = some i) (hji : j.id ≠ i)
    (hder : isDerivedIV SE L j = true)
    (honly : ∀ q ∈ allInsts F, q.isPHI = true → isDerivedIV SE L q = true →
      q.id = i ∨ q.id = j.id)
    (hnd : (instIds F).Nodup) (hX : FreshExpander X)
    (hsucc : ∀ f u, ∃ v, (X f (SE j.id) j.ty u).value = some v ∧ v ≠ Value.inst j.id) :
    (∀ u s, (u, s) ∈ usesOf F j.id →
      ∃ v f', (X f' (SE j.id) j.ty u).value = some v ∧ v ≠ Value.inst j.id ∧
        Event.redirect j.id u s v ∈ r.trace ∧
        (u ≠ j.id → operandAt r.fn u s = some v)) ∧
    (useEmpty r.fn j.id = true → j.id ∉ instIds r.fn) ∧
    ((∀ f S ty u, ∀ n ∈ (X f S ty u).insts, Value.inst j.id ∉ n.operands) →
      useEmpty r.fn j.id = true ∧ j.id ∉ instIds r.fn ∧ Event.erase j.id ∈ r.trace ∧
        r.changed = true) := by
  have hrun : r =
      eraseDead (if useEmpty (afterUses SE X U F j).fn j.id then [j.id] else [])
        (afterUses SE X U F j) := by
    rw [hr]
    simp only [DerivedInductionVarElim.run, List.foldl_cons, List.foldl_nil]
    exact elimLoop_single SE X U L F h i H pre rest j hsub hhdr hH hsplit hpre hj hprim hji hder
      honly hnd hX
  have hslots : ∀ x ∈ U.uses F j.id, SlotExists (startState F).fn x.1 x.2 :=
    fun x hx => slotExists_of_mem_usesOf ((U.perm F j.id).mem_iff.1 hx)
  have hnd1 : (instIds (afterUses SE X U F j).fn).Nodup := rewriteUses_nodup hX j _ _ hnd
  have hredirect : ∀ u s, (u, s) ∈ usesOf F j.id →
      ∃ v f', (X f' (SE j.id) j.ty u).value = some v ∧ v ≠ Value.inst j.id ∧
        Event.redirect j.id u s v ∈ (afterUses SE X U F j).trace ∧
        HasOperand (afterUses SE X U F j).fn u s v := by
    intro u s hus
    exact rewriteUses_redirected SE X j hsucc (U.uses F j.id) (startState F)
      ((U.perm F j.id).mem_iff.2 hus) (slotExists_of_mem_usesOf hus)
  cases hempty : useEmpty (afterUses SE X U F j).fn j.id with
  | true =>
    rw [hempty] at hrun
    simp only [if_true, eraseDead] at hrun
    rw [hrun]
    have hgone : j.id ∉ instIds (removeInst (afterUses SE X U F j).fn j.id) :=
      not_mem_instIds_removeInst _ _
    refine ⟨?_, fun _ => hgone, fun _ => ⟨?_, hgone, by simp, rfl⟩⟩
    · intro u s hus
      obtain ⟨v, f', hv, hne, htr, hop⟩ := hredirect u s hus
      refine ⟨v, f', hv, hne, List.mem_append_left _ htr, fun hu => ?_⟩
      exact operandAt_of_hasOperand (nodup_instIds_removeInst _ hnd1)
        (hasOperand_removeInst _ hu hop)
    · unfold useEmpty
      rw [List.isEmpty_iff]
      apply List.eq_nil_iff_forall_not_mem.2
      rintro ⟨u, s⟩ he
      obtain ⟨q, hq, hid, hop⟩ := mem_usesOf.1 he
      have hq2 := (mem_allInsts_removeInst.1 hq).1
      have hin : (u, s) ∈ usesOf (afterUses SE X U F j).fn j.id :=
        mem_usesOf.2 ⟨q, hq2, hid, hop⟩
      unfold useEmpty at hempty
      rw [List.isEmpty_iff] at hempty
      rw [hempty] at hin
      cases hin
  | false =>
    rw [hempty] at hrun
    simp only [Bool.false_eq_true, if_false, eraseDead] at hrun
    rw [hrun]
    refine ⟨?_, fun hu => ?_, fun hnouse => ?_⟩
    · intro u s hus
      obtain ⟨v, f', hv, hne, htr, hop⟩ := hredirect u s hus
      exact ⟨v, f', hv, hne, htr, fun _ => operandAt_of_hasOperand hnd1 hop⟩
    · rw [hempty] at hu
      cases hu
    · exfalso
      have hnone : usesOf (afterUses SE X U F j).fn j.id = [] := by
        apply List.eq_nil_iff_forall_not_mem.2
        intro e he
        obtain ⟨h1, h2⟩ := rewriteUses_uses SE X j hsucc hnouse (U.uses F j.id)
          (startState F) hslots he
        exact h2 ((U.perm F j.id).mem_iff.2 h1)
      unfold useEmpty at hempty
      rw [hnone] at hempty
      cases hempty

/-- C5 at `twoCounters` with a synthesizer materialising `2 * i`: both uses of
`j` are redirected and `j` is deleted. -/
theorem eliminateDerivedIVs_rewrites_derived_witness :
    (∀ u s, (u, s) ∈ usesOf Examples.twoCounters Examples.ivJ.id →
      ∃ v f', (Examples.doubling 10 f' (Examples.twoCountersSE Examples.ivJ.id)
          Examples.ivJ.ty u).value = some v ∧ v ≠ Value.inst Examples.ivJ.id ∧
        Event.redirect Examples.ivJ.id u s v ∈ Examples.twoCountersAfter.trace ∧
        (u ≠ Examples.ivJ.id → operandAt Examples.twoCountersAfter.fn u s = some v)) ∧
    (useEmpty Examples.twoCountersAfter.fn Examples.ivJ.id = true →
      Examples.ivJ.id ∉ instIds Examples.twoCountersAfter.fn) ∧
    useEmpty Examples.twoCountersAfter.fn Examples.ivJ.id = true ∧
    Examples.ivJ.id ∉ instIds Examples.twoCountersAfter.fn ∧
    Event.erase Examples.ivJ.id ∈ Examples.twoCountersAfter.trace ∧
    Examples.twoCountersAfter.changed = true :=
  (fun h => ⟨h.1, h.2.1, h.2.2 (fun f S ty u n hn => by
      simp only [Examples.doubling, List.mem_singleton] at hn
      subst hn
      simp [Examples.ivJ, Examples.phi])⟩)
    (eliminateDerivedIVs_rewrites_derived Examples.twoCountersSE (Examples.doubling 10)
      Examples.programOrder Examples.countersLoop Examples.twoCounters 1 10
      Examples.twoCountersHeader [Examples.ivI] _ Examples.ivJ Examples.twoCountersAfter rfl
      (by decide) rfl (by decide) rfl (by decide) rfl (by decide) (by decide) (by decide)
      (by decide) (by decide) (freshExpander_doubling 10)
      (fun f u => ⟨Value.inst (Examples.maxId f + 1000), rfl, by
        simp [Examples.ivJ, Examples.phi]⟩))

end DerivedInductionVar

namespace DerivedInductionVar

open IR SCEVModel

theorem isDerivedIV_iff (SE : ScalarEvolution) (L : Loop) (PN : Instruction) :
    isDerivedIV SE L PN = true ↔ AffineOver SE L PN := by
  unfold isDerivedIV AffineOver
  cases hty : PN.ty.isIntegerTy
  · simp
  · cases hs : SE PN.id with
    | constant c => simp
    | unknown t => simp
    | addRec loop start step affine =>
      simp only [Bool.not_true, Bool.false_eq_true, if_false, Bool.and_eq_true, beq_iff_eq,
        true_and, SCEV.addRec.injEq]
      constructor
      · rintro ⟨hl, ha⟩
        exact ⟨start, step, hl, rfl, rfl, ha⟩
      · rintro ⟨s, t, hl, -, -, ha⟩
        exact ⟨hl, ha⟩

/-- C6: no primary, no rewrite.  When no loop the pass looks at has, among its
header merge points, an integer-typed affine recurrence over the loop with a
constant step of absolute value one, `DerivedInductionVarElim::run` returns the
graph as it was with `changed = false`, and its trace is empty: no synthesizer
call, no redirected edge, no deleted merge point. -/
theorem eliminateDerivedIVs_no_primary (SE : ScalarEvolution) (X : Expander) (U : UseOrder)
    (LI : List Loop) (F : Func) (r : ElimState)
    (hr : r = DerivedInductionVarElim.run SE X U LI F)
    (h : ∀ L ∈ LI, L.subLoops.isEmpty = true →
      ∀ q ∈ headerPhis F L, ¬ UnitStrideOver SE L q) :
    r.fn = F ∧ r.changed = false ∧ r.trace = [] := by
  have hfix : DerivedInductionVarElim.run SE X U LI F = startState F := by
    apply foldl_elimLoop_fixed
    intro L hL
    cases hsub : L.subLoops.isEmpty with
    | false => exact elimLoop_of_subLoops SE X U L _ hsub
    | true =>
      exact elimLoop_of_no_primary SE X U L _
        ((findPrimaryIV_eq_none_iff SE F L).2 (h L hL hsub))
  rw [hr, hfix]
  exact ⟨rfl, rfl, rfl⟩

/-- C6 at `stepTwoCounter`, whose only recurrence has step 2: nothing is
rewritten although `j` has uses and the synthesizer would succeed. -/
theorem eliminateDerivedIVs_no_primary_witness :
    Examples.stepTwoOnlyAfter.fn = Examples.stepTwoCounter ∧
      Examples.stepTwoOnlyAfter.changed = false ∧
      Examples.stepTwoOnlyAfter.trace = [] :=
  eliminateDerivedIVs_no_primary Examples.stepTwoOnlySE (Examples.doubling 10)
    Examples.programOrder [Examples.countersLoop] Examples.stepTwoCounter
    Examples.stepTwoOnlyAfter rfl
    (fun L hL _ q hq hu => by
      have hL2 : L = Examples.countersLoop := List.mem_singleton.1 hL
      subst hL2
      have hq2 : q ∈ [Examples.ivJ] := hq
      have hq3 : q = Examples.ivJ := List.mem_singleton.1 hq2
      subst hq3
      have ht := (unitStrideTest_iff _ _ _).2 hu
      revert ht
      decide)

theorem findPrimaryIVIn_withPreheader (SE : ScalarEvolution) (L : Loop) (p : Option Nat) :
    ∀ l, findPrimaryIVIn SE (L.withPreheader p) l = findPrimaryIVIn SE L l
  | [] => rfl
  | PN :: rest => by
    rw [findPrimaryIVIn_cons, findPrimaryIVIn_cons, findPrimaryIVIn_withPreheader SE L p rest]
    rfl

theorem findPrimaryIV_withPreheader (SE : ScalarEvolution) (f : Func) (L : Loop)
    (p : Option Nat) : findPrimaryIV SE f (L.withPreheader p) = findPrimaryIV SE f L := by
  unfold findPrimaryIV
  have hh : (L.withPreheader p).header = L.header := rfl
  have hp : headerPhis f (L.withPreheader p) = headerPhis f L := rfl
  rw [hh, hp]
  cases L.header with
  | none => rfl
  | some _ => exact findPrimaryIVIn_withPreheader SE L p _

theorem elimPhis_withPreheader (SE : ScalarEvolution) (X : Expander) (U : UseOrder) (L : Loop)
    (p : Option Nat) (Primary : Nat) :
    ∀ (fuel : Nat) (cur : Option Instruction) (acc : ElimState × List Nat),
      elimPhis SE X U (L.withPreheader p) Primary fuel cur acc
        = elimPhis SE X U L Primary fuel cur acc := by
  intro fuel
  induction fuel with
  | zero => intro cur acc; rfl
  | succ n ih =>
    intro cur acc
    obtain ⟨st, Dead⟩ := acc
    cases cur with
    | none => rfl
    | some PN =>
      have hd : isDerivedIV SE (L.withPreheader p) PN = isDerivedIV SE L PN := rfl
      rw [elimPhis, elimPhis, hd]
      simp only [ih]

theorem elimLoop_withPreheader (SE : ScalarEvolution) (X : Expander) (U : UseOrder) (L : Loop)
    (p : Option Nat) (st : ElimState) :
    elimLoop SE X U (L.withPreheader p) st = elimLoop SE X U L st := by
  unfold elimLoop
  have hs : (L.withPreheader p).subLoops = L.subLoops := rfl
  have hh : (L.withPreheader p).header = L.header := rfl
  rw [hs, hh, findPrimaryIV_withPreheader]
  simp only [elimPhis_withPreheader]

theorem foldl_elimLoop_withPreheader (SE : ScalarEvolution) (X : Expander) (U : UseOrder)
    (g : Loop → Option Nat) :
    ∀ (LI : List Loop) (st : ElimState),
      (LI.map (fun L => L.withPreheader (g L))).foldl (fun s L => elimLoop SE X U L s) st
        = LI.foldl (fun s L => elimLoop SE X U L s) st
  | [], _ => rfl
  | L :: LI, st => by
    simp only [List.map_cons, List.foldl_cons, elimLoop_withPreheader]
    exact foldl_elimLoop_withPreheader SE X U g LI _

/-- C8, as the code has it: `DerivedInductionVarElim::run` never reads the
preheader.
Replacing the preheader of every loop by anything, for instance by nothing,
leaves every synthesizer call, every redirection, every deletion, the final
graph and the `changed` flag the same. -/
theorem eliminateDerivedIVs_preheader_irrelevant (SE : ScalarEvolution) (X : Expander)
    (U : UseOrder)
    (LI : List Loop) (F : Func) (g : Loop → Option Nat) :
    DerivedInductionVarElim.run SE X U (LI.map (fun L => L.withPreheader (g L))) F
      = DerivedInductionVarElim.run SE X U LI F :=
  foldl_elimLoop_withPreheader SE X U g LI (startState F)

/-- C8 as stated fails: the loop of `twoCounters` without a preheader has
primary `i` and derived `j` with uses; the run redirects both uses of `j`,
deletes `j` and reports a change. -/
theorem eliminateDerivedIVs_no_preheader_rewrites :
    Examples.countersLoopNoPreheader.preheader = none ∧
      Examples.noPreheaderAfter.changed = true ∧
      Examples.noPreheaderAfter.trace =
        [Event.synthesize 11 21 0, Event.redirect 11 21 0 (Value.inst 1102),
         Event.synthesize 11 30 1, Event.redirect 11 30 1 (Value.inst 2102),
         Event.erase 11] ∧
      Examples.noPreheaderAfter.fn ≠ Examples.twoCounters := by
  decide

end DerivedInductionVar

namespace DerivedInductionVar

open IR SCEVModel

/-- C9 fails on the code: the loop `innerLoop` has no sub-loops, a header, the
primary IV `i` and the derived IV `j`, whose uses the synthesizer can all
materialise, and run as a top-level loop it is rewritten; but nested in
`outerLoop` it is never reached, because the pass iterates the top-level loops
only and skips `outerLoop` for having a sub-loop.  The graph stays as it was,
`j` keeps its uses, and `changed = false`. -/
theorem eliminateDerivedIVs_skips_nested_loop :
    Examples.innerLoop.subLoops.isEmpty = true ∧
      Examples.outerLoop.subLoops.length = 1 ∧
      findPrimaryIV Examples.nestedSE Examples.nestedCounters Examples.innerLoop
        = some 10 ∧
      isDerivedIV Examples.nestedSE Examples.innerLoop Examples.ivJ = true ∧
      Examples.ivJ ∈ headerPhis Examples.nestedCounters Examples.innerLoop ∧
      Examples.nestedAfter.fn = Examples.nestedCounters ∧
      Examples.nestedAfter.changed = false ∧
      Examples.nestedAfter.trace = [] ∧
      usesOf Examples.nestedAfter.fn 11 = [(21, 0), (30, 1)] ∧
      Examples.innerAloneAfter.trace =
        [Event.synthesize 11 21 0, Event.redirect 11 21 0 (Value.inst 1104),
         Event.synthesize 11 30 1, Event.redirect 11 30 1 (Value.inst 2104),
         Event.erase 11] := by
  decide

theorem mem_reportLoop_derivedIV (SE : ScalarEvolution) (F : Func) (L : Loop) (p : Nat) :
    ReportLine.derivedIV p ∈ reportLoop SE F L ↔
      L.subLoops.isEmpty = true ∧ ∃ P ∈ headerPhis F L, P.id = p ∧ AffineOver SE L P ∧
        findPrimaryIV SE F L ≠ some P.id := by
  unfold reportLoop
  cases hsub : L.subLoops.isEmpty with
  | false => simp
  | true =>
    have hfilter : (∃ P, (P ∈ headerPhis F L ∧ ¬ some P.id = findPrimaryIV SE F L ∧
          AffineOver SE L P) ∧ P.id = p) ↔
        ∃ P ∈ headerPhis F L, P.id = p ∧ AffineOver SE L P ∧
          findPrimaryIV SE F L ≠ some P.id := by
      constructor
      · rintro ⟨P, ⟨hP, hne, haff⟩, hid⟩
        exact ⟨P, hP, hid, haff, fun h => hne h.symm⟩
      · rintro ⟨P, hP, hid, haff, hne⟩
        exact ⟨P, ⟨hP, fun h => hne h.symm, haff⟩, hid⟩
    cases hh : L.header with
    | none =>
      have hphis : headerPhis F L = [] := by simp [headerPhis, hh]
      cases hprim : findPrimaryIV SE F L <;> simp [hphis]
    | some hd =>
      cases hprim : findPrimaryIV SE F L with
      | none =>
        rw [hprim] at hfilter
        simpa [isDerivedIV_iff] using hfilter
      | some q =>
        rw [hprim] at hfilter
        simpa [isDerivedIV_iff] using hfilter

/-- C10, as the code has it.  The analysis reports merge point `p` as a derived
IV exactly when some loop the pass visits (a top-level loop without sub-loops)
has `p` among its header merge points, `p` is integer-typed, its recurrence is
an affine add-recurrence over that loop itself, and `p` is not the loop's
primary IV; the step is not looked at.  The eliminator applies the same test
to each merge point it visits: one that passes has its uses rewritten, one that
fails is stepped over. -/
theorem derivedIV_classification (SE : ScalarEvolution) (X : Expander) (U : UseOrder)
    (LI : List Loop)
    (F : Func) :
    (∀ p, ReportLine.derivedIV p ∈ DerivedInductionVarAnalysis.run SE LI F ↔
      ∃ L ∈ LI, L.subLoops.isEmpty = true ∧ ∃ P ∈ headerPhis F L, P.id = p ∧
        AffineOver SE L P ∧ findPrimaryIV SE F L ≠ some P.id) ∧
    (∀ (L : Loop) (Primary fuel : Nat) (PN : Instruction) (st : ElimState) (Dead : List Nat),
      PN.isPHI = true →
      (AffineOver SE L PN ∧ PN.id ≠ Primary →
        elimPhis SE X U L Primary (fuel + 1) (some PN) (st, Dead) =
          elimPhis SE X U L Primary fuel
            (nextInst (rewriteUses SE X PN (U.uses st.fn PN.id) st).fn PN.id)
            (rewriteUses SE X PN (U.uses st.fn PN.id) st,
              if useEmpty (rewriteUses SE X PN (U.uses st.fn PN.id) st).fn PN.id
              then Dead ++ [PN.id] else Dead)) ∧
      (¬ (AffineOver SE L PN ∧ PN.id ≠ Primary) →
        elimPhis SE X U L Primary (fuel + 1) (some PN) (st, Dead) =
          elimPhis SE X U L Primary fuel (nextInst st.fn PN.id) (st, Dead))) := by
  constructor
  · intro p
    simp only [DerivedInductionVarAnalysis.run, List.mem_flatMap, mem_reportLoop_derivedIV]
  · intro L Primary fuel PN st Dead hphi
    constructor
    · rintro ⟨haff, hne⟩
      exact elimPhis_process_step SE X U L Primary fuel PN st Dead hphi hne
        ((isDerivedIV_iff SE L PN).2 haff)
    · intro hn
      apply elimPhis_skip_step SE X U L Primary fuel PN (st, Dead) hphi
      by_cases hp : PN.id = Primary
      · exact Or.inl hp
      · right
        cases hd : isDerivedIV SE L PN with
        | false => rfl
        | true => exact absurd ⟨(isDerivedIV_iff SE L PN).1 hd, hp⟩ hn

/-- C10 as stated fails: the merge point `j` of `symbolicCounters` is an affine
recurrence over the loop whose step is not a constant, yet it is reported as a
derived IV and the eliminator rewrites its uses and deletes it. -/
theorem derivedIV_with_symbolic_step :
    ReportLine.derivedIV 11 ∈
        DerivedInductionVarAnalysis.run Examples.symbolicStepSE [Examples.countersLoop]
          Examples.symbolicCounters ∧
      Event.erase 11 ∈ Examples.symbolicStepAfter.trace ∧
      ¬ ∃ start c, Examples.symbolicStepSE 11
          = SCEV.addRec Examples.countersLoop.id start (SCEV.constant c) true ∧
        c.toInt ≠ 0 := by
  refine ⟨by decide, by decide, ?_⟩
  rintro ⟨start, c, h, -⟩
  revert h
  simp [Examples.symbolicStepSE, Loop.id]

end DerivedInductionVar

namespace SimpleLICM

open IR SCEVModel

/-- C7: a loop without a preheader is left exactly as it was: `licm` returns
the graph unchanged and `changed = false`. -/
theorem licm_no_preheader (F : Func) (L : Loop) (h : L.preheader = none) :
    SimpleLICMLoop.run F L = Outcome.ok (F, false) := by
  simp [SimpleLICMLoop.run, h]

/-- C7 at `invariantChain`: without a preheader nothing moves, although `a` and
`b` could be hoisted. -/
theorem licm_no_preheader_witness :
    SimpleLICMLoop.run Examples.invariantChain Examples.chainLoopNoPreheader
      = Outcome.ok (Examples.invariantChain, false) :=
  licm_no_preheader Examples.invariantChain Examples.chainLoopNoPreheader rfl

/-- C2 fails on the code.  On `a = 5 + 7; b = a * 3; c = load(ptr)` the first
scan moves `a` in front of the preheader's terminator (instruction 100).  The
block iterator still points at `a`, so stepping it leads to the terminator of
the preheader and then to the `end()` of the preheader's list, which is not the
`end()` of the loop block the scan compares with: the scan dereferences it.
The run has undefined behaviour instead of returning with `a` and `b` in the
preheader. -/
theorem licm_invariant_chain_undefined :
    moveBefore Examples.invariantChain 1 100 =
        [ { id := 0, insts := [Examples.op 1 [Value.const 5, Value.const 7],
                               Examples.br 100 [Value.other 1]] },
          { id := 1, insts :=
              [ Examples.op 2 [Value.inst 1, Value.const 3],
                Examples.load 3 [Value.other 9],
                Examples.br 101 [Value.other 1, Value.other 2] ] },
          { id := 2, insts := [Examples.br 102 []] } ] ∧
      successor (moveBefore Examples.invariantChain 1 100) 1 = some (Node.inst 100) ∧
      successor (moveBefore Examples.invariantChain 1 100) 100 = some (Node.sentinel 0) ∧
      SimpleLICMLoop.run Examples.invariantChain Examples.chainLoop
        = Outcome.undefinedBehaviour := by
  decide

/-- C3 fails on the code.  The loop of `singleInvariant` has a preheader and
holds the eligible instruction `a = 5 + 7`, whose operands are constants; the
first run does not report `changed = true`: after moving `a` the block iterator
runs off the end of the preheader's list and the run has undefined
behaviour. -/
theorem licm_first_run_undefined :
    Examples.chainLoop.preheader = some 0 ∧
      isPureRegOp (Examples.op 1 [Value.const 5, Value.const 7]) = true ∧
      (Examples.op 1 [Value.const 5, Value.const 7]).operands.all
        (fun Op => operandIsLoopInvariant Examples.singleInvariant Op Examples.chainLoop)
        = true ∧
      findInst Examples.singleInvariant 1
        = some (Examples.op 1 [Value.const 5, Value.const 7]) ∧
      Examples.chainLoop.contains Examples.singleInvariant 1 = true ∧
      SimpleLICMLoop.run Examples.singleInvariant Examples.chainLoop
        = Outcome.undefinedBehaviour ∧
      SimpleLICMLoop.run Examples.singleInvariant Examples.chainLoop
        ≠ Outcome.ok (moveBefore Examples.singleInvariant 1 100, true) := by
  decide

end SimpleLICM

namespace DerivedInductionVar

open IR SCEVModel

/-- C4 as stated fails, in both halves.  On `chainedCounters` with a
synthesizer that refuses, the first run keeps `d2` (its use by `d1` is not
redirected) and deletes the unused `d1`; `d2` is then unused, so the second run
deletes it and reports `changed = true`.  On `twoCounters` with the same
synthesizer the loop has a primary and a derived IV, yet the first run changes
nothing and reports `changed = false`. -/
theorem eliminateDerivedIVs_not_idempotent :
    Examples.chainedAfter.trace = [Event.synthesize 12 13 1, Event.erase 13] ∧
      Examples.chainedAgain.changed = true ∧
      Examples.chainedAgain.trace = [Event.erase 12] ∧
      findPrimaryIV Examples.twoCountersSE Examples.twoCounters Examples.countersLoop
        = some 10 ∧
      isDerivedIV Examples.twoCountersSE Examples.countersLoop Examples.ivJ = true ∧
      Examples.refusedAfter.changed = false := by
  decide

end DerivedInductionVar

namespace IR

theorem getTerminator_eq_some {b : BasicBlock} {T : Instruction}
    (h : getTerminator b = some T) : (∃ init, b.insts = init ++ [T]) ∧ T.isTerminator = true := by
  unfold getTerminator at h
  cases hl : b.insts.getLast? with
  | none => simp [hl] at h
  | some t =>
    simp only [hl] at h
    by_cases ht : t.isTerminator = true
    · simp only [ht, if_true, Option.some.injEq] at h
      subst h
      exact ⟨List.getLast?_eq_some_iff.1 hl, ht⟩
    · simp [ht] at h

theorem findInst_some {f : Func} {iid : Nat} {I : Instruction} (h : findInst f iid = some I) :
    I ∈ allInsts f ∧ I.id = iid := by
  unfold findInst at h
  exact ⟨List.mem_of_find?_eq_some h, by simpa using List.find?_some h⟩

theorem findBlock_some {f : Func} {bid : Nat} {b : BasicBlock} (h : findBlock f bid = some b) :
    b ∈ f ∧ b.id = bid := by
  unfold findBlock at h
  exact ⟨List.mem_of_find?_eq_some h, by simpa using List.find?_some h⟩

/-- The graph after `I` was moved in front of the terminator `T` of block `P`:
identities stay unique, and `P` ends in `I`, `T`. -/
theorem moveBefore_terminator {f : Func} {P : BasicBlock} {T I : Instruction} {iid : Nat}
    (hnd : (instIds f).Nodup) (hP : P ∈ f) (hT : getTerminator P = some T)
    (hI : findInst f iid = some I) (hne : T.id ≠ iid) :
    (instIds (moveBefore f iid T.id)).Nodup ∧
      ∃ P2 ∈ moveBefore f iid T.id, P2.id = P.id ∧ ∃ a, P2.insts = a ++ I :: [T] := by
  obtain ⟨hImem, hIid⟩ := findInst_some hI
  obtain ⟨⟨init, hinit⟩, -⟩ := getTerminator_eq_some hT
  have hmv : moveBefore f iid T.id = insertBefore (removeInst f iid) T.id [I] := by
    simp [moveBefore, hI]
  rw [hmv]
  constructor
  · apply nodup_instIds_insertBefore (nodup_instIds_removeInst _ hnd) (by simp)
    intro n hn
    rw [List.mem_singleton.1 hn, hIid]
    exact not_mem_instIds_removeInst _ _
  · refine ⟨BasicBlock.mk P.id ((P.insts.filter (fun i => i.id != iid)).flatMap
        (fun i => if i.id == T.id then [I] ++ [i] else [i])), ?_, rfl, ?_⟩
    · unfold insertBefore removeInst
      rw [List.map_map]
      exact List.mem_map.2 ⟨P, hP, rfl⟩
    · refine ⟨(init.filter (fun i => i.id != iid)).flatMap
        (fun i => if i.id == T.id then [I] ++ [i] else [i]), ?_⟩
      have hb : (T.id != iid) = true := by simpa using hne
      simp [hinit, List.filter_append, hb]

end IR

namespace SimpleLICM

open IR SCEVModel

theorem isPureRegOp_not_terminator {I : Instruction} (h : isPureRegOp I = true) :
    I.isTerminator = false := by
  unfold isPureRegOp at h
  cases ht : I.isTerminator with
  | false => rfl
  | true => simp [ht] at h

theorem isPureRegOp_of_terminator {T : Instruction} (h : T.isTerminator = true) :
    isPureRegOp T = false := by
  simp [isPureRegOp, h]

theorem successor_of_split_next {f : Func} {B : BasicBlock} {a b : List Instruction}
    {q n : Instruction} (hnd : (instIds f).Nodup) (hB : B ∈ f)
    (hs : B.insts = a ++ q :: n :: b) : successor f q.id = some (Node.inst n.id) := by
  have hq : q ∈ B.insts := by rw [hs]; simp
  have hB2 := nodup_block_of_nodup hnd hB
  rw [hs] at hB2
  unfold successor
  rw [parentOf_of_mem hnd hB hq]
  simp only [hs]
  rw [dropWhile_of_nodup_map (fun i : Instruction => i.id) a q (n :: b) hB2]
  rfl

theorem successor_of_split_last {f : Func} {B : BasicBlock} {a : List Instruction}
    {q : Instruction} (hnd : (instIds f).Nodup) (hB : B ∈ f)
    (hs : B.insts = a ++ [q]) : successor f q.id = some (Node.sentinel B.id) := by
  have hq : q ∈ B.insts := by rw [hs]; simp
  have hB2 := nodup_block_of_nodup hnd hB
  rw [hs] at hB2
  unfold successor
  rw [parentOf_of_mem hnd hB hq]
  simp only [hs]
  rw [dropWhile_of_nodup_map (fun i : Instruction => i.id) a q [] hB2]
  rfl

theorem scanFrom_sentinel (L : Loop) (InsertPt : Option Nat) (BB fuel b : Nat)
    (st : LicmState) :
    scanFrom L InsertPt BB (fuel + 1) (Node.sentinel b) st =
      if b = BB then Outcome.ok st else Outcome.undefinedBehaviour := by
  rw [scanFrom]

theorem scanFrom_inst (L : Loop) (InsertPt : Option Nat) (BB fuel iid : Nat)
    (st : LicmState) :
    scanFrom L InsertPt BB (fuel + 1) (Node.inst iid) st =
      match findInst st.fn iid with
      | none => Outcome.undefinedBehaviour
      | some I =>
        if !isPureRegOp I || st.Hoisted.contains iid then
          match successor st.fn iid with
          | none => Outcome.undefinedBehaviour
          | some nxt => scanFrom L InsertPt BB fuel nxt st
        else if !(I.operands.all (fun Op => operandIsLoopInvariant st.fn Op L)) then
          match successor st.fn iid with
          | none => Outcome.undefinedBehaviour
          | some nxt => scanFrom L InsertPt BB fuel nxt st
        else
          match InsertPt with
          | none => Outcome.undefinedBehaviour
          | some pt =>
            match successor (moveBefore st.fn iid pt) iid with
            | none => Outcome.undefinedBehaviour
            | some nxt =>
              scanFrom L InsertPt BB fuel nxt
                { fn := moveBefore st.fn iid pt, Hoisted := st.Hoisted ++ [iid],
                  Changed := true, Progress := true } := rfl

/-- Once an instruction has been moved in front of the preheader's terminator,
the scan of a loop block cannot end: the iterator goes on to the terminator and
then to the end of the preheader's list. -/
theorem scanFrom_after_hoist (L : Loop) (BB : Nat) {f : Func} {P : BasicBlock}
    {T I : Instruction} {iid : Nat} (hnd : (instIds f).Nodup) (hP : P ∈ f)
    (hT : getTerminator P = some T) (hI : findInst f iid = some I)
    (hpure : isPureRegOp I = true) (hBB : P.id ≠ BB) (fuel : Nat) (nxt : Node)
    (st2 : LicmState) (hfn : st2.fn = moveBefore f iid T.id)
    (hnxt : successor (moveBefore f iid T.id) iid = some nxt) (r : LicmState) :
    scanFrom L (some T.id) BB fuel nxt st2 ≠ Outcome.ok r := by
  obtain ⟨hImem, hIid⟩ := findInst_some hI
  obtain ⟨-, hTterm⟩ := getTerminator_eq_some hT
  have hTmem : T ∈ allInsts f := by
    obtain ⟨⟨init, hinit⟩, -⟩ := getTerminator_eq_some hT
    exact mem_allInsts.2 ⟨P, hP, by rw [hinit]; simp⟩
  have hne : T.id ≠ iid := by
    intro h
    have h1 := findInst_of_mem hnd hTmem
    rw [h, hI] at h1
    have h2 : I = T := Option.some.inj h1
    rw [h2] at hpure
    simp [isPureRegOp, hTterm] at hpure
  obtain ⟨hnd1, P2, hP2, hP2id, a, hsplit⟩ := moveBefore_terminator hnd hP hT hI hne
  have hs1 : successor (moveBefore f iid T.id) iid = some (Node.inst T.id) := by
    have := successor_of_split_next hnd1 hP2 hsplit
    rwa [hIid] at this
  have hs2 : successor (moveBefore f iid T.id) T.id = some (Node.sentinel P.id) := by
    have hsplit2 : P2.insts = (a ++ [I]) ++ [T] := by simp [hsplit]
    rw [← hP2id]
    exact successor_of_split_last hnd1 hP2 hsplit2
  have hTmem1 : T ∈ allInsts (moveBefore f iid T.id) :=
    mem_allInsts.2 ⟨P2, hP2, by rw [hsplit]; simp⟩
  have hfT : findInst st2.fn T.id = some T := by
    rw [hfn]
    exact findInst_of_mem hnd1 hTmem1
  rw [hs1] at hnxt
  have hnxt2 : nxt = Node.inst T.id := (Option.some.inj hnxt).symm
  subst hnxt2
  have hs2' : successor st2.fn T.id = some (Node.sentinel P.id) := by
    rw [hfn]
    exact hs2
  have hneq : ¬ (P.id = BB) := hBB
  cases fuel with
  | zero => simp [scanFrom]
  | succ n =>
    have hstep : scanFrom L (some T.id) BB (n + 1) (Node.inst T.id) st2 =
        scanFrom L (some T.id) BB n (Node.sentinel P.id) st2 := by
      rw [scanFrom_inst]
      simp [hfT, isPureRegOp_of_terminator hTterm, hs2']
    rw [hstep]
    cases n with
    | zero => simp [scanFrom]
    | succ m =>
      rw [scanFrom_sentinel]
      simp [hneq]

/-- A scan of one loop block that ends has moved nothing. -/
theorem scanFrom_ok_unchanged (L : Loop) (BB : Nat) {f : Func} {P : BasicBlock}
    {T : Instruction} (hnd : (instIds f).Nodup) (hP : P ∈ f)
    (hT : getTerminator P = some T) (hBB : P.id ≠ BB) :
    ∀ (fuel : Nat) (cur : Node) (st r : LicmState), st.fn = f →
      scanFrom L (some T.id) BB fuel cur st = Outcome.ok r → r = st := by
  intro fuel
  induction fuel with
  | zero => intro cur st r _ h; simp [scanFrom] at h
  | succ n ih =>
    intro cur st r hfn h
    cases cur with
    | sentinel b =>
      rw [scanFrom_sentinel] at h
      by_cases hend : b = BB
      · simp only [hend, if_true] at h
        exact (Outcome.ok.inj h).symm
      · simp [hend] at h
    | inst iid =>
      rw [scanFrom_inst] at h
      cases hI : findInst st.fn iid with
      | none => simp [hI] at h
      | some I =>
        simp only [hI] at h
        by_cases hskip : (!isPureRegOp I || st.Hoisted.contains iid) = true
        · simp only [hskip, if_true] at h
          cases hs : successor st.fn iid with
          | none => simp [hs] at h
          | some nxt =>
            simp only [hs] at h
            exact ih nxt st r hfn h
        · simp only [hskip, if_false] at h
          by_cases hinv :
              (!(I.operands.all (fun Op => operandIsLoopInvariant st.fn Op L))) = true
          · simp only [hinv, if_true] at h
            cases hs : successor st.fn iid with
            | none => simp [hs] at h
            | some nxt =>
              simp only [hs] at h
              exact ih nxt st r hfn h
          · simp only [hinv, if_false] at h
            exfalso
            have hpure : isPureRegOp I = true := by
              cases hp : isPureRegOp I with
              | true => rfl
              | false => simp [hp] at hskip
            cases hs : successor (moveBefore st.fn iid T.id) iid with
            | none => simp [hs] at h
            | some nxt =>
              simp only [hs] at h
              rw [hfn] at hI hs h
              exact scanFrom_after_hoist L BB hnd hP hT hI hpure hBB n nxt _ rfl hs r h

theorem scanBlocks_ok_unchanged (L : Loop) {f : Func} {P : BasicBlock} {T : Instruction}
    (hnd : (instIds f).Nodup) (hP : P ∈ f) (hT : getTerminator P = some T) :
    ∀ (bs : List Nat) (st r : LicmState), st.fn = f → P.id ∉ bs →
      scanBlocks L (some T.id) bs st = Outcome.ok r → r = st
  | [], st, r, _, _, h => by
    simp only [scanBlocks] at h
    exact (Outcome.ok.inj h).symm
  | BB :: rest, st, r, hfn, hout, h => by
    have hBB : P.id ≠ BB := fun e => hout (e ▸ List.mem_cons_self _ _)
    have hrest : P.id ∉ rest := fun e => hout (List.mem_cons_of_mem _ e)
    rw [scanBlocks] at h
    cases hb : findBlock st.fn BB with
    | none =>
      simp only [hb] at h
      exact scanBlocks_ok_unchanged L hnd hP hT rest st r hfn hrest h
    | some b =>
      simp only [hb] at h
      cases hscan : scanFrom L (some T.id) BB ((allInsts st.fn).length + 2) (blockBegin b) st with
      | undefinedBehaviour => simp [hscan] at h
      | outOfFuel => simp [hscan] at h
      | ok st1 =>
        simp only [hscan] at h
        have h1 := scanFrom_ok_unchanged L BB hnd hP hT hBB _ _ st st1 hfn hscan
        subst h1
        exact scanBlocks_ok_unchanged L hnd hP hT rest st1 r hfn hrest h

theorem fixpoint_ok_unchanged (L : Loop) {f : Func} {P : BasicBlock} {T : Instruction}
    (hnd : (instIds f).Nodup) (hP : P ∈ f) (hT : getTerminator P = some T)
    (hout : P.id ∉ L.blocks) :
    ∀ (fuel : Nat) (st r : LicmState), st.fn = f →
      fixpoint L (some T.id) fuel st = Outcome.ok r → r.fn = f ∧ r.Changed = st.Changed := by
  intro fuel
  induction fuel with
  | zero => intro st r _ h; simp [fixpoint] at h
  | succ n ih =>
    intro st r hfn h
    rw [fixpoint] at h
    by_cases hp : st.Progress = true
    · simp only [hp, if_true] at h
      cases hscan : scanBlocks L (some T.id) L.blocks { st with Progress := false } with
      | undefinedBehaviour => simp [hscan] at h
      | outOfFuel => simp [hscan] at h
      | ok st1 =>
        simp only [hscan] at h
        have h1 := scanBlocks_ok_unchanged L hnd hP hT L.blocks
          { st with Progress := false } st1 hfn hout hscan
        subst h1
        exact ih { st with Progress := false } r hfn h
    · simp only [hp, if_false] at h
      have := Outcome.ok.inj h
      subst this
      exact ⟨hfn, rfl⟩

/-- Whenever `SimpleLICMLoop::run` returns on a loop whose preheader lies
outside the loop and ends in a terminator, in a graph with unique instruction
identities, it has moved nothing and reports no change: a run that moves an
instruction does not return. -/
theorem run_ok_unchanged (F : Func) (L : Loop) (ph : Nat) (P : BasicBlock) (T : Instruction)
    (F' : Func) (ch : Bool) (hnd : (instIds F).Nodup) (hph : L.preheader = some ph)
    (hP : findBlock F ph = some P) (hT : getTerminator P = some T) (hout : ph ∉ L.blocks)
    (hrun : SimpleLICMLoop.run F L = Outcome.ok (F', ch)) : F' = F ∧ ch = false := by
  obtain ⟨hPmem, hPid⟩ := findBlock_some hP
  unfold SimpleLICMLoop.run at hrun
  simp only [hph, hP, Option.some_bind, hT, Option.map_some'] at hrun
  cases hfix : fixpoint L (some T.id) ((allInsts F).length + 2)
      { fn := F, Hoisted := [], Changed := false, Progress := true } with
  | undefinedBehaviour => simp [hfix] at hrun
  | outOfFuel => simp [hfix] at hrun
  | ok st =>
    simp only [hfix, Outcome.ok.injEq, Prod.mk.injEq] at hrun
    obtain ⟨h1, h2⟩ := fixpoint_ok_unchanged L hnd hPmem hT (hPid ▸ hout) _ _ st rfl hfix
    exact ⟨hrun.1 ▸ h1, hrun.2 ▸ h2⟩

end SimpleLICM

namespace IR

theorem leadingPhis_cons (x : Instruction) (l : List Instruction) :
    leadingPhis (x :: l) = if x.isPHI then leadingPhis l + 1 else 0 := by
  unfold leadingPhis
  rw [List.takeWhile_cons]
  cases x.isPHI <;> simp

theorem leadingPhis_flatMap_le (pt : Nat) (news : List Instruction)
    (hnews : ∀ n ∈ news, n.isPHI = false) :
    ∀ (l : List Instruction),
      leadingPhis (l.flatMap (fun i => if i.id == pt then news ++ [i] else [i]))
        ≤ leadingPhis l
  | [] => by simp [leadingPhis]
  | x :: l => by
    have ih := leadingPhis_flatMap_le pt news hnews l
    rw [List.flatMap_cons, leadingPhis_cons]
    by_cases hx : x.id = pt
    · simp only [hx, beq_self_eq_true, if_true]
      cases news with
      | nil =>
        simp only [List.nil_append, ite_self] at ih
        simp only [List.nil_append, List.singleton_append, leadingPhis_cons, ite_self]
        split <;> omega
      | cons n ns =>
        have hn : n.isPHI = false := hnews n (List.mem_cons_self _ _)
        simp [leadingPhis_cons, hn]
    · have hb : (x.id == pt) = false := by simpa using hx
      simp only [hb, Bool.false_eq_true, if_false, List.singleton_append, leadingPhis_cons]
      split <;> omega

theorem leadingPhis_map_setOperand (user slot : Nat) (v : Value) :
    ∀ (l : List Instruction),
      leadingPhis (l.map (fun i =>
        if i.id == user then { i with operands := i.operands.set slot v } else i))
        = leadingPhis l
  | [] => rfl
  | x :: l => by
    rw [List.map_cons, leadingPhis_cons, leadingPhis_cons,
      leadingPhis_map_setOperand user slot v l]
    by_cases hx : x.id = user <;> simp [hx]

theorem insertBefore_block {f : Func} {B : BasicBlock} {a rest : List Instruction}
    {q : Instruction} (pt : Nat) (news : List Instruction)
    (hnews : ∀ n ∈ news, n.isPHI = false) (hB : B ∈ f) (hs : B.insts = a ++ q :: rest) :
    ∃ B' ∈ insertBefore f pt news, ∃ a' rest', B'.insts = a' ++ q :: rest' ∧
      leadingPhis rest' ≤ leadingPhis rest := by
  refine ⟨BasicBlock.mk B.id (B.insts.flatMap
      (fun i => if i.id == pt then news ++ [i] else [i])), List.mem_map.2 ⟨B, hB, rfl⟩, ?_⟩
  by_cases hq : q.id = pt
  · refine ⟨a.flatMap (fun i => if i.id == pt then news ++ [i] else [i]) ++ news,
      rest.flatMap (fun i => if i.id == pt then news ++ [i] else [i]), ?_,
      leadingPhis_flatMap_le pt news hnews rest⟩
    simp [hs, hq]
  · refine ⟨a.flatMap (fun i => if i.id == pt then news ++ [i] else [i]),
      rest.flatMap (fun i => if i.id == pt then news ++ [i] else [i]), ?_,
      leadingPhis_flatMap_le pt news hnews rest⟩
    simp [hs, hq]

theorem setOperand_block {f : Func} {B : BasicBlock} {a rest : List Instruction}
    {q : Instruction} (user slot : Nat) (v : Value) (hB : B ∈ f)
    (hs : B.insts = a ++ q :: rest) :
    ∃ B' ∈ setOperand f user slot v, ∃ a' q' rest', B'.insts = a' ++ q' :: rest' ∧
      q'.id = q.id ∧ leadingPhis rest' ≤ leadingPhis rest := by
  refine ⟨BasicBlock.mk B.id (B.insts.map (fun i =>
      if i.id == user then { i with operands := i.operands.set slot v } else i)),
    List.mem_map.2 ⟨B, hB, rfl⟩,
    a.map (fun i =>
      if i.id == user then { i with operands := i.operands.set slot v } else i),
    (if q.id == user then { q with operands := q.operands.set slot v } else q),
    rest.map (fun i =>
      if i.id == user then { i with operands := i.operands.set slot v } else i),
    ?_, ?_, ?_⟩
  · simp only [hs, List.map_append, List.map_cons]
  · split <;> rfl
  · rw [leadingPhis_map_setOperand]

end IR

namespace DerivedInductionVar

open IR SCEVModel

theorem rewriteUse_block (SE : ScalarEvolution) (X : Expander) (PN : Instruction)
    (user slot : Nat) (st : ElimState) {B : BasicBlock} {a rest : List Instruction}
    {q : Instruction} (hB : B ∈ st.fn) (hs : B.insts = a ++ q :: rest) :
    ∃ B' ∈ (rewriteUse SE X PN user slot st).fn, ∃ a' q' rest',
      B'.insts = a' ++ q' :: rest' ∧ q'.id = q.id ∧ leadingPhis rest' ≤ leadingPhis rest := by
  have hnews : ∀ n ∈ (X st.fn (SE PN.id) PN.ty user).insts.map asOrdinary,
      n.isPHI = false := by
    intro n hn
    obtain ⟨m, -, rfl⟩ := List.mem_map.1 hn
    rfl
  obtain ⟨B1, hB1, a1, rest1, hs1, hle1⟩ := insertBefore_block user _ hnews hB hs
  rcases rewriteUse_fn SE X PN user slot st with h1 | ⟨v, -, -, h1⟩
  · rw [h1]
    exact ⟨B1, hB1, a1, q, rest1, hs1, rfl, hle1⟩
  · rw [h1]
    obtain ⟨B2, hB2, a2, q2, rest2, hs2, hid2, hle2⟩ := setOperand_block user slot v hB1 hs1
    exact ⟨B2, hB2, a2, q2, rest2, hs2, hid2, Nat.le_trans hle2 hle1⟩

theorem rewriteUses_block (SE : ScalarEvolution) (X : Expander) (PN : Instruction) :
    ∀ (us : List (Nat × Nat)) (st : ElimState) (B : BasicBlock) (a rest : List Instruction)
      (q : Instruction), B ∈ st.fn → B.insts = a ++ q :: rest →
      ∃ B' ∈ (rewriteUses SE X PN us st).fn, ∃ a' q' rest',
        B'.insts = a' ++ q' :: rest' ∧ q'.id = q.id ∧ leadingPhis rest' ≤ leadingPhis rest
  | [], _, B, a, rest, q, hB, hs => ⟨B, hB, a, q, rest, hs, rfl, Nat.le_refl _⟩
  | (user, slot) :: us, st, B, a, rest, q, hB, hs => by
    rw [rewriteUses_cons]
    obtain ⟨B1, hB1, a1, q1, rest1, hs1, hid1, hle1⟩ :=
      rewriteUse_block SE X PN user slot st hB hs
    obtain ⟨B2, hB2, a2, q2, rest2, hs2, hid2, hle2⟩ :=
      rewriteUses_block SE X PN us _ B1 a1 rest1 q1 hB1 hs1
    exact ⟨B2, hB2, a2, q2, rest2, hs2, hid2.trans hid1, Nat.le_trans hle2 hle1⟩

/-- The fuel `elimLoop` passes is enough: in a graph with unique instruction
identities and with a synthesizer whose instructions are new objects, once the
fuel covers the merge points that follow the iterator in its block, more fuel
changes nothing. -/
theorem elimPhis_fuel_enough (SE : ScalarEvolution) (X : Expander) (U : UseOrder) (L : Loop)
    (Primary : Nat) (hX : FreshExpander X) (k : Nat) :
    ∀ (n : Nat) (st : ElimState) (Dead : List Nat) (B : BasicBlock)
      (a rest : List Instruction), (instIds st.fn).Nodup → B ∈ st.fn →
      B.insts = a ++ rest → leadingPhis rest ≤ n →
      elimPhis SE X U L Primary (n + k) rest.head? (st, Dead)
        = elimPhis SE X U L Primary n rest.head? (st, Dead) := by
  intro n
  induction n with
  | zero =>
    intro st Dead B a rest _ _ _ hle
    cases rest with
    | nil => simp [elimPhis_none]
    | cons PN rest0 =>
      rw [leadingPhis_cons] at hle
      have hphi : PN.isPHI = false := by
        cases h : PN.isPHI with
        | false => rfl
        | true => simp [h] at hle
      simp only [List.head?_cons]
      rw [elimPhis_stop SE X U L Primary _ PN _ hphi, elimPhis_stop SE X U L Primary _ PN _ hphi]
  | succ n ih =>
    intro st Dead B a rest hnd hB hs hle
    cases rest with
    | nil => simp [elimPhis_none]
    | cons PN rest0 =>
      simp only [List.head?_cons]
      by_cases hphi : PN.isPHI = true
      · rw [leadingPhis_cons] at hle
        simp only [hphi, if_true] at hle
        have hle0 : leadingPhis rest0 ≤ n := by omega
        have hfuel : n + 1 + k = (n + k) + 1 := by omega
        rw [hfuel]
        by_cases hskip : PN.id = Primary ∨ isDerivedIV SE L PN = false
        · rw [elimPhis_skip_step SE X U L Primary _ PN _ hphi hskip,
            elimPhis_skip_step SE X U L Primary _ PN _ hphi hskip,
            nextInst_of_split hnd hB hs]
          exact ih st Dead B (a ++ [PN]) rest0 hnd hB (by simpa using hs) hle0
        · have hp : PN.id ≠ Primary := fun h => hskip (Or.inl h)
          have hd : isDerivedIV SE L PN = true := by
            cases h : isDerivedIV SE L PN with
            | true => rfl
            | false => exact absurd (Or.inr h) hskip
          rw [elimPhis_process_step SE X U L Primary _ PN st Dead hphi hp hd,
            elimPhis_process_step SE X U L Primary _ PN st Dead hphi hp hd]
          have hnd1 : (instIds (rewriteUses SE X PN (U.uses st.fn PN.id) st).fn).Nodup :=
            rewriteUses_nodup hX PN _ _ hnd
          obtain ⟨B1, hB1, a1, q1, rest1, hs1, hid1, hle1⟩ :=
            rewriteUses_block SE X PN (U.uses st.fn PN.id) st B a rest0 PN hB hs
          have hnext : nextInst (rewriteUses SE X PN (U.uses st.fn PN.id) st).fn PN.id
              = rest1.head? := by
            have := nextInst_of_split hnd1 hB1 hs1
            rwa [hid1] at this
          rw [hnext]
          exact ih _ _ B1 (a1 ++ [q1]) rest1 hnd1 hB1 (by simpa using hs1)
            (Nat.le_trans hle1 hle0)
      · have hphi2 : PN.isPHI = false := by simpa using hphi
        rw [elimPhis_stop SE X U L Primary _ PN _ hphi2,
          elimPhis_stop SE X U L Primary _ PN _ hphi2]

end DerivedInductionVar

namespace SimpleLICM

open IR SCEVModel

/-- C14 fails on the code.  In `twoInvariants` the instructions `x` (1) and `y`
(2) of the loop block are both eligible and have constant operands, so one
invocation should relocate both and leave `x` before `y` in front of the
preheader's terminator.  The scan moves `x` there, but the block iterator
follows `x` into the preheader, reaches the `end()` of the preheader's list and
is dereferenced: the run has undefined behaviour, `y` is never relocated and
the graph with `x, y` in the preheader is never returned. -/
theorem licm_two_invariants_undefined :
    isPureRegOp (Examples.op 1 [Value.const 5, Value.const 7]) = true ∧
      isPureRegOp (Examples.op 2 [Value.const 2, Value.const 3]) = true ∧
      moveBefore Examples.twoInvariants 1 100 =
        [ { id := 0, insts := [Examples.op 1 [Value.const 5, Value.const 7],
                               Examples.br 100 [Value.other 1]] },
          { id := 1, insts :=
              [ Examples.op 2 [Value.const 2, Value.const 3],
                Examples.br 101 [Value.other 1, Value.other 2] ] },
          { id := 2, insts := [Examples.br 102 []] } ] ∧
      successor (moveBefore Examples.twoInvariants 1 100) 1 = some (Node.inst 100) ∧
      successor (moveBefore Examples.twoInvariants 1 100) 100 = some (Node.sentinel 0) ∧
      SimpleLICMLoop.run Examples.twoInvariants Examples.chainLoop
        = Outcome.undefinedBehaviour ∧
      SimpleLICMLoop.run Examples.twoInvariants Examples.chainLoop
        ≠ Outcome.ok (moveBefore (moveBefore Examples.twoInvariants 1 100) 2 100, true) := by
  decide

/-- C15 fails on the code.  On `loadThenInvariant` the scan steps over the load
and relocates `a` (1) to the preheader, so an instruction was relocated; the
run does not return `changed = true`, nor anything else: the iterator runs off
the end of the preheader's list and the behaviour is undefined. -/
theorem licm_relocation_not_reported :
    scanFrom Examples.chainLoop (some 100) 1 5 (Node.inst 3)
        (Examples.licmStart Examples.loadThenInvariant)
      = scanFrom Examples.chainLoop (some 100) 1 4 (Node.inst 1)
          (Examples.licmStart Examples.loadThenInvariant) ∧
      scanFrom Examples.chainLoop (some 100) 1 4 (Node.inst 1)
          (Examples.licmStart Examples.loadThenInvariant)
      = scanFrom Examples.chainLoop (some 100) 1 3 (Node.inst 100)
          { fn := moveBefore Examples.loadThenInvariant 1 100, Hoisted := [1],
            Changed := true, Progress := true } ∧
      parentOf (moveBefore Examples.loadThenInvariant 1 100) 1
        = some { id := 0, insts := [Examples.op 1 [Value.const 5, Value.const 7],
                                    Examples.br 100 [Value.other 1]] } ∧
      SimpleLICMLoop.run Examples.loadThenInvariant Examples.chainLoop
        = Outcome.undefinedBehaviour ∧
      ∀ F, SimpleLICMLoop.run Examples.loadThenInvariant Examples.chainLoop
        ≠ Outcome.ok (F, true) := by
  refine ⟨by decide, by decide, by decide, by decide, ?_⟩
  intro F h
  have hub : SimpleLICMLoop.run Examples.loadThenInvariant Examples.chainLoop
      = Outcome.undefinedBehaviour := by decide
  rw [hub] at h
  cases h

/-- C17 fails on the code.  On `invariantChain` the `while (Progress)` loop
never stops on a scan without relocation, whatever bound is put on the number
of scans: the first scan relocates `a` and then dereferences the `end()` of the
preheader's list, so the run has undefined behaviour instead of terminating
after at most three scans. -/
theorem licm_fixpoint_never_stops :
    (∀ fuel st, fixpoint Examples.chainLoop (some 100) fuel
        (Examples.licmStart Examples.invariantChain) ≠ Outcome.ok st) ∧
      scanBlocks Examples.chainLoop (some 100) Examples.chainLoop.blocks
        { Examples.licmStart Examples.invariantChain with Progress := false }
        = Outcome.undefinedBehaviour ∧
      SimpleLICMLoop.run Examples.invariantChain Examples.chainLoop
        = Outcome.undefinedBehaviour := by
  have hscan : scanBlocks Examples.chainLoop (some 100) Examples.chainLoop.blocks
        { Examples.licmStart Examples.invariantChain with Progress := false }
        = Outcome.undefinedBehaviour := by decide
  refine ⟨?_, hscan, by decide⟩
  intro fuel st h
  cases fuel with
  | zero => simp [fixpoint] at h
  | succ n =>
    have hp : (Examples.licmStart Examples.invariantChain).Progress = true := rfl
    rw [fixpoint, if_pos hp, hscan] at h
    cases h

/-- C18 fails on the code.  In `twoBlockChain` the instruction `x` (2) has the
operand `y` (1), which is in the loop before the run, and both are eligible.
The scan relocates `y` in front of the preheader's terminator and then runs
off the end of the preheader's list: the run has undefined behaviour, `x` is
never relocated and the graph with `y, x` in the preheader is never
returned. -/
theorem licm_two_block_chain_undefined :
    Examples.twoBlockLoop.contains Examples.twoBlockChain 1 = true ∧
      Examples.twoBlockLoop.contains Examples.twoBlockChain 2 = true ∧
      operandIsLoopInvariant Examples.twoBlockChain (Value.inst 1) Examples.twoBlockLoop
        = false ∧
      operandIsLoopInvariant (moveBefore Examples.twoBlockChain 1 100) (Value.inst 1)
        Examples.twoBlockLoop = true ∧
      successor (moveBefore Examples.twoBlockChain 1 100) 1 = some (Node.inst 100) ∧
      successor (moveBefore Examples.twoBlockChain 1 100) 100 = some (Node.sentinel 0) ∧
      SimpleLICMLoop.run Examples.twoBlockChain Examples.twoBlockLoop
        = Outcome.undefinedBehaviour ∧
      SimpleLICMLoop.run Examples.twoBlockChain Examples.twoBlockLoop
        ≠ Outcome.ok (moveBefore (moveBefore Examples.twoBlockChain 1 100) 2 100, true) := by
  decide

end SimpleLICM

namespace IR

theorem parentOf_map_congr (x : Nat) (g : BasicBlock → BasicBlock) :
    ∀ (f : Func), (∀ b ∈ f, (g b).id = b.id ∧
        (g b).insts.any (fun i => i.id == x) = b.insts.any (fun i => i.id == x)) →
      (parentOf (f.map g) x).map (fun b => b.id) = (parentOf f x).map (fun b => b.id)
  | [], _ => rfl
  | b :: f, h => by
    have hb := h b (by simp)
    have ih := parentOf_map_congr x g f (fun c hc => h c (by simp [hc]))
    unfold parentOf at ih ⊢
    rw [List.map_cons, List.find?_cons, List.find?_cons, hb.2]
    cases hany : b.insts.any (fun i => i.id == x) with
    | true => simp [hb.1]
    | false => exact ih

theorem parentOf_removeInst_other (f : Func) {x d : Nat} (h : x ≠ d) :
    (parentOf (removeInst f d) x).map (fun b => b.id) = (parentOf f x).map (fun b => b.id) := by
  unfold removeInst
  apply parentOf_map_congr
  intro b _
  refine ⟨rfl, ?_⟩
  simp only [List.any_filter]
  congr 1
  funext i
  by_cases hi : i.id = x
  · simp [hi, h]
  · simp [hi]

theorem parentOf_insertBefore_other (f : Func) (pt : Nat) (news : List Instruction) {x : Nat}
    (h : ∀ n ∈ news, n.id ≠ x) :
    (parentOf (insertBefore f pt news) x).map (fun b => b.id)
      = (parentOf f x).map (fun b => b.id) := by
  unfold insertBefore
  apply parentOf_map_congr
  intro b _
  refine ⟨rfl, ?_⟩
  show (b.insts.flatMap (fun i => if i.id == pt then news ++ [i] else [i])).any
    (fun i => i.id == x) = b.insts.any (fun i => i.id == x)
  induction b.insts with
  | nil => rfl
  | cons i l ih =>
    rw [List.flatMap_cons, List.any_append, ih, List.any_cons]
    congr 1
    by_cases hi : i.id = pt
    · have hn : news.any (fun i => i.id == x) = false := by
        rw [List.any_eq_false]
        intro n hn
        simpa using h n hn
      simp [hi, hn]
    · simp [hi]

/-- Moving an instruction leaves every other instruction in its block. -/
theorem parentOf_moveBefore_other (f : Func) (iid pt : Nat) {x : Nat} (h : x ≠ iid) :
    (parentOf (moveBefore f iid pt) x).map (fun b => b.id)
      = (parentOf f x).map (fun b => b.id) := by
  unfold moveBefore
  cases hI : findInst f iid with
  | none => rfl
  | some I =>
    simp only
    rw [parentOf_insertBefore_other, parentOf_removeInst_other f h]
    intro n hn
    rw [List.mem_singleton.1 hn, (findInst_some hI).2]
    exact fun he => h he.symm

theorem mem_allInsts_moveBefore_other {f : Func} {iid pt : Nat} {q : Instruction}
    (hq : q ∈ allInsts f) (h : q.id ≠ iid) : q ∈ allInsts (moveBefore f iid pt) := by
  unfold moveBefore
  cases hI : findInst f iid with
  | none => exact hq
  | some I =>
    simp only
    exact mem_allInsts_insertBefore.2 (Or.inl (mem_allInsts_removeInst.2 ⟨hq, h⟩))

end IR

namespace SimpleLICM

open IR SCEVModel

theorem contains_moveBefore_other (L : Loop) (f : Func) (iid pt : Nat) {x : Nat} (h : x ≠ iid) :
    L.contains (moveBefore f iid pt) x = L.contains f x := by
  have hp := parentOf_moveBefore_other f iid pt h
  unfold Loop.contains
  cases h1 : parentOf (moveBefore f iid pt) x with
  | none =>
    rw [h1] at hp
    cases h2 : parentOf f x with
    | none => rfl
    | some b => rw [h2] at hp; cases hp
  | some b1 =>
    rw [h1] at hp
    cases h2 : parentOf f x with
    | none => rw [h2] at hp; cases hp
    | some b =>
      rw [h2] at hp
      simp only [Option.map_some', Option.some.injEq] at hp
      simp only [hp]

theorem isPureRegOp_iff (I : Instruction) :
    isPureRegOp I = true ↔
      I.isTerminator = false ∧ I.isPHI = false ∧ I.mayReadOrWriteMemory = false := by
  unfold isPureRegOp
  cases I.isTerminator <;> cases I.isPHI <;> cases I.mayReadOrWriteMemory <;> simp

theorem scanFrom_not_hoistable (L : Loop) (InsertPt : Option Nat) (BB fuel iid : Nat)
    (st : LicmState) (I : Instruction) (hI : findInst st.fn iid = some I)
    (h : ¬ Hoistable L st I) :
    scanFrom L InsertPt BB (fuel + 1) (Node.inst iid) st =
      match successor st.fn iid with
      | none => Outcome.undefinedBehaviour
      | some nxt => scanFrom L InsertPt BB fuel nxt st := by
  rw [scanFrom_inst, hI]
  simp only
  by_cases h1 : (!isPureRegOp I || st.Hoisted.contains iid) = true
  · rw [if_pos h1]
  · rw [if_neg h1]
    by_cases h2 : (!(I.operands.all (fun Op => operandIsLoopInvariant st.fn Op L))) = true
    · rw [if_pos h2]
    · exfalso
      apply h
      simp at h1
      simp at h2
      exact ⟨h1.1, by rw [(findInst_some hI).2]; exact h1.2, h2⟩

theorem scanFrom_hoistable (L : Loop) (pt BB fuel iid : Nat)
    (st : LicmState) (I : Instruction) (hI : findInst st.fn iid = some I)
    (h : Hoistable L st I) :
    scanFrom L (some pt) BB (fuel + 1) (Node.inst iid) st =
      match successor (moveBefore st.fn iid pt) iid with
      | none => Outcome.undefinedBehaviour
      | some nxt => scanFrom L (some pt) BB fuel nxt (hoist st iid pt) := by
  obtain ⟨h1, h2, h3⟩ := h
  rw [(findInst_some hI).2] at h2
  have hc : st.Hoisted.contains iid = false := by
    simpa using h2
  have ha : I.operands.all (fun Op => operandIsLoopInvariant st.fn Op L) = true := by
    simpa using h3
  rw [scanFrom_inst, hI]
  simp only [h1, hc, ha, Bool.not_true, Bool.or_self, Bool.false_eq_true, if_false]
  rfl

/-- One step of the scan moves only an eligible instruction with invariant
operands, and moves it once.  At an instruction `I` of the graph, with the preheader `P` outside the loop and
ending in the terminator `T`: `isPureRegOp` holds exactly of the instructions
that are no terminator, no merge point and no memory access; when `I` fails the
test (not eligible, already moved, or an operand not invariant) the scan steps
on with the graph and the set of moved instructions untouched; when `I` passes
it, `I` is moved in front of `T`, is recorded so that it cannot pass the test
again, every operand of `I` is invariant in the new graph, and every other
instruction is still there and in the block it was in.  A run that returns
leaves the whole graph as it was. -/
theorem scanFrom_moves_only_hoistable (L : Loop) (BB fuel iid : Nat) (st : LicmState)
    (P : BasicBlock) (T I : Instruction)
    (hnd : (instIds st.fn).Nodup) (hP : findBlock st.fn P.id = some P)
    (hT : getTerminator P = some T) (hout : P.id ∉ L.blocks)
    (hI : findInst st.fn iid = some I) :
    (isPureRegOp I = true ↔
      I.isTerminator = false ∧ I.isPHI = false ∧ I.mayReadOrWriteMemory = false) ∧
    (¬ Hoistable L st I →
      scanFrom L (some T.id) BB (fuel + 1) (Node.inst iid) st =
        match successor st.fn iid with
        | none => Outcome.undefinedBehaviour
        | some nxt => scanFrom L (some T.id) BB fuel nxt st) ∧
    (Hoistable L st I →
      scanFrom L (some T.id) BB (fuel + 1) (Node.inst iid) st =
        (match successor (moveBefore st.fn iid T.id) iid with
        | none => Outcome.undefinedBehaviour
        | some nxt => scanFrom L (some T.id) BB fuel nxt (hoist st iid T.id)) ∧
      ¬ Hoistable L (hoist st iid T.id) I ∧
      (∃ P2 ∈ (hoist st iid T.id).fn, P2.id = P.id ∧ ∃ a, P2.insts = a ++ [I, T]) ∧
      (∀ Op ∈ I.operands, operandIsLoopInvariant (hoist st iid T.id).fn Op L = true) ∧
      (∀ q ∈ allInsts st.fn, q.id ≠ iid →
        q ∈ allInsts (hoist st iid T.id).fn ∧
        (parentOf (hoist st iid T.id).fn q.id).map (fun b => b.id)
          = (parentOf st.fn q.id).map (fun b => b.id))) ∧
    (∀ F' ch, L.preheader = some P.id →
      SimpleLICMLoop.run st.fn L = Outcome.ok (F', ch) → F' = st.fn) := by
  obtain ⟨hPmem, -⟩ := findBlock_some hP
  obtain ⟨hImem, hIid⟩ := findInst_some hI
  refine ⟨isPureRegOp_iff I, scanFrom_not_hoistable L _ BB fuel iid st I hI, ?_, ?_⟩
  · intro hH
    have hne : T.id ≠ iid := by
      intro he
      obtain ⟨⟨init, hinit⟩, hterm⟩ := getTerminator_eq_some hT
      have hTmem : T ∈ allInsts st.fn := mem_allInsts.2 ⟨P, hPmem, by rw [hinit]; simp⟩
      have := findInst_of_mem hnd hTmem
      rw [he, hI] at this
      have hIT : I = T := Option.some.inj this
      have := hH.1
      rw [hIT, isPureRegOp_of_terminator hterm] at this
      cases this
    obtain ⟨hnd1, P2, hP2, hP2id, a, ha⟩ := moveBefore_terminator hnd hPmem hT hI hne
    refine ⟨scanFrom_hoistable L T.id BB fuel iid st I hI hH, ?_, ⟨P2, hP2, hP2id, a, ha⟩, ?_, ?_⟩
    · intro hH2
      apply hH2.2.1
      rw [hIid]
      simp [hoist]
    · intro Op hOp
      have h3 := hH.2.2 Op hOp
      cases Op with
      | const c => rfl
      | other n => rfl
      | inst x =>
        show (!L.contains (moveBefore st.fn iid T.id) x) = true
        by_cases hx : x = iid
        · have hpar : parentOf (moveBefore st.fn iid T.id) I.id = some P2 :=
            parentOf_of_mem hnd1 hP2 (by rw [ha]; simp)
          rw [hIid] at hpar
          have hcont : List.contains L.blocks P.id = false := by simpa using hout
          rw [hx]
          unfold Loop.contains
          rw [hpar]
          simp only [hP2id, hcont, Bool.not_false]
        · rw [contains_moveBefore_other L st.fn iid T.id hx]
          exact h3
    · intro q hq hqne
      exact ⟨mem_allInsts_moveBefore_other hq hqne, parentOf_moveBefore_other st.fn iid T.id hqne⟩
  · intro F' ch hph hrun
    exact (run_ok_unchanged st.fn L P.id P T F' ch hnd hph hP hT hout hrun).1

/-- C16 fails on the code.  In `mixedBody` the scan steps over the merge point
`k` (9) and the load `c` (3), which are not eligible, and relocates `a` (1),
which is eligible and whose operands are a value of the preheader and a
constant: until then only an eligible instruction with invariant operands has
been moved, it is recorded as moved, and `k`, `c` and the terminator are in
their block.  But no state after the run exists of which the claim could
hold: the block iterator follows `a` into the preheader, reaches the `end()` of
the preheader's list and is dereferenced, so the run that moved `a` has
undefined behaviour and returns nothing. -/
theorem licm_eligible_move_undefined :
    isPureRegOp (Examples.phi 9 [Value.const 0, Value.inst 4]) = false ∧
      isPureRegOp (Examples.load 3 [Value.other 9]) = false ∧
      isPureRegOp (Examples.br 101 [Value.other 1, Value.other 2]) = false ∧
      isPureRegOp (Examples.op 1 [Value.inst 5, Value.const 3]) = true ∧
      (Examples.op 1 [Value.inst 5, Value.const 3]).operands.all
        (fun Op => operandIsLoopInvariant Examples.mixedBody Op Examples.chainLoop) = true ∧
      scanFrom Examples.chainLoop (some 100) 1 10 (Node.inst 9)
          { Examples.licmStart Examples.mixedBody with Progress := false }
        = scanFrom Examples.chainLoop (some 100) 1 8 (Node.inst 1)
            { Examples.licmStart Examples.mixedBody with Progress := false } ∧
      scanFrom Examples.chainLoop (some 100) 1 8 (Node.inst 1)
          { Examples.licmStart Examples.mixedBody with Progress := false }
        = scanFrom Examples.chainLoop (some 100) 1 7 (Node.inst 100)
            { fn := moveBefore Examples.mixedBody 1 100, Hoisted := [1],
              Changed := true, Progress := true } ∧
      moveBefore Examples.mixedBody 1 100 =
        [ { id := 0, insts := [Examples.op 5 [Value.const 1, Value.const 2],
                               Examples.op 1 [Value.inst 5, Value.const 3],
                               Examples.br 100 [Value.other 1]] },
          { id := 1, insts :=
              [ Examples.phi 9 [Value.const 0, Value.inst 4],
                Examples.load 3 [Value.other 9],
                Examples.op 4 [Value.inst 9, Value.const 1],
                Examples.br 101 [Value.other 1, Value.other 2] ] },
          { id := 2, insts := [Examples.br 102 []] } ] ∧
      successor (moveBefore Examples.mixedBody 1 100) 1 = some (Node.inst 100) ∧
      successor (moveBefore Examples.mixedBody 1 100) 100 = some (Node.sentinel 0) ∧
      scanFrom Examples.chainLoop (some 100) 1 7 (Node.inst 100)
          { fn := moveBefore Examples.mixedBody 1 100, Hoisted := [1],
            Changed := true, Progress := true }
        = Outcome.undefinedBehaviour ∧
      SimpleLICMLoop.run Examples.mixedBody Examples.chainLoop = Outcome.undefinedBehaviour ∧
      ∀ F ch, SimpleLICMLoop.run Examples.mixedBody Examples.chainLoop ≠ Outcome.ok (F, ch) := by
  refine ⟨by decide, by decide, by decide, by decide, by decide, by decide, by decide,
    by decide, by decide, by decide, by decide, by decide, ?_⟩
  intro F ch h
  have hub : SimpleLICMLoop.run Examples.mixedBody Examples.chainLoop
      = Outcome.undefinedBehaviour := by decide
  rw [hub] at h
  cases h

end SimpleLICM

namespace DerivedInductionVar

open IR SCEVModel

/-- C19 fails on the code.  In `reusedCounters` the derived IV `j1` (11) loses
its two uses while it is processed and is put on the list of merge points to
delete.  While the later derived IV `j2` (12) is processed the synthesizer
creates the instructions 3102 and 4102, which compute `2 * j1`: when the header
walk ends, `j1` is on the list and has two use edges.  The deletion loop
deletes it without looking at its uses again, and after the run 3102 and 4102
have the deleted merge point as operand. -/
theorem eliminateDerivedIVs_deletes_used_phi :
    (elimPhis Examples.reusedSE Examples.reusing Examples.programOrder Examples.countersLoop
        10 3 (some (Examples.phi 10 [Value.const 0, Value.inst 20]))
        (startState Examples.reusedCounters, [])).2 = [11, 12] ∧
      usesOf (elimPhis Examples.reusedSE Examples.reusing Examples.programOrder
        Examples.countersLoop 10 3 (some (Examples.phi 10 [Value.const 0, Value.inst 20]))
        (startState Examples.reusedCounters, [])).1.fn 11 = [(3102, 0), (4102, 0)] ∧
      Examples.reusedAfter.trace =
        [ Event.synthesize 11 21 0, Event.redirect 11 21 0 (Value.inst 1102),
          Event.synthesize 11 30 1, Event.redirect 11 30 1 (Value.inst 2102),
          Event.synthesize 12 22 0, Event.redirect 12 22 0 (Value.inst 3102),
          Event.synthesize 12 31 1, Event.redirect 12 31 1 (Value.inst 4102),
          Event.erase 11, Event.erase 12 ] ∧
      11 ∉ instIds Examples.reusedAfter.fn ∧
      findInst Examples.reusedAfter.fn 3102
        = some (Examples.op 3102 [Value.inst 11, Value.const 2]) ∧
      usesOf Examples.reusedAfter.fn 11 = [(3102, 0), (4102, 0)] := by
  decide

end DerivedInductionVar

namespace IR

theorem extends_refl : ∀ (f : Func), Extends f f
  | [] => List.Forall₂.nil
  | _ :: f => List.Forall₂.cons ⟨rfl, List.Sublist.refl _, fun _ hq _ => hq⟩ (extends_refl f)

theorem extends_trans {f g h : Func} (h1 : Extends f g) (h2 : Extends g h) : Extends f h := by
  unfold Extends at *
  induction h1 generalizing h with
  | nil => cases h2; exact List.Forall₂.nil
  | cons hb _ ih =>
    cases h2 with
    | cons hc hrest =>
      refine List.Forall₂.cons ⟨hc.1.trans hb.1, hb.2.1.trans hc.2.1, ?_⟩ (ih hrest)
      intro q hq hphi
      exact hb.2.2 q (hc.2.2 q hq hphi) hphi

theorem sublist_flatMap_ins (pt : Nat) (news : List Instruction) :
    ∀ (l : List Instruction),
      l.Sublist (l.flatMap (fun i => if i.id == pt then news ++ [i] else [i]))
  | [] => List.Sublist.refl _
  | i :: l => by
    rw [List.flatMap_cons]
    have ih := sublist_flatMap_ins pt news l
    have h1 : [i].Sublist (if i.id == pt then news ++ [i] else [i]) := by
      split
      · exact List.sublist_append_right _ _
      · exact List.Sublist.refl _
    exact List.Sublist.append h1 ih

theorem extends_insertBefore (f : Func) (pt : Nat) (news : List Instruction)
    (hnews : ∀ n ∈ news, n.isPHI = false) : Extends f (insertBefore f pt news) := by
  unfold Extends insertBefore
  induction f with
  | nil => exact List.Forall₂.nil
  | cons b f ih =>
    refine List.Forall₂.cons ⟨rfl, sublist_flatMap_ins pt news b.insts, ?_⟩ ih
    intro q hq hphi
    simp only [List.mem_flatMap] at hq
    obtain ⟨i, hi, hq⟩ := hq
    by_cases h : i.id = pt
    · simp only [h, beq_self_eq_true, if_true, List.mem_append, List.mem_singleton] at hq
      rcases hq with hq | hq
      · rw [hnews q hq] at hphi
        cases hphi
      · exact hq ▸ hi
    · have hb : (i.id == pt) = false := by simpa using h
      simp only [hb, Bool.false_eq_true, if_false, List.mem_singleton] at hq
      exact hq ▸ hi

end IR

namespace DerivedInductionVar

open IR SCEVModel

theorem rewriteUses_invariant (SE : ScalarEvolution) (X : Expander) (PN : Instruction)
    (Inv : ElimState → Prop)
    (h : ∀ user slot st, Inv st → Inv (rewriteUse SE X PN user slot st)) :
    ∀ (us : List (Nat × Nat)) (st : ElimState), Inv st → Inv (rewriteUses SE X PN us st)
  | [], _, hst => hst
  | (user, slot) :: rest, st, hst => by
    rw [rewriteUses_cons]
    exact rewriteUses_invariant SE X PN Inv h rest _ (h user slot st hst)

theorem eraseDead_invariant (Inv : ElimState → Prop) (Q : Nat → Prop)
    (h : ∀ D st, Q D → Inv st →
      Inv { fn := removeInst st.fn D, changed := true, trace := st.trace ++ [Event.erase D] }) :
    ∀ (Dead : List Nat) (st : ElimState), (∀ D ∈ Dead, Q D) → Inv st → Inv (eraseDead Dead st)
  | [], _, _, hst => hst
  | D :: rest, st, hQ, hst => by
    rw [eraseDead]
    exact eraseDead_invariant Inv Q h rest _ (fun D' hD' => hQ D' (List.mem_cons_of_mem _ hD'))
      (h D st (hQ D (List.mem_cons_self _ _)) hst)

/-- Induction over the header walk: a property of the state that every
processed merge point preserves holds when the walk ends, and every merge point
put on the deletion list was processed. -/
theorem elimPhis_invariant (SE : ScalarEvolution) (X : Expander) (U : UseOrder) (L : Loop)
    (Primary : Nat) (Inv : ElimState → Prop) (Q : Nat → Prop)
    (hproc : ∀ PN st, PN ∈ allInsts st.fn → PN.isPHI = true → PN.id ≠ Primary →
      isDerivedIV SE L PN = true → Inv st →
      Inv (rewriteUses SE X PN (U.uses st.fn PN.id) st) ∧ Q PN.id) :
    ∀ (fuel : Nat) (cur : Option Instruction) (st : ElimState) (Dead : List Nat),
      (∀ q, cur = some q → q ∈ allInsts st.fn) → Inv st → (∀ D ∈ Dead, Q D) →
      Inv (elimPhis SE X U L Primary fuel cur (st, Dead)).1 ∧
        ∀ D ∈ (elimPhis SE X U L Primary fuel cur (st, Dead)).2, Q D := by
  intro fuel
  induction fuel with
  | zero => intro cur st Dead _ hst hQ; exact ⟨hst, hQ⟩
  | succ n ih =>
    intro cur st Dead hcur hst hQ
    cases cur with
    | none => exact ⟨hst, hQ⟩
    | some PN =>
      have hPN : PN ∈ allInsts st.fn := hcur PN rfl
      by_cases hphi : PN.isPHI = true
      · by_cases hskip : PN.id = Primary ∨ isDerivedIV SE L PN = false
        · rw [elimPhis_skip_step SE X U L Primary n PN (st, Dead) hphi hskip]
          exact ih _ st Dead (fun q hq => nextInst_mem hq) hst hQ
        · have hp : PN.id ≠ Primary := fun e => hskip (Or.inl e)
          have hd : isDerivedIV SE L PN = true := by
            cases h : isDerivedIV SE L PN with
            | true => rfl
            | false => exact absurd (Or.inr h) hskip
          rw [elimPhis_process_step SE X U L Primary n PN st Dead hphi hp hd]
          obtain ⟨h1, h2⟩ := hproc PN st hPN hphi hp hd hst
          apply ih _ _ _ (fun q hq => nextInst_mem hq) h1
          intro D hD
          split at hD
          · rcases List.mem_append.1 hD with hD | hD
            · exact hQ D hD
            · rw [List.mem_singleton.1 hD]
              exact h2
          · exact hQ D hD
      · rw [elimPhis_stop SE X U L Primary _ PN _ (by simpa using hphi)]
        exact ⟨hst, hQ⟩

/-- Induction over the processing of one loop. -/
theorem elimLoop_invariant (SE : ScalarEvolution) (X : Expander) (U : UseOrder) (L : Loop)
    (Inv : ElimState → Prop) (Q : Nat → Nat → Prop)
    (hproc : L.subLoops.isEmpty = true → ∀ Primary PN st, PN ∈ allInsts st.fn →
      PN.isPHI = true → PN.id ≠ Primary → isDerivedIV SE L PN = true → Inv st →
      Inv (rewriteUses SE X PN (U.uses st.fn PN.id) st) ∧ Q Primary PN.id)
    (herase : ∀ Primary D st, Q Primary D → Inv st →
      Inv { fn := removeInst st.fn D, changed := true, trace := st.trace ++ [Event.erase D] })
    (st : ElimState) (hst : Inv st) : Inv (elimLoop SE X U L st) := by
  unfold elimLoop
  by_cases hsub : L.subLoops.isEmpty = true
  · simp only [hsub, Bool.not_true, Bool.false_eq_true, if_false]
    cases hh : L.header with
    | none => exact hst
    | some h =>
      cases hp : findPrimaryIV SE st.fn L with
      | none => exact hst
      | some Primary =>
        cases hb : findBlock st.fn h with
        | none => simp only [hb]; exact hst
        | some H =>
          have hH : H ∈ st.fn := List.mem_of_find?_eq_some hb
          obtain ⟨h1, h2⟩ := elimPhis_invariant SE X U L Primary Inv (Q Primary)
            (hproc hsub Primary) (phis H).length H.insts.head? st []
            (fun q hq => mem_allInsts.2 ⟨H, hH, mem_of_head? hq⟩) hst
            (fun D hD => by cases hD)
          simp only [hb]
          exact eraseDead_invariant Inv (Q Primary) (herase Primary) _ _ h2 h1
  · have hb : L.subLoops.isEmpty = false := by simpa using hsub
    simp only [hb, Bool.not_false, if_true]
    exact hst

/-- Induction over a run of the eliminator. -/
theorem foldl_elimLoop_invariant (SE : ScalarEvolution) (X : Expander) (U : UseOrder)
    (Inv : ElimState → Prop) (Q : Loop → Nat → Nat → Prop) :
    ∀ (LI : List Loop),
      (∀ L ∈ LI, L.subLoops.isEmpty = true → ∀ Primary PN st, PN ∈ allInsts st.fn →
        PN.isPHI = true → PN.id ≠ Primary → isDerivedIV SE L PN = true → Inv st →
        Inv (rewriteUses SE X PN (U.uses st.fn PN.id) st) ∧ Q L Primary PN.id) →
      (∀ L ∈ LI, ∀ Primary D st, Q L Primary D → Inv st →
        Inv { fn := removeInst st.fn D, changed := true,
              trace := st.trace ++ [Event.erase D] }) →
      ∀ (st : ElimState), Inv st → Inv (LI.foldl (fun s L => elimLoop SE X U L s) st)
  | [], _, _, _, hst => hst
  | L :: LI, hproc, herase, st, hst => by
    rw [List.foldl_cons]
    apply foldl_elimLoop_invariant SE X U Inv Q LI
      (fun L' hL' => hproc L' (List.mem_cons_of_mem _ hL'))
      (fun L' hL' => herase L' (List.mem_cons_of_mem _ hL'))
    exact elimLoop_invariant SE X U L Inv (Q L) (hproc L (List.mem_cons_self _ _))
      (herase L (List.mem_cons_self _ _)) st hst

theorem rewriteUse_unchanged (SE : ScalarEvolution) (X : Expander) (PN : Instruction)
    (user slot : Nat) (st : ElimState)
    (h : (rewriteUse SE X PN user slot st).changed = false) :
    st.changed = false ∧ (rewriteUse SE X PN user slot st).fn =
      insertBefore st.fn user ((X st.fn (SE PN.id) PN.ty user).insts.map asOrdinary) := by
  cases hv : (X st.fn (SE PN.id) PN.ty user).value with
  | none =>
    simp only [rewriteUse, hv] at h ⊢
    exact ⟨h, trivial⟩
  | some NewV =>
    by_cases hne : NewV = Value.inst PN.id
    · simp only [rewriteUse, hv, hne, bne_self_eq_false, Bool.false_eq_true, if_false] at h ⊢
      exact ⟨h, trivial⟩
    · have hb : (NewV != Value.inst PN.id) = true := by simpa using hne
      simp [rewriteUse, hv, hb] at h

theorem isPHI_asOrdinary (l : List Instruction) : ∀ n ∈ l.map asOrdinary, n.isPHI = false := by
  intro n hn
  obtain ⟨n0, -, rfl⟩ := List.mem_map.1 hn
  rfl

/-- As long as `Changed` is false the graph is the input graph with
synthesized instructions added. -/
theorem foldl_elimLoop_extends (SE : ScalarEvolution) (X : Expander) (U : UseOrder)
    (LI : List Loop) (F : Func) (st : ElimState) (hst : st.changed = false → Extends F st.fn) :
    (LI.foldl (fun s L => elimLoop SE X U L s) st).changed = false →
      Extends F (LI.foldl (fun s L => elimLoop SE X U L s) st).fn := by
  apply foldl_elimLoop_invariant SE X U (fun s => s.changed = false → Extends F s.fn)
    (fun _ _ _ => True) LI ?_ ?_ st hst
  · intro L _ _ Primary PN st _ _ _ _ hinv
    refine ⟨?_, trivial⟩
    apply rewriteUses_invariant SE X PN (fun s => s.changed = false → Extends F s.fn) ?_ _ _ hinv
    intro user slot s hs hch
    obtain ⟨h1, h2⟩ := rewriteUse_unchanged SE X PN user slot s hch
    rw [h2]
    exact extends_trans (hs h1) (extends_insertBefore _ _ _ (isPHI_asOrdinary _))
  · intro L _ Primary D st _ _ hch
    cases hch

end DerivedInductionVar

namespace IR

theorem phiKeys_cons (x : Instruction) (l : List Instruction) :
    phiKeys (x :: l) = if x.isPHI then (x.id, x.ty) :: phiKeys l else [] := by
  unfold phiKeys
  rw [List.takeWhile_cons]
  split <;> simp

theorem phiKeys_length (l : List Instruction) : (phiKeys l).length = leadingPhis l := by
  simp [phiKeys, leadingPhis]

theorem phiKeys_append_nonphi (news : List Instruction) (l : List Instruction)
    (hnews : ∀ n ∈ news, n.isPHI = false) (hne : news ≠ []) : phiKeys (news ++ l) = [] := by
  cases news with
  | nil => exact absurd rfl hne
  | cons n ns =>
    rw [List.cons_append, phiKeys_cons, hnews n (List.mem_cons_self _ _)]
    simp

theorem phiKeys_flatMap_prefix (pt : Nat) (news : List Instruction)
    (hnews : ∀ n ∈ news, n.isPHI = false) :
    ∀ (l : List Instruction),
      phiKeys (l.flatMap (fun i => if i.id == pt then news ++ [i] else [i])) <+: phiKeys l
  | [] => by simp [phiKeys]
  | x :: l => by
    have ih := phiKeys_flatMap_prefix pt news hnews l
    rw [List.flatMap_cons]
    by_cases hx : x.id = pt
    · simp only [hx, beq_self_eq_true, if_true]
      cases news with
      | nil =>
        simp only [List.nil_append, ite_self] at ih
        simp only [List.nil_append, List.singleton_append, phiKeys_cons, ite_self]
        split
        · exact (List.prefix_cons_inj _).2 ih
        · exact List.prefix_refl _
      | cons n ns =>
        rw [List.append_assoc, phiKeys_append_nonphi _ _ hnews (by simp)]
        exact List.nil_prefix
    · have hb : (x.id == pt) = false := by simpa using hx
      simp only [hb, Bool.false_eq_true, if_false, List.singleton_append, phiKeys_cons]
      split
      · exact (List.prefix_cons_inj _).2 ih
      · exact List.prefix_refl _

theorem phiKeys_flatMap_eq (pt : Nat) :
    ∀ (l : List Instruction),
      phiKeys (l.flatMap (fun i => if i.id == pt then ([] : List Instruction) ++ [i] else [i]))
        = phiKeys l
  | [] => rfl
  | x :: l => by
    have ih := phiKeys_flatMap_eq pt l
    rw [List.flatMap_cons]
    simp only [List.nil_append, ite_self, List.singleton_append, phiKeys_cons] at ih ⊢
    rw [ih]

theorem phiKeys_flatMap_of_not_phi (pt : Nat) (news : List Instruction)
    (hnews : ∀ n ∈ news, n.isPHI = false) :
    ∀ (l : List Instruction), (∀ x ∈ l, x.id = pt → x.isPHI = false) →
      phiKeys (l.flatMap (fun i => if i.id == pt then news ++ [i] else [i])) = phiKeys l
  | [], _ => rfl
  | x :: l, h => by
    have ih := phiKeys_flatMap_of_not_phi pt news hnews l
      (fun y hy => h y (List.mem_cons_of_mem _ hy))
    rw [List.flatMap_cons]
    by_cases hx : x.id = pt
    · have hphi := h x (List.mem_cons_self _ _) hx
      simp only [hx, beq_self_eq_true, if_true]
      rw [phiKeys_cons, hphi]
      cases news with
      | nil => simp [phiKeys_cons, hphi]
      | cons n ns =>
        rw [List.append_assoc, phiKeys_append_nonphi _ _ hnews (by simp)]
        simp
    · have hb : (x.id == pt) = false := by simpa using hx
      simp only [hb, Bool.false_eq_true, if_false, List.singleton_append, phiKeys_cons, ih]

theorem phiKeys_map_setOperand (user slot : Nat) (v : Value) :
    ∀ (l : List Instruction),
      phiKeys (l.map (fun i =>
        if i.id == user then { i with operands := i.operands.set slot v } else i))
        = phiKeys l
  | [] => rfl
  | x :: l => by
    rw [List.map_cons, phiKeys_cons, phiKeys_cons, phiKeys_map_setOperand user slot v l]
    by_cases hx : x.id = user <;> simp [hx]

/-- Linking instructions in front of `pt` keeps the block split at `q`; the
merge points that follow `q` stay as they are, unless an instruction is linked
in front of one of them, which ends the run of merge points there. -/
theorem insertBefore_block_keys {f : Func} {B : BasicBlock} {a rest : List Instruction}
    {q : Instruction} (pt : Nat) (news : List Instruction)
    (hnews : ∀ n ∈ news, n.isPHI = false) (hB : B ∈ f) (hs : B.insts = a ++ q :: rest) :
    ∃ B' ∈ insertBefore f pt news, ∃ a' rest', B'.insts = a' ++ q :: rest' ∧
      phiKeys rest' <+: phiKeys rest ∧
      (((∃ x ∈ allInsts f, x.id = pt ∧ x.isPHI = true) → news = []) →
        phiKeys rest' = phiKeys rest) := by
  have hkeys : ((∃ x ∈ allInsts f, x.id = pt ∧ x.isPHI = true) → news = []) →
      phiKeys (rest.flatMap (fun i => if i.id == pt then news ++ [i] else [i]))
        = phiKeys rest := by
    intro hC
    by_cases hex : ∃ x ∈ allInsts f, x.id = pt ∧ x.isPHI = true
    · rw [hC hex]
      exact phiKeys_flatMap_eq pt rest
    · apply phiKeys_flatMap_of_not_phi pt news hnews
      intro x hx hid
      cases hp : x.isPHI with
      | false => rfl
      | true =>
        exact absurd ⟨x, mem_allInsts.2 ⟨B, hB, by rw [hs]; simp [hx]⟩, hid, hp⟩ hex
  refine ⟨BasicBlock.mk B.id (B.insts.flatMap
      (fun i => if i.id == pt then news ++ [i] else [i])), List.mem_map.2 ⟨B, hB, rfl⟩, ?_⟩
  by_cases hq : q.id = pt
  · refine ⟨a.flatMap (fun i => if i.id == pt then news ++ [i] else [i]) ++ news,
      rest.flatMap (fun i => if i.id == pt then news ++ [i] else [i]), ?_,
      phiKeys_flatMap_prefix pt news hnews rest, hkeys⟩
    simp [hs, hq]
  · refine ⟨a.flatMap (fun i => if i.id == pt then news ++ [i] else [i]),
      rest.flatMap (fun i => if i.id == pt then news ++ [i] else [i]), ?_,
      phiKeys_flatMap_prefix pt news hnews rest, hkeys⟩
    simp [hs, hq]

theorem setOperand_block_keys {f : Func} {B : BasicBlock} {a rest : List Instruction}
    {q : Instruction} (user slot : Nat) (v : Value) (hB : B ∈ f)
    (hs : B.insts = a ++ q :: rest) :
    ∃ B' ∈ setOperand f user slot v, ∃ a' q' rest', B'.insts = a' ++ q' :: rest' ∧
      q'.id = q.id ∧ phiKeys rest' = phiKeys rest := by
  refine ⟨BasicBlock.mk B.id (B.insts.map (fun i =>
      if i.id == user then { i with operands := i.operands.set slot v } else i)),
    List.mem_map.2 ⟨B, hB, rfl⟩,
    a.map (fun i =>
      if i.id == user then { i with operands := i.operands.set slot v } else i),
    (if q.id == user then { q with operands := q.operands.set slot v } else q),
    rest.map (fun i =>
      if i.id == user then { i with operands := i.operands.set slot v } else i),
    ?_, ?_, ?_⟩
  · simp only [hs, List.map_append, List.map_cons]
  · split <;> rfl
  · rw [phiKeys_map_setOperand]

end IR

namespace DerivedInductionVar

open IR SCEVModel

theorem rewriteUse_congr (SE : ScalarEvolution) (X : Expander) {p q : Instruction}
    (hid : p.id = q.id) (hty : p.ty = q.ty) (user slot : Nat) (st : ElimState) :
    rewriteUse SE X p user slot st = rewriteUse SE X q user slot st := by
  simp only [rewriteUse, hid, hty]

theorem rewriteUses_congr (SE : ScalarEvolution) (X : Expander) {p q : Instruction}
    (hid : p.id = q.id) (hty : p.ty = q.ty) :
    ∀ (us : List (Nat × Nat)) (st : ElimState),
      rewriteUses SE X p us st = rewriteUses SE X q us st
  | [], _ => rfl
  | (user, slot) :: rest, st => by
    rw [rewriteUses_cons, rewriteUses_cons, rewriteUse_congr SE X hid hty,
      rewriteUses_congr SE X hid hty rest]

theorem rewriteUse_block_keys (SE : ScalarEvolution) (X : Expander) (PN : Instruction)
    (user slot : Nat) (st : ElimState) {B : BasicBlock} {a rest : List Instruction}
    {q : Instruction} (hB : B ∈ st.fn) (hs : B.insts = a ++ q :: rest) :
    ∃ B' ∈ (rewriteUse SE X PN user slot st).fn, ∃ a' q' rest',
      B'.insts = a' ++ q' :: rest' ∧ q'.id = q.id ∧ phiKeys rest' <+: phiKeys rest ∧
      (PhiSafe X → phiKeys rest' = phiKeys rest) := by
  obtain ⟨B1, hB1, a1, rest1, hs1, hle1, heq1⟩ :=
    insertBefore_block_keys user _ (isPHI_asOrdinary (X st.fn (SE PN.id) PN.ty user).insts)
      hB hs
  have heq : PhiSafe X → phiKeys rest1 = phiKeys rest := by
    intro hsafe
    apply heq1
    intro hex
    rw [hsafe st.fn (SE PN.id) PN.ty user hex]
    rfl
  rcases rewriteUse_fn SE X PN user slot st with h1 | ⟨v, -, -, h1⟩
  · rw [h1]
    exact ⟨B1, hB1, a1, q, rest1, hs1, rfl, hle1, heq⟩
  · rw [h1]
    obtain ⟨B2, hB2, a2, q2, rest2, hs2, hid2, hk2⟩ := setOperand_block_keys user slot v hB1 hs1
    exact ⟨B2, hB2, a2, q2, rest2, hs2, hid2, hk2 ▸ hle1, fun hsafe => hk2.trans (heq hsafe)⟩

theorem rewriteUses_block_keys (SE : ScalarEvolution) (X : Expander) (PN : Instruction) :
    ∀ (us : List (Nat × Nat)) (st : ElimState) (B : BasicBlock) (a rest : List Instruction)
      (q : Instruction), B ∈ st.fn → B.insts = a ++ q :: rest →
      ∃ B' ∈ (rewriteUses SE X PN us st).fn, ∃ a' q' rest',
        B'.insts = a' ++ q' :: rest' ∧ q'.id = q.id ∧ phiKeys rest' <+: phiKeys rest ∧
        (PhiSafe X → phiKeys rest' = phiKeys rest)
  | [], _, B, a, rest, q, hB, hs => ⟨B, hB, a, q, rest, hs, rfl, List.prefix_refl _, fun _ => rfl⟩
  | (user, slot) :: us, st, B, a, rest, q, hB, hs => by
    rw [rewriteUses_cons]
    obtain ⟨B1, hB1, a1, q1, rest1, hs1, hid1, hle1, heq1⟩ :=
      rewriteUse_block_keys SE X PN user slot st hB hs
    obtain ⟨B2, hB2, a2, q2, rest2, hs2, hid2, hle2, heq2⟩ :=
      rewriteUses_block_keys SE X PN us _ B1 a1 rest1 q1 hB1 hs1
    exact ⟨B2, hB2, a2, q2, rest2, hs2, hid2.trans hid1, hle2.trans hle1,
      fun hsafe => (heq2 hsafe).trans (heq1 hsafe)⟩

/-- The header walk as a fold.  In a graph with unique instruction identities
and with a synthesizer whose instructions are new objects, the walk started at
the head of `rest` handles, one after the other, a prefix of the merge points
that open `rest`; it handles all of them when the synthesizer links nothing in
front of a merge point. -/
theorem elimPhis_eq_foldl (SE : ScalarEvolution) (X : Expander) (U : UseOrder) (L : Loop)
    (Primary : Nat) (hX : FreshExpander X) :
    ∀ (n : Nat) (st : ElimState) (Dead : List Nat) (B : BasicBlock)
      (a rest : List Instruction), (instIds st.fn).Nodup → B ∈ st.fn →
      B.insts = a ++ rest → leadingPhis rest ≤ n →
      ∃ ks, ks <+: phiKeys rest ∧ (PhiSafe X → ks = phiKeys rest) ∧
        elimPhis SE X U L Primary n rest.head? (st, Dead)
          = ks.foldl (phiStep SE X U L Primary) (st, Dead) := by
  intro n
  induction n with
  | zero =>
    intro st Dead B a rest _ _ _ hle
    have hk : phiKeys rest = [] := by
      apply List.eq_nil_of_length_eq_zero
      rw [phiKeys_length]
      omega
    exact ⟨[], List.nil_prefix, fun _ => hk.symm, rfl⟩
  | succ n ih =>
    intro st Dead B a rest hnd hB hs hle
    cases rest with
    | nil => exact ⟨[], List.nil_prefix, fun _ => rfl, by simp [elimPhis_none]⟩
    | cons PN rest0 =>
      simp only [List.head?_cons]
      by_cases hphi : PN.isPHI = true
      · rw [leadingPhis_cons] at hle
        simp only [hphi, if_true] at hle
        have hle0 : leadingPhis rest0 ≤ n := by omega
        have hkeys : phiKeys (PN :: rest0) = (PN.id, PN.ty) :: phiKeys rest0 := by
          rw [phiKeys_cons, if_pos hphi]
        have hder : isDerivedIV SE L (phiOf (PN.id, PN.ty)) = isDerivedIV SE L PN :=
          isDerivedIV_congr SE L rfl rfl
        by_cases hskip : PN.id = Primary ∨ isDerivedIV SE L PN = false
        · rw [elimPhis_skip_step SE X U L Primary _ PN _ hphi hskip,
            nextInst_of_split hnd hB hs]
          obtain ⟨ks, hpre, hall, hrun⟩ :=
            ih st Dead B (a ++ [PN]) rest0 hnd hB (by simpa using hs) hle0
          refine ⟨(PN.id, PN.ty) :: ks, ?_, ?_, ?_⟩
          · rw [hkeys]
            exact (List.prefix_cons_inj _).2 hpre
          · intro hsafe
            rw [hkeys, hall hsafe]
          · rw [List.foldl_cons, hrun]
            congr 1
            unfold phiStep
            rcases hskip with h | h
            · simp [h]
            · simp [hder, h]
        · have hp : PN.id ≠ Primary := fun h => hskip (Or.inl h)
          have hd : isDerivedIV SE L PN = true := by
            cases h : isDerivedIV SE L PN with
            | true => rfl
            | false => exact absurd (Or.inr h) hskip
          rw [elimPhis_process_step SE X U L Primary _ PN st Dead hphi hp hd]
          have hnd1 : (instIds (rewriteUses SE X PN (U.uses st.fn PN.id) st).fn).Nodup :=
            rewriteUses_nodup hX PN _ _ hnd
          obtain ⟨B1, hB1, a1, q1, rest1, hs1, hid1, hle1, heq1⟩ :=
            rewriteUses_block_keys SE X PN (U.uses st.fn PN.id) st B a rest0 PN hB hs
          have hnext : nextInst (rewriteUses SE X PN (U.uses st.fn PN.id) st).fn PN.id
              = rest1.head? := by
            have := nextInst_of_split hnd1 hB1 hs1
            rwa [hid1] at this
          rw [hnext]
          have hlen : leadingPhis rest1 ≤ n := by
            have := hle1.length_le
            rw [phiKeys_length, phiKeys_length] at this
            omega
          obtain ⟨ks, hpre, hall, hrun⟩ :=
            ih _ (if useEmpty (rewriteUses SE X PN (U.uses st.fn PN.id) st).fn PN.id
              then Dead ++ [PN.id] else Dead) B1 (a1 ++ [q1]) rest1 hnd1 hB1
              (by simpa using hs1) hlen
          refine ⟨(PN.id, PN.ty) :: ks, ?_, ?_, ?_⟩
          · rw [hkeys]
            exact (List.prefix_cons_inj _).2 (hpre.trans hle1)
          · intro hsafe
            rw [hkeys, hall hsafe, heq1 hsafe]
          · rw [List.foldl_cons, hrun]
            congr 1
            have hc : rewriteUses SE X (phiOf (PN.id, PN.ty)) (U.uses st.fn PN.id) st
                = rewriteUses SE X PN (U.uses st.fn PN.id) st :=
              rewriteUses_congr SE X (p := phiOf (PN.id, PN.ty)) (q := PN) rfl rfl _ _
            have hb : (PN.id == Primary) = false := by simpa using hp
            simp only [phiStep, hb, hder, hd, hc, Bool.false_eq_true, if_false, Bool.not_true]
      · have hphi2 : PN.isPHI = false := by simpa using hphi
        rw [elimPhis_stop SE X U L Primary _ PN _ hphi2]
        refine ⟨[], List.nil_prefix, fun _ => ?_, rfl⟩
        rw [phiKeys_cons, hphi2]
        simp

/-- The processing of one loop as a fold over the merge points of its
header. -/
theorem elimLoop_eq_foldl (SE : ScalarEvolution) (X : Expander) (U : UseOrder) (L : Loop)
    (st : ElimState) (h Primary : Nat) (H : BasicBlock) (hX : FreshExpander X)
    (hnd : (instIds st.fn).Nodup) (hsub : L.subLoops.isEmpty = true)
    (hhdr : L.header = some h) (hprim : findPrimaryIV SE st.fn L = some Primary)
    (hH : findBlock st.fn h = some H) :
    ∃ ks, ks <+: phiKeys H.insts ∧ (PhiSafe X → ks = phiKeys H.insts) ∧
      elimLoop SE X U L st
        = eraseDead (ks.foldl (phiStep SE X U L Primary) (st, [])).2
            (ks.foldl (phiStep SE X U L Primary) (st, [])).1 := by
  obtain ⟨ks, hpre, hall, hrun⟩ := elimPhis_eq_foldl SE X U L Primary hX (phis H).length st []
    H [] H.insts hnd (findBlock_some hH).1 rfl (Nat.le_refl _)
  refine ⟨ks, hpre, hall, ?_⟩
  unfold elimLoop
  simp only [hsub, hhdr, hprim, hH, Bool.not_true, Bool.false_eq_true, if_false, hrun]

end DerivedInductionVar

namespace DerivedInductionVar

open IR SCEVModel

/-- What one step adds to the trace: the synthesizer call, and the redirection
when the synthesizer yielded a value other than `PN`. -/
theorem rewriteUse_trace_cases (SE : ScalarEvolution) (X : Expander) (PN : Instruction)
    (user slot : Nat) (st : ElimState) {e : Event}
    (h : e ∈ (rewriteUse SE X PN user slot st).trace) :
    e ∈ st.trace ∨ e = Event.synthesize PN.id user slot ∨
      ∃ v, e = Event.redirect PN.id user slot v ∧ v ≠ Value.inst PN.id ∧
        (X st.fn (SE PN.id) PN.ty user).value = some v := by
  cases hv : (X st.fn (SE PN.id) PN.ty user).value with
  | none =>
    simp only [rewriteUse, hv, List.mem_append, List.mem_singleton] at h
    rcases h with h | h
    · exact Or.inl h
    · exact Or.inr (Or.inl h)
  | some NewV =>
    by_cases hne : NewV = Value.inst PN.id
    · simp only [rewriteUse, hv, hne, bne_self_eq_false, Bool.false_eq_true, if_false,
        List.mem_append, List.mem_singleton] at h
      rcases h with h | h
      · exact Or.inl h
      · exact Or.inr (Or.inl h)
    · have hb : (NewV != Value.inst PN.id) = true := by simpa using hne
      simp only [rewriteUse, hv, hb, if_true, List.mem_append, List.mem_singleton] at h
      rcases h with (h | h) | h
      · exact Or.inl h
      · exact Or.inr (Or.inl h)
      · exact Or.inr (Or.inr ⟨NewV, h, hne, rfl⟩)

theorem rewriteUses_trace_cases (SE : ScalarEvolution) (X : Expander) (PN : Instruction)
    {e : Event} :
    ∀ (us : List (Nat × Nat)) (st : ElimState), e ∈ (rewriteUses SE X PN us st).trace →
      e ∈ st.trace ∨ ∃ u s, (u, s) ∈ us ∧ (e = Event.synthesize PN.id u s ∨
        ∃ v f, e = Event.redirect PN.id u s v ∧ v ≠ Value.inst PN.id ∧
          (X f (SE PN.id) PN.ty u).value = some v)
  | [], _, h => Or.inl h
  | (user, slot) :: rest, st, h => by
    rw [rewriteUses_cons] at h
    rcases rewriteUses_trace_cases SE X PN rest _ h with h1 | ⟨u, s, hus, h1⟩
    · rcases rewriteUse_trace_cases SE X PN user slot st h1 with h2 | h2 | ⟨v, h2, hne, hv⟩
      · exact Or.inl h2
      · exact Or.inr ⟨user, slot, List.mem_cons_self _ _, Or.inl h2⟩
      · exact Or.inr ⟨user, slot, List.mem_cons_self _ _, Or.inr ⟨v, st.fn, h2, hne, hv⟩⟩
    · exact Or.inr ⟨u, s, List.mem_cons_of_mem _ hus, h1⟩

theorem rewriteUse_synthesized (SE : ScalarEvolution) (X : Expander) (PN : Instruction)
    (user slot : Nat) (st : ElimState) :
    Event.synthesize PN.id user slot ∈ (rewriteUse SE X PN user slot st).trace := by
  cases hv : (X st.fn (SE PN.id) PN.ty user).value with
  | none => simp [rewriteUse, hv]
  | some NewV =>
    by_cases hne : NewV = Value.inst PN.id <;> simp [rewriteUse, hv, hne]

/-- The synthesizer is called for every edge of the snapshot. -/
theorem rewriteUses_synthesized (SE : ScalarEvolution) (X : Expander) (PN : Instruction)
    {u s : Nat} :
    ∀ (us : List (Nat × Nat)) (st : ElimState), (u, s) ∈ us →
      Event.synthesize PN.id u s ∈ (rewriteUses SE X PN us st).trace
  | [], _, h => by cases h
  | (user, slot) :: rest, st, h => by
    rw [rewriteUses_cons]
    rcases List.mem_cons.1 h with h | h
    · obtain ⟨hu, hs⟩ := Prod.mk.inj h
      subst hu hs
      exact rewriteUses_trace_mono SE X PN rest _ (rewriteUse_synthesized SE X PN u s st)
    · exact rewriteUses_synthesized SE X PN rest _ h

/-- A step at a use site where the synthesizer yields no value, or `PN`
itself, sets no operand. -/
theorem rewriteUse_refused (SE : ScalarEvolution) (X : Expander) (PN : Instruction)
    (user slot : Nat) (st : ElimState)
    (href : (X st.fn (SE PN.id) PN.ty user).value = none ∨
      (X st.fn (SE PN.id) PN.ty user).value = some (Value.inst PN.id)) :
    (rewriteUse SE X PN user slot st).fn =
      insertBefore st.fn user ((X st.fn (SE PN.id) PN.ty user).insts.map asOrdinary) := by
  rcases href with h | h <;> simp [rewriteUse, h]

theorem eraseDead_trace_cases {e : Event} :
    ∀ (Dead : List Nat) (st : ElimState), e ∈ (eraseDead Dead st).trace →
      e ∈ st.trace ∨ ∃ d ∈ Dead, e = Event.erase d
  | [], _, h => Or.inl h
  | D :: rest, st, h => by
    rw [eraseDead] at h
    rcases eraseDead_trace_cases rest _ h with h1 | ⟨d, hd, h1⟩
    · simp only [List.mem_append, List.mem_singleton] at h1
      rcases h1 with h1 | h1
      · exact Or.inl h1
      · exact Or.inr ⟨D, List.mem_cons_self _ _, h1⟩
    · exact Or.inr ⟨d, List.mem_cons_of_mem _ hd, h1⟩

theorem eraseDead_erased :
    ∀ (Dead : List Nat) (st : ElimState) (d : Nat), d ∈ Dead →
      Event.erase d ∈ (eraseDead Dead st).trace
  | [], _, _, h => by cases h
  | D :: rest, st, d, h => by
    rw [eraseDead]
    rcases List.mem_cons.1 h with h | h
    · subst h
      exact eraseDead_trace_mono rest _ (by simp)
    · exact eraseDead_erased rest _ d h

theorem eraseDead_hasOperand {u s : Nat} {w : Value} :
    ∀ (Dead : List Nat) (st : ElimState), u ∉ Dead → HasOperand st.fn u s w →
      HasOperand (eraseDead Dead st).fn u s w
  | [], _, _, h => h
  | D :: rest, st, hn, h => by
    rw [eraseDead]
    exact eraseDead_hasOperand rest _ (fun e => hn (List.mem_cons_of_mem _ e))
      (hasOperand_removeInst D (fun e => hn (e ▸ List.mem_cons_self _ _)) h)

theorem eraseDead_mem_ids {x : Nat} :
    ∀ (Dead : List Nat) (st : ElimState), x ∉ Dead → x ∈ instIds st.fn →
      x ∈ instIds (eraseDead Dead st).fn
  | [], _, _, h => h
  | D :: rest, st, hn, h => by
    rw [eraseDead]
    apply eraseDead_mem_ids rest _ (fun e => hn (List.mem_cons_of_mem _ e))
    rw [instIds_removeInst]
    exact List.mem_filter.2 ⟨h, by
      have : x ≠ D := fun e => hn (e ▸ List.mem_cons_self _ _)
      simpa using this⟩

theorem eraseDead_nodup :
    ∀ (Dead : List Nat) (st : ElimState), (instIds st.fn).Nodup →
      (instIds (eraseDead Dead st).fn).Nodup
  | [], _, h => h
  | D :: rest, st, h => by
    rw [eraseDead]
    exact eraseDead_nodup rest _ (nodup_instIds_removeInst D h)

/-- An operand that is not the merge point being handled is not in its
snapshot, so it stays. -/
theorem rewriteUses_hasOperand_other (SE : ScalarEvolution) (X : Expander) (U : UseOrder)
    (PN : Instruction) (st : ElimState) {u s : Nat} {w : Value}
    (hnd : (instIds st.fn).Nodup) (hw : w ≠ Value.inst PN.id)
    (h : HasOperand st.fn u s w) :
    HasOperand (rewriteUses SE X PN (U.uses st.fn PN.id) st).fn u s w := by
  apply rewriteUses_hasOperand SE X PN _ _ _ h
  intro hmem
  have hmem2 := (U.perm st.fn PN.id).mem_iff.1 hmem
  obtain ⟨q, hq, hid, hop⟩ := mem_usesOf.1 hmem2
  obtain ⟨q', hq', hid', hop'⟩ := h
  have : q = q' := List.inj_on_of_nodup_map hnd hq hq' (hid.trans hid'.symm)
  subst this
  rw [hop] at hop'
  exact hw (Option.some.inj hop').symm

end DerivedInductionVar

namespace DerivedInductionVar

open IR SCEVModel

theorem phiStep_skip (SE : ScalarEvolution) (X : Expander) (U : UseOrder) (L : Loop)
    (Primary : Nat) (acc : ElimState × List Nat) (k : Nat × Ty)
    (h : k.1 = Primary ∨ isDerivedIV SE L (phiOf k) = false) :
    phiStep SE X U L Primary acc k = acc := by
  unfold phiStep
  by_cases hp : k.1 = Primary
  · simp [hp]
  · simp [hp, h.resolve_left hp]

theorem phiStep_process (SE : ScalarEvolution) (X : Expander) (U : UseOrder) (L : Loop)
    (Primary : Nat) (acc : ElimState × List Nat) (k : Nat × Ty)
    (hp : k.1 ≠ Primary) (hd : isDerivedIV SE L (phiOf k) = true) :
    phiStep SE X U L Primary acc k =
      (rewriteUses SE X (phiOf k) (U.uses acc.1.fn k.1) acc.1,
        if useEmpty (rewriteUses SE X (phiOf k) (U.uses acc.1.fn k.1) acc.1).fn k.1
        then acc.2 ++ [k.1] else acc.2) := by
  unfold phiStep
  simp [hp, hd]

theorem phiStep_cases (SE : ScalarEvolution) (X : Expander) (U : UseOrder) (L : Loop)
    (Primary : Nat) (acc : ElimState × List Nat) (k : Nat × Ty) :
    phiStep SE X U L Primary acc k = acc ∨
      (k.1 ≠ Primary ∧ isDerivedIV SE L (phiOf k) = true ∧
        phiStep SE X U L Primary acc k =
          (rewriteUses SE X (phiOf k) (U.uses acc.1.fn k.1) acc.1,
            if useEmpty (rewriteUses SE X (phiOf k) (U.uses acc.1.fn k.1) acc.1).fn k.1
            then acc.2 ++ [k.1] else acc.2)) := by
  by_cases hp : k.1 = Primary
  · exact Or.inl (phiStep_skip SE X U L Primary acc k (Or.inl hp))
  · by_cases hd : isDerivedIV SE L (phiOf k) = true
    · exact Or.inr ⟨hp, hd, phiStep_process SE X U L Primary acc k hp hd⟩
    · exact Or.inl (phiStep_skip SE X U L Primary acc k (Or.inr (by simpa using hd)))

/-- Induction over the fold: a property of the state and the deletion list
that every step preserves holds at the end. -/
theorem walk_invariant (SE : ScalarEvolution) (X : Expander) (U : UseOrder) (L : Loop)
    (Primary : Nat) (Inv : ElimState × List Nat → Prop) :
    ∀ (ks : List (Nat × Ty)) (acc : ElimState × List Nat),
      (∀ k ∈ ks, ∀ acc, Inv acc → Inv (phiStep SE X U L Primary acc k)) → Inv acc →
      Inv (ks.foldl (phiStep SE X U L Primary) acc)
  | [], _, _, h => h
  | k :: ks, acc, hstep, h => by
    rw [List.foldl_cons]
    exact walk_invariant SE X U L Primary Inv ks _
      (fun k' hk' => hstep k' (List.mem_cons_of_mem _ hk'))
      (hstep k (List.mem_cons_self _ _) acc h)

theorem walk_nodup (SE : ScalarEvolution) (X : Expander) (U : UseOrder) (L : Loop)
    (Primary : Nat) (hX : FreshExpander X) (ks : List (Nat × Ty)) (acc : ElimState × List Nat)
    (h : (instIds acc.1.fn).Nodup) :
    (instIds (ks.foldl (phiStep SE X U L Primary) acc).1.fn).Nodup := by
  apply walk_invariant SE X U L Primary (fun a => (instIds a.1.fn).Nodup) ks acc _ h
  intro k _ a ha
  rcases phiStep_cases SE X U L Primary a k with h1 | ⟨-, -, h1⟩
  · rw [h1]; exact ha
  · rw [h1]; exact rewriteUses_nodup hX _ _ _ ha

theorem walk_trace_mono (SE : ScalarEvolution) (X : Expander) (U : UseOrder) (L : Loop)
    (Primary : Nat) (ks : List (Nat × Ty)) (acc : ElimState × List Nat) {e : Event}
    (h : e ∈ acc.1.trace) : e ∈ (ks.foldl (phiStep SE X U L Primary) acc).1.trace := by
  apply walk_invariant SE X U L Primary (fun a => e ∈ a.1.trace) ks acc _ h
  intro k _ a ha
  rcases phiStep_cases SE X U L Primary a k with h1 | ⟨-, -, h1⟩
  · rw [h1]; exact ha
  · rw [h1]; exact rewriteUses_trace_mono SE X _ _ _ ha

theorem walk_mem_ids (SE : ScalarEvolution) (X : Expander) (U : UseOrder) (L : Loop)
    (Primary : Nat) (ks : List (Nat × Ty)) (acc : ElimState × List Nat) {x : Nat}
    (h : x ∈ instIds acc.1.fn) : x ∈ instIds (ks.foldl (phiStep SE X U L Primary) acc).1.fn := by
  apply walk_invariant SE X U L Primary (fun a => x ∈ instIds a.1.fn) ks acc _ h
  intro k _ a ha
  rcases phiStep_cases SE X U L Primary a k with h1 | ⟨-, -, h1⟩
  · rw [h1]; exact ha
  · rw [h1]; exact rewriteUses_mem_ids SE X _ _ _ ha

/-- What the fold adds to the trace: synthesizer calls and redirections for
use edges of merge points of the list that are derived IVs and not the primary
IV. -/
theorem walk_trace_cases (SE : ScalarEvolution) (X : Expander) (U : UseOrder) (L : Loop)
    (Primary : Nat) (tr : List Event) (ks : List (Nat × Ty)) (acc : ElimState × List Nat)
    (h : ∀ e ∈ acc.1.trace, e ∈ tr ∨ ∃ k ∈ ks, k.1 ≠ Primary ∧
      isDerivedIV SE L (phiOf k) = true ∧ ∃ u s, e = Event.synthesize k.1 u s ∨
        ∃ v f, e = Event.redirect k.1 u s v ∧ v ≠ Value.inst k.1 ∧
          (X f (SE k.1) k.2 u).value = some v) :
    ∀ e ∈ (ks.foldl (phiStep SE X U L Primary) acc).1.trace, e ∈ tr ∨ ∃ k ∈ ks,
      k.1 ≠ Primary ∧ isDerivedIV SE L (phiOf k) = true ∧
      ∃ u s, e = Event.synthesize k.1 u s ∨
        ∃ v f, e = Event.redirect k.1 u s v ∧ v ≠ Value.inst k.1 ∧
          (X f (SE k.1) k.2 u).value = some v := by
  apply walk_invariant SE X U L Primary (fun a => ∀ e ∈ a.1.trace, e ∈ tr ∨ ∃ k ∈ ks,
      k.1 ≠ Primary ∧ isDerivedIV SE L (phiOf k) = true ∧
      ∃ u s, e = Event.synthesize k.1 u s ∨
        ∃ v f, e = Event.redirect k.1 u s v ∧ v ≠ Value.inst k.1 ∧
          (X f (SE k.1) k.2 u).value = some v) ks acc _ h
  intro k hk a ha e he
  rcases phiStep_cases SE X U L Primary a k with h1 | ⟨hp, hd, h1⟩
  · rw [h1] at he; exact ha e he
  · rw [h1] at he
    rcases rewriteUses_trace_cases SE X _ _ _ he with h2 | ⟨u, s, -, h2⟩
    · exact ha e h2
    · exact Or.inr ⟨k, hk, hp, hd, u, s, h2⟩

/-- The merge points the fold puts on the deletion list are derived IVs of the
list, not the primary IV. -/
theorem walk_dead_cases (SE : ScalarEvolution) (X : Expander) (U : UseOrder) (L : Loop)
    (Primary : Nat) (Dead0 : List Nat) (ks : List (Nat × Ty)) (acc : ElimState × List Nat)
    (h : ∀ d ∈ acc.2, d ∈ Dead0 ∨ ∃ k ∈ ks, k.1 = d ∧ k.1 ≠ Primary ∧
      isDerivedIV SE L (phiOf k) = true) :
    ∀ d ∈ (ks.foldl (phiStep SE X U L Primary) acc).2, d ∈ Dead0 ∨ ∃ k ∈ ks, k.1 = d ∧
      k.1 ≠ Primary ∧ isDerivedIV SE L (phiOf k) = true := by
  apply walk_invariant SE X U L Primary (fun a => ∀ d ∈ a.2, d ∈ Dead0 ∨ ∃ k ∈ ks, k.1 = d ∧
      k.1 ≠ Primary ∧ isDerivedIV SE L (phiOf k) = true) ks acc _ h
  intro k hk a ha d hd
  rcases phiStep_cases SE X U L Primary a k with h1 | ⟨hp, hder, h1⟩
  · rw [h1] at hd; exact ha d hd
  · rw [h1] at hd
    simp only at hd
    split at hd
    · rcases List.mem_append.1 hd with hd | hd
      · exact ha d hd
      · exact Or.inr ⟨k, hk, (List.mem_singleton.1 hd).symm, hp, hder⟩
    · exact ha d hd

/-- An operand that is no merge point of the list stays through the fold. -/
theorem walk_hasOperand_other (SE : ScalarEvolution) (X : Expander) (U : UseOrder) (L : Loop)
    (Primary : Nat) (hX : FreshExpander X) {u s : Nat} {w : Value}
    (ks : List (Nat × Ty)) (acc : ElimState × List Nat)
    (hw : ∀ k ∈ ks, k.1 ≠ Primary → isDerivedIV SE L (phiOf k) = true → w ≠ Value.inst k.1)
    (hnd : (instIds acc.1.fn).Nodup) (h : HasOperand acc.1.fn u s w) :
    HasOperand (ks.foldl (phiStep SE X U L Primary) acc).1.fn u s w := by
  have := walk_invariant SE X U L Primary
    (fun a => (instIds a.1.fn).Nodup ∧ HasOperand a.1.fn u s w) ks acc ?_ ⟨hnd, h⟩
  · exact this.2
  · intro k hk a ha
    rcases phiStep_cases SE X U L Primary a k with h1 | ⟨hp, hd, h1⟩
    · rw [h1]; exact ha
    · rw [h1]
      exact ⟨rewriteUses_nodup hX _ _ _ ha.1,
        rewriteUses_hasOperand_other SE X U (phiOf k) a.1 ha.1 (hw k hk hp hd) ha.2⟩

theorem rewriteUse_sameKind (SE : ScalarEvolution) (X : Expander) (F : Func) (u : Nat)
    (PN : Instruction) (user slot : Nat) (st : ElimState) (h : SameKind F u st.fn) :
    SameKind F u (rewriteUse SE X PN user slot st).fn := by
  unfold SameKind at h ⊢
  rw [← h]
  constructor
  · rintro ⟨q, hq, hid, hphi⟩
    obtain ⟨q0, hq0, hid0, -, hp0⟩ := rewriteUse_phi SE X PN user slot st hq hphi
    exact ⟨q0, hq0, hid0.trans hid, hp0⟩
  · rintro ⟨q, hq, hid, hphi⟩
    have hq1 : q ∈ allInsts
        (insertBefore st.fn user ((X st.fn (SE PN.id) PN.ty user).insts.map asOrdinary)) :=
      mem_allInsts_insertBefore.2 (Or.inl hq)
    rcases rewriteUse_fn SE X PN user slot st with h1 | ⟨v, -, -, h1⟩
    · rw [h1]
      exact ⟨q, hq1, hid, hphi⟩
    · rw [h1]
      refine ⟨_, mem_allInsts_setOperand.2 ⟨q, hq1, rfl⟩, ?_, ?_⟩
      · split <;> exact hid
      · split <;> exact hphi

theorem rewriteUses_sameKind (SE : ScalarEvolution) (X : Expander) (F : Func) (u : Nat)
    (PN : Instruction) :
    ∀ (us : List (Nat × Nat)) (st : ElimState), SameKind F u st.fn →
      SameKind F u (rewriteUses SE X PN us st).fn
  | [], _, h => h
  | (user, slot) :: rest, st, h => by
    rw [rewriteUses_cons]
    exact rewriteUses_sameKind SE X F u PN rest _ (rewriteUse_sameKind SE X F u PN user slot st h)

theorem phiStep_sameKind (SE : ScalarEvolution) (X : Expander) (U : UseOrder) (L : Loop)
    (Primary : Nat) (F : Func) (u : Nat) (acc : ElimState × List Nat) (k : Nat × Ty)
    (h : SameKind F u acc.1.fn) : SameKind F u (phiStep SE X U L Primary acc k).1.fn := by
  rcases phiStep_cases SE X U L Primary acc k with h1 | ⟨-, -, h1⟩
  · rw [h1]; exact h
  · rw [h1]; exact rewriteUses_sameKind SE X F u _ _ _ h

/-- An edge of the snapshot at whose use site the synthesizer yields a value
other than `PN` is redirected, whatever happens at the other edges. -/
theorem rewriteUses_redirected_user (SE : ScalarEvolution) (X : Expander) (PN : Instruction)
    (F : Func) {u s : Nat}
    (hsucc : ∀ f, SameKind F u f →
      ∃ v, (X f (SE PN.id) PN.ty u).value = some v ∧ v ≠ Value.inst PN.id) :
    ∀ (us : List (Nat × Nat)) (st : ElimState), (u, s) ∈ us → SlotExists st.fn u s →
      SameKind F u st.fn →
      ∃ v f', (X f' (SE PN.id) PN.ty u).value = some v ∧ v ≠ Value.inst PN.id ∧
        Event.redirect PN.id u s v ∈ (rewriteUses SE X PN us st).trace
  | [], _, h, _, _ => by cases h
  | (user, slot) :: rest, st, h, hslot, hk => by
    rw [rewriteUses_cons]
    rcases List.mem_cons.1 h with h | h
    · obtain ⟨hu, hs⟩ := Prod.mk.inj h
      subst hu hs
      obtain ⟨v, hv, hne⟩ := hsucc st.fn hk
      obtain ⟨htr, -, -, -⟩ := rewriteUse_redirects SE X PN u s st hv hne hslot
      exact ⟨v, st.fn, hv, hne, rewriteUses_trace_mono SE X PN rest _ htr⟩
    · exact rewriteUses_redirected_user SE X PN F hsucc rest _ h
        (rewriteUse_slotExists SE X PN _ _ st hslot)
        (rewriteUse_sameKind SE X F u PN user slot st hk)

/-- An edge at whose use site the synthesizer yields no value, or `PN` itself,
keeps its operand through the handling of the snapshot. -/
theorem rewriteUses_refused (SE : ScalarEvolution) (X : Expander) (PN : Instruction)
    (F : Func) {u s : Nat} {w : Value}
    (href : ∀ f, SameKind F u f → (X f (SE PN.id) PN.ty u).value = none ∨
      (X f (SE PN.id) PN.ty u).value = some (Value.inst PN.id)) :
    ∀ (us : List (Nat × Nat)) (st : ElimState), SameKind F u st.fn → HasOperand st.fn u s w →
      HasOperand (rewriteUses SE X PN us st).fn u s w
  | [], _, _, h => h
  | (user, slot) :: rest, st, hk, h => by
    rw [rewriteUses_cons]
    apply rewriteUses_refused SE X PN F href rest _
      (rewriteUse_sameKind SE X F u PN user slot st hk)
    by_cases hu : user = u
    · subst hu
      rw [rewriteUse_refused SE X PN user slot st (href st.fn hk)]
      exact hasOperand_insertBefore _ _ h
    · exact rewriteUse_hasOperand SE X PN user slot st
        (fun e => hu (Prod.mk.inj e).1) h

/-- A use edge of `d` at whose use site the synthesizer yields no value, or `d`
itself, still refers to `d` after the fold, and `d` is not put on the deletion
list. -/
theorem walk_edge_refused (SE : ScalarEvolution) (X : Expander) (U : UseOrder) (L : Loop)
    (Primary : Nat) (hX : FreshExpander X) (F : Func) {u s d : Nat}
    (ks : List (Nat × Ty)) (acc : ElimState × List Nat)
    (href : ∀ k ∈ ks, k.1 = d → ∀ f, SameKind F u f → (X f (SE d) k.2 u).value = none ∨
      (X f (SE d) k.2 u).value = some (Value.inst d))
    (hnd : (instIds acc.1.fn).Nodup) (hk0 : SameKind F u acc.1.fn)
    (h : HasOperand acc.1.fn u s (Value.inst d)) (hdead : d ∉ acc.2) :
    HasOperand (ks.foldl (phiStep SE X U L Primary) acc).1.fn u s (Value.inst d) ∧
      d ∉ (ks.foldl (phiStep SE X U L Primary) acc).2 := by
  have := walk_invariant SE X U L Primary
    (fun a => (instIds a.1.fn).Nodup ∧ SameKind F u a.1.fn ∧
      HasOperand a.1.fn u s (Value.inst d) ∧ d ∉ a.2)
    ks acc ?_ ⟨hnd, hk0, h, hdead⟩
  · exact this.2.2
  · intro k hk a ha
    refine ⟨?_, phiStep_sameKind SE X U L Primary F u a k ha.2.1, ?_⟩
    · rcases phiStep_cases SE X U L Primary a k with h1 | ⟨-, -, h1⟩
      · rw [h1]; exact ha.1
      · rw [h1]; exact rewriteUses_nodup hX _ _ _ ha.1
    rcases phiStep_cases SE X U L Primary a k with h1 | ⟨hp, hd, h1⟩
    · rw [h1]; exact ha.2.2
    · rw [h1]
      by_cases hkd : k.1 = d
      · have hop : HasOperand
            (rewriteUses SE X (phiOf k) (U.uses a.1.fn k.1) a.1).fn u s (Value.inst d) := by
          apply rewriteUses_refused SE X (phiOf k) F _ _ _ ha.2.1 ha.2.2.1
          intro f hf
          have := href k hk hkd f hf
          simpa [phiOf, hkd] using this
        refine ⟨hop, ?_⟩
        have hne : useEmpty (rewriteUses SE X (phiOf k) (U.uses a.1.fn k.1) a.1).fn k.1
            = false := by
          obtain ⟨q, hq, hid, hopq⟩ := hop
          have hmem : (u, s) ∈
              usesOf (rewriteUses SE X (phiOf k) (U.uses a.1.fn k.1) a.1).fn k.1 :=
            mem_usesOf.2 ⟨q, hq, hid, hkd ▸ hopq⟩
          unfold useEmpty
          cases hl : usesOf (rewriteUses SE X (phiOf k) (U.uses a.1.fn k.1) a.1).fn k.1 with
          | nil => rw [hl] at hmem; cases hmem
          | cons x xs => rfl
        simp only [hne, Bool.false_eq_true, if_false]
        exact ha.2.2.2
      · refine ⟨rewriteUses_hasOperand_other SE X U (phiOf k) a.1 ha.1
          (fun e => hkd (Value.inst.inj e).symm) ha.2.2.1, ?_⟩
        simp only
        split
        · intro hmem
          rcases List.mem_append.1 hmem with hmem | hmem
          · exact ha.2.2.2 hmem
          · exact hkd (List.mem_singleton.1 hmem).symm
        · exact ha.2.2.2

/-- A use edge of a derived IV of the list is handed to the synthesizer, and
is redirected when the synthesizer yields a value at its use site. -/
theorem walk_synthesized (SE : ScalarEvolution) (X : Expander) (U : UseOrder) (L : Loop)
    (Primary : Nat) (hX : FreshExpander X) (F : Func) {u s d : Nat} {ty : Ty}
    (hp : d ≠ Primary) (hd : isDerivedIV SE L (phiOf (d, ty)) = true) :
    ∀ (ks : List (Nat × Ty)) (acc : ElimState × List Nat),
      (d, ty) ∈ ks → (∀ k ∈ ks, k.1 = d → k.2 = ty) →
      (instIds acc.1.fn).Nodup → SameKind F u acc.1.fn →
      HasOperand acc.1.fn u s (Value.inst d) →
      Event.synthesize d u s ∈ (ks.foldl (phiStep SE X U L Primary) acc).1.trace ∧
      ((∀ f, SameKind F u f →
          ∃ v, (X f (SE d) ty u).value = some v ∧ v ≠ Value.inst d) →
        ∃ v f, (X f (SE d) ty u).value = some v ∧ v ≠ Value.inst d ∧
          Event.redirect d u s v ∈ (ks.foldl (phiStep SE X U L Primary) acc).1.trace)
  | [], _, h, _, _, _, _ => by cases h
  | k :: ks, acc, hmem, huniq, hnd, hk0, hop => by
    rw [List.foldl_cons]
    by_cases hkd : k.1 = d
    · have hk : k = (d, ty) := Prod.ext hkd (huniq k (List.mem_cons_self _ _) hkd)
      subst hk
      rw [phiStep_process SE X U L Primary acc (d, ty) hp hd]
      have hin : (u, s) ∈ U.uses acc.1.fn d := by
        obtain ⟨q, hq, hid, hopq⟩ := hop
        exact (U.perm acc.1.fn d).mem_iff.2 (mem_usesOf.2 ⟨q, hq, hid, hopq⟩)
      refine ⟨walk_trace_mono SE X U L Primary ks _
        (rewriteUses_synthesized SE X (phiOf (d, ty)) _ _ hin), fun hsucc => ?_⟩
      have hslot : SlotExists acc.1.fn u s :=
        slotExists_of_mem_usesOf ((U.perm acc.1.fn d).mem_iff.1 hin)
      obtain ⟨v, f, hv, hne, htr⟩ :=
        rewriteUses_redirected_user SE X (phiOf (d, ty)) F hsucc _ acc.1 hin hslot hk0
      exact ⟨v, f, hv, hne, walk_trace_mono SE X U L Primary ks _ htr⟩
    · have hmem2 : (d, ty) ∈ ks := by
        rcases List.mem_cons.1 hmem with h | h
        · exact absurd (congrArg Prod.fst h).symm hkd
        · exact h
      have hstep : (instIds (phiStep SE X U L Primary acc k).1.fn).Nodup ∧
          HasOperand (phiStep SE X U L Primary acc k).1.fn u s (Value.inst d) := by
        rcases phiStep_cases SE X U L Primary acc k with h1 | ⟨-, -, h1⟩
        · rw [h1]; exact ⟨hnd, hop⟩
        · rw [h1]
          exact ⟨rewriteUses_nodup hX _ _ _ hnd,
            rewriteUses_hasOperand_other SE X U (phiOf k) acc.1 hnd
              (fun e => hkd (Value.inst.inj e).symm) hop⟩
      exact walk_synthesized SE X U L Primary hX F hp hd ks _ hmem2
        (fun k' hk' => huniq k' (List.mem_cons_of_mem _ hk')) hstep.1
        (phiStep_sameKind SE X U L Primary F u acc k hk0) hstep.2

end DerivedInductionVar

namespace IR

theorem inBlock_insertBefore {f : Func} {h x : Nat} (pt : Nat) (news : List Instruction)
    (hx : InBlock f h x) : InBlock (insertBefore f pt news) h x := by
  obtain ⟨B, hB, hid, hmem⟩ := hx
  refine ⟨_, List.mem_map.2 ⟨B, hB, rfl⟩, hid, ?_⟩
  obtain ⟨q, hq, rfl⟩ := List.mem_map.1 hmem
  apply List.mem_map.2
  refine ⟨q, List.mem_flatMap.2 ⟨q, hq, ?_⟩, rfl⟩
  split <;> simp

theorem inBlock_setOperand {f : Func} {h x : Nat} (user slot : Nat) (v : Value)
    (hx : InBlock f h x) : InBlock (setOperand f user slot v) h x := by
  obtain ⟨B, hB, hid, hmem⟩ := hx
  refine ⟨_, List.mem_map.2 ⟨B, hB, rfl⟩, hid, ?_⟩
  obtain ⟨q, hq, rfl⟩ := List.mem_map.1 hmem
  apply List.mem_map.2
  refine ⟨_, List.mem_map.2 ⟨q, hq, rfl⟩, ?_⟩
  split <;> rfl

theorem inBlock_removeInst {f : Func} {h x : Nat} (d : Nat) (hne : x ≠ d)
    (hx : InBlock f h x) : InBlock (removeInst f d) h x := by
  obtain ⟨B, hB, hid, hmem⟩ := hx
  refine ⟨_, List.mem_map.2 ⟨B, hB, rfl⟩, hid, ?_⟩
  obtain ⟨q, hq, rfl⟩ := List.mem_map.1 hmem
  apply List.mem_map.2
  exact ⟨q, List.mem_filter.2 ⟨hq, by simpa using hne⟩, rfl⟩

end IR

namespace DerivedInductionVar

open IR SCEVModel

theorem rewriteUse_inBlock (SE : ScalarEvolution) (X : Expander) (PN : Instruction)
    (user slot : Nat) (st : ElimState) {h x : Nat} (hx : InBlock st.fn h x) :
    InBlock (rewriteUse SE X PN user slot st).fn h x := by
  rcases rewriteUse_fn SE X PN user slot st with h1 | ⟨v, -, -, h1⟩
  · rw [h1]
    exact inBlock_insertBefore _ _ hx
  · rw [h1]
    exact inBlock_setOperand _ _ _ (inBlock_insertBefore _ _ hx)

theorem walk_inBlock (SE : ScalarEvolution) (X : Expander) (U : UseOrder) (L : Loop)
    (Primary : Nat) (ks : List (Nat × Ty)) (acc : ElimState × List Nat) {h x : Nat}
    (hx : InBlock acc.1.fn h x) :
    InBlock (ks.foldl (phiStep SE X U L Primary) acc).1.fn h x := by
  apply walk_invariant SE X U L Primary (fun a => InBlock a.1.fn h x) ks acc _ hx
  intro k _ a ha
  rcases phiStep_cases SE X U L Primary a k with h1 | ⟨-, -, h1⟩
  · rw [h1]; exact ha
  · rw [h1]
    exact rewriteUses_invariant SE X _ (fun s => InBlock s.fn h x)
      (fun user slot s hs => rewriteUse_inBlock SE X _ user slot s hs) _ _ ha

theorem eraseDead_inBlock {h x : Nat} :
    ∀ (Dead : List Nat) (st : ElimState), x ∉ Dead → InBlock st.fn h x →
      InBlock (eraseDead Dead st).fn h x
  | [], _, _, hx => hx
  | D :: rest, st, hn, hx => by
    rw [eraseDead]
    exact eraseDead_inBlock rest _ (fun e => hn (List.mem_cons_of_mem _ e))
      (inBlock_removeInst D (fun e => hn (e ▸ List.mem_cons_self _ _)) hx)

theorem sameKind_refl (F : Func) (u : Nat) : SameKind F u F := Iff.rfl

/-- A run on a single loop, as a fold over the merge points of the header
followed by the deletions. -/
theorem run_single_eq_foldl (SE : ScalarEvolution) (X : Expander) (U : UseOrder) (L : Loop)
    (F : Func) (h i : Nat) (H : BasicBlock) (hX : FreshExpander X) (hsafe : PhiSafe X)
    (hnd : (instIds F).Nodup) (hsub : L.subLoops.isEmpty = true) (hhdr : L.header = some h)
    (hprim : findPrimaryIV SE F L = some i) (hH : findBlock F h = some H) :
    DerivedInductionVarElim.run SE X U [L] F =
      eraseDead ((phiKeys H.insts).foldl (phiStep SE X U L i) (startState F, [])).2
        ((phiKeys H.insts).foldl (phiStep SE X U L i) (startState F, [])).1 := by
  obtain ⟨ks, -, hall, hrun⟩ := elimLoop_eq_foldl SE X U L (startState F) h i H hX hnd hsub hhdr
    hprim hH
  rw [hall hsafe] at hrun
  simpa [DerivedInductionVarElim.run] using hrun

theorem rewriteUses_no_redirect (SE : ScalarEvolution) (X : Expander) (PN : Instruction)
    (F : Func) {u s : Nat}
    (href : ∀ f, SameKind F u f → (X f (SE PN.id) PN.ty u).value = none ∨
      (X f (SE PN.id) PN.ty u).value = some (Value.inst PN.id)) :
    ∀ (us : List (Nat × Nat)) (st : ElimState), SameKind F u st.fn →
      (∀ v, Event.redirect PN.id u s v ∉ st.trace) →
      ∀ v, Event.redirect PN.id u s v ∉ (rewriteUses SE X PN us st).trace
  | [], _, _, h => h
  | (user, slot) :: rest, st, hk, h => by
    rw [rewriteUses_cons]
    apply rewriteUses_no_redirect SE X PN F href rest _
      (rewriteUse_sameKind SE X F u PN user slot st hk)
    intro v hmem
    rcases rewriteUse_trace_cases SE X PN user slot st hmem with h1 | h1 | ⟨v', h1, hne, hv⟩
    · exact h v h1
    · cases h1
    · injection h1 with e1 e2 e3 e4
      subst e2
      rcases href st.fn hk with h3 | h3
      · rw [h3] at hv; cases hv
      · rw [h3] at hv
        exact hne (Option.some.inj hv).symm

/-- A use edge of `d` at whose use site the synthesizer yields no value, or `d`
itself, is not redirected during the fold. -/
theorem walk_no_redirect (SE : ScalarEvolution) (X : Expander) (U : UseOrder) (L : Loop)
    (Primary : Nat) (F : Func) {u s d : Nat}
    (ks : List (Nat × Ty)) (acc : ElimState × List Nat)
    (href : ∀ k ∈ ks, k.1 = d → ∀ f, SameKind F u f → (X f (SE d) k.2 u).value = none ∨
      (X f (SE d) k.2 u).value = some (Value.inst d))
    (hk0 : SameKind F u acc.1.fn) (h : ∀ v, Event.redirect d u s v ∉ acc.1.trace) :
    ∀ v, Event.redirect d u s v ∉ (ks.foldl (phiStep SE X U L Primary) acc).1.trace := by
  have := walk_invariant SE X U L Primary
    (fun a => SameKind F u a.1.fn ∧ ∀ v, Event.redirect d u s v ∉ a.1.trace)
    ks acc ?_ ⟨hk0, h⟩
  · exact this.2
  · intro k hk a ha
    refine ⟨phiStep_sameKind SE X U L Primary F u a k ha.1, ?_⟩
    rcases phiStep_cases SE X U L Primary a k with h1 | ⟨-, -, h1⟩
    · rw [h1]; exact ha.2
    · rw [h1]
      by_cases hkd : k.1 = d
      · have := rewriteUses_no_redirect SE X (phiOf k) F (u := u) (s := s)
          (fun f hf => by
            have := href k hk hkd f hf
            simpa [phiOf, hkd] using this)
          (U.uses a.1.fn k.1) a.1 ha.1 (by
            intro v
            have := ha.2 v
            simpa [phiOf, hkd] using this)
        intro v
        have := this v
        simpa [phiOf, hkd] using this
      · intro v hmem
        rcases rewriteUses_trace_cases SE X _ _ _ hmem with h2 | ⟨u', s', -, h2 | ⟨v', f, h2, -, -⟩⟩
        · exact ha.2 v h2
        · cases h2
        · injection h2 with e1
          exact hkd e1.symm

/-- The fate of a use edge of a derived IV `D` of the header in a run on a
single loop, with a synthesizer that links nothing in front of a merge
point. -/
theorem run_single_edge (SE : ScalarEvolution) (X : Expander) (U : UseOrder) (L : Loop)
    (F : Func) (h i : Nat) (H : BasicBlock) (D : Instruction) (u s : Nat)
    (hX : FreshExpander X) (hsafe : PhiSafe X)
    (hnd : (instIds F).Nodup) (hsub : L.subLoops.isEmpty = true) (hhdr : L.header = some h)
    (hprim : findPrimaryIV SE F L = some i) (hH : findBlock F h = some H)
    (hD : D ∈ phis H) (hDi : D.id ≠ i) (hder : isDerivedIV SE L D = true)
    (hus : (u, s) ∈ usesOf F D.id) :
    Event.synthesize D.id u s ∈ (DerivedInductionVarElim.run SE X U [L] F).trace ∧
    ((∀ f, SameKind F u f →
        ∃ v, (X f (SE D.id) D.ty u).value = some v ∧ v ≠ Value.inst D.id) →
      ∃ v f, (X f (SE D.id) D.ty u).value = some v ∧ v ≠ Value.inst D.id ∧
        Event.redirect D.id u s v ∈ (DerivedInductionVarElim.run SE X U [L] F).trace) ∧
    ((∀ f, SameKind F u f → (X f (SE D.id) D.ty u).value = none ∨
        (X f (SE D.id) D.ty u).value = some (Value.inst D.id)) →
      (∀ v, Event.redirect D.id u s v ∉ (DerivedInductionVarElim.run SE X U [L] F).trace) ∧
      (Event.erase u ∈ (DerivedInductionVarElim.run SE X U [L] F).trace ∨
        operandAt (DerivedInductionVarElim.run SE X U [L] F).fn u s
          = some (Value.inst D.id)) ∧
      Event.erase D.id ∉ (DerivedInductionVarElim.run SE X U [L] F).trace ∧
      InBlock (DerivedInductionVarElim.run SE X U [L] F).fn h D.id) := by
  rw [run_single_eq_foldl SE X U L F h i H hX hsafe hnd hsub hhdr hprim hH]
  obtain ⟨hHmem, hHid⟩ := findBlock_some hH
  have hDH : D ∈ H.insts := (List.takeWhile_sublist _).subset hD
  have hDF : D ∈ allInsts F := mem_allInsts.2 ⟨H, hHmem, hDH⟩
  have hkey : (D.id, D.ty) ∈ phiKeys H.insts :=
    List.mem_map.2 ⟨D, hD, rfl⟩
  have huniq : ∀ k ∈ phiKeys H.insts, k.1 = D.id → k.2 = D.ty := by
    intro k hk hid
    obtain ⟨p, hp, rfl⟩ := List.mem_map.1 hk
    have hpF : p ∈ allInsts F := mem_allInsts.2 ⟨H, hHmem, (List.takeWhile_sublist _).subset hp⟩
    have : p = D := List.inj_on_of_nodup_map hnd hpF hDF hid
    rw [this]
  have hder2 : isDerivedIV SE L (phiOf (D.id, D.ty)) = true := by
    rw [isDerivedIV_congr SE L (p := phiOf (D.id, D.ty)) (q := D) rfl rfl]
    exact hder
  have hop : HasOperand (startState F, ([] : List Nat)).1.fn u s (Value.inst D.id) := by
    obtain ⟨q, hq, hid, hopq⟩ := mem_usesOf.1 hus
    exact ⟨q, hq, hid, hopq⟩
  have hnd0 : (instIds (startState F, ([] : List Nat)).1.fn).Nodup := hnd
  have hndw := walk_nodup SE X U L i hX (phiKeys H.insts) (startState F, []) hnd0
  obtain ⟨hsyn, hred⟩ := walk_synthesized SE X U L i hX F hDi hder2 (phiKeys H.insts)
    (startState F, []) hkey huniq hnd0 (sameKind_refl F u) hop
  have hwalk := walk_trace_cases SE X U L i [] (phiKeys H.insts) (startState F, [])
    (fun e he => by cases he)
  refine ⟨eraseDead_trace_mono _ _ hsyn, fun hsucc => ?_, fun href => ?_⟩
  · obtain ⟨v, f, hv, hne, htr⟩ := hred hsucc
    exact ⟨v, f, hv, hne, eraseDead_trace_mono _ _ htr⟩
  · obtain ⟨hkeep, hnotdead⟩ := walk_edge_refused SE X U L i hX F (phiKeys H.insts)
      (startState F, [])
      (fun k hk hid f hf => by rw [huniq k hk hid]; exact href f hf)
      hnd0 (sameKind_refl F u) hop (by simp)
    refine ⟨?_, ?_, ?_, ?_⟩
    · intro v hmem
      rcases eraseDead_trace_cases _ _ hmem with h1 | ⟨d, -, h1⟩
      · exact walk_no_redirect SE X U L i F (phiKeys H.insts) (startState F, [])
          (fun k hk hid f hf => by rw [huniq k hk hid]; exact href f hf)
          (sameKind_refl F u) (fun v hv => by cases hv) v h1
      · cases h1
    · by_cases hu : u ∈ ((phiKeys H.insts).foldl (phiStep SE X U L i) (startState F, [])).2
      · exact Or.inl (eraseDead_erased _ _ u hu)
      · right
        exact operandAt_of_hasOperand (eraseDead_nodup _ _ hndw)
          (eraseDead_hasOperand _ _ hu hkeep)
    · intro hmem
      rcases eraseDead_trace_cases _ _ hmem with h1 | ⟨d, hd, h1⟩
      · rcases hwalk _ h1 with h2 | ⟨k, -, -, -, u', s', h2 | ⟨v', f, h2, -, -⟩⟩
        · cases h2
        · cases h2
        · cases h2
      · injection h1 with e1
        exact hnotdead (e1 ▸ hd)
    · apply eraseDead_inBlock _ _ hnotdead
      apply walk_inBlock
      exact ⟨H, hHmem, hHid, List.mem_map.2 ⟨D, hDH, rfl⟩⟩

end DerivedInductionVar

namespace DerivedInductionVar

open IR SCEVModel

theorem guarded_of_not_phi (X : Expander) (f : Func) (S : SCEV) (ty : Ty) (u : Nat)
    (h : ¬ ∃ q ∈ allInsts f, q.id = u ∧ q.isPHI = true) :
    Examples.guarded X f S ty u = X f S ty u := by
  have hany : (allInsts f).any (fun q => q.id == u && q.isPHI) = false := by
    rw [List.any_eq_false]
    intro q hq hc
    simp only [Bool.and_eq_true, beq_iff_eq] at hc
    exact h ⟨q, hq, hc.1, hc.2⟩
  simp [Examples.guarded, hany]

theorem phiSafe_guarded (X : Expander) : PhiSafe (Examples.guarded X) := by
  intro f S ty u hex
  have hany : (allInsts f).any (fun q => q.id == u && q.isPHI) = true := by
    rw [List.any_eq_true]
    obtain ⟨q, hq, hid, hphi⟩ := hex
    exact ⟨q, hq, by simp [hid, hphi]⟩
  simp [Examples.guarded, hany]

theorem freshExpander_guarded {X : Expander} (hX : FreshExpander X) :
    FreshExpander (Examples.guarded X) := by
  intro f S ty u
  unfold Examples.guarded
  split
  · exact ⟨List.nodup_nil, fun n hn => by cases hn⟩
  · exact hX f S ty u

theorem phiSafe_refusingAt (site : Nat) {X : Expander} (hX : PhiSafe X) :
    PhiSafe (Examples.refusingAt site X) := by
  intro f S ty u hex
  unfold Examples.refusingAt
  split
  · rfl
  · exact hX f S ty u hex

theorem freshExpander_refusingAt (site : Nat) {X : Expander} (hX : FreshExpander X) :
    FreshExpander (Examples.refusingAt site X) := by
  intro f S ty u
  unfold Examples.refusingAt
  split
  · exact ⟨List.nodup_nil, fun n hn => by cases hn⟩
  · exact hX f S ty u

/-- C11 as stated fails: the eliminator handles a use edge whose user is a
terminator like any other.  In `switchCounters` the derived IV `j` (11) is an
operand of the terminator 101 of the loop block; the run calls the synthesizer
for the edge `(101, 0)`, redirects it to the synthesized value, and deletes
`j`. -/
theorem eliminateDerivedIVs_rewrites_terminator_use :
    findInst Examples.switchCounters 101
        = some (Examples.br 101 [Value.inst 11, Value.other 1, Value.other 2]) ∧
      (Examples.br 101 [Value.inst 11, Value.other 1, Value.other 2]).isTerminator = true ∧
      isDerivedIV Examples.twoCountersSE Examples.countersLoop Examples.ivJ = true ∧
      (101, 0) ∈ usesOf Examples.switchCounters 11 ∧
      Examples.switchAfter.trace =
        [ Event.synthesize 11 21 0, Event.redirect 11 21 0 (Value.inst 1102),
          Event.synthesize 11 101 0, Event.redirect 11 101 0 (Value.inst 2102),
          Event.erase 11 ] ∧
      operandAt Examples.switchAfter.fn 101 0 = some (Value.inst 2102) ∧
      11 ∉ instIds Examples.switchAfter.fn := by
  decide

/-- C13 as stated fails in two ways.  On `chainedCounters` the synthesizer
yields no value at the one use site of `d2` (12), slot 1 of the merge point `d1`
(13); `d1` has no use, the run deletes it, and the edge is gone after the run
instead of still referring to `d2`.  On `cutCounters` the synthesizer yields no
value at use site 22 of `d2` and materialises a value in front of the other use
site of `d2`, the merge point `d1`: the header walk then ends at the new
instruction, and `d1`, a derived IV with a use, is never processed. -/
theorem eliminateDerivedIVs_refused_edge_lost :
    operandAt Examples.chainedCounters 13 1 = some (Value.inst 12) ∧
      (Examples.refusing Examples.chainedCounters (Examples.chainedSE 12) (Ty.integer 32)
        13).value = none ∧
      Examples.chainedAfter.trace = [Event.synthesize 12 13 1, Event.erase 13] ∧
      operandAt Examples.chainedAfter.fn 13 1 = none ∧
      usesOf Examples.chainedAfter.fn 12 = [] ∧
      isDerivedIV Examples.chainedSE Examples.countersLoop
        (Examples.phi 13 [Value.const (-3), Value.inst 12]) = true ∧
      findPrimaryIV Examples.chainedSE Examples.cutCounters Examples.countersLoop = some 10 ∧
      usesOf Examples.cutCounters 13 = [(30, 1)] ∧
      Examples.cutAfter.trace =
        [ Event.synthesize 12 13 1, Event.redirect 12 13 1 (Value.inst 1102),
          Event.synthesize 12 22 0 ] ∧
      (findBlock Examples.cutAfter.fn 1).map (fun b => b.insts.map (fun q => q.id))
        = some [10, 12, 1102, 13, 20, 22, 30, 101] ∧
      operandAt Examples.cutAfter.fn 30 1 = some (Value.inst 13) := by
  decide

end DerivedInductionVar

namespace DerivedInductionVar

open IR SCEVModel

theorem rewriteUse_trace_eq (SE : ScalarEvolution) (X : Expander) (PN : Instruction)
    (user slot : Nat) (st : ElimState) :
    ∃ es, (rewriteUse SE X PN user slot st).trace = st.trace ++ es ∧
      ∀ e ∈ es, e.subject = PN.id ∧ ∀ d, e ≠ Event.erase d := by
  cases hv : (X st.fn (SE PN.id) PN.ty user).value with
  | none =>
    refine ⟨[Event.synthesize PN.id user slot], by simp [rewriteUse, hv], ?_⟩
    intro e he
    rw [List.mem_singleton.1 he]
    exact ⟨rfl, fun d hd => by cases hd⟩
  | some NewV =>
    by_cases hne : NewV = Value.inst PN.id
    · refine ⟨[Event.synthesize PN.id user slot], by simp [rewriteUse, hv, hne], ?_⟩
      intro e he
      rw [List.mem_singleton.1 he]
      exact ⟨rfl, fun d hd => by cases hd⟩
    · refine ⟨[Event.synthesize PN.id user slot, Event.redirect PN.id user slot NewV],
        by simp [rewriteUse, hv, hne], ?_⟩
      intro e he
      simp only [List.mem_cons, List.mem_singleton, List.not_mem_nil, or_false] at he
      rcases he with he | he
      · rw [he]; exact ⟨rfl, fun d hd => by cases hd⟩
      · rw [he]; exact ⟨rfl, fun d hd => by cases hd⟩

theorem rewriteUses_trace_eq (SE : ScalarEvolution) (X : Expander) (PN : Instruction) :
    ∀ (us : List (Nat × Nat)) (st : ElimState),
      ∃ es, (rewriteUses SE X PN us st).trace = st.trace ++ es ∧
        ∀ e ∈ es, e.subject = PN.id ∧ ∀ d, e ≠ Event.erase d
  | [], st => ⟨[], by simp [rewriteUses], fun e he => by cases he⟩
  | (user, slot) :: rest, st => by
    rw [rewriteUses_cons]
    obtain ⟨es1, h1, p1⟩ := rewriteUse_trace_eq SE X PN user slot st
    obtain ⟨es2, h2, p2⟩ := rewriteUses_trace_eq SE X PN rest (rewriteUse SE X PN user slot st)
    refine ⟨es1 ++ es2, by rw [h2, h1, List.append_assoc], ?_⟩
    intro e he
    rcases List.mem_append.1 he with he | he
    · exact p1 e he
    · exact p2 e he

/-- What the fold appends to the trace: events about merge points of the list
that are derived IVs and not the primary IV, none of them a deletion. -/
theorem walk_trace_eq (SE : ScalarEvolution) (X : Expander) (U : UseOrder) (L : Loop)
    (Primary : Nat) (tr : List Event) (ks : List (Nat × Ty)) (acc : ElimState × List Nat)
    (h : ∃ es, acc.1.trace = tr ++ es ∧ ∀ e ∈ es, (∃ k ∈ ks, k.1 = e.subject ∧
      k.1 ≠ Primary ∧ isDerivedIV SE L (phiOf k) = true) ∧ ∀ d, e ≠ Event.erase d) :
    ∃ es, (ks.foldl (phiStep SE X U L Primary) acc).1.trace = tr ++ es ∧
      ∀ e ∈ es, (∃ k ∈ ks, k.1 = e.subject ∧ k.1 ≠ Primary ∧
        isDerivedIV SE L (phiOf k) = true) ∧ ∀ d, e ≠ Event.erase d := by
  apply walk_invariant SE X U L Primary (fun a => ∃ es, a.1.trace = tr ++ es ∧
      ∀ e ∈ es, (∃ k ∈ ks, k.1 = e.subject ∧ k.1 ≠ Primary ∧
        isDerivedIV SE L (phiOf k) = true) ∧ ∀ d, e ≠ Event.erase d) ks acc _ h
  intro k hk a ⟨es, hes, pes⟩
  rcases phiStep_cases SE X U L Primary a k with h1 | ⟨hp, hd, h1⟩
  · rw [h1]; exact ⟨es, hes, pes⟩
  · rw [h1]
    obtain ⟨es2, h2, p2⟩ := rewriteUses_trace_eq SE X (phiOf k) (U.uses a.1.fn k.1) a.1
    refine ⟨es ++ es2, by rw [h2, hes, List.append_assoc], ?_⟩
    intro e he
    rcases List.mem_append.1 he with he | he
    · exact pes e he
    · exact ⟨⟨k, hk, (p2 e he).1.symm, hp, hd⟩, (p2 e he).2⟩

theorem eraseDead_trace_eq :
    ∀ (Dead : List Nat) (st : ElimState),
      (eraseDead Dead st).trace = st.trace ++ Dead.map Event.erase
  | [], st => by simp [eraseDead]
  | D :: rest, st => by
    rw [eraseDead, eraseDead_trace_eq rest]
    simp

theorem mem_derivedIVs {SE : ScalarEvolution} {f : Func} {L : Loop} {d : Nat} :
    d ∈ derivedIVs SE f L ↔ L.subLoops.isEmpty = true ∧
      ∃ p, findPrimaryIV SE f L = some p ∧ d ≠ p ∧
        ∃ PN ∈ headerPhis f L, PN.id = d ∧ isDerivedIV SE L PN = true := by
  unfold derivedIVs
  by_cases hsub : L.subLoops.isEmpty = true
  · simp only [hsub, Bool.not_true, Bool.false_eq_true, if_false, true_and]
    cases hp : findPrimaryIV SE f L with
    | none => simp
    | some p =>
      simp only [List.mem_map, List.mem_filter, Bool.and_eq_true, bne_iff_ne, ne_eq,
        Option.some.injEq, exists_eq_left']
      constructor
      · rintro ⟨PN, ⟨hPN, hne, hd⟩, rfl⟩
        exact ⟨hne, PN, hPN, rfl, hd⟩
      · rintro ⟨hne, PN, hPN, rfl, hd⟩
        exact ⟨PN, ⟨hPN, hne, hd⟩, rfl⟩
  · have hb : L.subLoops.isEmpty = false := by simpa using hsub
    simp [hb]

/-- What the processing of one loop appends to the trace, and what it deletes:
everything is about derived IVs of that loop in the graph the loop is processed
on. -/
theorem elimLoop_touches_derived (SE : ScalarEvolution) (X : Expander) (U : UseOrder)
    (L : Loop) (st : ElimState) (hX : FreshExpander X) (hnd : (instIds st.fn).Nodup) :
    (∃ es, (elimLoop SE X U L st).trace = st.trace ++ es ∧
      (∀ e ∈ es, e.subject ∈ derivedIVs SE st.fn L) ∧
      ∀ u s w, HasOperand st.fn u s w → (∀ d ∈ derivedIVs SE st.fn L, w ≠ Value.inst d) →
        HasOperand (elimLoop SE X U L st).fn u s w ∨ Event.erase u ∈ es) ∧
    ∀ x ∈ instIds st.fn, x ∉ derivedIVs SE st.fn L → x ∈ instIds (elimLoop SE X U L st).fn := by
  have hskip : elimLoop SE X U L st = st →
      (∃ es, (elimLoop SE X U L st).trace = st.trace ++ es ∧
        (∀ e ∈ es, e.subject ∈ derivedIVs SE st.fn L) ∧
        ∀ u s w, HasOperand st.fn u s w → (∀ d ∈ derivedIVs SE st.fn L, w ≠ Value.inst d) →
          HasOperand (elimLoop SE X U L st).fn u s w ∨ Event.erase u ∈ es) ∧
      ∀ x ∈ instIds st.fn, x ∉ derivedIVs SE st.fn L →
        x ∈ instIds (elimLoop SE X U L st).fn := by
    intro h
    rw [h]
    exact ⟨⟨[], by simp, fun e he => (by cases he), fun u s w hop _ => Or.inl hop⟩,
      fun x hx _ => hx⟩
  by_cases hsub : L.subLoops.isEmpty = true
  · cases hh : L.header with
    | none => exact hskip (by simp [elimLoop, hh])
    | some h =>
      cases hp : findPrimaryIV SE st.fn L with
      | none => exact hskip (elimLoop_of_no_primary SE X U L st hp)
      | some Primary =>
        cases hb : findBlock st.fn h with
        | none => exact hskip (by simp [elimLoop, hh, hp, hb])
        | some H =>
          obtain ⟨ks, hpre, -, hrun⟩ :=
            elimLoop_eq_foldl SE X U L st h Primary H hX hnd hsub hh hp hb
          have hkd : ∀ k ∈ ks, k.1 ≠ Primary → isDerivedIV SE L (phiOf k) = true →
              k.1 ∈ derivedIVs SE st.fn L := by
            intro k hk hne hd
            obtain ⟨PN, hPN, hkey⟩ := List.mem_map.1 (hpre.subset hk)
            subst hkey
            refine mem_derivedIVs.2 ⟨hsub, Primary, hp, hne, PN, ?_, rfl, ?_⟩
            · simp only [headerPhis, hh, hb]
              exact hPN
            · rw [← hd]
              exact isDerivedIV_congr SE L rfl rfl
          have hdead := walk_dead_cases SE X U L Primary [] ks (st, [])
            (fun d hd => by cases hd)
          obtain ⟨es, hes, pes⟩ := walk_trace_eq SE X U L Primary st.trace ks (st, [])
            ⟨[], by simp, fun e he => by cases he⟩
          rw [hrun]
          constructor
          · refine ⟨es ++ (ks.foldl (phiStep SE X U L Primary) (st, [])).2.map Event.erase,
              ?_, ?_, ?_⟩
            · rw [eraseDead_trace_eq, hes, List.append_assoc]
            rotate_left
            · intro u s w hop hw
              have hop2 : HasOperand (ks.foldl (phiStep SE X U L Primary) (st, [])).1.fn u s w :=
                walk_hasOperand_other SE X U L Primary hX ks (st, [])
                  (fun k hk hne hd e => hw k.1 (hkd k hk hne hd) e) hnd hop
              by_cases hu : u ∈ (ks.foldl (phiStep SE X U L Primary) (st, [])).2
              · right
                exact List.mem_append_right _ (List.mem_map.2 ⟨u, hu, rfl⟩)
              · exact Or.inl (eraseDead_hasOperand _ _ hu hop2)
            · intro e he
              rcases List.mem_append.1 he with he | he
              · obtain ⟨⟨k, hk, hsubj, hne, hd⟩, -⟩ := pes e he
                rw [← hsubj]
                exact hkd k hk hne hd
              · obtain ⟨d, hd, rfl⟩ := List.mem_map.1 he
                rcases hdead d hd with h0 | ⟨k, hk, hkd2, hne, hder⟩
                · cases h0
                · show d ∈ derivedIVs SE st.fn L
                  rw [← hkd2]
                  exact hkd k hk hne hder
          · intro x hx hxn
            apply eraseDead_mem_ids _ _ _ (walk_mem_ids SE X U L Primary ks (st, []) hx)
            intro hd
            rcases hdead x hd with h0 | ⟨k, hk, hkd2, hne, hder⟩
            · cases h0
            · exact hxn (hkd2 ▸ hkd k hk hne hder)
  · exact hskip (elimLoop_of_subLoops SE X U L st (by simpa using hsub))

end DerivedInductionVar

namespace DerivedInductionVar

open IR SCEVModel

theorem foldl_elimLoop_nodup (SE : ScalarEvolution) (X : Expander) (U : UseOrder)
    (hX : FreshExpander X) (LI : List Loop) (st : ElimState) (h : (instIds st.fn).Nodup) :
    (instIds (LI.foldl (fun s L => elimLoop SE X U L s) st).fn).Nodup := by
  apply foldl_elimLoop_invariant SE X U (fun s => (instIds s.fn).Nodup) (fun _ _ _ => True) LI
    ?_ ?_ st h
  · intro L _ _ Primary PN s _ _ _ _ hs
    exact ⟨rewriteUses_nodup hX PN _ _ hs, trivial⟩
  · intro L _ Primary D s _ hs
    exact nodup_instIds_removeInst D hs

/-- The part of the graph a run leaves alone.  Instructions whose identity is
not that of a merge point classified as a derived IV stay in the graph, and an
operand that is no such merge point stays in its slot as long as its user is
not deleted. -/
theorem foldl_elimLoop_frame (SE : ScalarEvolution) (X : Expander) (U : UseOrder)
    (hX : FreshExpander X) (LI : List Loop) (F : Func) (hnd : (instIds F).Nodup) :
    (∀ x ∈ instIds F, ¬ Classified SE LI F x →
      x ∈ instIds (DerivedInductionVarElim.run SE X U LI F).fn) ∧
    (∀ u s w, HasOperand F u s w → (∀ d, w = Value.inst d → ¬ Classified SE LI F d) →
      HasOperand (DerivedInductionVarElim.run SE X U LI F).fn u s w ∨
        Event.erase u ∈ (DerivedInductionVarElim.run SE X U LI F).trace) := by
  have key := foldl_elimLoop_invariant SE X U
    (fun st => (instIds st.fn).Nodup ∧
      (∀ q ∈ allInsts st.fn, q.isPHI = true →
        ∃ q0 ∈ allInsts F, q0.id = q.id ∧ q0.ty = q.ty ∧ q0.isPHI = true) ∧
      (∀ x ∈ instIds F, ¬ Classified SE LI F x → x ∈ instIds st.fn) ∧
      (∀ u s w, HasOperand F u s w → (∀ d, w = Value.inst d → ¬ Classified SE LI F d) →
        HasOperand st.fn u s w ∨ Event.erase u ∈ st.trace))
    (fun _ _ D => Classified SE LI F D) LI ?_ ?_ (startState F)
    ⟨hnd, fun q hq hphi => ⟨q, hq, rfl, rfl, hphi⟩, fun x hx _ => hx,
      fun u s w h _ => Or.inl h⟩
  · exact ⟨key.2.2.1, key.2.2.2⟩
  · intro L hL _ Primary PN st hPN hphi _ hder ⟨h1, h2, h3, h4⟩
    have hcl : Classified SE LI F PN.id := by
      obtain ⟨q0, hq0, hid, hty, hp0⟩ := h2 PN hPN hphi
      exact ⟨L, hL, q0, hq0, hid, hp0, by rw [isDerivedIV_congr SE L hid hty]; exact hder⟩
    refine ⟨⟨rewriteUses_nodup hX PN _ _ h1, ?_, ?_, ?_⟩, hcl⟩
    · intro q hq hqphi
      obtain ⟨q1, hq1, hid1, hty1, hp1⟩ := rewriteUses_phi SE X PN _ _ q hq hqphi
      obtain ⟨q0, hq0, hid0, hty0, hp0⟩ := h2 q1 hq1 hp1
      exact ⟨q0, hq0, hid0.trans hid1, hty0.trans hty1, hp0⟩
    · intro x hx hn
      exact rewriteUses_mem_ids SE X PN _ _ (h3 x hx hn)
    · intro u s w hop hw
      rcases h4 u s w hop hw with h5 | h5
      · left
        apply rewriteUses_hasOperand_other SE X U PN st h1 _ h5
        intro e
        exact hw PN.id e hcl
      · exact Or.inr (rewriteUses_trace_mono SE X PN _ _ h5)
  · intro L _ Primary D st hcl ⟨h1, h2, h3, h4⟩
    refine ⟨nodup_instIds_removeInst D h1, ?_, ?_, ?_⟩
    · intro q hq hqphi
      exact h2 q (mem_allInsts_removeInst.1 hq).1 hqphi
    · intro x hx hn
      rw [instIds_removeInst]
      refine List.mem_filter.2 ⟨h3 x hx hn, ?_⟩
      have : x ≠ D := fun e => hn (e ▸ hcl)
      simpa using this
    · intro u s w hop hw
      by_cases hu : u = D
      · right
        simp [hu]
      · rcases h4 u s w hop hw with h5 | h5
        · exact Or.inl (hasOperand_removeInst D hu h5)
        · right
          simp [h5]

theorem not_classified_of_mem (SE : ScalarEvolution) (LI : List Loop) (F : Func)
    (hnd : (instIds F).Nodup) {q : Instruction} (hq : q ∈ allInsts F)
    (h : q.isPHI = false ∨ ∀ L ∈ LI, isDerivedIV SE L q = false) :
    ¬ Classified SE LI F q.id := by
  rintro ⟨L, hL, q0, hq0, hid, hphi, hder⟩
  have : q0 = q := List.inj_on_of_nodup_map hnd hq0 hq hid
  subst this
  rcases h with h | h
  · rw [h] at hphi; cases hphi
  · rw [h L hL] at hder; cases hder

end DerivedInductionVar

namespace DerivedInductionVar

open IR SCEVModel

theorem mem_headerPhis {f : Func} {L : Loop} {PN : Instruction} (h : PN ∈ headerPhis f L) :
    PN ∈ allInsts f ∧ PN.isPHI = true := by
  unfold headerPhis at h
  cases hh : L.header with
  | none => simp [hh] at h
  | some hd =>
    cases hb : findBlock f hd with
    | none => simp [hh, hb] at h
    | some B =>
      simp only [hh, hb] at h
      refine ⟨mem_allInsts.2 ⟨B, (findBlock_some hb).1, (List.takeWhile_sublist _).subset h⟩, ?_⟩
      unfold phis at h
      exact List.mem_takeWhile_imp h

theorem run_append (SE : ScalarEvolution) (X : Expander) (U : UseOrder) (LI1 : List Loop)
    (L : Loop) (F : Func) :
    DerivedInductionVarElim.run SE X U (LI1 ++ [L]) F =
      elimLoop SE X U L (DerivedInductionVarElim.run SE X U LI1 F) := by
  simp [DerivedInductionVarElim.run, List.foldl_append]

/-- C20: elimination touches only derived IVs.  Take a graph with unique
instruction identities and a synthesizer whose instructions are new objects.
Whenever a loop `L` is processed, on the graph the loops before it have left:
every synthesizer call, redirection and deletion it performs is about a derived
IV of `L` in that graph (a header merge point other than the primary IV that
`isDerivedIV` accepts), so the primary IV is not deleted and stays in the
graph; every instruction that is no merge point, or that `isDerivedIV` does not
accept, stays in the graph; and an operand that is not a derived IV of `L`
stays in its slot unless the processing of `L` deleted its user.  Over the
whole run, every instruction of the input that is no merge point, or that
`isDerivedIV` accepts for no loop, is still in the graph, and an operand of the
input that is no merge point accepted for some loop is still in its slot unless
its user was deleted. -/
theorem eliminateDerivedIVs_touches_only_derived (SE : ScalarEvolution) (X : Expander)
    (U : UseOrder) (LI : List Loop) (F : Func) (hX : FreshExpander X)
    (hnd : (instIds F).Nodup) :
    (∀ (LI1 : List Loop) (L : Loop),
      (∃ es, (DerivedInductionVarElim.run SE X U (LI1 ++ [L]) F).trace =
          (DerivedInductionVarElim.run SE X U LI1 F).trace ++ es ∧
        (∀ e ∈ es, e.subject ∈ derivedIVs SE (DerivedInductionVarElim.run SE X U LI1 F).fn L) ∧
        (∀ p, findPrimaryIV SE (DerivedInductionVarElim.run SE X U LI1 F).fn L = some p →
          Event.erase p ∉ es) ∧
        ∀ u s w, HasOperand (DerivedInductionVarElim.run SE X U LI1 F).fn u s w →
          (∀ d ∈ derivedIVs SE (DerivedInductionVarElim.run SE X U LI1 F).fn L,
            w ≠ Value.inst d) →
          HasOperand (DerivedInductionVarElim.run SE X U (LI1 ++ [L]) F).fn u s w ∨
            Event.erase u ∈ es) ∧
      (∀ p, findPrimaryIV SE (DerivedInductionVarElim.run SE X U LI1 F).fn L = some p →
        p ∈ instIds (DerivedInductionVarElim.run SE X U LI1 F).fn →
        p ∈ instIds (DerivedInductionVarElim.run SE X U (LI1 ++ [L]) F).fn) ∧
      (∀ q ∈ allInsts (DerivedInductionVarElim.run SE X U LI1 F).fn,
        (q.isPHI = false ∨ isDerivedIV SE L q = false) →
        q.id ∈ instIds (DerivedInductionVarElim.run SE X U (LI1 ++ [L]) F).fn)) ∧
    (∀ q ∈ allInsts F, (q.isPHI = false ∨ ∀ L ∈ LI, isDerivedIV SE L q = false) →
      q.id ∈ instIds (DerivedInductionVarElim.run SE X U LI F).fn) ∧
    (∀ u s w, HasOperand F u s w →
      (∀ q ∈ allInsts F, w = Value.inst q.id →
        q.isPHI = false ∨ ∀ L ∈ LI, isDerivedIV SE L q = false) →
      HasOperand (DerivedInductionVarElim.run SE X U LI F).fn u s w ∨
        Event.erase u ∈ (DerivedInductionVarElim.run SE X U LI F).trace) := by
  refine ⟨fun LI1 L => ?_, ?_, ?_⟩
  · have hnd1 : (instIds (DerivedInductionVarElim.run SE X U LI1 F).fn).Nodup :=
      foldl_elimLoop_nodup SE X U hX LI1 (startState F) hnd
    rw [run_append]
    obtain ⟨⟨es, hes, hsub, hframe⟩, hids⟩ :=
      elimLoop_touches_derived SE X U L (DerivedInductionVarElim.run SE X U LI1 F) hX hnd1
    have hprim : ∀ p, findPrimaryIV SE (DerivedInductionVarElim.run SE X U LI1 F).fn L = some p →
        p ∉ derivedIVs SE (DerivedInductionVarElim.run SE X U LI1 F).fn L := by
      intro p hp hmem
      obtain ⟨-, p2, hp2, hne, -⟩ := mem_derivedIVs.1 hmem
      rw [hp] at hp2
      exact hne (Option.some.inj hp2)
    refine ⟨⟨es, hes, hsub, ?_, hframe⟩, ?_, ?_⟩
    · intro p hp hmem
      exact hprim p hp (hsub _ hmem)
    · intro p hp hmem
      exact hids p hmem (hprim p hp)
    · intro q hq hcond
      apply hids q.id (List.mem_map_of_mem _ hq)
      intro hmem
      obtain ⟨-, p2, -, -, PN, hPN, hid, hder⟩ := mem_derivedIVs.1 hmem
      obtain ⟨hPNmem, hPNphi⟩ := mem_headerPhis hPN
      have : PN = q := List.inj_on_of_nodup_map hnd1 hPNmem hq hid
      subst this
      rcases hcond with h | h
      · rw [h] at hPNphi; cases hPNphi
      · rw [h] at hder; cases hder
  · intro q hq hcond
    exact (foldl_elimLoop_frame SE X U hX LI F hnd).1 q.id (List.mem_map_of_mem _ hq)
      (not_classified_of_mem SE LI F hnd hq hcond)
  · intro u s w hop hw
    apply (foldl_elimLoop_frame SE X U hX LI F hnd).2 u s w hop
    rintro d rfl ⟨L, hL, q0, hq0, hid, hphi, hder⟩
    rcases hw q0 hq0 (by rw [hid]) with h | h
    · rw [h] at hphi; cases hphi
    · rw [h L hL] at hder; cases hder

/-- C20 at `threeCounters`: every event of the run is about one of the derived
IVs 11 and 12; the primary IV 10 and the increment 20 are still in the graph,
and slot 0 of 20 still refers to the primary IV. -/
theorem eliminateDerivedIVs_touches_only_derived_witness :
    derivedIVs Examples.countersSE Examples.threeCounters Examples.countersLoop = [11, 12] ∧
    (∃ es, Examples.threeCountersAfter.trace = [] ++ es ∧
      (∀ e ∈ es, e.subject ∈ [11, 12]) ∧ Event.erase 10 ∉ es ∧
      (HasOperand Examples.threeCountersAfter.fn 20 0 (Value.inst 10) ∨
        Event.erase 20 ∈ es)) ∧
    10 ∈ instIds Examples.threeCountersAfter.fn ∧
    20 ∈ instIds Examples.threeCountersAfter.fn :=
  (fun hh =>
    ⟨by decide,
      (fun ⟨es, h1, h2, h3, h4⟩ => ⟨es, h1, h2, h3 10 (by decide),
        h4 20 0 (Value.inst 10) ⟨Examples.op 20 [Value.inst 10, Value.const 1], by decide,
          rfl, rfl⟩ (by decide)⟩) (hh.1 [] Examples.countersLoop).1,
      (hh.1 [] Examples.countersLoop).2.1 10 (by decide) (by decide),
      hh.2.1 (Examples.op 20 [Value.inst 10, Value.const 1]) (by decide) (Or.inl rfl)⟩)
    (eliminateDerivedIVs_touches_only_derived Examples.countersSE (Examples.doubling 10)
      Examples.programOrder [Examples.countersLoop] Examples.threeCounters
      (freshExpander_doubling 10) (by decide))

end DerivedInductionVar

namespace DerivedInductionVar

open IR SCEVModel

theorem after_start (st : ElimState) : st.after (startState st.fn) = st := by
  cases st
  simp [ElimState.after, startState]

/-- The pass reads neither the `Changed` flag nor the trace: a step taken from
a continuation is the continuation of the step. -/
theorem rewriteUse_after (SE : ScalarEvolution) (X : Expander) (PN : Instruction)
    (user slot : Nat) (st0 r : ElimState) :
    rewriteUse SE X PN user slot (st0.after r) = st0.after (rewriteUse SE X PN user slot r) := by
  cases hv : (X r.fn (SE PN.id) PN.ty user).value with
  | none => simp [rewriteUse, ElimState.after, hv]
  | some NewV =>
    by_cases hne : NewV = Value.inst PN.id
    · simp [rewriteUse, ElimState.after, hv, hne]
    · simp [rewriteUse, ElimState.after, hv, hne]

theorem rewriteUses_after (SE : ScalarEvolution) (X : Expander) (PN : Instruction)
    (st0 : ElimState) :
    ∀ (us : List (Nat × Nat)) (r : ElimState),
      rewriteUses SE X PN us (st0.after r) = st0.after (rewriteUses SE X PN us r)
  | [], _ => rfl
  | (user, slot) :: rest, r => by
    rw [rewriteUses_cons, rewriteUses_cons, rewriteUse_after, rewriteUses_after SE X PN st0 rest]

theorem eraseDead_after (st0 : ElimState) :
    ∀ (Dead : List Nat) (r : ElimState),
      eraseDead Dead (st0.after r) = st0.after (eraseDead Dead r)
  | [], _ => rfl
  | D :: rest, r => by
    rw [eraseDead, eraseDead, ← eraseDead_after st0 rest]
    simp [ElimState.after]

theorem elimPhis_after (SE : ScalarEvolution) (X : Expander) (U : UseOrder) (L : Loop)
    (Primary : Nat) (st0 : ElimState) :
    ∀ (fuel : Nat) (cur : Option Instruction) (r : ElimState) (Dead : List Nat),
      elimPhis SE X U L Primary fuel cur (st0.after r, Dead) =
        (st0.after (elimPhis SE X U L Primary fuel cur (r, Dead)).1,
          (elimPhis SE X U L Primary fuel cur (r, Dead)).2) := by
  intro fuel
  induction fuel with
  | zero => intro cur r Dead; rfl
  | succ n ih =>
    intro cur r Dead
    cases cur with
    | none => rfl
    | some PN =>
      by_cases hphi : PN.isPHI = true
      · by_cases hskip : PN.id = Primary ∨ isDerivedIV SE L PN = false
        · rw [elimPhis_skip_step SE X U L Primary n PN _ hphi hskip,
            elimPhis_skip_step SE X U L Primary n PN _ hphi hskip]
          exact ih _ r Dead
        · have hp : PN.id ≠ Primary := fun e => hskip (Or.inl e)
          have hd : isDerivedIV SE L PN = true := by
            by_cases h : isDerivedIV SE L PN = true
            · exact h
            · exact absurd (Or.inr (by simpa using h)) hskip
          rw [elimPhis_process_step SE X U L Primary n PN _ Dead hphi hp hd,
            elimPhis_process_step SE X U L Primary n PN _ Dead hphi hp hd]
          have hfn : (st0.after r).fn = r.fn := rfl
          rw [hfn, rewriteUses_after]
          exact ih _ _ _
      · have hphi2 : PN.isPHI = false := by simpa using hphi
        rw [elimPhis_stop SE X U L Primary _ PN _ hphi2,
          elimPhis_stop SE X U L Primary _ PN _ hphi2]

theorem elimLoop_after (SE : ScalarEvolution) (X : Expander) (U : UseOrder) (L : Loop)
    (st0 r : ElimState) :
    elimLoop SE X U L (st0.after r) = st0.after (elimLoop SE X U L r) := by
  have hfn : (st0.after r).fn = r.fn := rfl
  unfold elimLoop
  rw [hfn]
  by_cases hsub : L.subLoops.isEmpty = true
  · simp only [hsub, Bool.not_true, Bool.false_eq_true, if_false]
    cases hh : L.header with
    | none => rfl
    | some h =>
      cases hp : findPrimaryIV SE r.fn L with
      | none => rfl
      | some Primary =>
        cases hb : findBlock r.fn h with
        | none => simp only [hb]
        | some H =>
          simp only [hb]
          rw [elimPhis_after, eraseDead_after]
  · have hb : L.subLoops.isEmpty = false := by simpa using hsub
    simp [hb]

/-- Processing a loop from any state is processing it from the graph of that
state, with the flag and the trace of the state carried along. -/
theorem elimLoop_eq_after (SE : ScalarEvolution) (X : Expander) (U : UseOrder) (L : Loop)
    (st : ElimState) :
    elimLoop SE X U L st = st.after (DerivedInductionVarElim.run SE X U [L] st.fn) := by
  have h := elimLoop_after SE X U L st (startState st.fn)
  rw [after_start] at h
  rw [h]
  rfl

end DerivedInductionVar

namespace DerivedInductionVar

open IR SCEVModel

theorem foldl_elimLoop_trace_mono (SE : ScalarEvolution) (X : Expander) (U : UseOrder)
    (LI : List Loop) (st : ElimState) {e : Event} (h : e ∈ st.trace) :
    e ∈ (LI.foldl (fun s L => elimLoop SE X U L s) st).trace := by
  apply foldl_elimLoop_invariant SE X U (fun s => e ∈ s.trace) (fun _ _ _ => True) LI
    ?_ ?_ st h
  · intro L _ _ Primary PN s _ _ _ _ hs
    exact ⟨rewriteUses_trace_mono SE X PN _ _ hs, trivial⟩
  · intro L _ Primary D s _ hs
    simp [hs]

theorem run_cons_append (SE : ScalarEvolution) (X : Expander) (U : UseOrder)
    (LI1 LI2 : List Loop) (L : Loop) (F : Func) :
    DerivedInductionVarElim.run SE X U (LI1 ++ L :: LI2) F =
      LI2.foldl (fun st L3 => elimLoop SE X U L3 st)
        (DerivedInductionVarElim.run SE X U (LI1 ++ [L]) F) := by
  simp [DerivedInductionVarElim.run, List.foldl_append]

theorem freshExpander_doublingPer (primaryOf : Nat → Nat) :
    FreshExpander (Examples.doublingPer primaryOf) := by
  intro f S ty u
  unfold Examples.doublingPer
  cases S with
  | constant c => exact ⟨List.nodup_nil, fun n hn => by cases hn⟩
  | addRec loop start step affine => exact freshExpander_doubling _ f _ ty u
  | unknown tag => exact ⟨List.nodup_nil, fun n hn => by cases hn⟩

end DerivedInductionVar

namespace IR

theorem findBlock_map (g : BasicBlock → BasicBlock) (hg : ∀ b, (g b).id = b.id) (f : Func)
    (h : Nat) : findBlock (f.map g) h = (findBlock f h).map g := by
  unfold findBlock
  rw [List.find?_map]
  have : ((fun b => b.id == h) ∘ g) = (fun b : BasicBlock => b.id == h) := by
    funext b
    simp [hg b]
  rw [this]

theorem insertBefore_nil (f : Func) (pt : Nat) : insertBefore f pt [] = f := by
  unfold insertBefore
  have h : ∀ l : List Instruction,
      l.flatMap (fun i => if i.id == pt then ([] : List Instruction) ++ [i] else [i]) = l := by
    intro l
    induction l with
    | nil => rfl
    | cons x l ih =>
      rw [List.flatMap_cons, ih]
      split <;> rfl
  induction f with
  | nil => rfl
  | cons b f ih =>
    rw [List.map_cons, ih, h]

theorem blockKeys_insertBefore (f : Func) (pt : Nat) (news : List Instruction)
    (hnews : ∀ n ∈ news, n.isPHI = false) (h : Nat) :
    (blockKeys (insertBefore f pt news) h).Sublist (blockKeys f h) := by
  have hm := findBlock_map (fun b : BasicBlock => { b with insts := b.insts.flatMap (fun i =>
    if i.id == pt then news ++ [i] else [i]) }) (fun _ => rfl) f h
  unfold blockKeys insertBefore
  rw [hm]
  cases findBlock f h with
  | none => exact List.Sublist.refl _
  | some B =>
    have hp := phiKeys_flatMap_prefix pt news hnews B.insts
    exact hp.sublist

theorem blockKeys_setOperand (f : Func) (user slot : Nat) (v : Value) (h : Nat) :
    blockKeys (setOperand f user slot v) h = blockKeys f h := by
  have hm := findBlock_map (fun b : BasicBlock => { b with insts := b.insts.map (fun i =>
    if i.id == user then { i with operands := i.operands.set slot v } else i) })
    (fun _ => rfl) f h
  unfold blockKeys setOperand
  rw [hm]
  cases findBlock f h with
  | none => rfl
  | some B => exact phiKeys_map_setOperand user slot v B.insts

theorem takeWhile_filter_of_imp {α : Type} (p r : α → Bool) :
    ∀ (l : List α), (∀ x ∈ l, r x = false → p x = true) →
      (l.filter r).takeWhile p = (l.takeWhile p).filter r
  | [], _ => rfl
  | x :: l, h => by
    have ih := takeWhile_filter_of_imp p r l (fun y hy => h y (List.mem_cons_of_mem _ hy))
    cases hr : r x with
    | true =>
      rw [List.filter_cons_of_pos hr]
      cases hp : p x with
      | true =>
        rw [List.takeWhile_cons_of_pos hp, List.takeWhile_cons_of_pos hp,
          List.filter_cons_of_pos hr, ih]
      | false =>
        rw [List.takeWhile_cons_of_neg (by simp [hp]), List.takeWhile_cons_of_neg (by simp [hp])]
        rfl
    | false =>
      have hp : p x = true := h x (List.mem_cons_self _ _) hr
      rw [List.filter_cons_of_neg (by simp [hr]), List.takeWhile_cons_of_pos hp,
        List.filter_cons_of_neg (by simp [hr]), ih]

theorem blockKeys_removeInst (f : Func) (d : Nat) (h : Nat)
    (hphi : ∀ x ∈ allInsts f, x.id = d → x.isPHI = true) :
    (blockKeys (removeInst f d) h).Sublist (blockKeys f h) := by
  have hm := findBlock_map (fun b : BasicBlock =>
    { b with insts := b.insts.filter (fun i => i.id != d) }) (fun _ => rfl) f h
  unfold blockKeys removeInst
  rw [hm]
  cases hB : findBlock f h with
  | none => exact List.Sublist.refl _
  | some B =>
    have hmem : B ∈ f := (findBlock_some hB).1
    show (phiKeys (B.insts.filter (fun i => i.id != d))).Sublist (phiKeys B.insts)
    unfold phiKeys
    rw [takeWhile_filter_of_imp]
    · exact List.Sublist.map _ (List.filter_sublist _)
    · intro x hx hr
      apply hphi x (mem_allInsts.2 ⟨B, hmem, hx⟩)
      simpa using hr

theorem headerPhis_keys (f : Func) (L : Loop) (h : Nat) (hh : L.header = some h) :
    (headerPhis f L).map (fun q => (q.id, q.ty)) = blockKeys f h := by
  unfold headerPhis blockKeys
  rw [hh]
  cases hB : findBlock f h with
  | none => simp only [hB]; rfl
  | some B => simp only [hB]; rfl

theorem blockKeys_nodup (f : Func) (hnd : (instIds f).Nodup) (h : Nat) :
    ((blockKeys f h).map (fun k => k.1)).Nodup := by
  unfold blockKeys
  cases hB : findBlock f h with
  | none => exact List.nodup_nil
  | some B =>
    have hmem : B ∈ f := (findBlock_some hB).1
    show ((phiKeys B.insts).map (fun k => k.1)).Nodup
    unfold phiKeys
    rw [List.map_map]
    have hsub : ((B.insts.takeWhile (fun i => i.isPHI)).map (fun i => i.id)).Sublist
        (instIds f) := by
      unfold instIds allInsts
      have h1 : ((B.insts.takeWhile (fun i => i.isPHI)).map (fun i => i.id)).Sublist
          (B.insts.map (fun i => i.id)) := List.Sublist.map _ (List.takeWhile_sublist _)
      apply h1.trans
      apply List.Sublist.map
      exact List.sublist_flatten_of_mem (List.mem_map_of_mem _ hmem)
    exact hsub.nodup hnd

theorem mem_blockKeys {f : Func} {h : Nat} {k : Nat × Ty} (hk : k ∈ blockKeys f h) :
    ∃ q ∈ allInsts f, q.id = k.1 ∧ q.ty = k.2 ∧ q.isPHI = true := by
  unfold blockKeys at hk
  cases hB : findBlock f h with
  | none => rw [hB] at hk; cases hk
  | some B =>
    rw [hB] at hk
    obtain ⟨q, hq, rfl⟩ := List.mem_map.1 hk
    exact ⟨q, mem_allInsts.2 ⟨B, (findBlock_some hB).1, (List.takeWhile_sublist _).subset hq⟩,
      rfl, rfl, List.mem_takeWhile_imp hq⟩

end IR

namespace DerivedInductionVar

open IR SCEVModel

theorem rewriteUse_blockKeys (SE : ScalarEvolution) (X : Expander) (PN : Instruction)
    (user slot : Nat) (st : ElimState) (h : Nat) :
    (blockKeys (rewriteUse SE X PN user slot st).fn h).Sublist (blockKeys st.fn h) := by
  rcases rewriteUse_fn SE X PN user slot st with h1 | ⟨v, -, -, h1⟩
  · rw [h1]
    exact blockKeys_insertBefore _ _ _ (isPHI_asOrdinary _) h
  · rw [h1, blockKeys_setOperand]
    exact blockKeys_insertBefore _ _ _ (isPHI_asOrdinary _) h

theorem rewriteUses_blockKeys (SE : ScalarEvolution) (X : Expander) (PN : Instruction)
    (h : Nat) :
    ∀ (us : List (Nat × Nat)) (st : ElimState),
      (blockKeys (rewriteUses SE X PN us st).fn h).Sublist (blockKeys st.fn h)
  | [], _ => List.Sublist.refl _
  | (user, slot) :: rest, st => by
    rw [rewriteUses_cons]
    exact (rewriteUses_blockKeys SE X PN h rest _).trans (rewriteUse_blockKeys SE X PN _ _ st h)

theorem walk_blockKeys (SE : ScalarEvolution) (X : Expander) (U : UseOrder) (L : Loop)
    (Primary : Nat) (h : Nat) (ks : List (Nat × Ty)) (acc : ElimState × List Nat) :
    (blockKeys (ks.foldl (phiStep SE X U L Primary) acc).1.fn h).Sublist
      (blockKeys acc.1.fn h) := by
  apply walk_invariant SE X U L Primary
    (fun a => (blockKeys a.1.fn h).Sublist (blockKeys acc.1.fn h)) ks acc ?_
    (List.Sublist.refl _)
  intro k _ a ha
  rcases phiStep_cases SE X U L Primary a k with h1 | ⟨-, -, h1⟩
  · rw [h1]; exact ha
  · rw [h1]; exact (rewriteUses_blockKeys SE X _ h _ _).trans ha

theorem eraseDead_blockKeys (h : Nat) :
    ∀ (Dead : List Nat) (st : ElimState),
      (∀ D ∈ Dead, ∀ x ∈ allInsts st.fn, x.id = D → x.isPHI = true) →
      (blockKeys (eraseDead Dead st).fn h).Sublist (blockKeys st.fn h)
  | [], _, _ => List.Sublist.refl _
  | D :: rest, st, hd => by
    rw [eraseDead]
    refine (eraseDead_blockKeys h rest _ ?_).trans
      (blockKeys_removeInst st.fn D h (hd D (List.mem_cons_self _ _)))
    intro D' hD' x hx hid
    exact hd D' (List.mem_cons_of_mem _ hD') x (mem_allInsts_removeInst.1 hx).1 hid

theorem walk_sameKind (SE : ScalarEvolution) (X : Expander) (U : UseOrder) (L : Loop)
    (Primary : Nat) (F : Func) (u : Nat) (ks : List (Nat × Ty)) (acc : ElimState × List Nat)
    (h : SameKind F u acc.1.fn) :
    SameKind F u (ks.foldl (phiStep SE X U L Primary) acc).1.fn :=
  walk_invariant SE X U L Primary (fun a => SameKind F u a.1.fn) ks acc
    (fun k _ a ha => phiStep_sameKind SE X U L Primary F u a k ha) h

/-- The identities the header walk puts on the deletion list name merge points
of the graph the walk leaves, and nothing else. -/
theorem walk_dead_phi (SE : ScalarEvolution) (X : Expander) (U : UseOrder) (L : Loop)
    (Primary : Nat) (hX : FreshExpander X) (st : ElimState) (hnd : (instIds st.fn).Nodup)
    (ks : List (Nat × Ty))
    (hks : ∀ k ∈ ks, ∃ q ∈ allInsts st.fn, q.id = k.1 ∧ q.isPHI = true) :
    ∀ D ∈ (ks.foldl (phiStep SE X U L Primary) (st, [])).2,
      ∀ x ∈ allInsts (ks.foldl (phiStep SE X U L Primary) (st, [])).1.fn,
        x.id = D → x.isPHI = true := by
  intro D hD x hx hid
  rcases walk_dead_cases SE X U L Primary [] ks (st, []) (fun d hd => by cases hd) D hD with
    h0 | ⟨k, hk, hkd, -, -⟩
  · cases h0
  · have hsk := walk_sameKind SE X U L Primary st.fn D ks (st, []) (sameKind_refl _ _)
    obtain ⟨q, hq, hqid, hqphi⟩ := hsk.2 (by
      obtain ⟨q0, hq0, h1, h2⟩ := hks k hk
      exact ⟨q0, hq0, h1.trans hkd, h2⟩)
    have hndw := walk_nodup SE X U L Primary hX ks (st, []) hnd
    have : x = q := List.inj_on_of_nodup_map hndw hx hq (hid.trans hqid.symm)
    rw [this]
    exact hqphi

/-- Processing a loop creates no merge point and moves none: the merge points
that open a block afterwards opened it before, in the same order. -/
theorem elimLoop_blockKeys (SE : ScalarEvolution) (X : Expander) (U : UseOrder) (L : Loop)
    (st : ElimState) (hX : FreshExpander X) (hnd : (instIds st.fn).Nodup) (b : Nat) :
    (blockKeys (elimLoop SE X U L st).fn b).Sublist (blockKeys st.fn b) := by
  have hskip : elimLoop SE X U L st = st →
      (blockKeys (elimLoop SE X U L st).fn b).Sublist (blockKeys st.fn b) := by
    intro h
    rw [h]
  by_cases hsub : L.subLoops.isEmpty = true
  · cases hh : L.header with
    | none => exact hskip (by simp [elimLoop, hh])
    | some h =>
      cases hp : findPrimaryIV SE st.fn L with
      | none => exact hskip (elimLoop_of_no_primary SE X U L st hp)
      | some Primary =>
        cases hb : findBlock st.fn h with
        | none => exact hskip (by simp [elimLoop, hh, hp, hb])
        | some H =>
          obtain ⟨ks, hpre, -, hrun⟩ :=
            elimLoop_eq_foldl SE X U L st h Primary H hX hnd hsub hh hp hb
          rw [hrun]
          have hks : ∀ k ∈ ks, ∃ q ∈ allInsts st.fn, q.id = k.1 ∧ q.isPHI = true := by
            intro k hk
            obtain ⟨q, hq, rfl⟩ := List.mem_map.1 (hpre.subset hk)
            exact ⟨q, mem_allInsts.2 ⟨H, (findBlock_some hb).1,
              (List.takeWhile_sublist _).subset hq⟩, rfl, List.mem_takeWhile_imp hq⟩
          exact (eraseDead_blockKeys b _ _
            (walk_dead_phi SE X U L Primary hX st hnd ks hks)).trans
            (walk_blockKeys SE X U L Primary b ks (st, []))
  · exact hskip (elimLoop_of_subLoops SE X U L st (by simpa using hsub))

theorem elimLoop_nodup (SE : ScalarEvolution) (X : Expander) (U : UseOrder) (L : Loop)
    (hX : FreshExpander X) (st : ElimState) (h : (instIds st.fn).Nodup) :
    (instIds (elimLoop SE X U L st).fn).Nodup :=
  foldl_elimLoop_nodup SE X U hX [L] st h

theorem foldl_elimLoop_blockKeys (SE : ScalarEvolution) (X : Expander) (U : UseOrder)
    (hX : FreshExpander X) (b : Nat) :
    ∀ (LI : List Loop) (st : ElimState), (instIds st.fn).Nodup →
      (blockKeys (LI.foldl (fun s L => elimLoop SE X U L s) st).fn b).Sublist (blockKeys st.fn b)
  | [], _, _ => List.Sublist.refl _
  | L :: LI, st, hnd => by
    rw [List.foldl_cons]
    exact (foldl_elimLoop_blockKeys SE X U hX b LI _ (elimLoop_nodup SE X U L hX st hnd)).trans
      (elimLoop_blockKeys SE X U L st hX hnd b)

end DerivedInductionVar

namespace IR

theorem find?_of_sublist {α : Type} (P : α → Bool) {l' l : List α} (hs : l'.Sublist l) :
    l.Nodup → ∀ a, l.find? P = some a → a ∈ l' → l'.find? P = some a := by
  induction hs with
  | slnil => intro _ a _ ha; cases ha
  | @cons l1 l2 x hs ih =>
    intro hnd a hf ha
    have hnd2 := List.nodup_cons.1 hnd
    rw [List.find?_cons] at hf
    cases hP : P x with
    | true =>
      rw [hP] at hf
      have : a = x := (Option.some.inj hf).symm
      subst this
      exact absurd (hs.subset ha) hnd2.1
    | false =>
      rw [hP] at hf
      exact ih hnd2.2 a hf ha
  | @cons₂ l1 l2 x hs ih =>
    intro hnd a hf ha
    have hnd2 := List.nodup_cons.1 hnd
    rw [List.find?_cons] at hf ⊢
    cases hP : P x with
    | true =>
      rw [hP] at hf
      exact hf
    | false =>
      rw [hP] at hf
      simp only
      have hPa : P a = true := List.find?_some hf
      have hne : a ≠ x := fun e => by rw [e, hP] at hPa; cases hPa
      rcases List.mem_cons.1 ha with h | h
      · exact absurd h hne
      · exact ih hnd2.2 a hf h

end IR

namespace DerivedInductionVar

open IR SCEVModel

theorem unitStrideTest_phiOf (SE : ScalarEvolution) (L : Loop) (PN : Instruction) :
    unitStrideTest SE L (phiOf (PN.id, PN.ty)) = unitStrideTest SE L PN := rfl

theorem isDerivedIV_of_unitStrideTest (SE : ScalarEvolution) (L : Loop) (PN : Instruction)
    (h : unitStrideTest SE L PN = true) : isDerivedIV SE L PN = true :=
  isDerivedIV_of_unitStride SE L PN ((unitStrideTest_iff SE L PN).1 h)

theorem find?_keys (SE : ScalarEvolution) (L : Loop) (l : List Instruction) :
    (l.map (fun q => (q.id, q.ty))).find? (fun k => unitStrideTest SE L (phiOf k))
      = (l.find? (unitStrideTest SE L)).map (fun q => (q.id, q.ty)) := by
  rw [List.find?_map]
  rfl

/-- A derived IV of a loop in a graph whose blocks open with merge points that
opened the same blocks of `f`, in the same order, is a derived IV of the loop
in `f`. -/
theorem derivedIVs_of_blockKeys (SE : ScalarEvolution) (f f' : Func) (L : Loop)
    (hnd : (instIds f).Nodup)
    (hsub : ∀ h, (blockKeys f' h).Sublist (blockKeys f h)) :
    ∀ d ∈ derivedIVs SE f' L, d ∈ derivedIVs SE f L := by
  intro d hd
  obtain ⟨hsl, p', hp', hne, PN', hPN', hid', hder'⟩ := mem_derivedIVs.1 hd
  cases hh : L.header with
  | none => simp [findPrimaryIV, hh] at hp'
  | some h =>
    have hk' := headerPhis_keys f' L h hh
    have hk := headerPhis_keys f L h hh
    have hs := hsub h
    rw [← hk', ← hk] at hs
    -- the primary of f'
    rw [findPrimaryIV_eq_find] at hp'
    obtain ⟨P', hfP', hP'id⟩ := Option.map_eq_some'.1 hp'
    have hP'mem : P' ∈ headerPhis f' L := List.mem_of_find?_eq_some hfP'
    have hP'unit : unitStrideTest SE L P' = true := List.find?_some hfP'
    -- transfer to f
    have mem_f : ∀ q' ∈ headerPhis f' L, ∃ q ∈ headerPhis f L, (q.id, q.ty) = (q'.id, q'.ty) := by
      intro q' hq'
      have : (q'.id, q'.ty) ∈ (headerPhis f L).map (fun q => (q.id, q.ty)) :=
        hs.subset (List.mem_map_of_mem _ hq')
      obtain ⟨q, hq, he⟩ := List.mem_map.1 this
      exact ⟨q, hq, he⟩
    obtain ⟨P, hPmem, hPkey⟩ := mem_f P' hP'mem
    have hPunit : unitStrideTest SE L P = true := by
      rw [← unitStrideTest_phiOf, hPkey, unitStrideTest_phiOf]
      exact hP'unit
    have hsome : ((headerPhis f L).find? (unitStrideTest SE L)).isSome = true := by
      rw [List.find?_isSome]
      exact ⟨P, hPmem, hPunit⟩
    obtain ⟨P0, hfP0⟩ := Option.isSome_iff_exists.1 hsome
    obtain ⟨PN, hPNmem, hPNkey⟩ := mem_f PN' hPN'
    have hPNid : PN.id = d := by
      have := congrArg Prod.fst hPNkey
      simp only at this
      rw [this, hid']
    have hPNder : isDerivedIV SE L PN = true := by
      rw [isDerivedIV_congr SE L (p := PN) (q := PN') (congrArg Prod.fst hPNkey)
        (congrArg Prod.snd hPNkey)]
      exact hder'
    refine mem_derivedIVs.2 ⟨hsl, P0.id, ?_, ?_, PN, hPNmem, hPNid, hPNder⟩
    · rw [findPrimaryIV_eq_find, hfP0]
      rfl
    · intro hdp
      have hP0mem : P0 ∈ headerPhis f L := List.mem_of_find?_eq_some hfP0
      have hsame : PN = P0 :=
        List.inj_on_of_nodup_map hnd (mem_headerPhis hPNmem).1 (mem_headerPhis hP0mem).1
          (hPNid.trans hdp)
      have hkeysnd : ((headerPhis f L).map (fun q => (q.id, q.ty))).Nodup := by
        have := blockKeys_nodup f hnd h
        rw [← hk] at this
        exact List.Nodup.of_map _ this
      have hfk : ((headerPhis f L).map (fun q => (q.id, q.ty))).find?
          (fun k => unitStrideTest SE L (phiOf k)) = some (P0.id, P0.ty) := by
        rw [find?_keys, hfP0]
        rfl
      have hin : (P0.id, P0.ty) ∈ (headerPhis f' L).map (fun q => (q.id, q.ty)) := by
        rw [← hsame, hPNkey]
        exact List.mem_map_of_mem _ hPN'
      have := find?_of_sublist (fun k => unitStrideTest SE L (phiOf k)) hs hkeysnd _ hfk hin
      rw [find?_keys, hfP']  at this
      have hid0 : P'.id = P0.id := congrArg Prod.fst (Option.some.inj this)
      apply hne
      rw [← hP'id, hid0, ← hdp]

theorem foldl_elimLoop_derivedIVs (SE : ScalarEvolution) (X : Expander) (U : UseOrder)
    (hX : FreshExpander X) (LI : List Loop) (st : ElimState) (hnd : (instIds st.fn).Nodup)
    (L : Loop) :
    ∀ d ∈ derivedIVs SE (LI.foldl (fun s L => elimLoop SE X U L s) st).fn L,
      d ∈ derivedIVs SE st.fn L :=
  derivedIVs_of_blockKeys SE st.fn _ L hnd
    (fun h => foldl_elimLoop_blockKeys SE X U hX h LI st hnd)

end DerivedInductionVar

namespace DerivedInductionVar

open IR SCEVModel

/-- Induction over the processing of one loop that starts on a graph descended
from `F`: what is processed and what is deleted are derived IVs of the loop in
`F`. -/
theorem elimLoop_induction (SE : ScalarEvolution) (X : Expander) (U : UseOrder)
    (hX : FreshExpander X) (F : Func) (hndF : (instIds F).Nodup) (Inv : ElimState → Prop)
    (L : Loop)
    (hproc : ∀ d ∈ derivedIVs SE F L, ∀ ty st, (instIds st.fn).Nodup → Inv st →
      Inv (rewriteUses SE X (phiOf (d, ty)) (U.uses st.fn d) st))
    (herase : ∀ d ∈ derivedIVs SE F L, ∀ st, (instIds st.fn).Nodup → Inv st →
      Inv { fn := removeInst st.fn d, changed := true, trace := st.trace ++ [Event.erase d] })
    (st : ElimState) (hnd : (instIds st.fn).Nodup)
    (hkeys : ∀ h, (blockKeys st.fn h).Sublist (blockKeys F h)) (hst : Inv st) :
    Inv (elimLoop SE X U L st) := by
  have hskip : elimLoop SE X U L st = st → Inv (elimLoop SE X U L st) := by
    intro h
    rw [h]
    exact hst
  by_cases hsub : L.subLoops.isEmpty = true
  · cases hh : L.header with
    | none => exact hskip (by simp [elimLoop, hh])
    | some h =>
      cases hp : findPrimaryIV SE st.fn L with
      | none => exact hskip (elimLoop_of_no_primary SE X U L st hp)
      | some Primary =>
        cases hb : findBlock st.fn h with
        | none => exact hskip (by simp [elimLoop, hh, hp, hb])
        | some H =>
          obtain ⟨ks, hpre, -, hrun⟩ :=
            elimLoop_eq_foldl SE X U L st h Primary H hX hnd hsub hh hp hb
          have hkd : ∀ k ∈ ks, k.1 ≠ Primary → isDerivedIV SE L (phiOf k) = true →
              k.1 ∈ derivedIVs SE F L := by
            intro k hk hne hd
            apply derivedIVs_of_blockKeys SE F st.fn L hndF hkeys
            obtain ⟨PN, hPN, hkey⟩ := List.mem_map.1 (hpre.subset hk)
            subst hkey
            refine mem_derivedIVs.2 ⟨hsub, Primary, hp, hne, PN, ?_, rfl, ?_⟩
            · simp only [headerPhis, hh, hb]
              exact hPN
            · rw [← hd]
              exact isDerivedIV_congr SE L rfl rfl
          have hdead := walk_dead_cases SE X U L Primary [] ks (st, [])
            (fun d hd => by cases hd)
          have hwalk := walk_invariant SE X U L Primary
            (fun a => (instIds a.1.fn).Nodup ∧ Inv a.1) ks (st, []) ?_ ⟨hnd, hst⟩
          · rw [hrun]
            have := eraseDead_invariant (fun s => (instIds s.fn).Nodup ∧ Inv s)
              (fun D => D ∈ derivedIVs SE F L)
              (fun D s hD hs => ⟨nodup_instIds_removeInst D hs.1, herase D hD s hs.1 hs.2⟩)
              (ks.foldl (phiStep SE X U L Primary) (st, [])).2
              (ks.foldl (phiStep SE X U L Primary) (st, [])).1 ?_ hwalk
            · exact this.2
            · intro D hD
              rcases hdead D hD with h0 | ⟨k, hk, hkd2, hne, hder⟩
              · cases h0
              · rw [← hkd2]
                exact hkd k hk hne hder
          · intro k hk a ha
            rcases phiStep_cases SE X U L Primary a k with h1 | ⟨hne, hder, h1⟩
            · rw [h1]; exact ha
            · rw [h1]
              exact ⟨rewriteUses_nodup hX _ _ _ ha.1,
                hproc k.1 (hkd k hk hne hder) k.2 a.1 ha.1 ha.2⟩
  · exact hskip (elimLoop_of_subLoops SE X U L st (by simpa using hsub))

/-- Induction over a run of the eliminator that starts on a graph descended
from `F`. -/
theorem foldl_elimLoop_induction (SE : ScalarEvolution) (X : Expander) (U : UseOrder)
    (hX : FreshExpander X) (F : Func) (hndF : (instIds F).Nodup) (Inv : ElimState → Prop) :
    ∀ (LI : List Loop),
      (∀ L ∈ LI, ∀ d ∈ derivedIVs SE F L, ∀ ty st, (instIds st.fn).Nodup → Inv st →
        Inv (rewriteUses SE X (phiOf (d, ty)) (U.uses st.fn d) st)) →
      (∀ L ∈ LI, ∀ d ∈ derivedIVs SE F L, ∀ st, (instIds st.fn).Nodup → Inv st →
        Inv { fn := removeInst st.fn d, changed := true,
              trace := st.trace ++ [Event.erase d] }) →
      ∀ (st : ElimState), (instIds st.fn).Nodup →
        (∀ h, (blockKeys st.fn h).Sublist (blockKeys F h)) → Inv st →
        Inv (LI.foldl (fun s L => elimLoop SE X U L s) st)
  | [], _, _, _, _, _, hst => hst
  | L :: LI, hproc, herase, st, hnd, hkeys, hst => by
    rw [List.foldl_cons]
    apply foldl_elimLoop_induction SE X U hX F hndF Inv LI
      (fun L' hL' => hproc L' (List.mem_cons_of_mem _ hL'))
      (fun L' hL' => herase L' (List.mem_cons_of_mem _ hL'))
      _ (elimLoop_nodup SE X U L hX st hnd)
      (fun h => (elimLoop_blockKeys SE X U L st hX hnd h).trans (hkeys h))
    exact elimLoop_induction SE X U hX F hndF Inv L (hproc L (List.mem_cons_self _ _))
      (herase L (List.mem_cons_self _ _)) st hnd hkeys hst

end DerivedInductionVar

namespace IR

theorem extends_mem {f g : Func} (h : Extends f g) : ∀ q ∈ allInsts f, q ∈ allInsts g := by
  unfold Extends at h
  induction h with
  | nil => intro q hq; exact hq
  | @cons b c f' g' hbc _ ih =>
    intro q hq
    unfold allInsts at hq ⊢
    rw [List.flatMap_cons] at hq ⊢
    rcases List.mem_append.1 hq with h1 | h1
    · exact List.mem_append_left _ (hbc.2.1.subset h1)
    · exact List.mem_append_right _ (ih q h1)

theorem altered_not_mem {F g : Func} (h : Altered F g) (hnd : (instIds g).Nodup) :
    ∃ q ∈ allInsts F, q ∉ allInsts g := by
  rcases h with ⟨q0, hq0, hphi, hgone⟩ | ⟨u, sl, d, w, ⟨q, hq, hid, hop⟩, ⟨q0, hq0, hq0id, hq0phi⟩,
    ⟨q', hq', hid', hop'⟩, hw⟩
  · refine ⟨q0, hq0, fun hmem => ?_⟩
    have := hgone q0 hmem rfl
    rw [hphi] at this
    cases this
  · by_cases hmem : q ∈ allInsts g
    · have hqq : q' = q := List.inj_on_of_nodup_map hnd hq' hmem (hid'.trans hid.symm)
      subst hqq
      rw [hop] at hop'
      have hwd : w = Value.inst d := (Option.some.inj hop').symm
      refine ⟨q0, hq0, fun hmem0 => ?_⟩
      apply hw q0 hmem0 hq0phi
      rw [hwd, hq0id]
    · exact ⟨q, hq, hmem⟩

theorem altered_removeInst {F g : Func} (D : Nat) (h : Altered F g)
    (hD : ∃ q0 ∈ allInsts F, q0.id = D ∧ q0.isPHI = true) : Altered F (removeInst g D) := by
  rcases h with ⟨q0, hq0, hphi, hgone⟩ | ⟨u, sl, d, w, hF, hd, hop, hw⟩
  · exact Or.inl ⟨q0, hq0, hphi, fun q hq hid => hgone q (mem_allInsts_removeInst.1 hq).1 hid⟩
  · by_cases hu : u = D
    · obtain ⟨q0, hq0, hq0id, hq0phi⟩ := hD
      refine Or.inl ⟨q0, hq0, hq0phi, fun q hq hid => ?_⟩
      exact absurd (hid.trans hq0id) (mem_allInsts_removeInst.1 hq).2
    · exact Or.inr ⟨u, sl, d, w, hF, hd, hasOperand_removeInst D hu hop,
        fun q hq hphi => hw q (mem_allInsts_removeInst.1 hq).1 hphi⟩

theorem altered_of_removeInst {F : Func} (D : Nat)
    (hD : ∃ q0 ∈ allInsts F, q0.id = D ∧ q0.isPHI = true) (g : Func) :
    Altered F (removeInst g D) := by
  obtain ⟨q0, hq0, hq0id, hq0phi⟩ := hD
  refine Or.inl ⟨q0, hq0, hq0phi, fun q hq hid => ?_⟩
  exact absurd (hid.trans hq0id) (mem_allInsts_removeInst.1 hq).2

end IR

namespace DerivedInductionVar

open IR SCEVModel

theorem rewriteUse_changed_mono (SE : ScalarEvolution) (X : Expander) (PN : Instruction)
    (user slot : Nat) (st : ElimState) (h : st.changed = true) :
    (rewriteUse SE X PN user slot st).changed = true := by
  cases hv : (X st.fn (SE PN.id) PN.ty user).value with
  | none => simp [rewriteUse, hv, h]
  | some NewV =>
    by_cases hne : NewV = Value.inst PN.id <;> simp [rewriteUse, hv, hne, h]

theorem rewriteUse_refused_changed (SE : ScalarEvolution) (X : Expander) (PN : Instruction)
    (user slot : Nat) (st : ElimState)
    (href : (X st.fn (SE PN.id) PN.ty user).value = none ∨
      (X st.fn (SE PN.id) PN.ty user).value = some (Value.inst PN.id)) :
    (rewriteUse SE X PN user slot st).changed = st.changed := by
  rcases href with h | h <;> simp [rewriteUse, h]

theorem hasOperand_slotExists {f : Func} {u s : Nat} {v : Value} (h : HasOperand f u s v) :
    SlotExists f u s := by
  obtain ⟨q, hq, hid, hop⟩ := h
  refine ⟨q, hq, hid, ?_⟩
  by_contra hlt
  have : q.operands[s]? = none := List.getElem?_eq_none (by omega)
  rw [this] at hop
  cases hop

/-- A value that is no merge point of the graph before a step is none after
it. -/
theorem rewriteUse_noPhi (SE : ScalarEvolution) (X : Expander) (PN : Instruction)
    (user slot : Nat) (st : ElimState) {w : Value}
    (h : ∀ q ∈ allInsts st.fn, q.isPHI = true → w ≠ Value.inst q.id) :
    ∀ q ∈ allInsts (rewriteUse SE X PN user slot st).fn, q.isPHI = true →
      w ≠ Value.inst q.id := by
  intro q hq hphi
  obtain ⟨q0, hq0, hid, -, hp0⟩ := rewriteUse_phi SE X PN user slot st hq hphi
  rw [← hid]
  exact h q0 hq0 hp0

theorem rewriteUses_noPhi (SE : ScalarEvolution) (X : Expander) (PN : Instruction) {w : Value} :
    ∀ (us : List (Nat × Nat)) (st : ElimState),
      (∀ q ∈ allInsts st.fn, q.isPHI = true → w ≠ Value.inst q.id) →
      ∀ q ∈ allInsts (rewriteUses SE X PN us st).fn, q.isPHI = true → w ≠ Value.inst q.id
  | [], _, h => h
  | (user, slot) :: rest, st, h => by
    rw [rewriteUses_cons]
    exact rewriteUses_noPhi SE X PN rest _ (rewriteUse_noPhi SE X PN user slot st h)

/-- A step keeps the graph altered, when the value it may write is no merge
point. -/
theorem altered_rewriteUse (SE : ScalarEvolution) (X : Expander) (F : Func) (d : Nat) (ty : Ty)
    (user slot : Nat) (st : ElimState)
    (hy : ∀ f u v, (X f (SE d) ty u).value = some v → v ≠ Value.inst d →
      ∀ q ∈ allInsts f, q.isPHI = true → v ≠ Value.inst q.id)
    (h : Altered F st.fn) :
    Altered F (rewriteUse SE X (phiOf (d, ty)) user slot st).fn := by
  rcases h with ⟨q0, hq0, hphi, hgone⟩ | ⟨u, sl, d0, w, hF, hd0, hop, hw⟩
  · refine Or.inl ⟨q0, hq0, hphi, fun q hq hid => ?_⟩
    cases hqphi : q.isPHI with
    | false => rfl
    | true =>
      obtain ⟨q1, hq1, hid1, -, hp1⟩ := rewriteUse_phi SE X _ user slot st hq hqphi
      have := hgone q1 hq1 (hid1.trans hid)
      rw [hp1] at this
      cases this
  · right
    by_cases he : (user, slot) = (u, sl)
    · obtain ⟨hu, hs⟩ := Prod.mk.inj he
      subst hu hs
      rcases rewriteUse_fn SE X (phiOf (d, ty)) user slot st with h1 | ⟨v, hv, hne, h1⟩
      · refine ⟨user, slot, d0, w, hF, hd0, ?_, rewriteUse_noPhi SE X _ user slot st hw⟩
        rw [h1]
        exact hasOperand_insertBefore _ _ hop
      · refine ⟨user, slot, d0, v, hF, hd0, ?_,
          rewriteUse_noPhi SE X _ user slot st (hy st.fn user v hv hne)⟩
        exact (rewriteUse_redirects SE X (phiOf (d, ty)) user slot st hv hne
          (hasOperand_slotExists hop)).2.1
    · exact ⟨u, sl, d0, w, hF, hd0, rewriteUse_hasOperand SE X _ user slot st he hop,
        rewriteUse_noPhi SE X _ user slot st hw⟩

/-- The handling of the use edges of a derived IV `d` keeps this: the graph is
`F` as long as `Changed` is false, and differs from `F` in an instruction of
`F` once it is true. -/
theorem rewriteUses_unchanged_or_altered (SE : ScalarEvolution) (X : Expander) (F : Func)
    (d : Nat) (ty : Ty) (hd : ∃ q0 ∈ allInsts F, q0.id = d ∧ q0.isPHI = true)
    (hy : ∀ f u v, (X f (SE d) ty u).value = some v → v ≠ Value.inst d →
      ∀ q ∈ allInsts f, q.isPHI = true → v ≠ Value.inst q.id)
    (hl : ∀ f u, (∀ v, (X f (SE d) ty u).value = some v → v = Value.inst d) →
      (X f (SE d) ty u).insts = []) :
    ∀ (us : List (Nat × Nat)) (st : ElimState),
      (∀ x ∈ us, HasOperand F x.1 x.2 (Value.inst d)) →
      ((st.changed = false ∧ st.fn = F) ∨ (st.changed = true ∧ Altered F st.fn)) →
      (((rewriteUses SE X (phiOf (d, ty)) us st).changed = false ∧
          (rewriteUses SE X (phiOf (d, ty)) us st).fn = F) ∨
        ((rewriteUses SE X (phiOf (d, ty)) us st).changed = true ∧
          Altered F (rewriteUses SE X (phiOf (d, ty)) us st).fn))
  | [], _, _, h => h
  | (user, slot) :: rest, st, hus, h => by
    rw [rewriteUses_cons]
    apply rewriteUses_unchanged_or_altered SE X F d ty hd hy hl rest _
      (fun x hx => hus x (List.mem_cons_of_mem _ hx))
    rcases h with ⟨hc, hfn⟩ | ⟨hc, halt⟩
    · by_cases href : ∀ v, (X st.fn (SE d) ty user).value = some v → v = Value.inst d
      · left
        have hins := hl st.fn user href
        have hval : (X st.fn (SE d) ty user).value = none ∨
            (X st.fn (SE d) ty user).value = some (Value.inst d) := by
          cases hv : (X st.fn (SE d) ty user).value with
          | none => exact Or.inl rfl
          | some v => exact Or.inr (by rw [href v hv])
        have hr := rewriteUse_refused SE X (phiOf (d, ty)) user slot st hval
        have hr2 := rewriteUse_refused_changed SE X (phiOf (d, ty)) user slot st hval
        refine ⟨hr2.trans hc, ?_⟩
        rw [hr]
        show insertBefore st.fn user (((X st.fn (SE d) ty user).insts).map asOrdinary) = F
        rw [hins, List.map_nil, insertBefore_nil, hfn]
      · right
        have hex : ∃ v, (X st.fn (SE d) ty user).value = some v ∧ v ≠ Value.inst d := by
          by_contra hno
          apply href
          intro v hv
          by_contra hne
          exact hno ⟨v, hv, hne⟩
        obtain ⟨v, hv, hne⟩ := hex
        obtain ⟨-, hop, hch, -⟩ := rewriteUse_redirects SE X (phiOf (d, ty)) user slot st hv hne
          (by rw [hfn]; exact hasOperand_slotExists (hus (user, slot) (List.mem_cons_self _ _)))
        refine ⟨hch, Or.inr ⟨user, slot, d, v, hus (user, slot) (List.mem_cons_self _ _), hd,
          hop, rewriteUse_noPhi SE X _ user slot st (hy st.fn user v hv hne)⟩⟩
    · exact Or.inr ⟨rewriteUse_changed_mono SE X _ user slot st hc,
        altered_rewriteUse SE X F d ty user slot st hy halt⟩

theorem mem_derivedIVs_phi {SE : ScalarEvolution} {F : Func} {L : Loop} {d : Nat}
    (h : d ∈ derivedIVs SE F L) : ∃ q0 ∈ allInsts F, q0.id = d ∧ q0.isPHI = true := by
  obtain ⟨-, p, -, -, PN, hPN, hid, -⟩ := mem_derivedIVs.1 h
  exact ⟨PN, (mem_headerPhis hPN).1, hid, (mem_headerPhis hPN).2⟩

theorem blockKeys_refl (F : Func) : ∀ h, (blockKeys F h).Sublist (blockKeys F h) :=
  fun _ => List.Sublist.refl _

/-- With a synthesizer that yields no merge point other than the one asked for
and links nothing without a redirection, the graph of a run is the input as
long as `Changed` is false and differs from it in an instruction of the input
once `Changed` is true. -/
theorem run_unchanged_or_altered (SE : ScalarEvolution) (X : Expander) (U : UseOrder)
    (LI : List Loop) (F : Func) (hnd : (instIds F).Nodup) (hX : FreshExpander X)
    (hy : YieldsNoOtherPhi SE X LI F) (hl : LinksOnlyOnRedirect SE X LI F) :
    ((DerivedInductionVarElim.run SE X U LI F).changed = false ∧
        (DerivedInductionVarElim.run SE X U LI F).fn = F) ∨
      ((DerivedInductionVarElim.run SE X U LI F).changed = true ∧
        Altered F (DerivedInductionVarElim.run SE X U LI F).fn) := by
  apply foldl_elimLoop_induction SE X U hX F hnd
    (fun s => (s.changed = false ∧ s.fn = F) ∨ (s.changed = true ∧ Altered F s.fn)) LI ?_ ?_
    (startState F) hnd (blockKeys_refl F) (Or.inl ⟨rfl, rfl⟩)
  · intro L hL d hd ty st _ hst
    by_cases hc : st.changed = true
    · have halt : Altered F st.fn := by
        rcases hst with ⟨h1, -⟩ | ⟨-, h2⟩
        · rw [hc] at h1; cases h1
        · exact h2
      right
      have := rewriteUses_invariant SE X (phiOf (d, ty))
        (fun s => s.changed = true ∧ Altered F s.fn)
        (fun user slot s hs => ⟨rewriteUse_changed_mono SE X _ user slot s hs.1,
          altered_rewriteUse SE X F d ty user slot s (hy L hL d hd · ty) hs.2⟩)
        (U.uses st.fn d) st ⟨hc, halt⟩
      exact this
    · have hfn : st.fn = F := by
        rcases hst with ⟨-, h1⟩ | ⟨h2, -⟩
        · exact h1
        · exact absurd h2 hc
      apply rewriteUses_unchanged_or_altered SE X F d ty (mem_derivedIVs_phi hd)
        (hy L hL d hd · ty) (hl L hL d hd · ty) _ st _ hst
      intro x hx
      rw [hfn] at hx
      obtain ⟨q, hq, hid, hop⟩ := mem_usesOf.1 ((U.perm F d).mem_iff.1 hx)
      exact ⟨q, hq, hid, hop⟩
  · intro L hL d hd st _ hst
    right
    refine ⟨rfl, ?_⟩
    rcases hst with ⟨-, -⟩ | ⟨-, h2⟩
    · exact altered_of_removeInst d (mem_derivedIVs_phi hd) st.fn
    · exact altered_removeInst d h2 (mem_derivedIVs_phi hd)

theorem yieldsNoOtherPhi_doubling (SE : ScalarEvolution) (primary : Nat) (LI : List Loop)
    (F : Func) : YieldsNoOtherPhi SE (Examples.doubling primary) LI F := by
  intro L _ d _ f ty u v hv _ q hq _ he
  simp only [Examples.doubling, Option.some.injEq] at hv
  rw [← hv] at he
  have := le_maxId_of_mem (List.mem_map_of_mem (fun i => i.id) hq)
  have h2 := Value.inst.inj he
  omega

theorem linksOnlyOnRedirect_doubling (SE : ScalarEvolution) (primary : Nat) (LI : List Loop)
    (F : Func) (hsmall : ∀ L ∈ LI, ∀ d ∈ derivedIVs SE F L, d < 1000) :
    LinksOnlyOnRedirect SE (Examples.doubling primary) LI F := by
  intro L hL d hd f ty u href
  exfalso
  have := href (Value.inst (Examples.maxId f + 1000)) rfl
  have h2 := Value.inst.inj this
  have := hsmall L hL d hd
  omega

/-- C12: the `Changed` flag is exact.  The run returns `changed = true` exactly
when it redirected a use edge or deleted a merge point; and when it returns
`changed = false` every block of the input graph is still there with its
instructions, their operands and their order as they were, and with the same
merge points: all the run may have added are instructions of the synthesizer,
none of them a merge point.  The flag follows the graph: on a graph with unique
instruction identities, with a synthesizer whose instructions are new objects,
which for a derived IV yields no merge point other than that derived IV and
links no instruction unless its value is redirected to, `changed = true` means
that some instruction of the input is no longer in the graph as it was (it was
deleted, or one of its operands was replaced), and `changed = false` that the
graph is the input graph. -/
theorem eliminateDerivedIVs_changed_exact (SE : ScalarEvolution) (X : Expander) (U : UseOrder)
    (LI : List Loop) (F : Func) :
    ((DerivedInductionVarElim.run SE X U LI F).changed = true ↔
      ∃ e ∈ (DerivedInductionVarElim.run SE X U LI F).trace,
        (∃ pn u s v, e = Event.redirect pn u s v) ∨ ∃ d, e = Event.erase d) ∧
    ((DerivedInductionVarElim.run SE X U LI F).changed = false →
      Extends F (DerivedInductionVarElim.run SE X U LI F).fn ∧
      ∀ e ∈ (DerivedInductionVarElim.run SE X U LI F).trace,
        ∃ pn u s, e = Event.synthesize pn u s) ∧
    ((instIds F).Nodup → FreshExpander X → YieldsNoOtherPhi SE X LI F →
      LinksOnlyOnRedirect SE X LI F →
      ((DerivedInductionVarElim.run SE X U LI F).changed = true →
        (∃ q ∈ allInsts F, q ∉ allInsts (DerivedInductionVarElim.run SE X U LI F).fn) ∧
        ¬ Extends F (DerivedInductionVarElim.run SE X U LI F).fn) ∧
      ((DerivedInductionVarElim.run SE X U LI F).changed = false →
        (DerivedInductionVarElim.run SE X U LI F).fn = F)) := by
  have hiff : (DerivedInductionVarElim.run SE X U LI F).changed = true ↔
      ∃ e ∈ (DerivedInductionVarElim.run SE X U LI F).trace, e.isMutation = true :=
    eliminateDerivedIVs_changedIff SE X U LI F
  have hmut : ∀ e : Event, e.isMutation = true ↔
      ((∃ pn u s v, e = Event.redirect pn u s v) ∨ ∃ d, e = Event.erase d) := by
    intro e
    cases e with
    | synthesize pn u s => simp [Event.isMutation]
    | redirect pn u s v => simp [Event.isMutation]
    | erase d => simp [Event.isMutation]
  refine ⟨?_, fun hch => ⟨?_, ?_⟩, fun hnd hX hy hl => ⟨fun hch => ?_, fun hch => ?_⟩⟩
  · rw [hiff]
    constructor
    · rintro ⟨e, he, hm⟩
      exact ⟨e, he, (hmut e).1 hm⟩
    · rintro ⟨e, he, hm⟩
      exact ⟨e, he, (hmut e).2 hm⟩
  · exact foldl_elimLoop_extends SE X U LI F (startState F) (fun _ => extends_refl F) hch
  · intro e he
    cases e with
    | synthesize pn u s => exact ⟨pn, u, s, rfl⟩
    | redirect pn u s v =>
      have : (DerivedInductionVarElim.run SE X U LI F).changed = true :=
        hiff.2 ⟨_, he, rfl⟩
      rw [hch] at this
      cases this
    | erase d =>
      have : (DerivedInductionVarElim.run SE X U LI F).changed = true :=
        hiff.2 ⟨_, he, rfl⟩
      rw [hch] at this
      cases this
  · have halt : Altered F (DerivedInductionVarElim.run SE X U LI F).fn := by
      rcases run_unchanged_or_altered SE X U LI F hnd hX hy hl with ⟨h1, -⟩ | ⟨-, h2⟩
      · rw [hch] at h1; cases h1
      · exact h2
    have hgone := altered_not_mem halt (foldl_elimLoop_nodup SE X U hX LI (startState F) hnd)
    refine ⟨hgone, fun hext => ?_⟩
    obtain ⟨q, hq, hnot⟩ := hgone
    exact hnot (extends_mem hext q hq)
  · rcases run_unchanged_or_altered SE X U LI F hnd hX hy hl with ⟨-, h1⟩ | ⟨h2, -⟩
    · exact h1
    · rw [hch] at h2; cases h2

/-- C12 at `threeCounters` with a synthesizer materialising `2 * i`: the run
reports a change, and the graph did change: the input graph is not preserved,
an instruction of the input is gone or has another operand. -/
theorem eliminateDerivedIVs_changed_exact_witness :
    Examples.threeCountersAfter.changed = true ∧
      (∃ q ∈ allInsts Examples.threeCounters, q ∉ allInsts Examples.threeCountersAfter.fn) ∧
      ¬ Extends Examples.threeCounters Examples.threeCountersAfter.fn :=
  ⟨by decide,
    ((eliminateDerivedIVs_changed_exact Examples.countersSE (Examples.doubling 10)
      Examples.programOrder [Examples.countersLoop] Examples.threeCounters).2.2
      (by decide) (freshExpander_doubling 10)
      (yieldsNoOtherPhi_doubling _ 10 _ _)
      (linksOnlyOnRedirect_doubling _ 10 _ _ (by decide))).1 (by decide)⟩

end DerivedInductionVar

namespace DerivedInductionVar

open IR SCEVModel

/-- An edge of the snapshot at whose use site the synthesizer yields a value
that is neither `PN` nor another merge point is redirected, and holds the value
when the snapshot has been handled. -/
theorem rewriteUses_redirected_keep (SE : ScalarEvolution) (X : Expander) (PN : Instruction)
    (F : Func) {u s : Nat}
    (hsucc : ∀ f, SameKind F u f →
      ∃ v, (X f (SE PN.id) PN.ty u).value = some v ∧ v ≠ Value.inst PN.id ∧
        ∀ q ∈ allInsts f, q.isPHI = true → v ≠ Value.inst q.id) :
    ∀ (us : List (Nat × Nat)) (st : ElimState), (u, s) ∈ us → SlotExists st.fn u s →
      SameKind F u st.fn →
      ∃ v f', (X f' (SE PN.id) PN.ty u).value = some v ∧ v ≠ Value.inst PN.id ∧
        Event.redirect PN.id u s v ∈ (rewriteUses SE X PN us st).trace ∧
        HasOperand (rewriteUses SE X PN us st).fn u s v ∧
        ∀ q ∈ allInsts (rewriteUses SE X PN us st).fn, q.isPHI = true → v ≠ Value.inst q.id
  | [], _, h, _, _ => by cases h
  | (user, slot) :: rest, st, h, hslot, hk => by
    rw [rewriteUses_cons]
    by_cases hr : (u, s) ∈ rest
    · exact rewriteUses_redirected_keep SE X PN F hsucc rest _ hr
        (rewriteUse_slotExists SE X PN _ _ st hslot)
        (rewriteUse_sameKind SE X F u PN user slot st hk)
    · have he : (u, s) = (user, slot) := by
        rcases List.mem_cons.1 h with h | h
        · exact h
        · exact absurd h hr
      obtain ⟨hu, hs⟩ := Prod.mk.inj he
      subst hu hs
      obtain ⟨v, hv, hne, hnophi⟩ := hsucc st.fn hk
      obtain ⟨htr, hop, -, -⟩ := rewriteUse_redirects SE X PN u s st hv hne hslot
      exact ⟨v, st.fn, hv, hne, rewriteUses_trace_mono SE X PN rest _ htr,
        rewriteUses_hasOperand SE X PN rest _ hr hop,
        rewriteUses_noPhi SE X PN rest _ (rewriteUse_noPhi SE X PN u s st hnophi)⟩

theorem walk_noPhi (SE : ScalarEvolution) (X : Expander) (U : UseOrder) (L : Loop)
    (Primary : Nat) {w : Value} (ks : List (Nat × Ty)) (acc : ElimState × List Nat)
    (h : ∀ q ∈ allInsts acc.1.fn, q.isPHI = true → w ≠ Value.inst q.id) :
    ∀ q ∈ allInsts (ks.foldl (phiStep SE X U L Primary) acc).1.fn, q.isPHI = true →
      w ≠ Value.inst q.id := by
  apply walk_invariant SE X U L Primary
    (fun a => ∀ q ∈ allInsts a.1.fn, q.isPHI = true → w ≠ Value.inst q.id) ks acc ?_ h
  intro k _ a ha
  rcases phiStep_cases SE X U L Primary a k with h1 | ⟨-, -, h1⟩
  · rw [h1]; exact ha
  · rw [h1]; exact rewriteUses_noPhi SE X _ _ _ ha

theorem eraseDead_noPhi {w : Value} :
    ∀ (Dead : List Nat) (st : ElimState),
      (∀ q ∈ allInsts st.fn, q.isPHI = true → w ≠ Value.inst q.id) →
      ∀ q ∈ allInsts (eraseDead Dead st).fn, q.isPHI = true → w ≠ Value.inst q.id
  | [], _, h => h
  | D :: rest, st, h => by
    rw [eraseDead]
    exact eraseDead_noPhi rest _ (fun q hq => h q (mem_allInsts_removeInst.1 hq).1)

/-- A use edge of a derived IV of the list at whose use site the synthesizer
yields a value that is neither the derived IV nor another merge point holds
that value when the fold ends. -/
theorem walk_redirected (SE : ScalarEvolution) (X : Expander) (U : UseOrder) (L : Loop)
    (Primary : Nat) (hX : FreshExpander X) (F : Func) {u s d : Nat} {ty : Ty}
    (hp : d ≠ Primary) (hd : isDerivedIV SE L (phiOf (d, ty)) = true)
    (hsucc : ∀ f, SameKind F u f →
      ∃ v, (X f (SE d) ty u).value = some v ∧ v ≠ Value.inst d ∧
        ∀ q ∈ allInsts f, q.isPHI = true → v ≠ Value.inst q.id) :
    ∀ (ks : List (Nat × Ty)) (acc : ElimState × List Nat),
      (d, ty) ∈ ks → (∀ k ∈ ks, k.1 = d → k.2 = ty) →
      (∀ k ∈ ks, ∃ q ∈ allInsts F, q.id = k.1 ∧ q.isPHI = true) →
      (instIds acc.1.fn).Nodup → (∀ x, SameKind F x acc.1.fn) →
      HasOperand acc.1.fn u s (Value.inst d) →
      ∃ v f, (X f (SE d) ty u).value = some v ∧ v ≠ Value.inst d ∧
        Event.redirect d u s v ∈ (ks.foldl (phiStep SE X U L Primary) acc).1.trace ∧
        HasOperand (ks.foldl (phiStep SE X U L Primary) acc).1.fn u s v ∧
        ∀ q ∈ allInsts (ks.foldl (phiStep SE X U L Primary) acc).1.fn, q.isPHI = true →
          v ≠ Value.inst q.id
  | [], _, h, _, _, _, _, _ => by cases h
  | k :: ks, acc, hmem, huniq, hphis, hnd, hk0, hop => by
    rw [List.foldl_cons]
    by_cases hkd : k.1 = d
    · have hk : k = (d, ty) := Prod.ext hkd (huniq k (List.mem_cons_self _ _) hkd)
      subst hk
      rw [phiStep_process SE X U L Primary acc (d, ty) hp hd]
      have hin : (u, s) ∈ U.uses acc.1.fn d := by
        obtain ⟨q, hq, hid, hopq⟩ := hop
        exact (U.perm acc.1.fn d).mem_iff.2 (mem_usesOf.2 ⟨q, hq, hid, hopq⟩)
      have hslot : SlotExists acc.1.fn u s :=
        slotExists_of_mem_usesOf ((U.perm acc.1.fn d).mem_iff.1 hin)
      obtain ⟨v, f, hv, hne, htr, hopv, hnophi⟩ :=
        rewriteUses_redirected_keep SE X (phiOf (d, ty)) F hsucc _ acc.1 hin hslot (hk0 u)
      refine ⟨v, f, hv, hne, walk_trace_mono SE X U L Primary ks _ htr, ?_,
        walk_noPhi SE X U L Primary ks _ hnophi⟩
      apply walk_hasOperand_other SE X U L Primary hX ks _ _
        (rewriteUses_nodup hX _ _ _ hnd) hopv
      intro k' hk' _ _
      obtain ⟨q0, hq0, hid0, hphi0⟩ := hphis k' (List.mem_cons_of_mem _ hk')
      obtain ⟨q, hq, hid, hphi⟩ :=
        (rewriteUses_sameKind SE X F k'.1 (phiOf (d, ty)) _ acc.1 (hk0 k'.1)).2
          ⟨q0, hq0, hid0, hphi0⟩
      rw [← hid]
      exact hnophi q hq hphi
    · have hmem2 : (d, ty) ∈ ks := by
        rcases List.mem_cons.1 hmem with h | h
        · exact absurd (congrArg Prod.fst h).symm hkd
        · exact h
      have hstep : (instIds (phiStep SE X U L Primary acc k).1.fn).Nodup ∧
          HasOperand (phiStep SE X U L Primary acc k).1.fn u s (Value.inst d) := by
        rcases phiStep_cases SE X U L Primary acc k with h1 | ⟨-, -, h1⟩
        · rw [h1]; exact ⟨hnd, hop⟩
        · rw [h1]
          exact ⟨rewriteUses_nodup hX _ _ _ hnd,
            rewriteUses_hasOperand_other SE X U (phiOf k) acc.1 hnd
              (fun e => hkd (Value.inst.inj e).symm) hop⟩
      exact walk_redirected SE X U L Primary hX F hp hd hsucc ks _ hmem2
        (fun k' hk' => huniq k' (List.mem_cons_of_mem _ hk'))
        (fun k' hk' => hphis k' (List.mem_cons_of_mem _ hk')) hstep.1
        (fun x => phiStep_sameKind SE X U L Primary F x acc k (hk0 x)) hstep.2

/-- The fate of a use edge of a derived IV `D` of the header at whose use site
the synthesizer yields a value that is neither `D` nor another merge point, in
a run on a single loop: the edge holds the value after the run, unless its user
is a merge point that the run deleted. -/
theorem run_single_redirected (SE : ScalarEvolution) (X : Expander) (U : UseOrder) (L : Loop)
    (F : Func) (h i : Nat) (H : BasicBlock) (D : Instruction) (u s : Nat)
    (hX : FreshExpander X) (hsafe : PhiSafe X)
    (hnd : (instIds F).Nodup) (hsub : L.subLoops.isEmpty = true) (hhdr : L.header = some h)
    (hprim : findPrimaryIV SE F L = some i) (hH : findBlock F h = some H)
    (hD : D ∈ phis H) (hDi : D.id ≠ i) (hder : isDerivedIV SE L D = true)
    (hus : (u, s) ∈ usesOf F D.id)
    (hsucc : ∀ f, SameKind F u f →
      ∃ v, (X f (SE D.id) D.ty u).value = some v ∧ v ≠ Value.inst D.id ∧
        ∀ q ∈ allInsts f, q.isPHI = true → v ≠ Value.inst q.id) :
    ∃ v f, (X f (SE D.id) D.ty u).value = some v ∧ v ≠ Value.inst D.id ∧
      Event.redirect D.id u s v ∈ (DerivedInductionVarElim.run SE X U [L] F).trace ∧
      (∀ q ∈ allInsts (DerivedInductionVarElim.run SE X U [L] F).fn, q.isPHI = true →
        v ≠ Value.inst q.id) ∧
      (((∃ q ∈ allInsts F, q.id = u ∧ q.isPHI = true) ∧
          Event.erase u ∈ (DerivedInductionVarElim.run SE X U [L] F).trace) ∨
        HasOperand (DerivedInductionVarElim.run SE X U [L] F).fn u s v) := by
  rw [run_single_eq_foldl SE X U L F h i H hX hsafe hnd hsub hhdr hprim hH]
  obtain ⟨hHmem, hHid⟩ := findBlock_some hH
  have hDH : D ∈ H.insts := (List.takeWhile_sublist _).subset hD
  have hDF : D ∈ allInsts F := mem_allInsts.2 ⟨H, hHmem, hDH⟩
  have hkey : (D.id, D.ty) ∈ phiKeys H.insts :=
    List.mem_map.2 ⟨D, hD, rfl⟩
  have hphis : ∀ k ∈ phiKeys H.insts, ∃ q ∈ allInsts F, q.id = k.1 ∧ q.isPHI = true := by
    intro k hk
    obtain ⟨p, hp, rfl⟩ := List.mem_map.1 hk
    exact ⟨p, mem_allInsts.2 ⟨H, hHmem, (List.takeWhile_sublist _).subset hp⟩, rfl,
      List.mem_takeWhile_imp hp⟩
  have huniq : ∀ k ∈ phiKeys H.insts, k.1 = D.id → k.2 = D.ty := by
    intro k hk hid
    obtain ⟨p, hp, rfl⟩ := List.mem_map.1 hk
    have hpF : p ∈ allInsts F := mem_allInsts.2 ⟨H, hHmem, (List.takeWhile_sublist _).subset hp⟩
    have : p = D := List.inj_on_of_nodup_map hnd hpF hDF hid
    rw [this]
  have hder2 : isDerivedIV SE L (phiOf (D.id, D.ty)) = true := by
    rw [isDerivedIV_congr SE L (p := phiOf (D.id, D.ty)) (q := D) rfl rfl]
    exact hder
  have hop : HasOperand (startState F, ([] : List Nat)).1.fn u s (Value.inst D.id) := by
    obtain ⟨q, hq, hid, hopq⟩ := mem_usesOf.1 hus
    exact ⟨q, hq, hid, hopq⟩
  have hnd0 : (instIds (startState F, ([] : List Nat)).1.fn).Nodup := hnd
  obtain ⟨v, f, hv, hne, htr, hopv, hnophi⟩ :=
    walk_redirected SE X U L i hX F hDi hder2 hsucc (phiKeys H.insts) (startState F, [])
      hkey huniq hphis hnd0 (fun x => sameKind_refl F x) hop
  refine ⟨v, f, hv, hne, eraseDead_trace_mono _ _ htr, eraseDead_noPhi _ _ hnophi, ?_⟩
  by_cases hu : u ∈ ((phiKeys H.insts).foldl (phiStep SE X U L i) (startState F, [])).2
  · left
    refine ⟨?_, eraseDead_erased _ _ u hu⟩
    rcases walk_dead_cases SE X U L i [] (phiKeys H.insts) (startState F, [])
      (fun d hd => by cases hd) u hu with h0 | ⟨k, hk, hkd, -, -⟩
    · cases h0
    · obtain ⟨q, hq, hid, hphi⟩ := hphis k hk
      exact ⟨q, hq, hid.trans hkd, hphi⟩
  · exact Or.inr (eraseDead_hasOperand _ _ hu hopv)

/-- Every merge point of the graph a run leaves was a merge point, of the same
identity, of the graph it started on. -/
theorem foldl_elimLoop_phi (SE : ScalarEvolution) (X : Expander) (U : UseOrder)
    (LI : List Loop) (st : ElimState) :
    ∀ q ∈ allInsts (LI.foldl (fun s L => elimLoop SE X U L s) st).fn, q.isPHI = true →
      ∃ q0 ∈ allInsts st.fn, q0.id = q.id ∧ q0.isPHI = true := by
  apply foldl_elimLoop_invariant SE X U
    (fun s => ∀ q ∈ allInsts s.fn, q.isPHI = true →
      ∃ q0 ∈ allInsts st.fn, q0.id = q.id ∧ q0.isPHI = true)
    (fun _ _ _ => True) LI ?_ ?_ st (fun q hq hphi => ⟨q, hq, rfl, hphi⟩)
  · intro L _ _ Primary PN s _ _ _ _ hs
    refine ⟨fun q hq hphi => ?_, trivial⟩
    obtain ⟨q1, hq1, hid1, -, hp1⟩ := rewriteUses_phi SE X PN _ _ q hq hphi
    obtain ⟨q0, hq0, hid0, hp0⟩ := hs q1 hq1 hp1
    exact ⟨q0, hq0, hid0.trans hid1, hp0⟩
  · intro L _ Primary D s _ hs q hq hphi
    exact hs q (mem_allInsts_removeInst.1 hq).1 hphi

/-- A slot of an instruction that is no merge point, holding a value that is no
merge point, is left alone by a run. -/
theorem foldl_elimLoop_keeps_operand (SE : ScalarEvolution) (X : Expander) (U : UseOrder)
    (hX : FreshExpander X) (LI : List Loop) (st : ElimState) {u s : Nat} {v : Value}
    (hnd : (instIds st.fn).Nodup) (hop : HasOperand st.fn u s v)
    (hv : ∀ q ∈ allInsts st.fn, q.isPHI = true → v ≠ Value.inst q.id)
    (hu : ∀ q ∈ allInsts st.fn, q.id = u → q.isPHI = false) :
    HasOperand (LI.foldl (fun s L => elimLoop SE X U L s) st).fn u s v := by
  have key := foldl_elimLoop_invariant SE X U
    (fun a => (instIds a.fn).Nodup ∧ HasOperand a.fn u s v ∧
      (∀ q ∈ allInsts a.fn, q.isPHI = true → v ≠ Value.inst q.id) ∧
      ∀ q ∈ allInsts a.fn, q.id = u → q.isPHI = false)
    (fun _ _ D => D ≠ u) LI ?_ ?_ st ⟨hnd, hop, hv, hu⟩
  · exact key.2.1
  · intro L _ _ Primary PN a hPN hphi _ _ ⟨h1, h2, h3, h4⟩
    refine ⟨⟨rewriteUses_nodup hX PN _ _ h1,
      rewriteUses_hasOperand_other SE X U PN a h1 (h3 PN hPN hphi) h2,
      rewriteUses_noPhi SE X PN _ _ h3, ?_⟩, ?_⟩
    · intro q hq hid
      cases hqphi : q.isPHI with
      | false => rfl
      | true =>
        obtain ⟨q1, hq1, hid1, -, hp1⟩ := rewriteUses_phi SE X PN _ _ q hq hqphi
        have := h4 q1 hq1 (hid1.trans hid)
        rw [hp1] at this
        cases this
    · intro he
      have := h4 PN hPN he
      rw [hphi] at this
      cases this
  · intro L _ Primary D a hD ⟨h1, h2, h3, h4⟩
    exact ⟨nodup_instIds_removeInst D h1, hasOperand_removeInst D (Ne.symm hD) h2,
      fun q hq => h3 q (mem_allInsts_removeInst.1 hq).1,
      fun q hq => h4 q (mem_allInsts_removeInst.1 hq).1⟩

end DerivedInductionVar

namespace DerivedInductionVar

open IR SCEVModel

/-- C11 amended: use edges whose user is a terminator are rewritten like all
others.  Take a graph with unique instruction identities and a synthesizer
whose instructions are new objects and which links nothing in front of a merge
point.  Let `L` be a loop without sub-loops, processed after the loops `LI1`,
with primary IV `i` in the graph they left, and let `D` be a derived IV of its
header there.  For every use edge `(u, s)` of `D` whose user is a terminator
`T`, the run calls the synthesizer for that edge, and it redirects the edge to
a value the synthesizer yielded for `D`'s recurrence at use site `u` whenever
the synthesizer yields a value other than `D` there.  When that value is no
merge point of the graph either (and `T`, a terminator, is no merge point),
slot `s` of the terminator holds it in the graph the run returns, whatever
loops are processed after `L`. -/
theorem eliminateDerivedIVs_terminator_uses (SE : ScalarEvolution) (X : Expander)
    (U : UseOrder) (LI1 LI2 : List Loop) (L : Loop) (F : Func) (h i : Nat) (H : BasicBlock)
    (D T : Instruction) (u s : Nat) (hX : FreshExpander X) (hsafe : PhiSafe X)
    (hnd : (instIds F).Nodup) (hsub : L.subLoops.isEmpty = true) (hhdr : L.header = some h)
    (hprim : findPrimaryIV SE (DerivedInductionVarElim.run SE X U LI1 F).fn L = some i)
    (hH : findBlock (DerivedInductionVarElim.run SE X U LI1 F).fn h = some H)
    (hD : D ∈ phis H) (hDi : D.id ≠ i) (hder : isDerivedIV SE L D = true)
    (hus : (u, s) ∈ usesOf (DerivedInductionVarElim.run SE X U LI1 F).fn D.id)
    (hT : findInst (DerivedInductionVarElim.run SE X U LI1 F).fn u = some T)
    (_hterm : T.isTerminator = true) :
    Event.synthesize D.id u s ∈
      (DerivedInductionVarElim.run SE X U (LI1 ++ L :: LI2) F).trace ∧
    ((∀ f, SameKind (DerivedInductionVarElim.run SE X U LI1 F).fn u f →
        ∃ v, (X f (SE D.id) D.ty u).value = some v ∧ v ≠ Value.inst D.id) →
      ∃ v f, (X f (SE D.id) D.ty u).value = some v ∧ v ≠ Value.inst D.id ∧
        Event.redirect D.id u s v ∈
          (DerivedInductionVarElim.run SE X U (LI1 ++ L :: LI2) F).trace) ∧
    (T.isPHI = false →
      (∀ f, SameKind (DerivedInductionVarElim.run SE X U LI1 F).fn u f →
        ∃ v, (X f (SE D.id) D.ty u).value = some v ∧ v ≠ Value.inst D.id ∧
          ∀ q ∈ allInsts f, q.isPHI = true → v ≠ Value.inst q.id) →
      ∃ v f, (X f (SE D.id) D.ty u).value = some v ∧ v ≠ Value.inst D.id ∧
        Event.redirect D.id u s v ∈
          (DerivedInductionVarElim.run SE X U (LI1 ++ L :: LI2) F).trace ∧
        operandAt (DerivedInductionVarElim.run SE X U (LI1 ++ L :: LI2) F).fn u s = some v) := by
  have hnd1 : (instIds (DerivedInductionVarElim.run SE X U LI1 F).fn).Nodup :=
    foldl_elimLoop_nodup SE X U hX LI1 (startState F) hnd
  obtain ⟨h1, h2, -⟩ := run_single_edge SE X U L (DerivedInductionVarElim.run SE X U LI1 F).fn
    h i H D u s hX hsafe hnd1 hsub hhdr hprim hH hD hDi hder hus
  have hmono : ∀ e, e ∈ (DerivedInductionVarElim.run SE X U [L]
      (DerivedInductionVarElim.run SE X U LI1 F).fn).trace →
      e ∈ (DerivedInductionVarElim.run SE X U (LI1 ++ L :: LI2) F).trace := by
    intro e he
    rw [run_cons_append, run_append, elimLoop_eq_after]
    apply foldl_elimLoop_trace_mono
    exact List.mem_append_right _ he
  refine ⟨hmono _ h1, fun hsucc => ?_, fun hTphi hsucc => ?_⟩
  · obtain ⟨v, f, hv, hne, htr⟩ := h2 hsucc
    exact ⟨v, f, hv, hne, hmono _ htr⟩
  · obtain ⟨hTmem, hTid⟩ := findInst_some hT
    have hnophiu : ∀ q ∈ allInsts (DerivedInductionVarElim.run SE X U LI1 F).fn,
        q.id = u → q.isPHI = false := by
      intro q hq hid
      have : q = T := List.inj_on_of_nodup_map hnd1 hq hTmem (hid.trans hTid.symm)
      rw [this]
      exact hTphi
    obtain ⟨v, f, hv, hne, htr, hnophi, hcase⟩ :=
      run_single_redirected SE X U L (DerivedInductionVarElim.run SE X U LI1 F).fn
        h i H D u s hX hsafe hnd1 hsub hhdr hprim hH hD hDi hder hus hsucc
    have hop : HasOperand (DerivedInductionVarElim.run SE X U [L]
        (DerivedInductionVarElim.run SE X U LI1 F).fn).fn u s v := by
      rcases hcase with ⟨⟨q, hq, hid, hphi⟩, -⟩ | hop
      · have := hnophiu q hq hid
        rw [hphi] at this
        cases this
      · exact hop
    refine ⟨v, f, hv, hne, hmono _ htr, ?_⟩
    have hfn : (DerivedInductionVarElim.run SE X U (LI1 ++ [L]) F).fn =
        (DerivedInductionVarElim.run SE X U [L]
          (DerivedInductionVarElim.run SE X U LI1 F).fn).fn := by
      rw [run_append, elimLoop_eq_after]
      rfl
    have hnd2 : (instIds (DerivedInductionVarElim.run SE X U (LI1 ++ [L]) F).fn).Nodup :=
      foldl_elimLoop_nodup SE X U hX (LI1 ++ [L]) (startState F) hnd
    have hu2 : ∀ q ∈ allInsts (DerivedInductionVarElim.run SE X U (LI1 ++ [L]) F).fn,
        q.id = u → q.isPHI = false := by
      intro q hq hid
      cases hqphi : q.isPHI with
      | false => rfl
      | true =>
        rw [hfn] at hq
        obtain ⟨q0, hq0, hid0, hp0⟩ := foldl_elimLoop_phi SE X U [L]
          (startState (DerivedInductionVarElim.run SE X U LI1 F).fn) q hq hqphi
        have := hnophiu q0 hq0 (hid0.trans hid)
        rw [hp0] at this
        cases this
    rw [run_cons_append]
    apply operandAt_of_hasOperand
      (foldl_elimLoop_nodup SE X U hX LI2 _ hnd2)
    apply foldl_elimLoop_keeps_operand SE X U hX LI2 _ hnd2 _ _ hu2
    · rw [hfn]; exact hop
    · rw [hfn]; exact hnophi

/-- C11 amended, at `switchCounters`: the edge from the terminator 101 to `j` is
handed to the synthesizer and redirected, and after the run slot 0 of the
terminator holds the synthesized value. -/
theorem eliminateDerivedIVs_terminator_uses_witness :
    Event.synthesize 11 101 0 ∈ Examples.switchGuardedAfter.trace ∧
      (∃ v f, (Examples.guarded (Examples.doubling 10) f (Examples.twoCountersSE 11)
          (Ty.integer 32) 101).value = some v ∧ v ≠ Value.inst 11 ∧
        Event.redirect 11 101 0 v ∈ Examples.switchGuardedAfter.trace) ∧
      ∃ v f, (Examples.guarded (Examples.doubling 10) f (Examples.twoCountersSE 11)
          (Ty.integer 32) 101).value = some v ∧ v ≠ Value.inst 11 ∧
        Event.redirect 11 101 0 v ∈ Examples.switchGuardedAfter.trace ∧
        operandAt Examples.switchGuardedAfter.fn 101 0 = some v :=
  (fun hh => ⟨hh.1, hh.2.1 (fun f hf => by
      have hno : ¬ ∃ q ∈ allInsts f, q.id = 101 ∧ q.isPHI = true := by
        intro hex
        have := hf.1 hex
        revert this
        decide
      refine ⟨Value.inst (Examples.maxId f + 1000), ?_, ?_⟩
      · show (Examples.guarded (Examples.doubling 10) f _ _ 101).value = _
        rw [guarded_of_not_phi _ _ _ _ _ hno]
        rfl
      · intro he
        have := Value.inst.inj he
        change Examples.maxId f + 1000 = 11 at this
        omega),
    hh.2.2 rfl (fun f hf => by
      have hno : ¬ ∃ q ∈ allInsts f, q.id = 101 ∧ q.isPHI = true := by
        intro hex
        have := hf.1 hex
        revert this
        decide
      refine ⟨Value.inst (Examples.maxId f + 1000), ?_, ?_, ?_⟩
      · show (Examples.guarded (Examples.doubling 10) f _ _ 101).value = _
        rw [guarded_of_not_phi _ _ _ _ _ hno]
        rfl
      · intro he
        have := Value.inst.inj he
        change Examples.maxId f + 1000 = 11 at this
        omega
      · intro q hq _ he
        have h1 := le_maxId_of_mem (List.mem_map_of_mem (fun i => i.id) hq)
        have h2 := Value.inst.inj he
        omega)⟩)
    (eliminateDerivedIVs_terminator_uses Examples.twoCountersSE
      (Examples.guarded (Examples.doubling 10)) Examples.programOrder [] []
      Examples.countersLoop Examples.switchCounters 1 10
      { id := 1, insts :=
        [ Examples.ivI, Examples.ivJ,
          Examples.op 20 [Value.inst 10, Value.const 1],
          Examples.op 21 [Value.inst 11, Value.const 2],
          Examples.br 101 [Value.inst 11, Value.other 1, Value.other 2] ] }
      Examples.ivJ (Examples.br 101 [Value.inst 11, Value.other 1, Value.other 2]) 101 0
      (freshExpander_guarded (freshExpander_doubling 10)) (phiSafe_guarded _)
      (by decide) (by decide) rfl (by decide) (by decide) (by decide) (by decide) (by decide)
      (by decide) (by decide) (by decide))

end DerivedInductionVar

namespace DerivedInductionVar

open IR SCEVModel

/-- C13 amended: partial elimination.  Take a graph with unique instruction
identities and a synthesizer whose instructions are new objects and which links
nothing in front of a merge point.  Let `L` be any loop without sub-loops of
the list, processed after the loops `LI1`, with primary IV `i` in the graph
they left, and let `D` be any derived IV of its header there; let `es` be the
events the processing of `L` adds to the trace.  Whatever the synthesizer did
in the loops before, for the derived IVs before `D` or at the other use sites:
a use edge `(u, s)` of `D` at whose use site the synthesizer yields no value,
or `D` itself, is not redirected; when `L` has been processed it still refers
to `D`, unless its user is a merge point that was deleted; and `D` is not
deleted and is still in the header.  Every use edge of `D` at whose use site
the synthesizer yields a value other than `D` is redirected all the same; when
that value is no merge point of the graph either, the slot holds it in the
graph `L` leaves, unless its user is a merge point that was deleted.  The
synthesizer is called for every use edge of every derived IV of the header.
And the loops behind `L` are processed on the state `L` left. -/
theorem eliminateDerivedIVs_keeps_refused_edges (SE : ScalarEvolution) (X : Expander)
    (U : UseOrder) (LI1 : List Loop) (L : Loop) (F : Func) (h i : Nat) (H : BasicBlock)
    (D : Instruction) (hX : FreshExpander X) (hsafe : PhiSafe X)
    (hnd : (instIds F).Nodup) (hsub : L.subLoops.isEmpty = true) (hhdr : L.header = some h)
    (hprim : findPrimaryIV SE (DerivedInductionVarElim.run SE X U LI1 F).fn L = some i)
    (hH : findBlock (DerivedInductionVarElim.run SE X U LI1 F).fn h = some H)
    (hD : D ∈ phis H) (hDi : D.id ≠ i) (hder : isDerivedIV SE L D = true) :
    (∃ es, (DerivedInductionVarElim.run SE X U (LI1 ++ [L]) F).trace =
        (DerivedInductionVarElim.run SE X U LI1 F).trace ++ es ∧
      (∀ u s, (u, s) ∈ usesOf (DerivedInductionVarElim.run SE X U LI1 F).fn D.id →
        (∀ f, SameKind (DerivedInductionVarElim.run SE X U LI1 F).fn u f →
          (X f (SE D.id) D.ty u).value = none ∨
          (X f (SE D.id) D.ty u).value = some (Value.inst D.id)) →
        (∀ v, Event.redirect D.id u s v ∉ es) ∧
        (Event.erase u ∈ es ∨
          operandAt (DerivedInductionVarElim.run SE X U (LI1 ++ [L]) F).fn u s
            = some (Value.inst D.id)) ∧
        Event.erase D.id ∉ es ∧
        InBlock (DerivedInductionVarElim.run SE X U (LI1 ++ [L]) F).fn h D.id) ∧
      (∀ u s, (u, s) ∈ usesOf (DerivedInductionVarElim.run SE X U LI1 F).fn D.id →
        (∀ f, SameKind (DerivedInductionVarElim.run SE X U LI1 F).fn u f →
          ∃ v, (X f (SE D.id) D.ty u).value = some v ∧ v ≠ Value.inst D.id) →
        ∃ v f, (X f (SE D.id) D.ty u).value = some v ∧ v ≠ Value.inst D.id ∧
          Event.redirect D.id u s v ∈ es) ∧
      (∀ u s, (u, s) ∈ usesOf (DerivedInductionVarElim.run SE X U LI1 F).fn D.id →
        (∀ f, SameKind (DerivedInductionVarElim.run SE X U LI1 F).fn u f →
          ∃ v, (X f (SE D.id) D.ty u).value = some v ∧ v ≠ Value.inst D.id ∧
            ∀ q ∈ allInsts f, q.isPHI = true → v ≠ Value.inst q.id) →
        ∃ v f, (X f (SE D.id) D.ty u).value = some v ∧ v ≠ Value.inst D.id ∧
          Event.redirect D.id u s v ∈ es ∧
          (Event.erase u ∈ es ∨
            operandAt (DerivedInductionVarElim.run SE X U (LI1 ++ [L]) F).fn u s = some v)) ∧
      (∀ D2 ∈ phis H, D2.id ≠ i → isDerivedIV SE L D2 = true →
        ∀ u s, (u, s) ∈ usesOf (DerivedInductionVarElim.run SE X U LI1 F).fn D2.id →
          Event.synthesize D2.id u s ∈ es)) ∧
    (∀ (LI2 : List Loop),
      DerivedInductionVarElim.run SE X U (LI1 ++ L :: LI2) F =
        LI2.foldl (fun st L3 => elimLoop SE X U L3 st)
          (DerivedInductionVarElim.run SE X U (LI1 ++ [L]) F)) := by
  have hnd1 : (instIds (DerivedInductionVarElim.run SE X U LI1 F).fn).Nodup :=
    foldl_elimLoop_nodup SE X U hX LI1 (startState F) hnd
  have hfn : (DerivedInductionVarElim.run SE X U (LI1 ++ [L]) F).fn =
      (DerivedInductionVarElim.run SE X U [L]
        (DerivedInductionVarElim.run SE X U LI1 F).fn).fn := by
    rw [run_append, elimLoop_eq_after]
    rfl
  refine ⟨⟨(DerivedInductionVarElim.run SE X U [L]
      (DerivedInductionVarElim.run SE X U LI1 F).fn).trace, ?_, ?_, ?_, ?_, ?_⟩,
    fun LI2 => run_cons_append SE X U LI1 LI2 L F⟩
  · rw [run_append, elimLoop_eq_after]
    rfl
  · intro u s hus href
    rw [hfn]
    exact (run_single_edge SE X U L (DerivedInductionVarElim.run SE X U LI1 F).fn h i H D u s
      hX hsafe hnd1 hsub hhdr hprim hH hD hDi hder hus).2.2 href
  · intro u s hus hsucc
    exact (run_single_edge SE X U L (DerivedInductionVarElim.run SE X U LI1 F).fn h i H D u s
      hX hsafe hnd1 hsub hhdr hprim hH hD hDi hder hus).2.1 hsucc
  · intro u s hus hsucc
    obtain ⟨v, f, hv, hne, htr, -, hcase⟩ :=
      run_single_redirected SE X U L (DerivedInductionVarElim.run SE X U LI1 F).fn
        h i H D u s hX hsafe hnd1 hsub hhdr hprim hH hD hDi hder hus hsucc
    refine ⟨v, f, hv, hne, htr, ?_⟩
    rcases hcase with ⟨-, her⟩ | hop
    · exact Or.inl her
    · right
      rw [hfn]
      exact operandAt_of_hasOperand
        (foldl_elimLoop_nodup SE X U hX [L] (startState _) hnd1) hop
  · intro D2 hD2 hD2i hder2 u s hus
    exact (run_single_edge SE X U L (DerivedInductionVarElim.run SE X U LI1 F).fn h i H D2 u s
      hX hsafe hnd1 hsub hhdr hprim hH hD2 hD2i hder2 hus).1

theorem twoLoopsExpander_yields (f : Func) (d u : Nat)
    (hno : ¬ ∃ q ∈ allInsts f, q.id = u ∧ q.isPHI = true) (hu30 : u ≠ 30) (hu60 : u ≠ 60)
    (hS : ∃ loop a b c, Examples.twoLoopsSE d = SCEV.addRec loop a b c) (hd : d < 1000) :
    ∃ v, (Examples.twoLoopsExpander f (Examples.twoLoopsSE d) (Ty.integer 32) u).value
        = some v ∧ v ≠ Value.inst d ∧ ∀ q ∈ allInsts f, q.isPHI = true → v ≠ Value.inst q.id := by
  obtain ⟨loop, a, b, c, hS⟩ := hS
  refine ⟨Value.inst (Examples.maxId f + 1000), ?_, ?_, ?_⟩
  · unfold Examples.twoLoopsExpander Examples.refusingAt
    rw [if_neg hu30, if_neg hu60, guarded_of_not_phi _ _ _ _ _ hno, hS]
    rfl
  · intro he
    have := Value.inst.inj he
    omega
  · intro q hq _ he
    have h1 := le_maxId_of_mem (List.mem_map_of_mem (fun i => i.id) hq)
    have h2 := Value.inst.inj he
    omega

/-- C13 amended, on `twoLoops` with a synthesizer that refuses at the use sites
30 (first loop) and 60 (second loop).  In the first loop the edge `(30, 1)` of
the derived IV 11 is not redirected and still refers to 11, which stays in the
header, while the edge `(21, 0)` of 11 holds the synthesized value.  The second
loop is processed all the same: the edge `(60, 1)` of the derived IV 41 still
refers to 41, the edge `(51, 0)` of 41 holds the synthesized value, and so does
the edge `(52, 0)` of the next derived IV, 42. -/
theorem eliminateDerivedIVs_keeps_refused_edges_witness :
    (∃ es, Examples.twoLoopsMid.trace = [] ++ es ∧
      ((∀ v, Event.redirect 11 30 1 v ∉ es) ∧
        (Event.erase 30 ∈ es ∨ operandAt Examples.twoLoopsMid.fn 30 1 = some (Value.inst 11)) ∧
        Event.erase 11 ∉ es ∧ InBlock Examples.twoLoopsMid.fn 1 11) ∧
      (∃ v f, (Examples.twoLoopsExpander f (Examples.twoLoopsSE 11) (Ty.integer 32) 21).value
          = some v ∧ v ≠ Value.inst 11 ∧ Event.redirect 11 21 0 v ∈ es ∧
        (Event.erase 21 ∈ es ∨ operandAt Examples.twoLoopsMid.fn 21 0 = some v))) ∧
    (∃ es, Examples.twoLoopsAfter.trace = Examples.twoLoopsMid.trace ++ es ∧
      ((∀ v, Event.redirect 41 60 1 v ∉ es) ∧
        (Event.erase 60 ∈ es ∨ operandAt Examples.twoLoopsAfter.fn 60 1 = some (Value.inst 41)) ∧
        Event.erase 41 ∉ es ∧ InBlock Examples.twoLoopsAfter.fn 3 41) ∧
      (∃ v f, (Examples.twoLoopsExpander f (Examples.twoLoopsSE 41) (Ty.integer 32) 51).value
          = some v ∧ v ≠ Value.inst 41 ∧ Event.redirect 41 51 0 v ∈ es ∧
        (Event.erase 51 ∈ es ∨ operandAt Examples.twoLoopsAfter.fn 51 0 = some v)) ∧
      Event.synthesize 42 52 0 ∈ es) ∧
    (∃ es, Examples.twoLoopsAfter.trace = Examples.twoLoopsMid.trace ++ es ∧
      ∃ v f, (Examples.twoLoopsExpander f (Examples.twoLoopsSE 42) (Ty.integer 32) 52).value
          = some v ∧ v ≠ Value.inst 42 ∧ Event.redirect 42 52 0 v ∈ es ∧
        (Event.erase 52 ∈ es ∨ operandAt Examples.twoLoopsAfter.fn 52 0 = some v)) :=
  ⟨(fun ⟨es, h0, h1, _, h3, _⟩ => ⟨es, h0, h1 30 1 (by decide) (fun f _ => Or.inl rfl),
      h3 21 0 (by decide) (fun f hf => twoLoopsExpander_yields f 11 21
        (fun hex => absurd (hf.1 hex) (by decide)) (by decide) (by decide)
        ⟨0, _, _, _, rfl⟩ (by decide))⟩)
      (eliminateDerivedIVs_keeps_refused_edges Examples.twoLoopsSE Examples.twoLoopsExpander
        Examples.programOrder [] Examples.firstLoop Examples.twoLoops 1 10
        { id := 1, insts :=
            [ Examples.phi 10 [Value.const 0, Value.inst 20],
              Examples.phi 11 [Value.const 0, Value.inst 21],
              Examples.op 20 [Value.inst 10, Value.const 1],
              Examples.op 21 [Value.inst 11, Value.const 2],
              Examples.op 30 [Value.other 5, Value.inst 11],
              Examples.br 101 [Value.inst 20, Value.other 1, Value.other 2] ] }
        (Examples.phi 11 [Value.const 0, Value.inst 21])
        (freshExpander_refusingAt 30 (freshExpander_refusingAt 60
          (freshExpander_guarded (freshExpander_doublingPer _))))
        (phiSafe_refusingAt 30 (phiSafe_refusingAt 60 (phiSafe_guarded _)))
        (by decide) (by decide) rfl (by decide) (by decide) (by decide) (by decide)
        (by decide)).1,
    (fun ⟨es, h0, h1, _, h3, h4⟩ => ⟨es, h0, h1 60 1 (by decide) (fun f _ => Or.inl rfl),
      h3 51 0 (by decide) (fun f hf => twoLoopsExpander_yields f 41 51
        (fun hex => absurd (hf.1 hex) (by decide)) (by decide) (by decide)
        ⟨1, _, _, _, rfl⟩ (by decide)),
      h4 (Examples.phi 42 [Value.const 0, Value.inst 52]) (by decide) (by decide) (by decide)
        52 0 (by decide)⟩)
      (eliminateDerivedIVs_keeps_refused_edges Examples.twoLoopsSE Examples.twoLoopsExpander
        Examples.programOrder [Examples.firstLoop] Examples.secondLoop Examples.twoLoops 3 40
        Examples.secondHeader (Examples.phi 41 [Value.const 0, Value.inst 51])
        (freshExpander_refusingAt 30 (freshExpander_refusingAt 60
          (freshExpander_guarded (freshExpander_doublingPer _))))
        (phiSafe_refusingAt 30 (phiSafe_refusingAt 60 (phiSafe_guarded _)))
        (by decide) (by decide) rfl (by decide) (by decide) (by decide) (by decide)
        (by decide)).1,
    (fun ⟨es, h0, _, _, h3, _⟩ => ⟨es, h0,
      h3 52 0 (by decide) (fun f hf => twoLoopsExpander_yields f 42 52
        (fun hex => absurd (hf.1 hex) (by decide)) (by decide) (by decide)
        ⟨1, _, _, _, rfl⟩ (by decide))⟩)
      (eliminateDerivedIVs_keeps_refused_edges Examples.twoLoopsSE Examples.twoLoopsExpander
        Examples.programOrder [Examples.firstLoop] Examples.secondLoop Examples.twoLoops 3 40
        Examples.secondHeader (Examples.phi 42 [Value.const 0, Value.inst 52])
        (freshExpander_refusingAt 30 (freshExpander_refusingAt 60
          (freshExpander_guarded (freshExpander_doublingPer _))))
        (phiSafe_refusingAt 30 (phiSafe_refusingAt 60 (phiSafe_guarded _)))
        (by decide) (by decide) rfl (by decide) (by decide) (by decide) (by decide)
        (by decide)).1⟩

end DerivedInductionVar

namespace DerivedInductionVar

open IR SCEVModel

theorem walk_fixed (SE : ScalarEvolution) (X : Expander) (U : UseOrder) (L : Loop)
    (Primary : Nat) (ks : List (Nat × Ty)) (acc : ElimState × List Nat)
    (h : ∀ k ∈ ks, k.1 = Primary ∨ isDerivedIV SE L (phiOf k) = false) :
    ks.foldl (phiStep SE X U L Primary) acc = acc := by
  apply walk_invariant SE X U L Primary (fun a => a = acc) ks acc ?_ rfl
  intro k hk a ha
  rw [ha]
  exact phiStep_skip SE X U L Primary acc k (h k hk)

/-- A loop without derived IV is left alone. -/
theorem elimLoop_of_no_derived (SE : ScalarEvolution) (X : Expander) (U : UseOrder) (L : Loop)
    (st : ElimState) (hX : FreshExpander X) (hnd : (instIds st.fn).Nodup)
    (hno : derivedIVs SE st.fn L = []) : elimLoop SE X U L st = st := by
  by_cases hsub : L.subLoops.isEmpty = true
  · cases hh : L.header with
    | none => simp [elimLoop, hh]
    | some h =>
      cases hp : findPrimaryIV SE st.fn L with
      | none => exact elimLoop_of_no_primary SE X U L st hp
      | some Primary =>
        cases hb : findBlock st.fn h with
        | none => simp [elimLoop, hh, hp, hb]
        | some H =>
          obtain ⟨ks, hpre, -, hrun⟩ :=
            elimLoop_eq_foldl SE X U L st h Primary H hX hnd hsub hh hp hb
          rw [hrun, walk_fixed]
          · rfl
          · intro k hk
            by_cases hne : k.1 = Primary
            · exact Or.inl hne
            · right
              cases hd : isDerivedIV SE L (phiOf k) with
              | false => rfl
              | true =>
                exfalso
                obtain ⟨PN, hPN, hkey⟩ := List.mem_map.1 (hpre.subset hk)
                subst hkey
                have : PN.id ∈ derivedIVs SE st.fn L := by
                  refine mem_derivedIVs.2 ⟨hsub, Primary, hp, hne, PN, ?_, rfl, ?_⟩
                  · simp only [headerPhis, hh, hb]
                    exact hPN
                  · rw [← hd]
                    exact isDerivedIV_congr SE L rfl rfl
                rw [hno] at this
                cases this
  · exact elimLoop_of_subLoops SE X U L st (by simpa using hsub)

theorem rewriteUses_uses_self (SE : ScalarEvolution) (X : Expander) (PN : Instruction)
    (hsucc : ∀ f u, ∃ v, (X f (SE PN.id) PN.ty u).value = some v ∧ v ≠ Value.inst PN.id)
    (hnouse : ∀ f u, ∀ n ∈ (X f (SE PN.id) PN.ty u).insts, Value.inst PN.id ∉ n.operands)
    {e : Nat × Nat} :
    ∀ (us : List (Nat × Nat)) (st : ElimState),
      (∀ x ∈ us, SlotExists st.fn x.1 x.2) →
      e ∈ usesOf (rewriteUses SE X PN us st).fn PN.id → e ∈ usesOf st.fn PN.id ∧ e ∉ us
  | [], _, _, h => ⟨h, by simp⟩
  | (user, slot) :: rest, st, hslots, h => by
    rw [rewriteUses_cons] at h
    have hslots2 : ∀ x ∈ rest, SlotExists (rewriteUse SE X PN user slot st).fn x.1 x.2 :=
      fun x hx => rewriteUse_slotExists SE X PN _ _ st (hslots x (List.mem_cons_of_mem _ hx))
    obtain ⟨h1, h2⟩ := rewriteUses_uses_self SE X PN hsucc hnouse rest _ hslots2 h
    obtain ⟨v, hv, hne⟩ := hsucc st.fn user
    obtain ⟨-, -, -, hfn⟩ := rewriteUse_redirects SE X PN user slot st hv hne
      (hslots (user, slot) (List.mem_cons_self _ _))
    rw [hfn] at h1
    obtain ⟨h3, h4⟩ := mem_usesOf_redirected SE X PN user slot st.fn hne
      (hnouse st.fn user) h1
    refine ⟨h3, ?_⟩
    intro hm
    rcases List.mem_cons.1 hm with h5 | h5
    · exact h4 h5
    · exact h2 h5

/-- When the synthesizer yields a value other than `PN` at every use site and
its instructions do not use `PN`, no use of `PN` is left once the snapshot of
its use edges has been handled. -/
theorem rewriteUses_useEmpty (SE : ScalarEvolution) (X : Expander) (U : UseOrder)
    (PN : Instruction) (st : ElimState)
    (hsucc : ∀ f u, ∃ v, (X f (SE PN.id) PN.ty u).value = some v ∧ v ≠ Value.inst PN.id)
    (hnouse : ∀ f u, ∀ n ∈ (X f (SE PN.id) PN.ty u).insts, Value.inst PN.id ∉ n.operands) :
    useEmpty (rewriteUses SE X PN (U.uses st.fn PN.id) st).fn PN.id = true := by
  unfold useEmpty
  rw [List.isEmpty_iff]
  apply List.eq_nil_iff_forall_not_mem.2
  intro e he
  have hslots : ∀ x ∈ U.uses st.fn PN.id, SlotExists st.fn x.1 x.2 :=
    fun x hx => slotExists_of_mem_usesOf ((U.perm st.fn PN.id).mem_iff.1 hx)
  obtain ⟨h1, h2⟩ := rewriteUses_uses_self SE X PN hsucc hnouse _ st hslots he
  exact h2 ((U.perm st.fn PN.id).mem_iff.2 h1)

theorem walk_dead_mono (SE : ScalarEvolution) (X : Expander) (U : UseOrder) (L : Loop)
    (Primary : Nat) (ks : List (Nat × Ty)) (acc : ElimState × List Nat) {d : Nat}
    (h : d ∈ acc.2) : d ∈ (ks.foldl (phiStep SE X U L Primary) acc).2 := by
  apply walk_invariant SE X U L Primary (fun a => d ∈ a.2) ks acc ?_ h
  intro k _ a ha
  rcases phiStep_cases SE X U L Primary a k with h1 | ⟨-, -, h1⟩
  · rw [h1]; exact ha
  · rw [h1]
    simp only
    split
    · exact List.mem_append_left _ ha
    · exact ha

/-- When the synthesizer yields a value other than the derived IV at every use
site and its instructions do not use the derived IV, the header walk puts
every derived IV of the list on the deletion list. -/
theorem walk_dead_all (SE : ScalarEvolution) (X : Expander) (U : UseOrder) (L : Loop)
    (Primary : Nat) :
    ∀ (ks : List (Nat × Ty)) (acc : ElimState × List Nat),
      (∀ k ∈ ks, k.1 ≠ Primary → isDerivedIV SE L (phiOf k) = true →
        (∀ f u, ∃ v, (X f (SE k.1) k.2 u).value = some v ∧ v ≠ Value.inst k.1) ∧
        ∀ f u, ∀ n ∈ (X f (SE k.1) k.2 u).insts, Value.inst k.1 ∉ n.operands) →
      ∀ k ∈ ks, k.1 ≠ Primary → isDerivedIV SE L (phiOf k) = true →
        k.1 ∈ (ks.foldl (phiStep SE X U L Primary) acc).2
  | [], _, _, k, hk, _, _ => by cases hk
  | k0 :: ks, acc, hx, k, hk, hne, hd => by
    rw [List.foldl_cons]
    rcases List.mem_cons.1 hk with h | h
    · subst h
      apply walk_dead_mono
      rw [phiStep_process SE X U L Primary acc k hne hd]
      obtain ⟨hs, hn⟩ := hx k (List.mem_cons_self _ _) hne hd
      have hue : useEmpty (rewriteUses SE X (phiOf k) (U.uses acc.1.fn k.1) acc.1).fn k.1
          = true := rewriteUses_useEmpty SE X U (phiOf k) acc.1 hs hn
      simp only
      rw [if_pos hue]
      exact List.mem_append_right _ (List.mem_singleton.2 rfl)
    · exact walk_dead_all SE X U L Primary ks _
        (fun k' hk' => hx k' (List.mem_cons_of_mem _ hk')) k h hne hd

theorem eraseDead_not_mem_ids :
    ∀ (Dead : List Nat) (st : ElimState) (d : Nat), d ∈ Dead →
      d ∉ instIds (eraseDead Dead st).fn
  | [], _, _, h => by cases h
  | D :: rest, st, d, h => by
    rw [eraseDead]
    by_cases hr : d ∈ rest
    · exact eraseDead_not_mem_ids rest _ d hr
    · have hd : d = D := by
        rcases List.mem_cons.1 h with h | h
        · exact h
        · exact absurd h hr
      subst hd
      intro hmem
      have hsub : ∀ (Dead : List Nat) (s : ElimState) (x : Nat),
          x ∈ instIds (eraseDead Dead s).fn → x ∈ instIds s.fn := by
        intro Dead
        induction Dead with
        | nil => intro s x hx; exact hx
        | cons D' rest' ih =>
          intro s x hx
          rw [eraseDead] at hx
          have := ih _ x hx
          rw [instIds_removeInst] at this
          exact (List.mem_filter.1 this).1
      exact not_mem_instIds_removeInst st.fn d (hsub rest _ d hmem)

theorem eraseDead_changed_mono :
    ∀ (Dead : List Nat) (st : ElimState), st.changed = true →
      (eraseDead Dead st).changed = true
  | [], _, h => h
  | D :: rest, st, _ => by
    rw [eraseDead]
    exact eraseDead_changed_mono rest _ rfl

theorem eraseDead_changed_of_mem :
    ∀ (Dead : List Nat) (st : ElimState) (d : Nat), d ∈ Dead →
      (eraseDead Dead st).changed = true
  | [], _, _, h => by cases h
  | D :: rest, st, _, _ => by
    rw [eraseDead]
    exact eraseDead_changed_mono rest _ rfl

/-- Processing a loop with a synthesizer that links nothing in front of a
merge point, yields a value other than the derived IV at every use site and
whose instructions do not use the derived IV: every derived IV of the loop is
deleted, and the flag is set when there was one. -/
theorem elimLoop_deletes_derived (SE : ScalarEvolution) (X : Expander) (U : UseOrder)
    (L : Loop) (st : ElimState) (hX : FreshExpander X) (hsafe : PhiSafe X)
    (hnd : (instIds st.fn).Nodup)
    (hs : ∀ d ∈ derivedIVs SE st.fn L, ∀ f ty u,
      ∃ v, (X f (SE d) ty u).value = some v ∧ v ≠ Value.inst d)
    (hn : ∀ d ∈ derivedIVs SE st.fn L, ∀ f ty u,
      ∀ n ∈ (X f (SE d) ty u).insts, Value.inst d ∉ n.operands) :
    derivedIVs SE (elimLoop SE X U L st).fn L = [] ∧
      (derivedIVs SE st.fn L ≠ [] → (elimLoop SE X U L st).changed = true) := by
  by_cases hno : derivedIVs SE st.fn L = []
  · rw [elimLoop_of_no_derived SE X U L st hX hnd hno]
    exact ⟨hno, fun h => absurd hno h⟩
  · have hsub : L.subLoops.isEmpty = true := by
      by_contra hc
      apply hno
      have hb : L.subLoops.isEmpty = false := by simpa using hc
      simp [derivedIVs, hb]
    obtain ⟨d0, hd0⟩ := List.exists_mem_of_ne_nil _ hno
    obtain ⟨-, Primary, hp, -, PN0, hPN0, -, -⟩ := mem_derivedIVs.1 hd0
    cases hh : L.header with
    | none => simp [findPrimaryIV, hh] at hp
    | some h =>
      cases hb : findBlock st.fn h with
      | none => simp [headerPhis, hh, hb] at hPN0
      | some H =>
        obtain ⟨ks, hpre, hall, hrun⟩ :=
          elimLoop_eq_foldl SE X U L st h Primary H hX hnd hsub hh hp hb
        have hks : ks = phiKeys H.insts := hall hsafe
        have hkd : ∀ k ∈ ks, k.1 ≠ Primary → isDerivedIV SE L (phiOf k) = true →
            k.1 ∈ derivedIVs SE st.fn L := by
          intro k hk hne hd
          obtain ⟨PN, hPN, hkey⟩ := List.mem_map.1 (hpre.subset hk)
          subst hkey
          refine mem_derivedIVs.2 ⟨hsub, Primary, hp, hne, PN, ?_, rfl, ?_⟩
          · simp only [headerPhis, hh, hb]
            exact hPN
          · rw [← hd]
            exact isDerivedIV_congr SE L rfl rfl
        have hdead : ∀ d ∈ derivedIVs SE st.fn L,
            d ∈ (ks.foldl (phiStep SE X U L Primary) (st, [])).2 := by
          intro d hd
          obtain ⟨-, p, hp2, hne, PN, hPN, hid, hder⟩ := mem_derivedIVs.1 hd
          rw [hp] at hp2
          have hpp : Primary = p := Option.some.inj hp2
          subst hpp
          have hk : (PN.id, PN.ty) ∈ ks := by
            rw [hks]
            simp only [headerPhis, hh, hb] at hPN
            exact List.mem_map.2 ⟨PN, hPN, rfl⟩
          have := walk_dead_all SE X U L Primary ks (st, [])
            (fun k hk' hne' hd' => ⟨fun f u => hs k.1 (hkd k hk' hne' hd') f k.2 u,
              fun f u => hn k.1 (hkd k hk' hne' hd') f k.2 u⟩)
            (PN.id, PN.ty) hk (by rw [hid]; exact hne)
            (by rw [isDerivedIV_congr SE L (p := phiOf (PN.id, PN.ty)) (q := PN) rfl rfl]
                exact hder)
          simpa [hid] using this
        constructor
        · apply List.eq_nil_iff_forall_not_mem.2
          intro d hd
          have hd1 : d ∈ derivedIVs SE st.fn L :=
            derivedIVs_of_blockKeys SE st.fn _ L hnd
              (fun b => elimLoop_blockKeys SE X U L st hX hnd b) d hd
          obtain ⟨q, hq, hid, -⟩ := mem_derivedIVs_phi hd
          have hmem : d ∈ instIds (elimLoop SE X U L st).fn := by
            rw [← hid]
            exact List.mem_map_of_mem _ hq
          rw [hrun] at hmem
          exact eraseDead_not_mem_ids _ _ d (hdead d hd1) hmem
        · intro _
          rw [hrun]
          exact eraseDead_changed_of_mem _ _ d0 (hdead d0 hd0)

end DerivedInductionVar

namespace DerivedInductionVar

open IR SCEVModel

theorem rewriteUse_unchanged_value (SE : ScalarEvolution) (X : Expander) (PN : Instruction)
    (user slot : Nat) (st : ElimState)
    (h : (rewriteUse SE X PN user slot st).changed = false) :
    ∀ v, (X st.fn (SE PN.id) PN.ty user).value = some v → v = Value.inst PN.id := by
  intro v hv
  by_contra hne
  have hb : (v != Value.inst PN.id) = true := by simpa using hne
  simp [rewriteUse, hv, hb] at h

/-- With a synthesizer that links nothing without a redirection, a run that
reports no change returns the input graph. -/
theorem run_unchanged_fn (SE : ScalarEvolution) (X : Expander) (U : UseOrder)
    (LI : List Loop) (F : Func) (hnd : (instIds F).Nodup) (hX : FreshExpander X)
    (hl : LinksOnlyOnRedirect SE X LI F)
    (hch : (DerivedInductionVarElim.run SE X U LI F).changed = false) :
    (DerivedInductionVarElim.run SE X U LI F).fn = F := by
  have key := foldl_elimLoop_induction SE X U hX F hnd
    (fun s => s.changed = false → s.fn = F) LI ?_ ?_
    (startState F) hnd (blockKeys_refl F) (fun _ => rfl)
  · exact key hch
  · intro L hL d hd ty st _ hst
    apply rewriteUses_invariant SE X (phiOf (d, ty)) (fun s => s.changed = false → s.fn = F)
      ?_ _ st hst
    intro user slot s hs hc
    obtain ⟨h1, h2⟩ := rewriteUse_unchanged SE X (phiOf (d, ty)) user slot s hc
    have hv := rewriteUse_unchanged_value SE X (phiOf (d, ty)) user slot s hc
    have hins : (X s.fn (SE d) ty user).insts = [] := hl L hL d hd s.fn ty user hv
    rw [h2]
    show insertBefore s.fn user (((X s.fn (SE d) ty user).insts).map asOrdinary) = F
    rw [hins, List.map_nil, insertBefore_nil]
    exact hs h1
  · intro L _ d _ st _ _ hc
    cases hc

/-- A run with a synthesizer that links nothing in front of a merge point,
yields a value other than the derived IV at every use site and whose
instructions do not use the derived IV: no loop of the list has a derived IV
left, and if the flag is not set then no loop had one. -/
theorem foldl_deletes_derived (SE : ScalarEvolution) (X : Expander) (U : UseOrder)
    (hX : FreshExpander X) (hsafe : PhiSafe X) (F : Func) (hndF : (instIds F).Nodup) :
    ∀ (LI : List Loop), AlwaysYields SE X LI F → NoSelfUse SE X LI F →
      ∀ (st : ElimState), (instIds st.fn).Nodup →
        (∀ h, (blockKeys st.fn h).Sublist (blockKeys F h)) →
        (∀ L ∈ LI, derivedIVs SE (LI.foldl (fun s L => elimLoop SE X U L s) st).fn L = []) ∧
        ((LI.foldl (fun s L => elimLoop SE X U L s) st).changed = false →
          st.changed = false ∧ ∀ L ∈ LI, derivedIVs SE st.fn L = [])
  | [], _, _, st, _, _ => ⟨fun L hL => (by cases hL), fun h => ⟨h, fun L hL => (by cases hL)⟩⟩
  | L0 :: LI, hy, hn, st, hnd, hkeys => by
    rw [List.foldl_cons]
    have hnd1 := elimLoop_nodup SE X U L0 hX st hnd
    have hkeys1 : ∀ h, (blockKeys (elimLoop SE X U L0 st).fn h).Sublist (blockKeys F h) :=
      fun h => (elimLoop_blockKeys SE X U L0 st hX hnd h).trans (hkeys h)
    obtain ⟨ih1, ih2⟩ := foldl_deletes_derived SE X U hX hsafe F hndF LI
      (fun L hL => hy L (List.mem_cons_of_mem _ hL))
      (fun L hL => hn L (List.mem_cons_of_mem _ hL)) _ hnd1 hkeys1
    obtain ⟨h01, h02⟩ := elimLoop_deletes_derived SE X U L0 st hX hsafe hnd
      (fun d hd => hy L0 (List.mem_cons_self _ _) d
        (derivedIVs_of_blockKeys SE F st.fn L0 hndF hkeys d hd))
      (fun d hd => hn L0 (List.mem_cons_self _ _) d
        (derivedIVs_of_blockKeys SE F st.fn L0 hndF hkeys d hd))
    constructor
    · intro L hL
      rcases List.mem_cons.1 hL with h | h
      · subst h
        apply List.eq_nil_iff_forall_not_mem.2
        intro d hd
        have := foldl_elimLoop_derivedIVs SE X U hX LI _ hnd1 L d hd
        rw [h01] at this
        cases this
      · exact ih1 L h
    · intro hch
      obtain ⟨hc1, hrest⟩ := ih2 hch
      have hno : derivedIVs SE st.fn L0 = [] := by
        by_contra hne
        have := h02 hne
        rw [hc1] at this
        cases this
      have hfix := elimLoop_of_no_derived SE X U L0 st hX hnd hno
      rw [hfix] at hc1 hrest
      refine ⟨hc1, fun L hL => ?_⟩
      rcases List.mem_cons.1 hL with h | h
      · rw [h]; exact hno
      · exact hrest L h

/-- C4 amended: idempotence under conditions on the inputs.  Let `r1` be the
first run on a graph `F` with unique instruction identities, with a synthesizer
whose instructions are new objects, and let the second run be the run, with the
same services, on the graph of `r1`.  The first run reports `changed = true`
exactly when it redirected a use edge or deleted a merge point.  If the
synthesizer links no instruction unless its value is redirected to and the
first run reports `changed = false`, the first run returned `F` itself and the
second run repeats it: it is the same run, and reports `changed = false`.  If
the synthesizer links nothing in front of a merge point, yields for every
derived IV a value other than that derived IV at every use site, and none of
its instructions uses it, then the first run leaves no loop of the list with a
derived IV, it reports `changed = true` exactly when some loop of the list has
a derived IV in `F`, and the second run does nothing: `changed = false`, an
empty trace (no synthesizer call, no redirection, no deletion) and the graph as
it got it. -/
theorem eliminateDerivedIVs_second_run (SE : ScalarEvolution) (X : Expander) (U : UseOrder)
    (LI : List Loop) (F : Func) (hnd : (instIds F).Nodup) (hX : FreshExpander X) :
    ((DerivedInductionVarElim.run SE X U LI F).changed = true ↔
      ∃ e ∈ (DerivedInductionVarElim.run SE X U LI F).trace, e.isMutation = true) ∧
    (LinksOnlyOnRedirect SE X LI F →
      (DerivedInductionVarElim.run SE X U LI F).changed = false →
      (DerivedInductionVarElim.run SE X U LI F).fn = F ∧
      DerivedInductionVarElim.run SE X U LI (DerivedInductionVarElim.run SE X U LI F).fn
        = DerivedInductionVarElim.run SE X U LI F ∧
      (DerivedInductionVarElim.run SE X U LI
        (DerivedInductionVarElim.run SE X U LI F).fn).changed = false) ∧
    (PhiSafe X → AlwaysYields SE X LI F → NoSelfUse SE X LI F →
      (∀ L ∈ LI, derivedIVs SE (DerivedInductionVarElim.run SE X U LI F).fn L = []) ∧
      ((DerivedInductionVarElim.run SE X U LI F).changed = true ↔
        ∃ L ∈ LI, derivedIVs SE F L ≠ []) ∧
      (DerivedInductionVarElim.run SE X U LI
        (DerivedInductionVarElim.run SE X U LI F).fn).changed = false ∧
      (DerivedInductionVarElim.run SE X U LI
        (DerivedInductionVarElim.run SE X U LI F).fn).trace = [] ∧
      (DerivedInductionVarElim.run SE X U LI
        (DerivedInductionVarElim.run SE X U LI F).fn).fn
        = (DerivedInductionVarElim.run SE X U LI F).fn) := by
  refine ⟨eliminateDerivedIVs_changedIff SE X U LI F, fun hl hch => ?_,
    fun hsafe hy hn => ?_⟩
  · have hfn := run_unchanged_fn SE X U LI F hnd hX hl hch
    refine ⟨hfn, ?_, ?_⟩
    · rw [hfn]
    · rw [hfn]; exact hch
  · obtain ⟨h1, h2⟩ := foldl_deletes_derived SE X U hX hsafe F hnd LI hy hn (startState F) hnd
      (blockKeys_refl F)
    have hnd1 : (instIds (DerivedInductionVarElim.run SE X U LI F).fn).Nodup :=
      foldl_elimLoop_nodup SE X U hX LI (startState F) hnd
    have hfix : DerivedInductionVarElim.run SE X U LI
        (DerivedInductionVarElim.run SE X U LI F).fn
        = startState (DerivedInductionVarElim.run SE X U LI F).fn := by
      apply foldl_elimLoop_fixed
      intro L hL
      exact elimLoop_of_no_derived SE X U L _ hX hnd1 (h1 L hL)
    refine ⟨h1, ⟨fun hch => ?_, fun ⟨L, hL, hne⟩ => ?_⟩, ?_, ?_, ?_⟩
    · by_contra hno
      have hall : ∀ L ∈ LI, elimLoop SE X U L (startState F) = startState F := by
        intro L hL
        apply elimLoop_of_no_derived SE X U L _ hX hnd
        by_contra hne
        exact hno ⟨L, hL, hne⟩
      have : DerivedInductionVarElim.run SE X U LI F = startState F :=
        foldl_elimLoop_fixed SE X U (startState F) LI hall
      rw [this] at hch
      cases hch
    · cases hc : (DerivedInductionVarElim.run SE X U LI F).changed with
      | true => rfl
      | false => exact absurd ((h2 hc).2 L hL) hne
    · rw [hfix]; rfl
    · rw [hfix]; rfl
    · rw [hfix]; rfl

theorem phiSafe_yieldingAtPhis (w : Value) (X : Expander) :
    PhiSafe (Examples.yieldingAtPhis w X) := by
  intro f S ty u hex
  have hany : (allInsts f).any (fun q => q.id == u && q.isPHI) = true := by
    rw [List.any_eq_true]
    obtain ⟨q, hq, hid, hphi⟩ := hex
    exact ⟨q, hq, by simp [hid, hphi]⟩
  simp [Examples.yieldingAtPhis, hany]

theorem freshExpander_yieldingAtPhis (w : Value) {X : Expander} (hX : FreshExpander X) :
    FreshExpander (Examples.yieldingAtPhis w X) := by
  intro f S ty u
  unfold Examples.yieldingAtPhis
  split
  · exact ⟨List.nodup_nil, fun n hn => by cases hn⟩
  · exact hX f S ty u

theorem alwaysYields_doublingSafe (SE : ScalarEvolution) (LI : List Loop) (F : Func)
    (hsmall : ∀ L ∈ LI, ∀ d ∈ derivedIVs SE F L, d < 1000) :
    AlwaysYields SE Examples.doublingSafe LI F := by
  intro L hL d hd f ty u
  have := hsmall L hL d hd
  unfold Examples.doublingSafe Examples.yieldingAtPhis
  split
  · exact ⟨Value.other 0, rfl, fun h => by cases h⟩
  · refine ⟨Value.inst (Examples.maxId f + 1000), rfl, fun h => ?_⟩
    have := Value.inst.inj h
    omega

theorem noSelfUse_doublingSafe (SE : ScalarEvolution) (LI : List Loop) (F : Func)
    (hne : ∀ L ∈ LI, ∀ d ∈ derivedIVs SE F L, d ≠ 10) :
    NoSelfUse SE Examples.doublingSafe LI F := by
  intro L hL d hd f ty u n hmem
  have := hne L hL d hd
  unfold Examples.doublingSafe Examples.yieldingAtPhis at hmem
  split at hmem
  · cases hmem
  · simp only [Examples.doubling, List.mem_singleton] at hmem
    subst hmem
    simp [this]

theorem linksOnlyOnRedirect_refusing (SE : ScalarEvolution) (LI : List Loop) (F : Func) :
    LinksOnlyOnRedirect SE Examples.refusing LI F :=
  fun _ _ _ _ _ _ _ _ => rfl

/-- C4 amended, at `threeCounters` with a synthesizer materialising `2 * i`:
the first run deletes both derived IVs and reports a change, the second does
nothing.  And at `twoCounters` with a synthesizer that refuses: the first run
changes nothing and the second repeats it. -/
theorem eliminateDerivedIVs_second_run_witness :
    ((∀ L ∈ [Examples.countersLoop],
        derivedIVs Examples.countersSE Examples.threeCountersOnce.fn L = []) ∧
      Examples.threeCountersOnce.changed = true ∧
      Examples.threeCountersTwice.changed = false ∧
      Examples.threeCountersTwice.trace = [] ∧
      Examples.threeCountersTwice.fn = Examples.threeCountersOnce.fn) ∧
    (Examples.refusedAfter.fn = Examples.twoCounters ∧
      Examples.refusedAgain = Examples.refusedAfter ∧
      Examples.refusedAgain.changed = false) :=
  ⟨(fun hh => ⟨hh.1, hh.2.1.2 ⟨Examples.countersLoop, List.mem_cons_self _ _, by decide⟩, hh.2.2⟩)
    ((eliminateDerivedIVs_second_run Examples.countersSE Examples.doublingSafe
      Examples.programOrder [Examples.countersLoop] Examples.threeCounters (by decide)
      (freshExpander_yieldingAtPhis _ (freshExpander_doubling 10))).2.2
      (phiSafe_yieldingAtPhis _ _)
      (alwaysYields_doublingSafe _ _ _ (by decide))
      (noSelfUse_doublingSafe _ _ _ (by decide))),
    (eliminateDerivedIVs_second_run Examples.twoCountersSE Examples.refusing
      Examples.programOrder [Examples.countersLoop] Examples.twoCounters (by decide)
      (fun _ _ _ _ => ⟨List.nodup_nil, fun _ hn => by cases hn⟩)).2.1
      (linksOnlyOnRedirect_refusing _ _ _) (by decide)⟩

end DerivedInductionVar
